import Mathlib

/-!
Redis 4.0 hash and set value types: a shallow embedding.

The development follows `src/t_hash.c` and `src/t_set.c` of the repository,
together with `src/dict.h` and the small string helpers under `tests/`.  Byte
strings (`sds`) are lists of byte values; pointers into a linked chain or into
a ziplist are represented by the remaining chain, respectively by an entry
index.  A failed `serverAssert`, a `serverPanic` or an exhausted loop counter
is the result `none`.

The collaborators whose C files are not part of the sources (`ziplist.c`,
`intset.c`, `dict.c`, `util.c`, `object.c`, `db.c`, `networking.c`) are
modelled from the specification; each such definition says so in its doc
comment.

The definitions come first: the embedding of the code, then the abstraction
functions and invariants used to state the properties.  The theorems follow.
-/

set_option autoImplicit false

namespace Redis

/-! ## Byte strings and the decimal rendering of integers -/

/-- An `sds` string: the bytes of the buffer, without header and terminator. -/
abbrev sds := List Nat

/-- Smallest `long long`. -/
def LLONG_MIN : Int := -(2 ^ 63)

/-- Largest `long long`. -/
def LLONG_MAX : Int := 2 ^ 63 - 1

/-- The `do { *p++ = '0'+(v%10); v /= 10; } while(v);` loop of `sdsll2str`: the
digits of `v`, least significant first.  The counter bounds the number of
iterations; twenty suffice for a 64-bit value. -/
def sdsll2strLoop : Nat → Nat → List Nat
  | 0, _ => []
  | fuel + 1, v => (48 + v % 10) :: (if v / 10 = 0 then [] else sdsll2strLoop fuel (v / 10))

/-- The function `sdsll2str` of `tests/lltostr.c`: the buffer contents written
and the returned length.  `v` is the `unsigned long long` absolute value, the
negation being taken modulo `2^64`; the digits are produced in reverse, a `'-'`
is appended for a negative value and the buffer is reversed. -/
def sdsll2str (value : Int) : List Nat × Nat :=
  let v : Nat := (if value < 0 then -value else value).toNat % 2 ^ 64
  let p := sdsll2strLoop 20 v
  let p := if value < 0 then p ++ [45] else p
  (p.reverse, p.length)

/-- Modelled from the spec: `sdsfromlonglong` of `sds.c` is not among the
sources; it is the new string holding what `sdsll2str` writes, the form in which
a numeric value is read back as a byte string. -/
def sdsfromlonglong (value : Int) : sds := (sdsll2str value).1

/-- The digit loop of the integer parser: every byte must be a decimal digit. -/
def string2llDigits : Nat → List Nat → Option Nat
  | v, [] => some v
  | v, c :: cs => if 48 ≤ c ∧ c ≤ 57 then string2llDigits (v * 10 + (c - 48)) cs else none

/-- The magnitude read by the integer parser: a digit `1..9` followed by
digits. -/
def string2llAbs : List Nat → Option Nat
  | [] => none
  | c :: cs => if 49 ≤ c ∧ c ≤ 57 then string2llDigits (c - 48) cs else none

/-- Modelled from the spec: `string2ll` of `util.c` is not among the sources.
A byte string is accepted when it is the canonical decimal form of a 64-bit
signed integer: `0`, or an optional `-` followed by a digit `1..9` and further
digits, without overflow. -/
def string2ll (s : sds) : Option Int :=
  if s = [48] then some 0
  else match s with
    | [] => none
    | c :: cs =>
      if c = 45 then
        match string2llAbs cs with
        | some v => if v ≤ 2 ^ 63 then some (-(v : Int)) else none
        | none => none
      else
        match string2llAbs (c :: cs) with
        | some v => if v ≤ 2 ^ 63 - 1 then some (v : Int) else none
        | none => none

/-- Decimal digits of a positive number, most significant first, as bytes. -/
def decStr (v : Nat) : List Nat := ((Nat.digits 10 v).map (48 + ·)).reverse

/-- The length field of an sds string. -/
def sdslen (s : sds) : Nat := s.length

/-- Modelled from the spec: `isSdsRepresentableAsLongLong` of `object.c` is not
among the sources; it is `string2ll` on the bytes of the string, `C_OK` being
`some`. -/
def isSdsRepresentableAsLongLong (s : sds) : Option Int := string2ll s

/-! ## The compact encodings -/

/-- Modelled from the spec: `ziplist.c` is not among the sources.  An entry of
the "flat, order-preserving byte buffer" is a byte string or a tagged numeric
value; this is also the pair (`vstr`,`vlen`) / `vll` through which an entry is
handed out, `str` standing for a non-NULL `vstr`. -/
inductive zlentry where
  | str (s : sds)
  | int (v : Int)
  deriving DecidableEq, Repr

/-- Modelled from the spec: the compact container, its entries in buffer order.
A pointer to an entry is the index of the entry; the end-of-list position is the
length. -/
abbrev ziplist := List zlentry

/-- The bytes an entry stands for: a numeric entry reads as its decimal string
(what `hashTypeCurrentObjectNewSds` builds from `vstr`/`vll`). -/
def zlentry.bytes : zlentry → sds
  | .str s => s
  | .int v => sdsfromlonglong v

/-- Modelled from the spec: the entry stored for a pushed byte string; an
integer-representable string is stored as a number. -/
def zlentryOf (s : sds) : zlentry :=
  match string2ll s with
  | some v => .int v
  | none => .str s

/-- Modelled from the spec: comparison of a stored entry with a searched byte
string, as `ziplistFind` does it: bytewise for a string entry, by value for a
numeric entry when the searched string is integer-representable. -/
def zlentryMatches (e : zlentry) (vstr : sds) : Bool :=
  match e with
  | .str s => decide (s = vstr)
  | .int v => decide (string2ll vstr = some v)

/-- Modelled from the spec: `ziplistIndex`, the entry at an index or NULL. -/
def ziplistIndex (zl : ziplist) (index : Nat) : Option Nat :=
  if index < zl.length then some index else none

/-- Modelled from the spec: `ziplistNext`, the entry after `p` or NULL at the
end of the list. -/
def ziplistNext (zl : ziplist) (p : Nat) : Option Nat :=
  if p + 1 < zl.length then some (p + 1) else none

/-- Modelled from the spec: `ziplistGet`, the entry `p` points to. -/
def ziplistGet (zl : ziplist) (p : Nat) : Option zlentry := zl[p]?

/-- The scan of `ziplistFind` over the entries from position `p` on, `skipcnt`
entries still to be skipped before the next comparison. -/
def ziplistFindFrom (vstr : sds) (skip : Nat) : List zlentry → Nat → Nat → Option Nat
  | [], _, _ => none
  | e :: es, p, skipcnt =>
    if skipcnt = 0 then
      if zlentryMatches e vstr then some p
      else ziplistFindFrom vstr skip es (p + 1) skip
    else ziplistFindFrom vstr skip es (p + 1) (skipcnt - 1)

/-- Modelled from the spec: `ziplistFind`, the linear scan from entry `p` for
an entry equal to `vstr`, comparing one entry and then skipping `skip`. -/
def ziplistFind (zl : ziplist) (p : Nat) (vstr : sds) (skip : Nat) : Option Nat :=
  ziplistFindFrom vstr skip (zl.drop p) p 0

/-- Modelled from the spec: `ziplistPush` at `ZIPLIST_TAIL`. -/
def ziplistPush (zl : ziplist) (s : sds) : ziplist := zl ++ [zlentryOf s]

/-- Modelled from the spec: `ziplistDelete`, excising the entry at `p`; the
updated pointer is again `p`, now the position of the following entry. -/
def ziplistDelete (zl : ziplist) (p : Nat) : ziplist := zl.eraseIdx p

/-- Modelled from the spec: `ziplistInsert`, inserting before position `p`. -/
def ziplistInsert (zl : ziplist) (p : Nat) (s : sds) : ziplist :=
  zl.take p ++ zlentryOf s :: zl.drop p

/-- Modelled from the spec: `ziplistLen`, the number of entries. -/
def ziplistLen (zl : ziplist) : Nat := zl.length

/-- Modelled from the spec: `intset.c` is not among the sources.  The compact
set is "a sorted array of integers", here the ascending list of its elements. -/
abbrev intset := List Int

/-- Modelled from the spec: `intsetFind`, membership. -/
def intsetFind (is : intset) (value : Int) : Bool := decide (value ∈ is)

/-- Modelled from the spec: `intsetAdd`, insertion at the sorted position; the
flag tells whether the value was new. -/
def intsetAdd : intset → Int → intset × Bool
  | [], value => ([value], true)
  | x :: xs, value =>
    if value < x then (value :: x :: xs, true)
    else if value = x then (x :: xs, false)
    else ((x :: (intsetAdd xs value).1), (intsetAdd xs value).2)

/-- Modelled from the spec: `intsetRemove`; the flag tells whether the value
was present. -/
def intsetRemove : intset → Int → intset × Bool
  | [], _ => ([], false)
  | x :: xs, value =>
    if value = x then (xs, true)
    else ((x :: (intsetRemove xs value).1), (intsetRemove xs value).2)

/-- Modelled from the spec: `intsetLen`. -/
def intsetLen (is : intset) : Nat := is.length

/-- Modelled from the spec: `intsetGet`, the element at a position, if any. -/
def intsetGet (is : intset) (pos : Nat) : Option Int := is[pos]?

/-! ## The hash table with incremental rehashing -/

/-- `DICT_OK` of `dict.h`. -/
def DICT_OK : Nat := 0

/-- `DICT_ERR` of `dict.h`. -/
def DICT_ERR : Nat := 1

/-- `DICT_HT_INITIAL_SIZE` of `dict.h`. -/
def DICT_HT_INITIAL_SIZE : Nat := 4

/-- `dictEntry` of `dict.h`: key and value; the `next` link is the rest of the
chain the entry sits in.  A NULL value is `none`. -/
structure dictEntry where
  key : sds
  val : Option sds
  deriving DecidableEq, Repr

/-- `dictType` of `dict.h`.  Only the hash function is a parameter: both
dictionary types in use compare keys bytewise and neither duplicates keys or
values. -/
structure dictType where
  hashFunction : sds → Nat

/-- `dictht` of `dict.h`: the array of bucket heads (each bucket its chain),
`size`, `sizemask` and `used`.  A NULL table is the empty array. -/
structure dictht where
  table : List (List dictEntry)
  size : Nat
  sizemask : Nat
  used : Nat

/-- `dict` of `dict.h`, `ht0` and `ht1` being `ht[0]` and `ht[1]`. -/
structure dict where
  type : dictType
  ht0 : dictht
  ht1 : dictht
  rehashidx : Int
  iterators : Nat

/-- A `dictEntry *`: the table, the bucket and the position in the chain. -/
structure dictEntryRef where
  table : Nat
  idx : Nat
  pos : Nat
  deriving DecidableEq, Repr

/-- `dictHashKey` of `dict.h`. -/
def dictHashKey (d : dict) (key : sds) : Nat := d.type.hashFunction key

/-- `dictSize` of `dict.h`. -/
def dictSize (d : dict) : Nat := d.ht0.used + d.ht1.used

/-- `dictSlots` of `dict.h`. -/
def dictSlots (d : dict) : Nat := d.ht0.size + d.ht1.size

/-- `dictIsRehashing` of `dict.h`. -/
def dictIsRehashing (d : dict) : Bool := decide (d.rehashidx ≠ -1)

/-- Modelled from the spec: a table with no storage. -/
def dicthtReset : dictht := ⟨[], 0, 0, 0⟩

/-- Modelled from the spec: `dictCreate`, "empty engine, no allocation until
first insert". -/
def dictCreate (type : dictType) : dict := ⟨type, dicthtReset, dicthtReset, -1, 0⟩

/-- Doubling from the initial size until the target is reached. -/
def dictNextPowerLoop : Nat → Nat → Nat → Nat
  | 0, i, _ => i
  | fuel + 1, i, size => if size ≤ i then i else dictNextPowerLoop fuel (i * 2) size

/-- Modelled from the spec: the table size for a target, a "power of two,
minimum 4". -/
def dictNextPower (size : Nat) : Nat := dictNextPowerLoop size DICT_HT_INITIAL_SIZE size

/-- Modelled from the spec: `dictExpand` "rounds up to the next power of two ≥
max(targetSize, used), allocates it as `ht1`, sets cursor to 0 to begin
migration"; it is a no-op when a rehash is in progress, and the first
allocation of an engine goes directly to `ht0`. -/
def dictExpand (d : dict) (size : Nat) : Nat × dict :=
  if dictIsRehashing d then (DICT_ERR, d)
  else
    let realsize := dictNextPower (max size d.ht0.used)
    let n : dictht := ⟨List.replicate realsize [], realsize, realsize - 1, 0⟩
    if d.ht0.size = 0 then (DICT_OK, { d with ht0 := n })
    else (DICT_OK, { d with ht1 := n, rehashidx := 0 })

/-- The bucket chain at an index of a table (NULL when there is none). -/
def dictht.bucket (ht : dictht) (idx : Nat) : List dictEntry := ht.table.getD idx []

/-- Link an entry in at the head of a bucket and count it. -/
def dictht.push (ht : dictht) (idx : Nat) (de : dictEntry) : dictht :=
  { ht with table := ht.table.set idx (de :: ht.bucket idx), used := ht.used + 1 }

/-- Migration of one chain: every entry in turn is linked in at the head of
its bucket of the target table. -/
def dictRehashChain (hash : sds → Nat) : List dictEntry → dictht → dictht
  | [], ht1 => ht1
  | de :: nextde, ht1 => dictRehashChain hash nextde (ht1.push (hash de.key &&& ht1.sizemask) de)

/-- The scan for the next non-empty bucket of `ht0`; the second component is
the remaining budget of empty visits, `none` when it ran out. -/
def dictRehashSkip : Nat → dict → dict × Option Nat
  | 0, d => (d, none)
  | ev + 1, d =>
    if d.ht0.bucket d.rehashidx.toNat ≠ [] then (d, some (ev + 1))
    else if ev = 0 then ({ d with rehashidx := d.rehashidx + 1 }, none)
    else dictRehashSkip ev { d with rehashidx := d.rehashidx + 1 }

/-- The bucket loop of `dictRehash`: up to `n` non-empty buckets are migrated,
each chain as a whole.  The flag is set when the loop returned early because
the budget of empty visits ran out. -/
def dictRehashLoop : Nat → Nat → dict → dict × Bool
  | 0, _, d => (d, false)
  | n + 1, ev, d =>
    if d.ht0.used = 0 then (d, false)
    else
      match dictRehashSkip ev d with
      | (d, none) => (d, true)
      | (d, some ev) =>
        let chain := d.ht0.bucket d.rehashidx.toNat
        let d := { d with
          ht1 := dictRehashChain d.type.hashFunction chain d.ht1
          ht0 := { d.ht0 with table := d.ht0.table.set d.rehashidx.toNat [],
                              used := d.ht0.used - chain.length }
          rehashidx := d.rehashidx + 1 }
        dictRehashLoop n ev d

/-- Modelled from the spec: `dictRehash(d,n)` "migrates up to `n` non-empty
buckets", a chain never being split; the visit of empty buckets is bounded by
ten per requested bucket so that the work of a call stays bounded.  "When `ht0`
drains, tables swap, cursor resets to idle."  The result tells whether entries
are left to migrate. -/
def dictRehash (d : dict) (n : Nat) : Nat × dict :=
  if ¬ dictIsRehashing d then (0, d)
  else
    match dictRehashLoop n (n * 10) d with
    | (d, true) => (1, d)
    | (d, false) =>
      if d.ht0.used = 0 then (0, { d with ht0 := d.ht1, ht1 := dicthtReset, rehashidx := -1 })
      else (1, d)

/-- Modelled from the spec: the rehash step every operation piggybacks;
"rehashing must be suspended whenever that counter is nonzero". -/
def dictRehashStep (d : dict) : dict :=
  if d.iterators = 0 then (dictRehash d 1).2 else d

/-- Modelled from the spec: the growth check made before an insertion.  The
first insertion allocates the initial table; a full table is doubled, unless
resizing is disabled and the load is still at most five per bucket. -/
def dictExpandIfNeeded (can_resize : Bool) (d : dict) : Nat × dict :=
  if dictIsRehashing d then (DICT_OK, d)
  else if d.ht0.size = 0 then dictExpand d DICT_HT_INITIAL_SIZE
  else if d.ht0.size ≤ d.ht0.used ∧ (can_resize = true ∨ 5 < d.ht0.used / d.ht0.size) then
    dictExpand d (d.ht0.used * 2)
  else (DICT_OK, d)

/-- Position in a chain of the entry with the given key. -/
def dictChainFind (key : sds) : List dictEntry → Option Nat
  | [] => none
  | he :: next =>
    if he.key = key then some 0 else (dictChainFind key next).map (· + 1)

/-- Unlinking from a chain the entry with the given key. -/
def dictChainUnlink (key : sds) : List dictEntry → List dictEntry
  | [] => []
  | he :: next => if he.key = key then next else he :: dictChainUnlink key next

/-- Modelled from the spec: the bucket for a new key, or `none` when the key
is already present (both tables being consulted during a rehash) or the growth
failed. -/
def dictKeyIndex (can_resize : Bool) (d : dict) (key : sds) (hash : Nat) :
    Option Nat × dict :=
  match dictExpandIfNeeded can_resize d with
  | (st, d) =>
    if st = DICT_ERR then (none, d)
    else if (dictChainFind key (d.ht0.bucket (hash &&& d.ht0.sizemask))).isSome then (none, d)
    else if ¬ dictIsRehashing d then (some (hash &&& d.ht0.sizemask), d)
    else if (dictChainFind key (d.ht1.bucket (hash &&& d.ht1.sizemask))).isSome then (none, d)
    else (some (hash &&& d.ht1.sizemask), d)

/-- Modelled from the spec: `dictAddRaw`, the low-level "add-or-find": a new
entry holding the key is linked in at the head of its bucket (of `ht1` during a
rehash) and a pointer to it returned, or NULL when the key exists. -/
def dictAddRaw (can_resize : Bool) (d : dict) (key : sds) : Option dictEntryRef × dict :=
  let d := if dictIsRehashing d then dictRehashStep d else d
  match dictKeyIndex can_resize d key (dictHashKey d key) with
  | (none, d) => (none, d)
  | (some index, d) =>
    if dictIsRehashing d then
      (some ⟨1, index, 0⟩, { d with ht1 := d.ht1.push index ⟨key, none⟩ })
    else
      (some ⟨0, index, 0⟩, { d with ht0 := d.ht0.push index ⟨key, none⟩ })

/-- The entry a pointer designates. -/
def dictGetEntry (d : dict) (de : dictEntryRef) : Option dictEntry :=
  ((if de.table = 0 then d.ht0 else d.ht1).bucket de.idx)[de.pos]?

/-- Assignment through an entry pointer. -/
def dictSetEntry (d : dict) (de : dictEntryRef) (e : dictEntry) : dict :=
  if de.table = 0 then
    { d with ht0 := { d.ht0 with table := d.ht0.table.set de.idx ((d.ht0.bucket de.idx).set de.pos e) } }
  else
    { d with ht1 := { d.ht1 with table := d.ht1.table.set de.idx ((d.ht1.bucket de.idx).set de.pos e) } }

/-- `dictSetKey` of `dict.h` (no `keyDup`). -/
def dictSetKey (d : dict) (de : dictEntryRef) (key : sds) : dict :=
  match dictGetEntry d de with
  | some e => dictSetEntry d de { e with key := key }
  | none => d

/-- `dictSetVal` of `dict.h` (no `valDup`). -/
def dictSetVal (d : dict) (de : dictEntryRef) (val : Option sds) : dict :=
  match dictGetEntry d de with
  | some e => dictSetEntry d de { e with val := val }
  | none => d

/-- Modelled from the spec: `dictAdd`, the strict add; "a duplicate key on
strict-add is a normal outcome". -/
def dictAdd (can_resize : Bool) (d : dict) (key : sds) (val : Option sds) : Nat × dict :=
  match dictAddRaw can_resize d key with
  | (none, d) => (DICT_ERR, d)
  | (some entry, d) => (DICT_OK, dictSetVal d entry val)

/-- Modelled from the spec: `dictFind`, "entry or absent"; during a rehash
both tables are consulted after one migration step. -/
def dictFind (d : dict) (key : sds) : Option dictEntryRef × dict :=
  if d.ht0.used + d.ht1.used = 0 then (none, d)
  else
    let d := if dictIsRehashing d then dictRehashStep d else d
    let h := dictHashKey d key
    match dictChainFind key (d.ht0.bucket (h &&& d.ht0.sizemask)) with
    | some pos => (some ⟨0, h &&& d.ht0.sizemask, pos⟩, d)
    | none =>
      if ¬ dictIsRehashing d then (none, d)
      else
        match dictChainFind key (d.ht1.bucket (h &&& d.ht1.sizemask)) with
        | some pos => (some ⟨1, h &&& d.ht1.sizemask, pos⟩, d)
        | none => (none, d)

/-- Modelled from the spec: `dictDelete`, "found boolean" as `DICT_OK` or
`DICT_ERR`. -/
def dictDelete (d : dict) (key : sds) : Nat × dict :=
  if d.ht0.used = 0 ∧ d.ht1.used = 0 then (DICT_ERR, d)
  else
    let d := if dictIsRehashing d then dictRehashStep d else d
    let h := dictHashKey d key
    if (dictChainFind key (d.ht0.bucket (h &&& d.ht0.sizemask))).isSome then
      (DICT_OK, { d with ht0 := { d.ht0 with
        table := d.ht0.table.set (h &&& d.ht0.sizemask)
          (dictChainUnlink key (d.ht0.bucket (h &&& d.ht0.sizemask))),
        used := d.ht0.used - 1 } })
    else if ¬ dictIsRehashing d then (DICT_ERR, d)
    else if (dictChainFind key (d.ht1.bucket (h &&& d.ht1.sizemask))).isSome then
      (DICT_OK, { d with ht1 := { d.ht1 with
        table := d.ht1.table.set (h &&& d.ht1.sizemask)
          (dictChainUnlink key (d.ht1.bucket (h &&& d.ht1.sizemask))),
        used := d.ht1.used - 1 } })
    else (DICT_ERR, d)

/-- Modelled from the spec: `dictResize`, shrinking to the smallest table that
holds the entries; not while resizing is disabled or a rehash is in progress. -/
def dictResize (can_resize : Bool) (d : dict) : Nat × dict :=
  if can_resize = false ∨ dictIsRehashing d then (DICT_ERR, d)
  else dictExpand d (max d.ht0.used DICT_HT_INITIAL_SIZE)

/-- Modelled from the spec: `htNeedsResize` of `server.c`, the "opportunistic
shrink check": the table is larger than the initial size and filled below ten
percent. -/
def htNeedsResize (d : dict) : Bool :=
  decide (DICT_HT_INITIAL_SIZE < dictSlots d ∧ dictSize d * 100 / dictSlots d < 10)

/-- `dictIterator` of `dict.h`.  The iterator reads the dictionary it was
created on; an entry pointer is the chain from that entry on, NULL the empty
chain.  The fingerprint of an unsafe iterator is not represented. -/
structure dictIterator where
  d : dict
  index : Int
  table : Nat
  safe : Bool
  entry : List dictEntry
  nextEntry : List dictEntry

/-- Modelled from the spec: `dictGetIterator`, an unsafe iterator. -/
def dictGetIterator (d : dict) : dictIterator := ⟨d, -1, 0, false, [], []⟩

/-- The `while (1)` loop of `dictNext`; the counter bounds the number of
buckets stepped over. -/
def dictNextLoop : Nat → dictIterator → Option (Option dictEntry × dictIterator)
  | 0, _ => none
  | fuel + 1, iter =>
    if iter.entry = [] then
      let index := iter.index + 1
      let ht := if iter.table = 0 then iter.d.ht0 else iter.d.ht1
      if (ht.size : Int) ≤ index then
        if dictIsRehashing iter.d ∧ iter.table = 0 then
          match iter.d.ht1.bucket 0 with
          | [] => dictNextLoop fuel { iter with table := 1, index := 0, entry := [] }
          | de :: next =>
            some (some de, { iter with table := 1, index := 0, entry := de :: next, nextEntry := next })
        else some (none, { iter with index := index })
      else
        match ht.bucket index.toNat with
        | [] => dictNextLoop fuel { iter with index := index, entry := [] }
        | de :: next =>
          some (some de, { iter with index := index, entry := de :: next, nextEntry := next })
    else
      match iter.nextEntry with
      | [] => dictNextLoop fuel { iter with entry := [] }
      | de :: next => some (some de, { iter with entry := de :: next, nextEntry := next })

/-- Modelled from the spec: `dictNext` "traverses table 0 then table 1 if
rehashing"; NULL at the end. -/
def dictNext (iter : dictIterator) : Option (Option dictEntry × dictIterator) :=
  dictNextLoop (dictSlots iter.d + 2) iter

/-! ## Objects and configuration -/

/-- Modelled from the spec: the type tag of a set value (`server.h` is not among
the sources; only the tags being distinct matters). -/
def OBJ_SET : Nat := 2

/-- Modelled from the spec: the type tag of a hash value. -/
def OBJ_HASH : Nat := 4

/-- Modelled from the spec: the tag of the hash-backed encoding. -/
def OBJ_ENCODING_HT : Nat := 2

/-- Modelled from the spec: the tag of the compact field/value encoding. -/
def OBJ_ENCODING_ZIPLIST : Nat := 5

/-- Modelled from the spec: the tag of the compact integer-set encoding. -/
def OBJ_ENCODING_INTSET : Nat := 6

/-- Modelled from the spec: the success status of `server.h`. -/
def C_OK : Int := 0

/-- Modelled from the spec: the failure status of `server.h`. -/
def C_ERR : Int := -1

/-- Modelled from the spec: selector of the field of a hash entry. -/
def OBJ_HASH_KEY : Nat := 1

/-- Modelled from the spec: selector of the value of a hash entry. -/
def OBJ_HASH_VALUE : Nat := 2

/-- Modelled from the spec: the head index of a ziplist. -/
def ZIPLIST_HEAD : Nat := 0

/-- What the `ptr` of an object points to. -/
inductive robjPtr where
  | sds (s : sds)
  | ziplist (zl : ziplist)
  | intset (is : intset)
  | dict (d : dict)

/-- Modelled from the spec: `robj` of `server.h`, the tagged container: type
tag, encoding tag and storage. -/
structure robj where
  type : Nat
  encoding : Nat
  ptr : robjPtr

/-- Modelled from the spec: the "configuration scalars consumed at
construction", the resize switch of the hash engine and the two dictionary
types of `server.c`. -/
structure redisServer where
  hash_max_ziplist_entries : Nat
  hash_max_ziplist_value : Nat
  set_max_intset_entries : Nat
  dict_can_resize : Bool
  hashDictType : dictType
  setDictType : dictType

/-- A `while` loop driven by an iterator: `next` yields the next element or
reports the end, `body` runs on every element.  The counter bounds the number
of iterations; `none` is a failed assertion or an exhausted counter. -/
def whileNext {ι α σ : Type} (next : ι → Option (Option α × ι)) (body : σ → α → Option σ) :
    Nat → ι → σ → Option σ
  | 0, _, _ => none
  | fuel + 1, it, s =>
    match next it with
    | none => none
    | some (none, _) => some s
    | some (some x, it) =>
      match body s x with
      | none => none
      | some s => whileNext next body fuel it s

/-! ## `t_hash.c` -/

/-- `hashTypeGetFromZiplist`: the value of a field of a ziplist encoded hash.
`some none` is the return value -1, `none` a failed assertion. -/
def hashTypeGetFromZiplist (o : robj) (field : sds) : Option (Option zlentry) :=
  if o.encoding ≠ OBJ_ENCODING_ZIPLIST then none
  else
    match o.ptr with
    | .ziplist zl =>
      match (ziplistIndex zl ZIPLIST_HEAD).bind (fun fptr => ziplistFind zl fptr field 1) with
      | some fptr =>
        match ziplistNext zl fptr with
        | none => none
        | some vptr =>
          match ziplistGet zl vptr with
          | none => none
          | some v => some (some v)
      | none => some none
    | _ => none

/-- `hashTypeGetFromHashTable`: the value of a field of a hash table encoded
hash, NULL when the field is not found; the dictionary after the lookup is
returned with it. -/
def hashTypeGetFromHashTable (o : robj) (field : sds) : Option (Option sds × robj) :=
  if o.encoding ≠ OBJ_ENCODING_HT then none
  else
    match o.ptr with
    | .dict d =>
      match dictFind d field with
      | (none, d) => some (none, { o with ptr := .dict d })
      | (some de, d) =>
        some ((dictGetEntry d de).bind (·.val), { o with ptr := .dict d })
    | _ => none

/-- `hashTypeGetValue`: `C_OK` with the value (`str` for `*vstr`/`*vlen`, `int`
for `*vll`) or `C_ERR`. -/
def hashTypeGetValue (o : robj) (field : sds) : Option (Int × Option zlentry × robj) :=
  if o.encoding = OBJ_ENCODING_ZIPLIST then
    match hashTypeGetFromZiplist o field with
    | none => none
    | some (some v) => some (C_OK, some v, o)
    | some none => some (C_ERR, none, o)
  else if o.encoding = OBJ_ENCODING_HT then
    match hashTypeGetFromHashTable o field with
    | none => none
    | some (some value, o) => some (C_OK, some (.str value), o)
    | some (none, o) => some (C_ERR, none, o)
  else none

/-- `hashTypeLength`: the number of fields. -/
def hashTypeLength (o : robj) : Option Nat :=
  if o.encoding = OBJ_ENCODING_ZIPLIST then
    match o.ptr with
    | .ziplist zl => some (ziplistLen zl / 2)
    | _ => none
  else if o.encoding = OBJ_ENCODING_HT then
    match o.ptr with
    | .dict d => some (dictSize d)
    | _ => none
  else none

/-- `hashTypeIterator` of `server.h`. -/
structure hashTypeIterator where
  subject : robj
  encoding : Nat
  fptr : Option Nat
  vptr : Option Nat
  di : Option dictIterator
  de : Option dictEntry

/-- `hashTypeInitIterator`. -/
def hashTypeInitIterator (subject : robj) : Option hashTypeIterator :=
  if subject.encoding = OBJ_ENCODING_ZIPLIST then
    some ⟨subject, subject.encoding, none, none, none, none⟩
  else if subject.encoding = OBJ_ENCODING_HT then
    match subject.ptr with
    | .dict d => some ⟨subject, subject.encoding, none, none, some (dictGetIterator d), none⟩
    | _ => none
  else none

/-- `hashTypeNext`: `C_OK` when the next entry could be found, `C_ERR` at the
end. -/
def hashTypeNext (hi : hashTypeIterator) : Option (Int × hashTypeIterator) :=
  if hi.encoding = OBJ_ENCODING_ZIPLIST then
    match hi.subject.ptr with
    | .ziplist zl =>
      let fptr : Option (Option Nat) :=
        match hi.fptr with
        | none => if hi.vptr = none then some (ziplistIndex zl 0) else none
        | some _ =>
          match hi.vptr with
          | none => none
          | some vptr => some (ziplistNext zl vptr)
      match fptr with
      | none => none
      | some none => some (C_ERR, hi)
      | some (some fptr) =>
        match ziplistNext zl fptr with
        | none => none
        | some vptr => some (C_OK, { hi with fptr := some fptr, vptr := some vptr })
    | _ => none
  else if hi.encoding = OBJ_ENCODING_HT then
    match hi.di with
    | none => none
    | some di =>
      match dictNext di with
      | none => none
      | some (none, di) => some (C_ERR, { hi with di := some di, de := none })
      | some (some de, di) => some (C_OK, { hi with di := some di, de := some de })
  else none

/-- `hashTypeCurrentFromZiplist`. -/
def hashTypeCurrentFromZiplist (hi : hashTypeIterator) (what : Nat) : Option zlentry :=
  if hi.encoding ≠ OBJ_ENCODING_ZIPLIST then none
  else
    match hi.subject.ptr with
    | .ziplist zl =>
      if what &&& OBJ_HASH_KEY ≠ 0 then hi.fptr.bind (ziplistGet zl)
      else hi.vptr.bind (ziplistGet zl)
    | _ => none

/-- `hashTypeCurrentFromHashTable`. -/
def hashTypeCurrentFromHashTable (hi : hashTypeIterator) (what : Nat) : Option (Option sds) :=
  if hi.encoding ≠ OBJ_ENCODING_HT then none
  else
    match hi.de with
    | none => none
    | some de => if what &&& OBJ_HASH_KEY ≠ 0 then some (some de.key) else some de.val

/-- `hashTypeCurrentObject`. -/
def hashTypeCurrentObject (hi : hashTypeIterator) (what : Nat) : Option zlentry :=
  if hi.encoding = OBJ_ENCODING_ZIPLIST then hashTypeCurrentFromZiplist hi what
  else if hi.encoding = OBJ_ENCODING_HT then
    match hashTypeCurrentFromHashTable hi what with
    | some (some ele) => some (.str ele)
    | _ => none
  else none

/-- `hashTypeCurrentObjectNewSds`: the field or value at the iterator position
as a new string. -/
def hashTypeCurrentObjectNewSds (hi : hashTypeIterator) (what : Nat) : Option sds :=
  match hashTypeCurrentObject hi what with
  | none => none
  | some (.str vstr) => some vstr
  | some (.int vll) => some (sdsfromlonglong vll)

/-- `hashTypeNext` as the driver of a `while (hashTypeNext(hi) != C_ERR)` loop:
the element is the iterator at its new position. -/
def hashTypeNextStep (hi : hashTypeIterator) : Option (Option hashTypeIterator × hashTypeIterator) :=
  match hashTypeNext hi with
  | none => none
  | some (r, hi) => if r = C_ERR then some (none, hi) else some (some hi, hi)

/-- The body of the loop of `hashTypeConvertZiplist`: the field and the value
at the iterator position are added to the dictionary; a field already there is
the panic "Ziplist corruption detected". -/
def hashTypeConvertZiplistBody (server : redisServer) (d : dict) (hi : hashTypeIterator) :
    Option dict :=
  match hashTypeCurrentObjectNewSds hi OBJ_HASH_KEY,
        hashTypeCurrentObjectNewSds hi OBJ_HASH_VALUE with
  | some key, some value =>
    match dictAdd server.dict_can_resize d key (some value) with
    | (ret, d) => if ret ≠ DICT_OK then none else some d
  | _, _ => none

/-- `hashTypeConvertZiplist`: every pair of the ziplist is added to a new
dictionary, which replaces the ziplist. -/
def hashTypeConvertZiplist (server : redisServer) (o : robj) (enc : Nat) : Option robj :=
  if o.encoding ≠ OBJ_ENCODING_ZIPLIST then none
  else if enc = OBJ_ENCODING_ZIPLIST then some o
  else if enc = OBJ_ENCODING_HT then
    match hashTypeInitIterator o, hashTypeLength o with
    | some hi, some len =>
      match whileNext hashTypeNextStep (hashTypeConvertZiplistBody server) (len + 1) hi
          (dictCreate server.hashDictType) with
      | none => none
      | some dict => some { o with encoding := OBJ_ENCODING_HT, ptr := .dict dict }
    | _, _ => none
  else none

/-- `hashTypeConvert`. -/
def hashTypeConvert (server : redisServer) (o : robj) (enc : Nat) : Option robj :=
  if o.encoding = OBJ_ENCODING_ZIPLIST then hashTypeConvertZiplist server o enc
  else none

/-- The ziplist branch of `hashTypeSet` up to `o->ptr = zl`: the value of an
existing field is deleted and the new value inserted in its place, a new field
and its value are pushed at the tail.  The result is `update` and the new
ziplist; `none` is the failed assertion `vptr != NULL`. -/
def hashTypeSetZiplist (zl : ziplist) (field value : sds) : Option (Nat × ziplist) :=
  match (ziplistIndex zl ZIPLIST_HEAD).bind (fun fptr => ziplistFind zl fptr field 1) with
  | some fptr =>
    match ziplistNext zl fptr with
    | none => none
    | some vptr => some (1, ziplistInsert (ziplistDelete zl vptr) vptr value)
  | none => some (0, ziplistPush (ziplistPush zl field) value)

/-- `hashTypeSet`: add a field or overwrite its value; 0 on insert, 1 on
update.  The flags only move the ownership of the strings. -/
def hashTypeSet (server : redisServer) (o : robj) (field value : sds) (_flags : Nat) :
    Option (Nat × robj) :=
  if o.encoding = OBJ_ENCODING_ZIPLIST then
    match o.ptr with
    | .ziplist zl =>
      match hashTypeSetZiplist zl field value with
      | none => none
      | some (update, zl) =>
        let o : robj := { o with ptr := .ziplist zl }
        match hashTypeLength o with
        | none => none
        | some len =>
          if server.hash_max_ziplist_entries < len then
            (hashTypeConvert server o OBJ_ENCODING_HT).map (fun o => (update, o))
          else some (update, o)
    | _ => none
  else if o.encoding = OBJ_ENCODING_HT then
    match o.ptr with
    | .dict d =>
      match dictFind d field with
      | (some de, d) => some (1, { o with ptr := .dict (dictSetVal d de (some value)) })
      | (none, d) =>
        some (0, { o with ptr := .dict (dictAdd server.dict_can_resize d field (some value)).2 })
    | _ => none
  else none

/-- `hashTypeDelete`: 1 on deleted, 0 on not found. -/
def hashTypeDelete (server : redisServer) (o : robj) (field : sds) : Option (Nat × robj) :=
  if o.encoding = OBJ_ENCODING_ZIPLIST then
    match o.ptr with
    | .ziplist zl =>
      match (ziplistIndex zl ZIPLIST_HEAD).bind (fun fptr => ziplistFind zl fptr field 1) with
      | some fptr =>
        some (1, { o with ptr := .ziplist (ziplistDelete (ziplistDelete zl fptr) fptr) })
      | none => some (0, o)
    | _ => none
  else if o.encoding = OBJ_ENCODING_HT then
    match o.ptr with
    | .dict d =>
      match dictDelete d field with
      | (ret, d) =>
        if ret = DICT_OK then
          if htNeedsResize d then
            some (1, { o with ptr := .dict (dictResize server.dict_can_resize d).2 })
          else some (1, { o with ptr := .dict d })
        else some (0, { o with ptr := .dict d })
    | _ => none
  else none

/-- Modelled from the spec: `createHashObject` of `object.c`, the empty
compact hash. -/
def createHashObject : robj := ⟨OBJ_HASH, OBJ_ENCODING_ZIPLIST, .ziplist []⟩

/-! ## `t_set.c` -/

/-- Modelled from the spec: `createIntsetObject` of `object.c`, the empty
compact set. -/
def createIntsetObject : robj := ⟨OBJ_SET, OBJ_ENCODING_INTSET, .intset []⟩

/-- Modelled from the spec: `createSetObject` of `object.c`, the empty
hash-backed set. -/
def createSetObject (server : redisServer) : robj :=
  ⟨OBJ_SET, OBJ_ENCODING_HT, .dict (dictCreate server.setDictType)⟩

/-- `setTypeCreate`: a set that can hold `value`. -/
def setTypeCreate (server : redisServer) (value : sds) : robj :=
  if (isSdsRepresentableAsLongLong value).isSome then createIntsetObject
  else createSetObject server

/-- `setTypeIterator` of `server.h`. -/
structure setTypeIterator where
  subject : robj
  encoding : Nat
  ii : Nat
  di : Option dictIterator

/-- `setTypeInitIterator`. -/
def setTypeInitIterator (subject : robj) : Option setTypeIterator :=
  if subject.encoding = OBJ_ENCODING_HT then
    match subject.ptr with
    | .dict d => some ⟨subject, subject.encoding, 0, some (dictGetIterator d)⟩
    | _ => none
  else if subject.encoding = OBJ_ENCODING_INTSET then
    some ⟨subject, subject.encoding, 0, none⟩
  else none

/-- `setTypeNext`: the encoding of the iterated set together with `*sdsele` and
`*llele`, or -1 when there are no more elements (the out-parameters are then
not written; they are given here as NULL and 0). -/
def setTypeNext (si : setTypeIterator) : Option (Int × Option sds × Int × setTypeIterator) :=
  if si.encoding = OBJ_ENCODING_HT then
    match si.di with
    | none => none
    | some di =>
      match dictNext di with
      | none => none
      | some (none, di) => some (-1, none, 0, { si with di := some di })
      | some (some de, di) => some (si.encoding, some de.key, -123456789, { si with di := some di })
  else if si.encoding = OBJ_ENCODING_INTSET then
    match si.subject.ptr with
    | .intset is =>
      match intsetGet is si.ii with
      | none => some (-1, none, 0, { si with ii := si.ii + 1 })
      | some llele => some (si.encoding, none, llele, { si with ii := si.ii + 1 })
    | _ => none
  else none

/-- `setTypeNext` as the driver of a `while (setTypeNext(...) != -1)` loop: the
element is the returned encoding with `sdsele` and `llele`. -/
def setTypeNextStep (si : setTypeIterator) :
    Option (Option (Nat × Option sds × Int) × setTypeIterator) :=
  match setTypeNext si with
  | none => none
  | some (encoding, sdsele, llele, si) =>
    if encoding = -1 then some (none, si) else some (some (encoding.toNat, sdsele, llele), si)

/-- `setTypeNextObject`: the next element as a new string, NULL at the end. -/
def setTypeNextObject (si : setTypeIterator) : Option (Option sds × setTypeIterator) :=
  match setTypeNext si with
  | none => none
  | some (encoding, sdsele, intele, si) =>
    if encoding = -1 then some (none, si)
    else if encoding = OBJ_ENCODING_INTSET then some (some (sdsfromlonglong intele), si)
    else if encoding = OBJ_ENCODING_HT then
      match sdsele with
      | none => none
      | some sdsele => some (some sdsele, si)
    else none

/-- `setTypeSize`. -/
def setTypeSize (subject : robj) : Option Nat :=
  if subject.encoding = OBJ_ENCODING_HT then
    match subject.ptr with
    | .dict d => some (dictSize d)
    | _ => none
  else if subject.encoding = OBJ_ENCODING_INTSET then
    match subject.ptr with
    | .intset is => some (intsetLen is)
    | _ => none
  else none

/-- The body of the loop of `setTypeConvert`: the integer is added as its
decimal string; the assertion is that the addition succeeds. -/
def setTypeConvertBody (server : redisServer) (d : dict) (x : Nat × Option sds × Int) :
    Option dict :=
  match dictAdd server.dict_can_resize d (sdsfromlonglong x.2.2) none with
  | (ret, d) => if ret = DICT_OK then some d else none

/-- `setTypeConvert`: every integer of the intset is added, as its decimal
string, to a new dictionary presized for them. -/
def setTypeConvert (server : redisServer) (setobj : robj) (enc : Nat) : Option robj :=
  if ¬ (setobj.type = OBJ_SET ∧ setobj.encoding = OBJ_ENCODING_INTSET) then none
  else if enc = OBJ_ENCODING_HT then
    match setobj.ptr, setTypeInitIterator setobj with
    | .intset is, some si =>
      match whileNext setTypeNextStep (setTypeConvertBody server) (intsetLen is + 1) si
          (dictExpand (dictCreate server.setDictType) (intsetLen is)).2 with
      | none => none
      | some d => some { setobj with encoding := OBJ_ENCODING_HT, ptr := .dict d }
    | _, _ => none
  else none

/-- `setTypeAdd`: 0 if the value was already a member, otherwise the element
is added and 1 returned. -/
def setTypeAdd (server : redisServer) (subject : robj) (value : sds) : Option (Nat × robj) :=
  if subject.encoding = OBJ_ENCODING_HT then
    match subject.ptr with
    | .dict ht =>
      match dictAddRaw server.dict_can_resize ht value with
      | (some de, ht) =>
        some (1, { subject with ptr := .dict (dictSetVal (dictSetKey ht de value) de none) })
      | (none, ht) => some (0, { subject with ptr := .dict ht })
    | _ => none
  else if subject.encoding = OBJ_ENCODING_INTSET then
    match subject.ptr with
    | .intset is =>
      match isSdsRepresentableAsLongLong value with
      | some llval =>
        let subject : robj := { subject with ptr := .intset (intsetAdd is llval).1 }
        if (intsetAdd is llval).2 then
          if server.set_max_intset_entries < intsetLen (intsetAdd is llval).1 then
            (setTypeConvert server subject OBJ_ENCODING_HT).map (fun o => (1, o))
          else some (1, subject)
        else some (0, subject)
      | none =>
        match setTypeConvert server subject OBJ_ENCODING_HT with
        | none => none
        | some subject =>
          match subject.ptr with
          | .dict d =>
            match dictAdd server.dict_can_resize d value none with
            | (ret, d) => if ret = DICT_OK then some (1, { subject with ptr := .dict d }) else none
          | _ => none
    | _ => none
  else none

/-- `setTypeRemove`. -/
def setTypeRemove (server : redisServer) (setobj : robj) (value : sds) : Option (Nat × robj) :=
  if setobj.encoding = OBJ_ENCODING_HT then
    match setobj.ptr with
    | .dict d =>
      match dictDelete d value with
      | (ret, d) =>
        if ret = DICT_OK then
          if htNeedsResize d then
            some (1, { setobj with ptr := .dict (dictResize server.dict_can_resize d).2 })
          else some (1, { setobj with ptr := .dict d })
        else some (0, { setobj with ptr := .dict d })
    | _ => none
  else if setobj.encoding = OBJ_ENCODING_INTSET then
    match setobj.ptr with
    | .intset is =>
      match isSdsRepresentableAsLongLong value with
      | some llval =>
        if (intsetRemove is llval).2 then
          some (1, { setobj with ptr := .intset (intsetRemove is llval).1 })
        else some (0, { setobj with ptr := .intset (intsetRemove is llval).1 })
      | none => some (0, setobj)
    | _ => none
  else none

/-- `setTypeIsMember`; the lookup in a dictionary may advance its rehash, so
the object is returned with the answer. -/
def setTypeIsMember (subject : robj) (value : sds) : Option (Nat × robj) :=
  if subject.encoding = OBJ_ENCODING_HT then
    match subject.ptr with
    | .dict d =>
      match dictFind d value with
      | (de, d) => some (if de.isSome then 1 else 0, { subject with ptr := .dict d })
    | _ => none
  else if subject.encoding = OBJ_ENCODING_INTSET then
    match subject.ptr with
    | .intset is =>
      match isSdsRepresentableAsLongLong value with
      | some llval => some (if intsetFind is llval then 1 else 0, subject)
      | none => some (0, subject)
    | _ => none
  else none

/-! ### Keyspace and replies -/

/-- Modelled from the spec: the keyspace of `db.c`, a finite map from keys to
values.  An object of the keyspace is designated by its key: two lookups give
the same object exactly when the keys are equal. -/
abbrev redisDb := sds → Option robj

/-- Modelled from the spec: `lookupKeyRead` of `db.c`. -/
def lookupKeyRead (db : redisDb) (key : sds) : Option robj := db key

/-- Modelled from the spec: `lookupKeyWrite` of `db.c`. -/
def lookupKeyWrite (db : redisDb) (key : sds) : Option robj := db key

/-- The object a pointer into the keyspace designates, after any change made
through the pointer. -/
def dbStore (db : redisDb) (key : sds) (val : robj) : redisDb :=
  fun k => if k = key then some val else db k

/-- Modelled from the spec: `dbAdd` of `db.c`; the key must not exist. -/
def dbAdd (db : redisDb) (key : sds) (val : robj) : Option redisDb :=
  if (db key).isSome then none else some (dbStore db key val)

/-- Modelled from the spec: `dbDelete` of `db.c`; tells whether the key was
there. -/
def dbDelete (db : redisDb) (key : sds) : Bool × redisDb :=
  ((db key).isSome, fun k => if k = key then none else db k)

/-- Modelled from the spec: what is appended to the reply of a client
(`networking.c`).  A bulk reply carries its bytes, an integer sent as a bulk
its decimal string. -/
inductive replyItem where
  | bulk (s : sds)
  | longlong (n : Int)
  | multibulklen (n : Int)
  | deferredlen
  | czero
  | emptymultibulk
  | wrongtypeerr
  | outofrangeerr
  | notintegererr
  | cone
  | nullbulk
  | syntaxerr
  | error (msg : String)
  deriving DecidableEq, Repr

/-- Modelled from the spec: the part of `client` the set commands use, the
selected keyspace and the reply built so far. -/
structure client where
  db : redisDb
  reply : List replyItem

/-- Modelled from the spec: `addReply` and its variants. -/
def addReply (c : client) (r : replyItem) : client := { c with reply := c.reply ++ [r] }

/-- Modelled from the spec: `addDeferredMultiBulkLength`, a placeholder whose
position is returned. -/
def addDeferredMultiBulkLength (c : client) : Nat × client :=
  (c.reply.length, addReply c .deferredlen)

/-- Modelled from the spec: `setDeferredMultiBulkLength`, filling the
placeholder in. -/
def setDeferredMultiBulkLength (c : client) (node : Nat) (length : Nat) : client :=
  { c with reply := c.reply.set node (.multibulklen length) }

/-- Modelled from the spec: `checkType` of `object.c`: a value of another type
is answered with the wrong-type error. -/
def checkType (c : client) (o : robj) (type : Nat) : Bool × client :=
  if o.type ≠ type then (true, addReply c .wrongtypeerr) else (false, c)

/-- Conversion of an `unsigned long` to `int`: the low 32 bits, read as a
signed number. -/
def ulongToInt (x : Nat) : Int :=
  if x % 2 ^ 32 < 2 ^ 31 then (x % 2 ^ 32 : Nat) else (x % 2 ^ 32 : Nat) - 2 ^ 32

/-- `qsortCompareSetsByCardinality` on the two sizes: their difference as
`unsigned long`, returned as `int`. -/
def qsortCompareSetsByCardinality (s1 s2 : Nat) : Int :=
  ulongToInt ((s1 + 2 ^ 64 - s2 % 2 ^ 64) % 2 ^ 64)

/-- `qsortCompareSetsByRevCardinality` on the two sizes, a NULL set having
been given the size 0. -/
def qsortCompareSetsByRevCardinality (s1 s2 : Nat) : Int :=
  ulongToInt ((s2 + 2 ^ 64 - s1 % 2 ^ 64) % 2 ^ 64)

/-- Modelled from the spec: `qsort` of the C library, for an array of set
pointers each taken with the size the comparison function reads from it.  An
element is placed before the elements it does not compare greater than. -/
def qsort {α : Type} (cmp : Nat → Nat → Int) (l : List (α × Nat)) : List (α × Nat) :=
  l.insertionSort (fun a b => cmp a.2 b.2 ≤ 0)

/-- The return of `sinterGenericCommand` for a missing key: with a destination
key that key is deleted and 0 is sent, else the empty multi bulk reply. -/
def sinterMissing (c : client) (dstkey : Option sds) : client :=
  match dstkey with
  | some dstkey => addReply { c with db := (dbDelete c.db dstkey).2 } .czero
  | none => addReply c .emptymultibulk

/-- The first loop of `sinterGenericCommand`: the lookup of the operand keys.
`Sum.inl` is the early return (a missing key or a wrong type), `Sum.inr` the
array `sets`. -/
def sinterLookup (dstkey : Option sds) : List sds → client → List sds → client ⊕ List sds
  | [], _, sets => .inr sets
  | key :: setkeys, c, sets =>
    match (if dstkey.isSome then lookupKeyWrite c.db key else lookupKeyRead c.db key) with
    | none => .inl (sinterMissing c dstkey)
    | some setobj =>
      if (checkType c setobj OBJ_SET).1 then .inl (checkType c setobj OBJ_SET).2
      else sinterLookup dstkey setkeys c (sets ++ [key])

/-- The sizes the comparison function reads from the sets of an array. -/
def setSizes (db : redisDb) : List sds → Option (List (sds × Nat))
  | [] => some []
  | key :: keys =>
    match db key with
    | none => none
    | some o =>
      match setTypeSize o, setSizes db keys with
      | some n, some l => some ((key, n) :: l)
      | _, _ => none

/-- The loop `for (j = 1; j < setnum; j++)` of `sinterGenericCommand` for one
element of the first set: the result tells whether `j == setnum` was reached. -/
def sinterProbe (sets0 : sds) (encoding : Nat) (elesds : Option sds) (intobj : Int) :
    List sds → redisDb → Option (Bool × redisDb)
  | [], db => some (true, db)
  | setj :: sets, db =>
    if setj = sets0 then sinterProbe sets0 encoding elesds intobj sets db
    else
      match db setj with
      | none => none
      | some o =>
        if encoding = OBJ_ENCODING_INTSET then
          if o.encoding = OBJ_ENCODING_INTSET then
            match o.ptr with
            | .intset is =>
              if ¬ intsetFind is intobj then some (false, db)
              else sinterProbe sets0 encoding elesds intobj sets db
            | _ => none
          else if o.encoding = OBJ_ENCODING_HT then
            match setTypeIsMember o (sdsfromlonglong intobj) with
            | none => none
            | some (r, o) =>
              if r = 0 then some (false, dbStore db setj o)
              else sinterProbe sets0 encoding elesds intobj sets (dbStore db setj o)
          else sinterProbe sets0 encoding elesds intobj sets db
        else if encoding = OBJ_ENCODING_HT then
          match elesds with
          | none => none
          | some ele =>
            match setTypeIsMember o ele with
            | none => none
            | some (r, o) =>
              if r = 0 then some (false, dbStore db setj o)
              else sinterProbe sets0 encoding elesds intobj sets (dbStore db setj o)
        else sinterProbe sets0 encoding elesds intobj sets db

/-- The state of the main loop of `sinterGenericCommand`. -/
structure sinterState where
  c : client
  dstset : Option robj
  cardinality : Nat

/-- The part of the main loop of `sinterGenericCommand` that follows the probes,
for an element found in every set: the element is added to the reply or to the
temporary set. -/
def sinterFound (server : redisServer) (dstkey : Option sds) (st : sinterState) (db : redisDb)
    (x : Nat × Option sds × Int) : Option sinterState :=
  let c : client := { st.c with db := db }
  match dstkey with
  | none =>
    if x.1 = OBJ_ENCODING_HT then
      match x.2.1 with
      | none => none
      | some elesds =>
        some { st with c := addReply c (.bulk elesds), cardinality := st.cardinality + 1 }
    else
      some { st with c := addReply c (.bulk (sdsfromlonglong x.2.2)),
                     cardinality := st.cardinality + 1 }
  | some _ =>
    match st.dstset with
    | none => none
    | some dstset =>
      if x.1 = OBJ_ENCODING_INTSET then
        match setTypeAdd server dstset (sdsfromlonglong x.2.2) with
        | none => none
        | some (_, dstset) => some { st with c := c, dstset := some dstset }
      else
        match x.2.1 with
        | none => none
        | some elesds =>
          match setTypeAdd server dstset elesds with
          | none => none
          | some (_, dstset) => some { st with c := c, dstset := some dstset }

/-- The body of the main loop of `sinterGenericCommand` for one element of the
first set. -/
def sinterBody (server : redisServer) (sets : List sds) (dstkey : Option sds)
    (st : sinterState) (x : Nat × Option sds × Int) : Option sinterState :=
  match sets with
  | [] => none
  | sets0 :: rest =>
    match sinterProbe sets0 x.1 x.2.1 x.2.2 rest st.c.db with
    | none => none
    | some (false, db) => some { st with c := { st.c with db := db } }
    | some (true, db) => sinterFound server dstkey st db x

/-- The end of `sinterGenericCommand`: the temporary set is stored at the
destination key if it is not empty, or the deferred length of the reply is
filled in. -/
def sinterOutput (dstkey : Option sds) (replylen : Nat) (st : sinterState) : Option client :=
  match dstkey, st.dstset with
  | some dstkey, some dstset =>
    let db := (dbDelete st.c.db dstkey).2
    match setTypeSize dstset with
    | none => none
    | some size =>
      if 0 < size then
        match dbAdd db dstkey dstset with
        | none => none
        | some db => some (addReply { st.c with db := db } (.longlong size))
      else some (addReply { st.c with db := db } .czero)
  | some _, none => none
  | none, _ => some (setDeferredMultiBulkLength st.c replylen st.cardinality)

/-- The main loop of `sinterGenericCommand` over the first of the sorted sets,
followed by the output. -/
def sinterMain (server : redisServer) (c : client) (sets : List sds) (dstkey : Option sds) :
    Option client :=
  let replylen := (addDeferredMultiBulkLength c).1
  let c := if dstkey.isNone then (addDeferredMultiBulkLength c).2 else c
  let dstset := if dstkey.isNone then none else some createIntsetObject
  match sets with
  | [] => none
  | sets0 :: _ =>
    match c.db sets0 with
    | none => none
    | some o0 =>
      match setTypeInitIterator o0, setTypeSize o0 with
      | some si, some n =>
        match whileNext setTypeNextStep (sinterBody server sets dstkey) (n + 1) si
            ⟨c, dstset, 0⟩ with
        | none => none
        | some st => sinterOutput dstkey replylen st
      | _, _ => none

/-- `sinterGenericCommand`: SINTER (no `dstkey`) and SINTERSTORE.  The
notification of keyspace events, the signalling of modified keys and the dirty
counter are outside the model. -/
def sinterGenericCommand (server : redisServer) (c : client) (setkeys : List sds)
    (dstkey : Option sds) : Option client :=
  match sinterLookup dstkey setkeys c [] with
  | .inl c => some c
  | .inr sets =>
    match setSizes c.db sets with
    | none => none
    | some sized =>
      sinterMain server c ((qsort qsortCompareSetsByCardinality sized).map (·.1)) dstkey

/-- `SET_OP_UNION` of `t_set.c`. -/
def SET_OP_UNION : Nat := 0

/-- `SET_OP_DIFF` of `t_set.c`. -/
def SET_OP_DIFF : Nat := 1

/-- `SET_OP_INTER` of `t_set.c`. -/
def SET_OP_INTER : Nat := 2

/-- The first loop of `sunionDiffGenericCommand`: the lookup of the operand
keys, a missing key giving a NULL entry of `sets`.  `Sum.inl` is the return
after a wrong type. -/
def sunionDiffLookup (dstkey : Option sds) :
    List sds → client → List (Option sds) → client ⊕ List (Option sds)
  | [], _, sets => .inr sets
  | key :: setkeys, c, sets =>
    match (if dstkey.isSome then lookupKeyWrite c.db key else lookupKeyRead c.db key) with
    | none => sunionDiffLookup dstkey setkeys c (sets ++ [none])
    | some setobj =>
      if (checkType c setobj OBJ_SET).1 then .inl (checkType c setobj OBJ_SET).2
      else sunionDiffLookup dstkey setkeys c (sets ++ [some key])

/-- The sizes read from the entries of `sets`, 0 for a NULL entry. -/
def setSizesOrNull (db : redisDb) : List (Option sds) → Option (List (Option sds × Nat))
  | [] => some []
  | none :: keys =>
    match setSizesOrNull db keys with
    | some l => some ((none, 0) :: l)
    | none => none
  | some key :: keys =>
    match db key with
    | none => none
    | some o =>
      match setTypeSize o, setSizesOrNull db keys with
      | some n, some l => some ((some key, n) :: l)
      | _, _ => none

/-- The work estimates of the two DIFF algorithms: the loop adding the size of
`sets[0]`, respectively of `sets[j]`, for every non-NULL entry. -/
def sdiffWork (size0 : Nat) : List (Option sds × Nat) → Int × Int
  | [] => (0, 0)
  | (none, _) :: l => sdiffWork size0 l
  | (some _, n) :: l => ((size0 : Int) + (sdiffWork size0 l).1, (n : Int) + (sdiffWork size0 l).2)

/-- The value an `int` variable holds after a computation whose mathematical
result is `x`: the low 32 bits, read as a signed number.  An increment past
`INT_MAX` is undefined in C; the model takes the result modulo 2^32 that the
compiled code gives, as `ulongToInt` does for a conversion. -/
def intWrap (x : Int) : Int := (x + 2147483648) % 4294967296 - 2147483648

/-- The state of the element loops of `sunionDiffGenericCommand`: the
keyspace (the sets probed), the temporary set and the counter
`int cardinality`. -/
structure sunionDiffState where
  db : redisDb
  dstset : robj
  cardinality : Int

/-- `while((ele = setTypeNextObject(si)) != NULL)` over the set at a key, with
the given body. -/
def setTypeForEach {σ : Type} (o : robj) (body : σ → sds → Option σ) (s : σ) : Option σ :=
  match setTypeInitIterator o, setTypeSize o with
  | some si, some n => whileNext setTypeNextObject body (n + 1) si s
  | _, _ => none

/-- The body of the element loops that add to the temporary set:
`if (setTypeAdd(dstset,ele)) cardinality++`. -/
def sunionBody (server : redisServer) (st : sunionDiffState) (ele : sds) : Option sunionDiffState :=
  match setTypeAdd server st.dstset ele with
  | none => none
  | some (r, dstset) =>
    some { st with dstset := dstset,
                   cardinality := if r ≠ 0 then intWrap (st.cardinality + 1)
                     else st.cardinality }

/-- The loop of the union: every element of every existing set is added to
the temporary set. -/
def sunionLoop (server : redisServer) :
    List (Option sds) → sunionDiffState → Option sunionDiffState
  | [], st => some st
  | none :: sets, st => sunionLoop server sets st
  | some key :: sets, st =>
    match st.db key with
    | none => none
    | some o =>
      match setTypeForEach o (sunionBody server) st with
      | none => none
      | some st => sunionLoop server sets st

/-- The loop `for (j = 1; j < setnum; j++)` of DIFF algorithm 1 for one
element: the result tells whether `j == setnum` was reached. -/
def sdiffProbe (sets0 : sds) (ele : sds) : List (Option sds) → redisDb → Option (Bool × redisDb)
  | [], db => some (true, db)
  | none :: sets, db => sdiffProbe sets0 ele sets db
  | some setj :: sets, db =>
    if setj = sets0 then some (false, db)
    else
      match db setj with
      | none => none
      | some o =>
        match setTypeIsMember o ele with
        | none => none
        | some (r, o) =>
          if r ≠ 0 then some (false, dbStore db setj o)
          else sdiffProbe sets0 ele sets (dbStore db setj o)

/-- The body of the element loop of DIFF algorithm 1. -/
def sdiffAlgo1Body (server : redisServer) (sets0 : sds) (sets : List (Option sds))
    (st : sunionDiffState) (ele : sds) : Option sunionDiffState :=
  match sdiffProbe sets0 ele sets st.db with
  | none => none
  | some (false, db) => some { st with db := db }
  | some (true, db) =>
    match setTypeAdd server st.dstset ele with
    | none => none
    | some (_, dstset) =>
      some { db := db, dstset := dstset, cardinality := intWrap (st.cardinality + 1) }

/-- DIFF algorithm 1: every element of the first set that no other set holds
is added. -/
def sdiffAlgo1 (server : redisServer) (sets0 : sds) (sets : List (Option sds))
    (st : sunionDiffState) : Option sunionDiffState :=
  match st.db sets0 with
  | none => none
  | some o0 => setTypeForEach o0 (sdiffAlgo1Body server sets0 sets) st

/-- The body of the element loops of DIFF algorithm 2 after the first set:
`if (setTypeRemove(dstset,ele)) cardinality--`. -/
def sdiffRemoveBody (server : redisServer) (st : sunionDiffState) (ele : sds) :
    Option sunionDiffState :=
  match setTypeRemove server st.dstset ele with
  | none => none
  | some (r, dstset) =>
    some { st with dstset := dstset,
                   cardinality := if r ≠ 0 then intWrap (st.cardinality - 1)
                     else st.cardinality }

/-- DIFF algorithm 2: the elements of the first set (`j == 0`) are added, those
of the following sets removed; the loop over the sets ends early once the
counter reads 0 (`if (cardinality == 0) break`). -/
def sdiffAlgo2 (server : redisServer) :
    Bool → List (Option sds) → sunionDiffState → Option sunionDiffState
  | _, [], st => some st
  | _, none :: sets, st => sdiffAlgo2 server false sets st
  | first, some key :: sets, st =>
    match st.db key with
    | none => none
    | some o =>
      match setTypeForEach o (if first then sunionBody server else sdiffRemoveBody server) st with
      | none => none
      | some st => if st.cardinality = 0 then some st else sdiffAlgo2 server false sets st

/-- The body of the output loop: `addReplyBulkCBuffer(c,ele,sdslen(ele))`. -/
def sunionDiffReplyBody (c : client) (ele : sds) : Option client := some (addReply c (.bulk ele))

/-- The choice of the DIFF algorithm in `sunionDiffGenericCommand`, with the
ordering of the sets to subtract for algorithm 1. -/
def sunionDiffChoice (db : redisDb) (op : Nat) (sets : List (Option sds)) :
    Option (Nat × List (Option sds)) :=
  match sets with
  | some sets0 :: _ =>
    if op = SET_OP_DIFF then
      match setSizesOrNull db sets with
      | none => none
      | some sized =>
        let size0 := (sized.head?.map (·.2)).getD 0
        let algo_one_work := (sdiffWork size0 sized).1 / 2
        let algo_two_work := (sdiffWork size0 sized).2
        if algo_one_work ≤ algo_two_work then
          some (1, some sets0 ::
            (qsort qsortCompareSetsByRevCardinality sized.tail).map (·.1))
        else some (2, sets)
    else some (1, sets)
  | _ => some (1, sets)

/-- The computation of the temporary set in `sunionDiffGenericCommand`. -/
def sunionDiffCompute (server : redisServer) (op diff_algo : Nat) (sets : List (Option sds))
    (st0 : sunionDiffState) : Option sunionDiffState :=
  if op = SET_OP_UNION then sunionLoop server sets st0
  else
    match sets with
    | some sets0 :: rest =>
      if op = SET_OP_DIFF ∧ diff_algo = 1 then sdiffAlgo1 server sets0 rest st0
      else if op = SET_OP_DIFF ∧ diff_algo = 2 then sdiffAlgo2 server true sets st0
      else some st0
    | _ => some st0

/-- The end of `sunionDiffGenericCommand`: the elements of the temporary set
are sent, or the set is stored at the destination key if it is not empty. -/
def sunionDiffOutput (c : client) (dstkey : Option sds) (st : sunionDiffState) : Option client :=
  let c : client := { c with db := st.db }
  match dstkey with
  | none =>
    setTypeForEach st.dstset sunionDiffReplyBody
      (addReply c (.multibulklen st.cardinality))
  | some dstkey =>
    let db := (dbDelete c.db dstkey).2
    match setTypeSize st.dstset with
    | none => none
    | some size =>
      if 0 < size then
        match dbAdd db dstkey st.dstset with
        | none => none
        | some db => some (addReply { c with db := db } (.longlong size))
      else some (addReply { c with db := db } .czero)

/-- `sunionDiffGenericCommand`: SUNION, SUNIONSTORE, SDIFF and SDIFFSTORE.
The counter `cardinality` is an `int` (`intWrap`), passed to
`addReplyMultiBulkLen` as it is; the notification of keyspace events, the
signalling of modified keys and the dirty counter are outside the model. -/
def sunionDiffGenericCommand (server : redisServer) (c : client) (setkeys : List sds)
    (dstkey : Option sds) (op : Nat) : Option client :=
  match sunionDiffLookup dstkey setkeys c [] with
  | .inl c => some c
  | .inr sets =>
    match sunionDiffChoice c.db op sets with
    | none => none
    | some (diff_algo, sets) =>
      match sunionDiffCompute server op diff_algo sets ⟨c.db, createIntsetObject, 0⟩ with
      | none => none
      | some st => sunionDiffOutput c dstkey st

/-! ## The representation invariant of the hash table -/

/-- The entries of a dictionary in traversal order: the buckets of `ht0`, then
those of `ht1`. -/
def dictEntries (d : dict) : List dictEntry := d.ht0.table.flatten ++ d.ht1.table.flatten

/-- Invariant of one table: the array has `size` buckets, the mask is
`size - 1`, `used` counts the entries and every entry sits in the bucket its
hash selects. -/
structure dictht.wf (hash : sds → Nat) (ht : dictht) : Prop where
  length_eq : ht.table.length = ht.size
  mask_eq : ht.sizemask = ht.size - 1
  used_eq : ht.used = ht.table.flatten.length
  home : ∀ i e, e ∈ ht.bucket i → hash e.key &&& ht.sizemask = i

/-- Invariant of a dictionary: both tables are well formed, keys are unique,
an idle dictionary keeps everything in `ht0`, and during a rehash the buckets
of `ht0` below the cursor have been migrated. -/
structure dict.wf (d : dict) : Prop where
  wf0 : d.ht0.wf d.type.hashFunction
  wf1 : d.ht1.wf d.type.hashFunction
  nodup : ((dictEntries d).map (·.key)).Nodup
  idx_ge : -1 ≤ d.rehashidx
  idle : d.rehashidx = -1 → d.ht1 = dicthtReset
  busy : d.rehashidx ≠ -1 → 0 < d.ht0.size ∧ 0 < d.ht1.size ∧
    ∀ i : Nat, (i : Int) < d.rehashidx → d.ht0.bucket i = []

/-- What the bucket loop of a rehash maintains. -/
structure dict.rehashInv (d0 d : dict) : Prop where
  type_eq : d.type = d0.type
  iterators_eq : d.iterators = d0.iterators
  wf0 : d.ht0.wf d.type.hashFunction
  wf1 : d.ht1.wf d.type.hashFunction
  perm : (dictEntries d).Perm (dictEntries d0)
  idx_ge : 0 ≤ d.rehashidx
  size0 : 0 < d.ht0.size
  size1 : 0 < d.ht1.size
  below : ∀ i : Nat, (i : Int) < d.rehashidx → d.ht0.bucket i = []

/-- `d'` holds the entries of `d`, possibly spread differently over the
buckets, and is again well formed. -/
structure dict.reorg (d d' : dict) : Prop where
  wf : d'.wf
  type_eq : d'.type = d.type
  iterators_eq : d'.iterators = d.iterators
  perm : (dictEntries d').Perm (dictEntries d)

/-- The keys of a dictionary. -/
def dictKeys (d : dict) : List sds := (dictEntries d).map (·.key)

/-! ## Find, add and delete -/

/-- `d'` is `d` with the entry `e` put in place of whatever entry had its key. -/
structure dict.isPut (d d' : dict) (e : dictEntry) : Prop where
  wf : d'.wf
  type_eq : d'.type = d.type
  iterators_eq : d'.iterators = d.iterators
  perm : (dictEntries d').Perm (e :: (dictEntries d).filter (fun x => decide (x.key ≠ e.key)))

/-- `d'` is `d` without the entry of `key`. -/
structure dict.isDel (d d' : dict) (key : sds) : Prop where
  wf : d'.wf
  type_eq : d'.type = d.type
  iterators_eq : d'.iterators = d.iterators
  perm : (dictEntries d').Perm ((dictEntries d).filter (fun x => decide (x.key ≠ key)))

/-! ## Ziplist encoded hashes -/

/-- The (field, value) pairs of the entries of a ziplist. -/
def zlPairs : List zlentry → List (zlentry × zlentry)
  | f :: v :: rest => (f, v) :: zlPairs rest
  | _ => []

/-- A numeric entry holds a 64-bit signed integer. -/
def zlentry.valid : zlentry → Prop
  | .str _ => True
  | .int v => LLONG_MIN ≤ v ∧ v ≤ LLONG_MAX

/-! ## Iterator driven loops -/

/-- The iterator yields exactly the elements of the list, then reports the
end. -/
inductive Yields {ι α : Type} (next : ι → Option (Option α × ι)) : ι → List α → Prop where
  | done (it it' : ι) : next it = some (none, it') → Yields next it []
  | step (it it' : ι) (x : α) (xs : List α) :
      next it = some (some x, it') → Yields next it' xs → Yields next it (x :: xs)

/-- The fold a loop computes over the elements it is given. -/
def foldOpt {α σ : Type} (body : σ → α → Option σ) : List α → σ → Option σ
  | [], s => some s
  | x :: xs, s =>
    match body s x with
    | none => none
    | some s => foldOpt body xs s

/-! ## The contents of a hash object -/

/-- The value a list of (field, value) pairs gives to a field. -/
def pairsLookup (l : List (sds × sds)) (field : sds) : Option sds :=
  (l.find? (fun p => decide (p.1 = field))).map (·.2)

/-- The (field, value) byte pairs a hash object holds, in traversal order. -/
def hashPairs (o : robj) : List (sds × sds) :=
  match o.ptr with
  | .ziplist zl => (zlPairs zl).map (fun p => (p.1.bytes, p.2.bytes))
  | .dict d => (dictEntries d).map (fun e => (e.key, e.val.getD []))
  | _ => []

/-- The representation invariant of a hash object.  A ziplist encoded hash is
a sequence of (field, value) entry pairs with pairwise distinct fields, numeric
entries being 64-bit integers; a hash table encoded hash is a well-formed
dictionary whose values are strings. -/
def hashValid (o : robj) : Prop :=
  match o.ptr with
  | .ziplist zl => o.encoding = OBJ_ENCODING_ZIPLIST ∧ zl.length % 2 = 0 ∧ (∀ e ∈ zl, e.valid) ∧
      ((zlPairs zl).map (·.1.bytes)).Nodup
  | .dict d => o.encoding = OBJ_ENCODING_HT ∧ d.wf ∧ ∀ e ∈ dictEntries d, e.val ≠ none
  | _ => False

/-- What a caller of `hashTypeGetValue` reads: `some (some v)` is `C_OK` with
the bytes `v` of the value (the decimal string for `*vll`), `some none` is
`C_ERR`. -/
def hashTypeGetBytes (o : robj) (field : sds) : Option (Option sds) :=
  match hashTypeGetValue o field with
  | none => none
  | some (r, v, _) => if r = C_OK then some (v.map zlentry.bytes) else some none

/-- `o'` holds the pairs of `o`, possibly in another order. -/
structure hashSame (o o' : robj) : Prop where
  valid : hashValid o'
  perm : (hashPairs o').Perm (hashPairs o)

/-- `o'` is `o` with `field` set to `value`. -/
structure hashIsPut (o o' : robj) (field value : sds) : Prop where
  valid : hashValid o'
  perm : (hashPairs o').Perm ((field, value) :: (hashPairs o).filter (fun p => decide (p.1 ≠ field)))

/-- `o'` is `o` without `field`. -/
structure hashIsDel (o o' : robj) (field : sds) : Prop where
  valid : hashValid o'
  perm : (hashPairs o').Perm ((hashPairs o).filter (fun p => decide (p.1 ≠ field)))

/-- The positions the iterator of a ziplist encoded hash takes over the
entries from index `k` on. -/
def hiList (o : robj) : Nat → List zlentry → List hashTypeIterator
  | k, _ :: _ :: rest =>
    ⟨o, OBJ_ENCODING_ZIPLIST, some k, some (k + 1), none, none⟩ :: hiList o (k + 2) rest
  | _, _ => []

/-- The iterator has consumed the first `k` entries. -/
def hiBefore (o : robj) (k : Nat) (hi : hashTypeIterator) : Prop :=
  hi.subject = o ∧ hi.encoding = OBJ_ENCODING_ZIPLIST ∧ hi.di = none ∧ hi.de = none ∧
  ((k = 0 ∧ hi.fptr = none ∧ hi.vptr = none) ∨
   (2 ≤ k ∧ hi.fptr = some (k - 2) ∧ hi.vptr = some (k - 1)))

/-- The body of the conversion loop on a (field, value) pair. -/
def hashConvertBody (can_resize : Bool) (d : dict) (p : sds × sds) : Option dict :=
  match dictAdd can_resize d p.1 (some p.2) with
  | (ret, d) => if ret ≠ DICT_OK then none else some d

/-- The (field, value) pairs of the entries of a dictionary of a hash. -/
def dictPairs (d : dict) : List (sds × sds) := (dictEntries d).map (fun e => (e.key, e.val.getD []))

/-! ## The contents of a set object -/

/-- The members of a set object as byte strings, in traversal order: the
integers of an intset as decimal strings, the keys of a dictionary. -/
def setMembers (o : robj) : List sds :=
  match o.ptr with
  | .intset is => is.map sdsfromlonglong
  | .dict d => dictKeys d
  | _ => []

/-- The representation invariant of a set object: an intset is a strictly
ascending array of 64-bit integers, a hash table encoded set a well-formed
dictionary. -/
def setValid (o : robj) : Prop :=
  o.type = OBJ_SET ∧
  match o.ptr with
  | .intset is => o.encoding = OBJ_ENCODING_INTSET ∧ is.Pairwise (· < ·) ∧
      ∀ v ∈ is, LLONG_MIN ≤ v ∧ v ≤ LLONG_MAX
  | .dict d => o.encoding = OBJ_ENCODING_HT ∧ d.wf
  | _ => False

/-- `o'` holds the members of `o`. -/
structure setSame (o o' : robj) : Prop where
  valid : setValid o'
  perm : (setMembers o').Perm (setMembers o)

/-- `v` has been added to the members of `o`. -/
def setAdded (o o' : robj) (v : sds) : Prop :=
  setValid o' ∧ (setMembers o').Perm (if v ∈ setMembers o then setMembers o else v :: setMembers o)

/-! ## Traversal of a dictionary -/

/-- The entries an iterator has yet to return. -/
def dictIterator.rest (it : dictIterator) : List dictEntry :=
  (if it.entry = [] then [] else it.nextEntry) ++
  (if it.table = 0 then
    (it.d.ht0.table.drop (it.index + 1).toNat).flatten ++
      (if dictIsRehashing it.d then it.d.ht1.table.flatten else [])
  else (it.d.ht1.table.drop (it.index + 1).toNat).flatten)

/-- The states an iterator over a well-formed dictionary goes through. -/
structure dictIterator.ok (it : dictIterator) : Prop where
  wf : it.d.wf
  idx_ge : -1 ≤ it.index
  table : it.table = 0 ∨ (it.table = 1 ∧ dictIsRehashing it.d = true)
  entry : it.entry ≠ [] → 0 ≤ it.index

/-- A bound on the iterations `dictNext` needs. -/
def dictIterator.steps (it : dictIterator) : Nat :=
  (if it.entry = [] then 0 else 1) +
  (if it.table = 0 then
    (it.d.ht0.size - (it.index + 1).toNat) + 1 + (if dictIsRehashing it.d then it.d.ht1.size else 0)
  else (it.d.ht1.size - (it.index + 1).toNat) + 1)

/-- The statement of `dictNextLoop_spec` for one iterator. -/
def dictNextLoopOk (fuel : Nat) (it : dictIterator) : Prop :=
  (it.rest = [] → ∃ it', dictNextLoop fuel it = some (none, it')) ∧
  (∀ e tl, it.rest = e :: tl → ∃ it', dictNextLoop fuel it = some (some e, it') ∧
    it'.ok ∧ it'.d = it.d ∧ it'.rest = tl)

/-- The elements `setTypeNext` produces for a set: the encoding with `sdsele`
and `llele`. -/
def setElems (o : robj) : List (Nat × Option sds × Int) :=
  match o.ptr with
  | .intset is => is.map (fun n => (OBJ_ENCODING_INTSET, none, n))
  | .dict d => (dictEntries d).map (fun e => (OBJ_ENCODING_HT, some e.key, -123456789))
  | _ => []

/-! ## Union -/

/-- The members of the set stored at a key, none for a missing key. -/
def dbMembers (db : redisDb) (key : sds) : List sds :=
  match db key with
  | some o => setMembers o
  | none => []

/-- Every value stored at one of the keys is a valid set. -/
def operandsValid (db : redisDb) (keys : List sds) : Prop :=
  ∀ k ∈ keys, ∀ o, db k = some o → setValid o

/-- The invariant of the union loops: the keyspace is untouched, the temporary
set is valid, holds the initial members and the elements added so far, and the
counter is its size as an `int`. -/
structure sunionInv (db0 : redisDb) (base : List sds) (added : List sds)
    (st : sunionDiffState) : Prop where
  db_eq : st.db = db0
  valid : setValid st.dstset
  mem : ∀ v, v ∈ setMembers st.dstset ↔ v ∈ base ∨ v ∈ added
  card : st.cardinality = intWrap (setMembers st.dstset).length

/-! ## Intersection -/

/-- The bytes of an element produced by `setTypeNext`. -/
def setElemBytes (x : Nat × Option sds × Int) : sds :=
  if x.1 = OBJ_ENCODING_INTSET then sdsfromlonglong x.2.2 else x.2.1.getD []

/-- What `setTypeNext` produces: an integer of 64 bits, or a string. -/
def setElemOk (x : Nat × Option sds × Int) : Prop :=
  (x.1 = OBJ_ENCODING_INTSET ∧ LLONG_MIN ≤ x.2.2 ∧ x.2.2 ≤ LLONG_MAX) ∨
  (x.1 = OBJ_ENCODING_HT ∧ x.2.1.isSome)

/-- The keyspace after probes of the sets at `keys`: these sets hold the same
members in the same encoding, everything else is untouched. -/
structure dbSame (keys : List sds) (db0 db : redisDb) : Prop where
  frame : ∀ k, k ∉ keys → db k = db0 k
  set : ∀ k ∈ keys, ∃ o o', db0 k = some o ∧ db k = some o' ∧ setSame o o' ∧
    o'.encoding = o.encoding

/-- Whether every set at `keys` holds `v`. -/
def inAllSets (db : redisDb) (keys : List sds) (v : sds) : Bool :=
  keys.all (fun k => decide (v ∈ dbMembers db k))

/-- The invariant of the main loop of `sinterGenericCommand`, `done` being the
bytes of the elements of the first set visited so far. -/
structure sinterInv (keys : List sds) (db0 : redisDb) (r0 : List replyItem) (P : sds → Bool)
    (dstkey : Option sds) (done : List sds) (st : sinterState) : Prop where
  db : dbSame keys db0 st.c.db
  reply : st.c.reply = r0 ++ (if dstkey.isNone then (done.filter P).map .bulk else [])
  card : st.cardinality = (if dstkey.isNone then (done.filter P).length else 0)
  dst : dstkey.isSome → ∃ ds, st.dstset = some ds ∧ setValid ds ∧
    ∀ v, v ∈ setMembers ds ↔ v ∈ done ∧ P v = true

/-- Every key holds a value. -/
def operandsExist (db : redisDb) (keys : List sds) : Prop := ∀ k ∈ keys, (db k).isSome = true

/-! ## Observations and examples -/

/-- The return value of `setTypeIsMember`. -/
def setTypeIsMemberRet (o : robj) (value : sds) : Option Nat :=
  (setTypeIsMember o value).map (·.1)

/-- A server configuration with small thresholds: at most 3 entries in a
ziplist encoded hash, at most 3 in an intset; the hash function of both
dictionary types adds the bytes of the key. -/
def exampleServer : redisServer := ⟨3, 64, 3, true, ⟨fun k => k.sum⟩, ⟨fun k => k.sum⟩⟩

/-- The hash obtained from `o` by `hashTypeSet` of the pairs of `l`, in order. -/
def hashTypeSetAll (server : redisServer) : robj → List (sds × sds) → Option robj
  | o, [] => some o
  | o, (f, v) :: l =>
    match hashTypeSet server o f v 0 with
    | none => none
    | some (_, o) => hashTypeSetAll server o l

/-- The set obtained from `o` by `setTypeAdd` of the values of `l`, in order. -/
def setTypeAddAll (server : redisServer) : robj → List sds → Option robj
  | o, [] => some o
  | o, v :: l =>
    match setTypeAdd server o v with
    | none => none
    | some (_, o) => setTypeAddAll server o l

/-- The ziplist encoded hash with the fields "a" and "b", of values 12 (held as
a number) and "x". -/
def exampleHash : robj :=
  ⟨OBJ_HASH, OBJ_ENCODING_ZIPLIST, .ziplist [.str [97], .int 12, .str [98], .str [120]]⟩

/-- The intset encoded set of 1, 2 and 3. -/
def exampleSet : robj := ⟨OBJ_SET, OBJ_ENCODING_INTSET, .intset [1, 2, 3]⟩

/-- A keyspace with the sets of the intersection example at the keys "1", "2"
and "3", the second one hash table encoded, and nothing else. -/
def exampleDb : redisDb := fun k =>
  if k = [49] then some ⟨OBJ_SET, OBJ_ENCODING_INTSET, .intset [1, 2, 3, 4, 5]⟩
  else if k = [50] then
    setTypeConvert exampleServer ⟨OBJ_SET, OBJ_ENCODING_INTSET, .intset [3, 4, 5, 6, 7]⟩
      OBJ_ENCODING_HT
  else if k = [51] then some ⟨OBJ_SET, OBJ_ENCODING_INTSET, .intset [4, 5, 6]⟩
  else none


/-! ## Further functions of `t_hash.c` -/

/-- Modelled from the spec: `OBJ_ENCODING_RAW` of `server.h`. -/
def OBJ_ENCODING_RAW : Nat := 0
/-- Modelled from the spec: `OBJ_ENCODING_INT` of `server.h`. -/
def OBJ_ENCODING_INT : Nat := 1
/-- Modelled from the spec: `OBJ_ENCODING_EMBSTR` of `server.h`. -/
def OBJ_ENCODING_EMBSTR : Nat := 8
/-- Modelled from the spec: `OBJ_STRING` of `server.h`. -/
def OBJ_STRING : Nat := 0

/-- Modelled from the spec: the macro `sdsEncodedObject` of `server.h`, true
for a string object whose pointer is an sds string. -/
def sdsEncodedObject (o : robj) : Bool :=
  decide (o.encoding = OBJ_ENCODING_RAW ∨ o.encoding = OBJ_ENCODING_EMBSTR)

/-- The loop `for (i = start; i <= end; i++)` of `hashTypeTryConversion`, with
the number of indices left and the index `i`: whether the loop reaches a
string encoded argument longer than `hash_max_ziplist_value`.  The pointer of
an argument of another encoding is not read.  `none` is an index outside
`argv`, or a string encoded object without string. -/
def hashTypeTryConversionLoop (server : redisServer) (argv : List robj) : Nat → Nat → Option Bool
  | 0, _ => some false
  | n + 1, i =>
    match argv[i]? with
    | none => none
    | some a =>
      if sdsEncodedObject a then
        match a.ptr with
        | .sds s =>
          if server.hash_max_ziplist_value < sdslen s then some true
          else hashTypeTryConversionLoop server argv n (i + 1)
        | _ => none
      else hashTypeTryConversionLoop server argv n (i + 1)

/-- `hashTypeTryConversion`: a ziplist encoded hash is converted when one of
`argv[start..end]` is a string longer than `hash_max_ziplist_value`. -/
def hashTypeTryConversion (server : redisServer) (o : robj) (argv : List robj)
    (start endi : Nat) : Option robj :=
  if o.encoding ≠ OBJ_ENCODING_ZIPLIST then some o
  else
    match hashTypeTryConversionLoop server argv (endi + 1 - start) start with
    | none => none
    | some true => hashTypeConvert server o OBJ_ENCODING_HT
    | some false => some o

/-- `hashTypeExists`: 1 if the field exists, 0 when it does not. -/
def hashTypeExists (o : robj) (field : sds) : Option (Nat × robj) :=
  if o.encoding = OBJ_ENCODING_ZIPLIST then
    match hashTypeGetFromZiplist o field with
    | none => none
    | some (some _) => some (1, o)
    | some none => some (0, o)
  else if o.encoding = OBJ_ENCODING_HT then
    match hashTypeGetFromHashTable o field with
    | none => none
    | some (some _, o) => some (1, o)
    | some (none, o) => some (0, o)
  else none

/-- Modelled from the spec: `createStringObject` of `object.c`, for a string
too long to be embedded. -/
def createStringObject (s : sds) : robj := ⟨OBJ_STRING, OBJ_ENCODING_RAW, .sds s⟩

/-- Whether an argument of `hashTypeTryConversion` is a string longer than
`hash_max_ziplist_value`. -/
def isLongArg (server : redisServer) (a : robj) : Bool :=
  sdsEncodedObject a &&
    match a.ptr with
    | .sds s => decide (server.hash_max_ziplist_value < sdslen s)
    | _ => false

/-- The arguments `argv[start..end]` exist, and those that are string encoded
hold a string. -/
def argvOk (argv : List robj) (start endi : Nat) : Prop :=
  ∀ i, start ≤ i → i ≤ endi →
    ∃ a, argv[i]? = some a ∧ (sdsEncodedObject a = true → ∃ s, a.ptr = .sds s)

/-- An operation that turned `o` into `o'` kept the encoding or changed it to
the hash table encoding; a hash table encoded object stays so. -/
def encodingKept (o o' : robj) : Prop :=
  (o'.encoding = o.encoding ∨ (o'.encoding = OBJ_ENCODING_HT ∧ o.encoding ≠ OBJ_ENCODING_HT)) ∧
  (o.encoding = OBJ_ENCODING_HT → o'.encoding = OBJ_ENCODING_HT)

/-- A ziplist encoded hash of one field, and a value of 65 bytes, one more
than `hash_max_ziplist_value` of `exampleServer`. -/
def longValue : sds := List.replicate 65 120

/-! ## Difference -/

/-- Every non-NULL entry of `sets` is the key of a valid set. -/
def setsValid (db : redisDb) (sets : List (Option sds)) : Prop :=
  ∀ k, some k ∈ sets → ∃ o, db k = some o ∧ setValid o

/-- Whether no set of `sets` is the set at `sets0` or holds `v`. -/
def inNoSet (db : redisDb) (sets0 : sds) (sets : List (Option sds)) (v : sds) : Bool :=
  sets.all (fun s =>
    match s with
    | none => true
    | some k => decide (k ≠ sets0) && decide (v ∉ dbMembers db k))

/-- The invariant of the element loop of DIFF algorithm 1, `done` being the
elements of the first set visited so far. -/
structure sdiffInv (keys : List sds) (db0 : redisDb) (P : sds → Bool) (done : List sds)
    (st : sunionDiffState) : Prop where
  db : dbSame keys db0 st.db
  valid : setValid st.dstset
  mem : ∀ v, v ∈ setMembers st.dstset ↔ v ∈ done ∧ P v = true
  card : st.cardinality = intWrap (setMembers st.dstset).length

/-- The invariant of the removal loops of DIFF algorithm 2: the temporary set
holds the members of `base` that are not among the elements removed. -/
structure sdiffRemInv (db0 : redisDb) (base : List sds) (removed : List sds)
    (st : sunionDiffState) : Prop where
  db_eq : st.db = db0
  valid : setValid st.dstset
  mem : ∀ v, v ∈ setMembers st.dstset ↔ v ∈ base ∧ v ∉ removed
  card : st.cardinality = intWrap (setMembers st.dstset).length

/-- A server configuration with the thresholds 512, 64 and 512. -/
def defaultServer : redisServer := ⟨512, 64, 512, true, ⟨fun k => k.sum⟩, ⟨fun k => k.sum⟩⟩

/-- The integers `a`, `a + 1`, ..., `a + n - 1`. -/
def intRange (a : Int) (n : Nat) : List Int := (List.range n).map (fun i => a + (i : Int))

/-- A keyspace with the sets of the difference example: 1..100 at the key "a"
and 50..60 at the key "b". -/
def diffDb : redisDb := fun k =>
  if k = [97] then some ⟨OBJ_SET, OBJ_ENCODING_INTSET, .intset (intRange 1 100)⟩
  else if k = [98] then some ⟨OBJ_SET, OBJ_ENCODING_INTSET, .intset (intRange 50 11)⟩
  else none

/-! ## Random elements; SPOP and SRANDMEMBER with a count

The numbers drawn by `rand()` and `random()` are a parameter `rnd`: the draw of
the `i`-th iteration of a loop is `rnd i`. -/

/-- Modelled from the spec: `intsetRandom` of `intset.c`, the member at the
position `rand() % length`, `r` being the number drawn.  `none` is the
division by zero for an empty intset. -/
def intsetRandom (is : intset) (r : Nat) : Option Int :=
  if intsetLen is = 0 then none else intsetGet is (r % intsetLen is)

/-- Modelled from the spec: `dictGetRandomKey` of `dict.c`, "samples via
repeated random-bucket probes (handles sparsity) then a random walk along the
chosen bucket's chain": NULL for an empty dictionary, otherwise one of the
entries, after the rehash step every operation piggybacks.  The draws of the
probes and of the walk are summarised by one number `r`, which selects the
entry among those of the two tables. -/
def dictGetRandomKey (d : dict) (r : Nat) : Option dictEntry × dict :=
  if dictSize d = 0 then (none, d)
  else
    let d := if dictIsRehashing d then dictRehashStep d else d
    ((dictEntries d)[r % dictSize d]?, d)

/-- `setTypeRandomElement`: the encoding with `*sdsele` and `*llele`, and the
set, whose dictionary may have done a rehash step.  `none` is the crash on an
empty set. -/
def setTypeRandomElement (setobj : robj) (r : Nat) : Option (Nat × Option sds × Int × robj) :=
  if setobj.encoding = OBJ_ENCODING_HT then
    match setobj.ptr with
    | .dict d =>
      match dictGetRandomKey d r with
      | (none, _) => none
      | (some de, d) =>
        some (setobj.encoding, some de.key, -123456789, { setobj with ptr := .dict d })
    | _ => none
  else if setobj.encoding = OBJ_ENCODING_INTSET then
    match setobj.ptr with
    | .intset is =>
      match intsetRandom is r with
      | none => none
      | some llele => some (setobj.encoding, none, llele, setobj)
    | _ => none
  else none

/-- `SPOP_MOVE_STRATEGY_MUL` of `t_set.c`. -/
def SPOP_MOVE_STRATEGY_MUL : Nat := 5

/-- `SRANDMEMBER_SUB_STRATEGY_MUL` of `t_set.c`. -/
def SRANDMEMBER_SUB_STRATEGY_MUL : Nat := 3

/-- Modelled from the spec: `getLongFromObjectOrReply` of `object.c` for a
string argument and no message: the `long` parsed, or the error reply. -/
def getLongFromObjectOrReply (c : client) (o : sds) : Option Int × client :=
  match string2ll o with
  | some l => (some l, c)
  | none => (none, addReply c .notintegererr)

/-- Modelled from the spec: `lookupKeyReadOrReply` of `db.c`. -/
def lookupKeyReadOrReply (c : client) (key : sds) (reply : replyItem) : Option robj × client :=
  match lookupKeyRead c.db key with
  | none => (none, addReply c reply)
  | some o => (some o, c)

/-- Modelled from the spec: `dbOverwrite` of `db.c`; the key must exist. -/
def dbOverwrite (db : redisDb) (key : sds) (val : robj) : Option redisDb :=
  if (db key).isSome then some (dbStore db key val) else none

/-- A loop of a given number of iterations whose body draws one number: the
iteration of index `i` uses `rnd i`. -/
def randLoop {σ : Type} (body : σ → Nat → Option σ) (rnd : Nat → Nat) : Nat → Nat → σ → Option σ
  | 0, _, s => some s
  | n + 1, i, s =>
    match body s (rnd i) with
    | none => none
    | some s => randLoop body rnd n (i + 1) s

/-- The body of `while(count--)` in case 2 of `spopWithCountCommand`: a random
element is sent and removed from the set. -/
def spopRemoveBody (server : redisServer) (st : client × robj) (r : Nat) :
    Option (client × robj) :=
  match setTypeRandomElement st.2 r with
  | none => none
  | some (encoding, sdsele, llele, set) =>
    if encoding = OBJ_ENCODING_INTSET then
      match set.ptr with
      | .intset is =>
        some (addReply st.1 (.bulk (sdsfromlonglong llele)),
          { set with ptr := .intset (intsetRemove is llele).1 })
      | _ => none
    else
      match sdsele with
      | none => none
      | some ele =>
        match setTypeRemove server set ele with
        | none => none
        | some (_, set) => some (addReply st.1 (.bulk ele), set)

/-- The body of `while(remaining--)` in case 3 of `spopWithCountCommand`, on
the old set and `newset`: a random element is moved to the new set. -/
def spopKeepBody (server : redisServer) (st : robj × Option robj) (r : Nat) :
    Option (robj × Option robj) :=
  match setTypeRandomElement st.1 r with
  | none => none
  | some (encoding, sdsele, llele, set) =>
    match (if encoding = OBJ_ENCODING_INTSET then some (sdsfromlonglong llele) else sdsele) with
    | none => none
    | some ele =>
      match setTypeAdd server (st.2.getD (setTypeCreate server ele)) ele with
      | none => none
      | some (_, newset) =>
        match setTypeRemove server set ele with
        | none => none
        | some (_, set) => some (set, some newset)

/-- The body of the loop of case 3 of `spopWithCountCommand` that sends the
elements left in the old set. -/
def spopReplyBody (c : client) (x : Nat × Option sds × Int) : Option client :=
  if x.1 = OBJ_ENCODING_INTSET then some (addReply c (.bulk (sdsfromlonglong x.2.2)))
  else
    match x.2.1 with
    | none => none
    | some ele => some (addReply c (.bulk ele))

/-- Case 1 of `spopWithCountCommand`: the whole set is sent and the key
deleted. -/
def spopCase1 (server : redisServer) (c : client) (key : sds) : Option client :=
  match sunionDiffGenericCommand server c [key] none SET_OP_UNION with
  | none => none
  | some c => some { c with db := (dbDelete c.db key).2 }

/-- Case 2 of `spopWithCountCommand`: `count` random elements are sent and
removed; the set stays at its key. -/
def spopCase2 (server : redisServer) (rnd : Nat → Nat) (c : client) (key : sds) (set : robj)
    (count : Nat) : Option client :=
  match randLoop (spopRemoveBody server) rnd count 0 (c, set) with
  | none => none
  | some (c, set) => some { c with db := dbStore c.db key set }

/-- Case 3 of `spopWithCountCommand`: `remaining` random elements are moved to
a new set, which replaces the old one at the key; the elements left in the old
set are sent. -/
def spopCase3 (server : redisServer) (rnd : Nat → Nat) (c : client) (key : sds) (set : robj)
    (remaining : Nat) : Option client :=
  match randLoop (spopKeepBody server) rnd remaining 0 (set, none) with
  | none => none
  | some (_, none) => none
  | some (set, some newset) =>
    match dbOverwrite c.db key newset with
    | none => none
    | some db =>
      match setTypeInitIterator set, setTypeSize set with
      | some si, some n => whileNext setTypeNextStep spopReplyBody (n + 1) si { c with db := db }
      | _, _ => none

/-- `spopWithCountCommand`: SPOP with a count, for the key `argv[1]` and the
count `argv[2]`.  `count` is `(unsigned) l`, the low 32 bits; the product of
`unsigned long` is taken modulo `2^64`.  The propagation to the replicas, the
keyspace events and the dirty counter are outside the model. -/
def spopWithCountCommand (server : redisServer) (rnd : Nat → Nat) (c : client)
    (key countArg : sds) : Option client :=
  match getLongFromObjectOrReply c countArg with
  | (none, c) => some c
  | (some l, c) =>
    if 0 ≤ l then
      match lookupKeyReadOrReply c key .emptymultibulk with
      | (none, c) => some c
      | (some set, c) =>
        if (checkType c set OBJ_SET).1 then some (checkType c set OBJ_SET).2
        else if l.toNat % 2 ^ 32 = 0 then some (addReply c .emptymultibulk)
        else
          match setTypeSize set with
          | none => none
          | some size =>
            if size ≤ l.toNat % 2 ^ 32 then spopCase1 server c key
            else if l.toNat % 2 ^ 32
                < ((size - l.toNat % 2 ^ 32) * SPOP_MOVE_STRATEGY_MUL) % 2 ^ 64 then
              spopCase2 server rnd (addReply c (.multibulklen (l.toNat % 2 ^ 32 : Nat))) key set
                (l.toNat % 2 ^ 32)
            else
              spopCase3 server rnd (addReply c (.multibulklen (l.toNat % 2 ^ 32 : Nat))) key set
                (size - l.toNat % 2 ^ 32)
    else some (addReply c .outofrangeerr)

/-- The body of the loop of case 1 of `srandmemberWithCountCommand`: a random
element is sent. -/
def srandRepeatBody (st : client × robj) (r : Nat) : Option (client × robj) :=
  match setTypeRandomElement st.2 r with
  | none => none
  | some (encoding, ele, llele, set) =>
    if encoding = OBJ_ENCODING_INTSET then
      some (addReply st.1 (.bulk (sdsfromlonglong llele)), set)
    else
      match ele with
      | none => none
      | some ele => some (addReply st.1 (.bulk ele), set)

/-- The body of the loop of case 3 of `srandmemberWithCountCommand` that adds
every element of the set to the dictionary; `none` is the failed assertion
`retval == DICT_OK`. -/
def srandCopyBody (server : redisServer) (d : dict) (x : Nat × Option sds × Int) : Option dict :=
  match (if x.1 = OBJ_ENCODING_INTSET then some (sdsfromlonglong x.2.2) else x.2.1) with
  | none => none
  | some ele =>
    match dictAdd server.dict_can_resize d ele none with
    | (retval, d) => if retval = DICT_OK then some d else none

/-- The body of `while(size > count)` in case 3 of
`srandmemberWithCountCommand`: a random entry is deleted. -/
def srandDropBody (d : dict) (r : Nat) : Option dict :=
  match dictGetRandomKey d r with
  | (none, _) => none
  | (some de, d) => some (dictDelete d de.key).2

/-- The loop `while(added < count)` of case 4 of
`srandmemberWithCountCommand`, on the set, the dictionary and `added`; the
index of the draw is `i`.  The first counter bounds the number of iterations:
`none` is also a loop that has not ended within the bound. -/
def srandDrawLoop (server : redisServer) (rnd : Nat → Nat) (count : Nat) :
    Nat → Nat → robj × dict × Nat → Option (robj × dict × Nat)
  | 0, _, st => if st.2.2 < count then none else some st
  | fuel + 1, i, st =>
    if st.2.2 < count then
      match setTypeRandomElement st.1 (rnd i) with
      | none => none
      | some (encoding, ele, llele, set) =>
        match (if encoding = OBJ_ENCODING_INTSET then some (sdsfromlonglong llele) else ele) with
        | none => none
        | some objele =>
          match dictAdd server.dict_can_resize st.2.1 objele none with
          | (ret, d) =>
            srandDrawLoop server rnd count fuel (i + 1)
              (set, d, if ret = DICT_OK then st.2.2 + 1 else st.2.2)
    else some st

/-- The body of the loop that sends the keys of the dictionary:
`addReplyBulk(c,dictGetKey(de))`. -/
def srandReplyBody (c : client) (de : dictEntry) : Option client :=
  some (addReply c (.bulk de.key))

/-- The end of cases 3 and 4 of `srandmemberWithCountCommand`: the length and
the keys of the dictionary are sent. -/
def srandReply (c : client) (count : Nat) (d : dict) : Option client :=
  whileNext dictNext srandReplyBody (dictSize d + 1) (dictGetIterator d)
    (addReply c (.multibulklen (count : Nat)))

/-- Case 1 of `srandmemberWithCountCommand`: `count` random elements, with
repetitions. -/
def srandCase1 (rnd : Nat → Nat) (c : client) (key : sds) (set : robj) (count : Nat) :
    Option client :=
  match randLoop srandRepeatBody rnd count 0 (addReply c (.multibulklen (count : Nat)), set) with
  | none => none
  | some (c, set) => some { c with db := dbStore c.db key set }

/-- Case 3 of `srandmemberWithCountCommand`: all elements are copied to the
dictionary and random ones removed until `count` are left. -/
def srandCase3 (server : redisServer) (rnd : Nat → Nat) (c : client) (set : robj) (d : dict)
    (count size : Nat) : Option client :=
  match setTypeInitIterator set with
  | none => none
  | some si =>
    match whileNext setTypeNextStep (srandCopyBody server) (size + 1) si d with
    | none => none
    | some d =>
      if dictSize d = size then
        match randLoop srandDropBody rnd (size - count) 0 d with
        | none => none
        | some d => srandReply c count d
      else none

/-- Case 4 of `srandmemberWithCountCommand`: random elements are added to the
dictionary until `count` have been added. -/
def srandCase4 (server : redisServer) (rnd : Nat → Nat) (fuel : Nat) (c : client) (key : sds)
    (set : robj) (d : dict) (count : Nat) : Option client :=
  match srandDrawLoop server rnd count fuel 0 (set, d, 0) with
  | none => none
  | some (set, d, _) => srandReply { c with db := dbStore c.db key set } count d

/-- `srandmemberWithCountCommand`: SRANDMEMBER with a count, for the key
`argv[1]` and the count `argv[2]`.  `count` is `(unsigned) l` for `l >= 0` and
`-l` as `unsigned long` otherwise.  The dictionary type
`objectKeyPointerValueDictType` of `server.c` is a parameter, `fuel` the bound
of the loop of case 4. -/
def srandmemberWithCountCommand (server : redisServer)
    (objectKeyPointerValueDictType : dictType) (rnd : Nat → Nat) (fuel : Nat) (c : client)
    (key countArg : sds) : Option client :=
  match getLongFromObjectOrReply c countArg with
  | (none, c) => some c
  | (some l, c) =>
    match lookupKeyReadOrReply c key .emptymultibulk with
    | (none, c) => some c
    | (some set, c) =>
      if (checkType c set OBJ_SET).1 then some (checkType c set OBJ_SET).2
      else
        match setTypeSize set with
        | none => none
        | some size =>
          if (if 0 ≤ l then l.toNat % 2 ^ 32 else (-l).toNat % 2 ^ 64) = 0 then
            some (addReply c .emptymultibulk)
          else if l < 0 then srandCase1 rnd c key set ((-l).toNat % 2 ^ 64)
          else if size ≤ l.toNat % 2 ^ 32 then
            sunionDiffGenericCommand server c [key] none SET_OP_UNION
          else if size < (l.toNat % 2 ^ 32 * SRANDMEMBER_SUB_STRATEGY_MUL) % 2 ^ 64 then
            srandCase3 server rnd c set (dictCreate objectKeyPointerValueDictType)
              (l.toNat % 2 ^ 32) size
          else
            srandCase4 server rnd fuel c key set (dictCreate objectKeyPointerValueDictType)
              (l.toNat % 2 ^ 32)

/-- A keyspace for the random commands: the intset 1..6 at the key "a", the
same set as a hash table at the key "b", the intset {1, 2} at the key "c". -/
def popDb : redisDb := fun k =>
  if k = [97] then some ⟨OBJ_SET, OBJ_ENCODING_INTSET, .intset [1, 2, 3, 4, 5, 6]⟩
  else if k = [98] then
    setTypeConvert exampleServer ⟨OBJ_SET, OBJ_ENCODING_INTSET, .intset [1, 2, 3, 4, 5, 6]⟩
      OBJ_ENCODING_HT
  else if k = [99] then some ⟨OBJ_SET, OBJ_ENCODING_INTSET, .intset [1, 2]⟩
  else none

/-- The draws of the examples: the draw of index `i` is `7 * i + 3`. -/
def exampleDraws (i : Nat) : Nat := i * 7 + 3

/-- What a command run shows: the reply, and the encoding and members of the
set at the key. -/
def replyAndSet (c : Option client) (key : sds) :
    Option (List replyItem × Option (Nat × List sds)) :=
  c.map (fun c => (c.reply, (c.db key).map (fun o => (o.encoding, setMembers o))))

/-! ## `tests/lltostr.c`: the buffer written by `sdsll2str` -/

/-- The loop `while(s < p)` of `sdsll2str`, which reverses the buffer in
place: `s` and `p` are the offsets of the two pointers, `aux` the byte swapped.
The counter bounds the number of iterations. -/
def sdsll2strReverse : Nat → List Nat → Nat → Nat → List Nat
  | 0, buf, _, _ => buf
  | fuel + 1, buf, s, p =>
    if s < p then
      let aux := buf.getD s 0
      let buf := buf.set s (buf.getD p 0)
      let buf := buf.set p aux
      sdsll2strReverse fuel buf (s + 1) (p - 1)
    else buf

/-- `sdsll2str` of `tests/lltostr.c` on the buffer `s`: the bytes written, the
terminator included, and the returned length `l`.  The digits are written
least significant first, then the sign, then the terminator at the offset `l`,
and the first `l` bytes are reversed in place. -/
def sdsll2strBuffer (value : Int) : List Nat × Nat :=
  let v : Nat := (if value < 0 then -value else value).toNat % 2 ^ 64
  let p := sdsll2strLoop 20 v
  let p := if value < 0 then p ++ [45] else p
  let l := p.length
  (sdsll2strReverse l (p ++ [0]) 0 (l - 1), l)

/-- The canonical decimal representation of an integer: `0` for zero, else the
decimal digits of the magnitude, most significant first and without leading
zeros, after a `'-'` for a negative value. -/
def canonicalDecimal (value : Int) : List Nat :=
  if value < 0 then 45 :: decStr (-value).toNat
  else if value = 0 then [48]
  else decStr value.toNat

/-! ## `tests/sdstrim.c`

A pointer into the buffer is its offset from `s`; `end` and `ep` may be the
offset -1 of an empty string. -/

/-- Modelled from the spec: `strchr` of the C library, as the test made of its
result: the pointer returned is not NULL when the byte occurs in the string
`cset`, whose terminator counts as part of the string. -/
def strchr (cset : List Nat) (c : Nat) : Bool := decide (c = 0 ∨ c ∈ cset)

/-- Modelled from the spec: `strlen` of the C library, the number of bytes
before the first NUL of the buffer. -/
def strlen (buf : List Nat) : Nat := (buf.takeWhile (fun c => decide (c ≠ 0))).length

/-- The C string a buffer holds: the bytes before the first NUL. -/
def cstr (buf : List Nat) : List Nat := buf.takeWhile (fun c => decide (c ≠ 0))

/-- The loop `while(sp <= end && strchr(cset, *sp)) sp++` of `sdstrim` and
`str_trim`; the counter bounds the number of iterations. -/
def trimStartLoop (buf cset : List Nat) (endi : Int) : Nat → Int → Int
  | 0, sp => sp
  | fuel + 1, sp =>
    if sp ≤ endi ∧ strchr cset (buf.getD sp.toNat 0) = true then
      trimStartLoop buf cset endi fuel (sp + 1)
    else sp

/-- The loop `while(ep > sp && strchr(cset, *ep)) ep--` of `sdstrim` and
`str_trim`; the counter bounds the number of iterations. -/
def trimEndLoop (buf cset : List Nat) (sp : Int) : Nat → Int → Int
  | 0, ep => ep
  | fuel + 1, ep =>
    if ep > sp ∧ strchr cset (buf.getD ep.toNat 0) = true then
      trimEndLoop buf cset sp fuel (ep - 1)
    else ep

/-- `sdstrim` of `tests/sdstrim.c`: the string left in `s`, whose length field
is set to `len`.  The `len` bytes from `sp` on are moved to the start of the
buffer and the terminator is written after them. -/
def sdstrim (s : sds) (cset : List Nat) : sds :=
  let endi : Int := (sdslen s : Int) - 1
  let sp := trimStartLoop s cset endi (sdslen s + 1) 0
  let ep := trimEndLoop s cset sp (sdslen s + 1) endi
  let len : Nat := if sp > ep then 0 else (ep - sp + 1).toNat
  (s.drop sp.toNat).take len

/-- `str_trim` of `tests/sdstrim.c` on a buffer holding a C string: the buffer
after `memmove` and `s[len] = 0`. -/
def str_trim (buf : List Nat) (cset : List Nat) : List Nat :=
  let endi : Int := (strlen buf : Int) - 1
  let sp := trimStartLoop buf cset endi (strlen buf + 1) 0
  let ep := trimEndLoop buf cset sp (strlen buf + 1) endi
  let len : Nat := if sp > ep then 0 else (ep - sp + 1).toNat
  let buf := if sp ≠ 0 then (buf.drop sp.toNat).take len ++ buf.drop len else buf
  buf.set len 0

/-- The trimmed string as the claim words it: the string without its longest
prefix and its longest suffix of bytes of `cset`. -/
def trimSpec (s cset : List Nat) : List Nat :=
  (s.dropWhile (fun c => decide (c ∈ cset))).rdropWhile (fun c => decide (c ∈ cset))

/-- The string of the example of `tests/sdstrim.c`,
"AA...AA.a.aa.aHelloWorld     :::". -/
def trimExample : List Nat :=
  [65, 65, 46, 46, 46, 65, 65, 46, 97, 46, 97, 97, 46, 97, 72, 101, 108, 108, 111, 87, 111, 114,
    108, 100, 32, 32, 32, 32, 32, 58, 58, 58]

/-! ## Examples and counts for the strategy choices -/

/-- A keyspace for the choice of the DIFF algorithm: the intset 1..10 at the
key "a", {1} at "b" and {2} at "c". -/
def workDb : redisDb := fun k =>
  if k = [97] then some ⟨OBJ_SET, OBJ_ENCODING_INTSET, .intset (intRange 1 10)⟩
  else if k = [98] then some ⟨OBJ_SET, OBJ_ENCODING_INTSET, .intset [1]⟩
  else if k = [99] then some ⟨OBJ_SET, OBJ_ENCODING_INTSET, .intset [2]⟩
  else none

/-- The number of entries of `sets` that are not NULL. -/
def setsExisting (sets : List (Option sds)) : Nat := (sets.filterMap id).length

/-- The sum of the sizes of the sets of `sets` that are not NULL. -/
def setsTotal (db : redisDb) (sets : List (Option sds)) : Nat :=
  ((sets.filterMap id).map (fun k => (dbMembers db k).length)).sum

/-- A keyspace with a set at the key "d", a hash at the key "h" and nothing at
the key "m". -/
def mixedDb : redisDb := fun k =>
  if k = [100] then some ⟨OBJ_SET, OBJ_ENCODING_INTSET, .intset [1, 2, 3]⟩
  else if k = [104] then some exampleHash
  else if k = [115] then some ⟨OBJ_SET, OBJ_ENCODING_INTSET, .intset [2, 3]⟩
  else none

/-- What a command run shows at a key: the reply, and whether the key holds a
value, with the members if it is a set. -/
def replyAndKey (c : Option client) (key : sds) :
    Option (List replyItem × Option (Nat × List sds)) :=
  c.map (fun c => (c.reply, (c.db key).map (fun o => (o.type, setMembers o))))

/-! ## Sequences of calls on a hash; HKEYS, HVALS and HGETALL -/

/-- A call of `hashTypeSet` or of `hashTypeDelete`. -/
inductive hashCall where
  | set (field value : sds) (flags : Nat)
  | delete (field : sds)
  deriving DecidableEq, Repr

/-- The hash after a sequence of calls of `hashTypeSet` and `hashTypeDelete`;
`none` when a call fails. -/
def hashTypeRun (server : redisServer) : robj → List hashCall → Option robj
  | o, [] => some o
  | o, .set field value flags :: calls =>
    match hashTypeSet server o field value flags with
    | none => none
    | some (_, o) => hashTypeRun server o calls
  | o, .delete field :: calls =>
    match hashTypeDelete server o field with
    | none => none
    | some (_, o) => hashTypeRun server o calls

/-- The map from fields to values a sequence of calls builds, as a list of
pairs with distinct fields. -/
def hashModelRun : List (sds × sds) → List hashCall → List (sds × sds)
  | m, [] => m
  | m, .set field value _ :: calls =>
    hashModelRun ((field, value) :: m.filter (fun p => decide (p.1 ≠ field))) calls
  | m, .delete field :: calls =>
    hashModelRun (m.filter (fun p => decide (p.1 ≠ field))) calls

/-- `addHashIteratorCursorToReply` of `t_hash.c`: the field or the value at
the iterator position is sent as a bulk, a number as its decimal string. -/
def addHashIteratorCursorToReply (c : client) (hi : hashTypeIterator) (what : Nat) :
    Option client :=
  if hi.encoding = OBJ_ENCODING_ZIPLIST then
    match hashTypeCurrentFromZiplist hi what with
    | none => none
    | some (.str vstr) => some (addReply c (.bulk vstr))
    | some (.int vll) => some (addReply c (.bulk (sdsfromlonglong vll)))
  else if hi.encoding = OBJ_ENCODING_HT then
    match hashTypeCurrentFromHashTable hi what with
    | some (some value) => some (addReply c (.bulk value))
    | _ => none
  else none

/-- The body of the loop of `genericHgetallCommand`, on the client and
`count`. -/
def genericHgetallBody (flags : Nat) (st : client × Nat) (hi : hashTypeIterator) :
    Option (client × Nat) :=
  let st1 : Option (client × Nat) :=
    if flags &&& OBJ_HASH_KEY ≠ 0 then
      (addHashIteratorCursorToReply st.1 hi OBJ_HASH_KEY).map (fun c => (c, st.2 + 1))
    else some st
  match st1 with
  | none => none
  | some st =>
    if flags &&& OBJ_HASH_VALUE ≠ 0 then
      (addHashIteratorCursorToReply st.1 hi OBJ_HASH_VALUE).map (fun c => (c, st.2 + 1))
    else some st

/-- `genericHgetallCommand` of `t_hash.c`, for the key `argv[1]`.  `length`
and `count` are `int`: `length` is the product converted, `count` the number
of increments, compared as `int` by the final assertion, whose failure is
`none`. -/
def genericHgetallCommand (c : client) (key : sds) (flags : Nat) : Option client :=
  match lookupKeyReadOrReply c key .emptymultibulk with
  | (none, c) => some c
  | (some o, c) =>
    if (checkType c o OBJ_HASH).1 then some (checkType c o OBJ_HASH).2
    else
      let multiplier : Nat :=
        (if flags &&& OBJ_HASH_KEY ≠ 0 then 1 else 0)
          + (if flags &&& OBJ_HASH_VALUE ≠ 0 then 1 else 0)
      match hashTypeLength o with
      | none => none
      | some n =>
        let length : Int := ulongToInt (n * multiplier)
        match hashTypeInitIterator o with
        | none => none
        | some hi =>
          match whileNext hashTypeNextStep (genericHgetallBody flags) (n + 1) hi
              (addReply c (.multibulklen length), 0) with
          | none => none
          | some (c, count) => if ulongToInt count = length then some c else none

/-- What HKEYS, HVALS and HGETALL send for a (field, value) pair. -/
def hgetallItems (flags : Nat) (p : sds × sds) : List replyItem :=
  (if flags &&& OBJ_HASH_KEY ≠ 0 then [.bulk p.1] else [])
    ++ (if flags &&& OBJ_HASH_VALUE ≠ 0 then [.bulk p.2] else [])

/-- The number of items sent for a pair. -/
def hgetallMultiplier (flags : Nat) : Nat :=
  (if flags &&& OBJ_HASH_KEY ≠ 0 then 1 else 0) + (if flags &&& OBJ_HASH_VALUE ≠ 0 then 1 else 0)

/-- A keyspace with the example hash at the key "h" and the same hash, hash
table encoded, at the key "t". -/
def hashDb : redisDb := fun k =>
  if k = [104] then some exampleHash
  else if k = [116] then hashTypeConvert exampleServer exampleHash OBJ_ENCODING_HT
  else none

/-! ## Sequences of operations on a dictionary -/

/-- An operation on a dictionary: an insertion, a deletion, a lookup or a
call `dictRehash(d,n)`. -/
inductive dictCall where
  | add (key : sds) (val : Option sds)
  | delete (key : sds)
  | find (key : sds)
  | rehash (n : Nat)
  deriving DecidableEq, Repr

/-- The dictionary after a sequence of operations, the return values
dropped. -/
def dictRun (can_resize : Bool) : dict → List dictCall → dict
  | d, [] => d
  | d, .add key val :: calls => dictRun can_resize (dictAdd can_resize d key val).2 calls
  | d, .delete key :: calls => dictRun can_resize (dictDelete d key).2 calls
  | d, .find key :: calls => dictRun can_resize (dictFind d key).2 calls
  | d, .rehash n :: calls => dictRun can_resize (dictRehash d n).2 calls

/-- The keys a sequence of operations leaves: an insertion adds a key that is
not there, a deletion removes the key, lookups and rehash steps change
nothing. -/
def dictModelRun : List sds → List dictCall → List sds
  | m, [] => m
  | m, .add key _ :: calls => dictModelRun (if key ∈ m then m else key :: m) calls
  | m, .delete key :: calls => dictModelRun (m.filter (fun k => decide (k ≠ key))) calls
  | m, .find _ :: calls => dictModelRun m calls
  | m, .rehash _ :: calls => dictModelRun m calls

/-- What is seen of a dictionary: the cursor, the counters of the two tables
and the keys found among those given. -/
def dictView (d : dict) (keys : List sds) : Int × Nat × Nat × List Bool :=
  (d.rehashidx, d.ht0.used, d.ht1.used, keys.map (fun k => (dictFind d k).1.isSome))


/-! ## Examples for the count argument of SPOP and SRANDMEMBER -/

/-- The count argument "4294967296", the decimal string of 2^32. -/
def countTwoPow32 : sds := [52, 50, 57, 52, 57, 54, 55, 50, 57, 54]

/-- The count argument "4294967297", the decimal string of 2^32 + 1. -/
def countTwoPow32Succ : sds := [52, 50, 57, 52, 57, 54, 55, 50, 57, 55]

/-! ## HINCRBY -/

/-- `HASH_SET_TAKE_VALUE` of `server.h`: the value string is handed over to
`hashTypeSet`. -/
def HASH_SET_TAKE_VALUE : Nat := 2

/-- Modelled from the spec: `getLongLongFromObjectOrReply` of `object.c` for a
string argument and no message: the `long long` parsed, or the error reply. -/
def getLongLongFromObjectOrReply (c : client) (o : sds) : Option Int × client :=
  match string2ll o with
  | some l => (some l, c)
  | none => (none, addReply c .notintegererr)

/-- Modelled from the spec: `lookupKeyWriteOrReply` of `db.c`. -/
def lookupKeyWriteOrReply (c : client) (key : sds) (reply : replyItem) : Option robj × client :=
  match lookupKeyWrite c.db key with
  | none => (none, addReply c reply)
  | some o => (some o, c)

/-- `hashTypeLookupWriteOrCreate`: the hash at the key, created empty when the
key is missing; NULL with the wrong-type error for a value of another type.
`none` is the failed assertion of `dbAdd`. -/
def hashTypeLookupWriteOrCreate (c : client) (key : sds) : Option (Option robj × client) :=
  match lookupKeyWrite c.db key with
  | none =>
    match dbAdd c.db key createHashObject with
    | none => none
    | some db => some (some createHashObject, { c with db := db })
  | some o =>
    if o.type ≠ OBJ_HASH then some (none, addReply c .wrongtypeerr)
    else some (some o, c)

/-- The result of an operation on `long long`: `none` when the mathematical
result is not representable, which is undefined behaviour in C. -/
def llResult (x : Int) : Option Int :=
  if LLONG_MIN ≤ x ∧ x ≤ LLONG_MAX then some x else none

/-- The overflow test of `hincrbyCommand`,
`(incr < 0 && oldvalue < 0 && incr < (LLONG_MIN-oldvalue)) ||
 (incr > 0 && oldvalue > 0 && incr > (LLONG_MAX-oldvalue))`, with the
short-circuit evaluation of C: a subtraction is evaluated only when the two
comparisons before it hold.  `none` is a subtraction that overflows. -/
def hincrbyOverflow (incr oldvalue : Int) : Option Bool :=
  let low : Option Bool :=
    if incr < 0 ∧ oldvalue < 0 then
      (llResult (LLONG_MIN - oldvalue)).map (fun m => decide (incr < m))
    else some false
  match low with
  | none => none
  | some true => some true
  | some false =>
    if incr > 0 ∧ oldvalue > 0 then
      (llResult (LLONG_MAX - oldvalue)).map (fun m => decide (incr > m))
    else some false

/-- The part of `hincrbyCommand` that reads the old value: `value` after the
call of `hashTypeGetValue` and of `string2ll`.  The outer `none` is a crash,
the inner one the reply "hash value is not an integer". -/
def hincrbyOldValue (r : Int) (v : Option zlentry) : Option (Option Int) :=
  if r = C_OK then
    match v with
    | some (.str vstr) => some (string2ll vstr)
    | some (.int vll) => some (some vll)
    | none => none
  else some (some 0)

/-- The part of `hincrbyCommand` that follows the lookup of the hash `o`: the
old value is read, the overflow test made, and the sum stored and sent.  The
object the lookups went through stays at the key. -/
def hincrbyApply (server : redisServer) (c : client) (key field : sds) (incr : Int) (o : robj) :
    Option client :=
  match hashTypeGetValue o field with
  | none => none
  | some (r, v, o) =>
    let c : client := { c with db := dbStore c.db key o }
    match hincrbyOldValue r v with
    | none => none
    | some none => some (addReply c (.error "hash value is not an integer"))
    | some (some oldvalue) =>
      match hincrbyOverflow incr oldvalue with
      | none => none
      | some true => some (addReply c (.error "increment or decrement would overflow"))
      | some false =>
        match llResult (oldvalue + incr) with
        | none => none
        | some value =>
          match hashTypeSet server o field (sdsfromlonglong value) HASH_SET_TAKE_VALUE with
          | none => none
          | some (_, o) =>
            some (addReply { c with db := dbStore c.db key o } (.longlong value))

/-- `hincrbyCommand`: HINCRBY for the key `argv[1]`, the field `argv[2]` and
the increment `argv[3]`.  The notification of keyspace events, the signalling
of modified keys and the dirty counter are outside the model. -/
def hincrbyCommand (server : redisServer) (c : client) (key field incrArg : sds) :
    Option client :=
  match getLongLongFromObjectOrReply c incrArg with
  | (none, c) => some c
  | (some incr, c) =>
    match hashTypeLookupWriteOrCreate c key with
    | none => none
    | some (none, c) => some c
    | some (some o, c) => hincrbyApply server c key field incr o

/-- The integer HINCRBY reads from a hash: the value of the field read as a
decimal number, 0 when the field is missing; `none` when the value is not the
decimal string of a 64-bit integer. -/
def hincrbyRead (o : robj) (field : sds) : Option Int :=
  match pairsLookup (hashPairs o) field with
  | none => some 0
  | some s => string2ll s

/-- The integer HINCRBY starts from: the current integer value of the field, 0
when the key or the field is missing. -/
def hincrbyStart (db : redisDb) (key field : sds) : Option Int :=
  match db key with
  | none => some 0
  | some o => hincrbyRead o field

/-- The (field, value) pairs of the value at a key, none for a missing key. -/
def dbPairs (db : redisDb) (key : sds) : List (sds × sds) :=
  match db key with
  | none => []
  | some o => hashPairs o

/-- Whether a reply item is an error reply. -/
def replyItem.isError : replyItem → Bool
  | .wrongtypeerr => true
  | .outofrangeerr => true
  | .notintegererr => true
  | .syntaxerr => true
  | .error _ => true
  | _ => false

/-! ## HDEL, SREM, SMOVE and SPOP -/

/-- The loop of `hdelCommand` over the fields `argv[2..]`, on the hash,
`deleted` and `keyremoved`: the loop ends at the first deletion that leaves
the hash empty. -/
def hdelLoop (server : redisServer) : List sds → robj × Int × Bool → Option (robj × Int × Bool)
  | [], st => some st
  | field :: fields, (o, deleted, keyremoved) =>
    match hashTypeDelete server o field with
    | none => none
    | some (r, o) =>
      if r ≠ 0 then
        match hashTypeLength o with
        | none => none
        | some len =>
          if len = 0 then some (o, deleted + 1, true)
          else hdelLoop server fields (o, deleted + 1, keyremoved)
      else hdelLoop server fields (o, deleted, keyremoved)

/-- `hdelCommand`: HDEL for the key `argv[1]` and the fields `argv[2..]`.
`dbDelete` is called inside the loop, when the hash becomes empty. -/
def hdelCommand (server : redisServer) (c : client) (key : sds) (fields : List sds) :
    Option client :=
  match lookupKeyWriteOrReply c key .czero with
  | (none, c) => some c
  | (some o, c) =>
    if (checkType c o OBJ_HASH).1 then some (checkType c o OBJ_HASH).2
    else
      match hdelLoop server fields (o, 0, false) with
      | none => none
      | some (o, deleted, keyremoved) =>
        let db := if keyremoved then (dbDelete (dbStore c.db key o) key).2
                  else dbStore c.db key o
        some (addReply { c with db := db } (.longlong deleted))

/-- The loop of `sremCommand` over the members `argv[2..]`, on the set,
`deleted` and `keyremoved`. -/
def sremLoop (server : redisServer) : List sds → robj × Int × Bool → Option (robj × Int × Bool)
  | [], st => some st
  | ele :: eles, (set, deleted, keyremoved) =>
    match setTypeRemove server set ele with
    | none => none
    | some (r, set) =>
      if r ≠ 0 then
        match setTypeSize set with
        | none => none
        | some size =>
          if size = 0 then some (set, deleted + 1, true)
          else sremLoop server eles (set, deleted + 1, keyremoved)
      else sremLoop server eles (set, deleted, keyremoved)

/-- `sremCommand`: SREM for the key `argv[1]` and the members `argv[2..]`. -/
def sremCommand (server : redisServer) (c : client) (key : sds) (eles : List sds) :
    Option client :=
  match lookupKeyWriteOrReply c key .czero with
  | (none, c) => some c
  | (some set, c) =>
    if (checkType c set OBJ_SET).1 then some (checkType c set OBJ_SET).2
    else
      match sremLoop server eles (set, 0, false) with
      | none => none
      | some (set, deleted, keyremoved) =>
        let db := if keyremoved then (dbDelete (dbStore c.db key set) key).2
                  else dbStore c.db key set
        some (addReply { c with db := db } (.longlong deleted))

/-- The end of `smoveCommand`, after the element has been removed from the
source set: the source key is deleted when its set is empty, the destination
set is created when missing and the element added to it. -/
def smoveAdd (server : redisServer) (c : client) (src dst ele : sds) (srcset : robj)
    (dstset : Option robj) : Option client :=
  match setTypeSize srcset with
  | none => none
  | some size =>
    let db := if size = 0 then (dbDelete (dbStore c.db src srcset) src).2
              else dbStore c.db src srcset
    let created : Option (robj × redisDb) :=
      match dstset with
      | some d => some (d, db)
      | none => (dbAdd db dst (setTypeCreate server ele)).map
          (fun db => (setTypeCreate server ele, db))
    match created with
    | none => none
    | some (dstset, db) =>
      match setTypeAdd server dstset ele with
      | none => none
      | some (_, dstset) => some (addReply { c with db := dbStore db dst dstset } .cone)

/-- The part of `smoveCommand` that follows the type checks: when the two sets
are the same object the reply tells whether the element is a member, otherwise
the element is removed from the source set and added to the destination set.
`srcset == dstset` is the equality of the keys. -/
def smoveMove (server : redisServer) (c : client) (src dst ele : sds) (srcset : robj)
    (dstset : Option robj) : Option client :=
  if src = dst then
    match setTypeIsMember srcset ele with
    | none => none
    | some (r, srcset) =>
      some (addReply { c with db := dbStore c.db src srcset } (if r ≠ 0 then .cone else .czero))
  else
    match setTypeRemove server srcset ele with
    | none => none
    | some (r, srcset) =>
      if r = 0 then some (addReply { c with db := dbStore c.db src srcset } .czero)
      else smoveAdd server c src dst ele srcset dstset

/-- `smoveCommand`: SMOVE of the member `argv[3]` from the set at `argv[1]` to
the set at `argv[2]`. -/
def smoveCommand (server : redisServer) (c : client) (src dst ele : sds) : Option client :=
  match lookupKeyWrite c.db src, lookupKeyWrite c.db dst with
  | none, _ => some (addReply c .czero)
  | some srcset, dstset =>
    if (checkType c srcset OBJ_SET).1 then some (checkType c srcset OBJ_SET).2
    else
      match dstset with
      | some d =>
        if (checkType c d OBJ_SET).1 then some (checkType c d OBJ_SET).2
        else smoveMove server c src dst ele srcset dstset
      | none => smoveMove server c src dst ele srcset dstset

/-- The removal of a random element in `spopCommand`: the element with the
set it has been removed from. -/
def spopRemoveRandom (server : redisServer) (set : robj) (r : Nat) : Option (sds × robj) :=
  match setTypeRandomElement set r with
  | none => none
  | some (encoding, sdsele, llele, set) =>
    if encoding = OBJ_ENCODING_INTSET then
      match set.ptr with
      | .intset is =>
        some (sdsfromlonglong llele, { set with ptr := .intset (intsetRemove is llele).1 })
      | _ => none
    else
      match sdsele with
      | none => none
      | some ele =>
        match setTypeRemove server set ele with
        | none => none
        | some (_, set) => some (ele, set)

/-- `spopCommand`: SPOP for the key `argv[1]`; `args` are the arguments after
the key.  With one argument the command is `spopWithCountCommand`, with more
a syntax error. -/
def spopCommand (server : redisServer) (rnd : Nat → Nat) (c : client) (key : sds)
    (args : List sds) : Option client :=
  match args with
  | [countArg] => spopWithCountCommand server rnd c key countArg
  | _ :: _ :: _ => some (addReply c .syntaxerr)
  | [] =>
    match lookupKeyWriteOrReply c key .nullbulk with
    | (none, c) => some c
    | (some set, c) =>
      if (checkType c set OBJ_SET).1 then some (checkType c set OBJ_SET).2
      else
        match spopRemoveRandom server set (rnd 0) with
        | none => none
        | some (ele, set) =>
          match setTypeSize set with
          | none => none
          | some size =>
            let db := if size = 0 then (dbDelete (dbStore c.db key set) key).2
                      else dbStore c.db key set
            some (addReply { c with db := db } (.bulk ele))

/-- The ziplist encoded hash whose field "n" holds the number LLONG_MAX and
whose field "s" holds the string "x". -/
def limitHash : robj :=
  ⟨OBJ_HASH, OBJ_ENCODING_ZIPLIST,
    .ziplist [.str [110], .int 9223372036854775807, .str [115], .str [120]]⟩

/-- A keyspace with the hash `limitHash` at the key "h". -/
def limitDb : redisDb := fun k => if k = [104] then some limitHash else none

/-- What a command run on a hash shows: the reply, the encoding of the value at
the key and its (field, value) pairs. -/
def replyAndHash (c : Option client) (key : sds) :
    Option (List replyItem × Option Nat × List (sds × sds)) :=
  c.map (fun c => (c.reply, (c.db key).map (·.encoding), dbPairs c.db key))

/-- The key holds a valid hash with the pairs `R`, or nothing when `R` is
empty. -/
def keyHoldsHash (db : redisDb) (key : sds) (R : List (sds × sds)) : Prop :=
  (R = [] → db key = none) ∧
  (R ≠ [] → ∃ o, db key = some o ∧ o.type = OBJ_HASH ∧ hashValid o ∧ (hashPairs o).Perm R)

/-- The key holds a valid set with the members `R`, or nothing when `R` is
empty. -/
def keyHoldsSet (db : redisDb) (key : sds) (R : List sds) : Prop :=
  (R = [] → db key = none) ∧
  (R ≠ [] → ∃ o, db key = some o ∧ setValid o ∧ (setMembers o).Perm R)

/-! ## The order of the fields of a ziplist encoded hash -/

/-- The pairs after a field is set, in insertion order: the value of an
existing field is replaced where the field stands, a new field is appended
with its value. -/
def pairsSet (m : List (sds × sds)) (field value : sds) : List (sds × sds) :=
  if field ∈ m.map (·.1) then m.map (fun p => if p.1 = field then (field, value) else p)
  else m ++ [(field, value)]

/-- The pairs after a field is deleted: the other pairs, in their order. -/
def pairsDelete (m : List (sds × sds)) (field : sds) : List (sds × sds) :=
  m.filter (fun p => decide (p.1 ≠ field))

/-- The pairs a sequence of calls builds, in insertion order. -/
def hashOrderRun : List (sds × sds) → List hashCall → List (sds × sds)
  | m, [] => m
  | m, .set field value _ :: calls => hashOrderRun (pairsSet m field value) calls
  | m, .delete field :: calls => hashOrderRun (pairsDelete m field) calls

/-- The fields and values `hashTypeNext` visits, read at each position with
`hashTypeCurrentObjectNewSds`; `none` when the iteration fails or does not end
within `fuel` steps. -/
def hashTypeVisit : Nat → hashTypeIterator → Option (List (Option sds × Option sds))
  | 0, _ => none
  | fuel + 1, hi =>
    match hashTypeNext hi with
    | none => none
    | some (r, hi) =>
      if r = C_ERR then some []
      else
        (hashTypeVisit fuel hi).map (fun l =>
          (hashTypeCurrentObjectNewSds hi OBJ_HASH_KEY,
            hashTypeCurrentObjectNewSds hi OBJ_HASH_VALUE) :: l)

/-- The fields and values visited by an iteration over the whole hash. -/
def hashTypeVisitAll (o : robj) : Option (List (Option sds × Option sds)) :=
  match hashTypeInitIterator o, hashTypeLength o with
  | some hi, some len => hashTypeVisit (len + 1) hi
  | _, _ => none

/-- An example sequence of calls: the fields "a", "b", "c" are set, "a" is set
again, "b" is deleted and then set again. -/
def orderCalls : List hashCall :=
  [.set [97] [49] 0, .set [98] [50] 0, .set [99] [51] 0, .set [97] [57] 0, .delete [98],
    .set [98] [55] 0]

/-! ## `tests/sdstrim.c`: the header of an sds string -/

/-- `SDS_TYPE_5` of `tests/sdstrim.c`. -/
def SDS_TYPE_5 : Nat := 0

/-- `SDS_TYPE_8`. -/
def SDS_TYPE_8 : Nat := 1

/-- `SDS_TYPE_16`. -/
def SDS_TYPE_16 : Nat := 2

/-- `SDS_TYPE_32`. -/
def SDS_TYPE_32 : Nat := 3

/-- `SDS_TYPE_64`. -/
def SDS_TYPE_64 : Nat := 4

/-- `SDS_TYPE_MASK`. -/
def SDS_TYPE_MASK : Nat := 7

/-- `SDS_TYPE_BITS`. -/
def SDS_TYPE_BITS : Nat := 3

/-- `SDS_TYPE_5_LEN(f)`: `(f) >> SDS_TYPE_BITS`. -/
def SDS_TYPE_5_LEN (f : Nat) : Nat := f >>> SDS_TYPE_BITS

/-- An sds string with the header before it: `flags` is the byte `s[-1]`, `len`
and `alloc` are the fields of `struct sdshdr8`, `sdshdr16`, `sdshdr32` or
`sdshdr64` (a type 5 header has none, they are 0), and `buf` holds the bytes
`s[0..]` of the block allocated. -/
structure sdshdr where
  flags : Nat
  len : Nat
  alloc : Nat
  buf : List Nat
  deriving DecidableEq, Repr

/-- The number of bits of the fields `len` and `alloc` of the header of a
type: `uint8_t`, `uint16_t`, `uint32_t`, `uint64_t`. -/
def sdsFieldBits (type : Nat) : Nat :=
  if type = SDS_TYPE_8 then 8
  else if type = SDS_TYPE_16 then 16
  else if type = SDS_TYPE_32 then 32
  else 64

/-- `sdslen` of `tests/sdstrim.c`, on the string with its header. -/
def sdshdr.sdslen (s : sdshdr) : Nat :=
  let flags := s.flags
  if flags &&& SDS_TYPE_MASK = SDS_TYPE_5 then SDS_TYPE_5_LEN flags
  else if flags &&& SDS_TYPE_MASK = SDS_TYPE_8 then s.len
  else if flags &&& SDS_TYPE_MASK = SDS_TYPE_16 then s.len
  else if flags &&& SDS_TYPE_MASK = SDS_TYPE_32 then s.len
  else if flags &&& SDS_TYPE_MASK = SDS_TYPE_64 then s.len
  else 0

/-- `sdssetlen`: the length is written to the flags byte of a type 5 string
(an `unsigned char`, so modulo 256) and to the field `len` of the other
types, modulo the width of the field. -/
def sdshdr.sdssetlen (s : sdshdr) (newlen : Nat) : sdshdr :=
  let flags := s.flags
  if flags &&& SDS_TYPE_MASK = SDS_TYPE_5 then
    { s with flags := (SDS_TYPE_5 ||| (newlen <<< SDS_TYPE_BITS) % 2 ^ 64) % 256 }
  else if flags &&& SDS_TYPE_MASK = SDS_TYPE_8 then { s with len := newlen % 2 ^ 8 }
  else if flags &&& SDS_TYPE_MASK = SDS_TYPE_16 then { s with len := newlen % 2 ^ 16 }
  else if flags &&& SDS_TYPE_MASK = SDS_TYPE_32 then { s with len := newlen % 2 ^ 32 }
  else if flags &&& SDS_TYPE_MASK = SDS_TYPE_64 then { s with len := newlen % 2 ^ 64 }
  else s

/-- `sdsHdrSize`: the size of the packed header of a type. -/
def sdsHdrSize (type : Nat) : Nat :=
  if type &&& SDS_TYPE_MASK = SDS_TYPE_5 then 1
  else if type &&& SDS_TYPE_MASK = SDS_TYPE_8 then 3
  else if type &&& SDS_TYPE_MASK = SDS_TYPE_16 then 5
  else if type &&& SDS_TYPE_MASK = SDS_TYPE_32 then 9
  else if type &&& SDS_TYPE_MASK = SDS_TYPE_64 then 17
  else 0

/-- `sdsReqType`: the header type for a string of the given size. -/
def sdsReqType (string_size : Nat) : Nat :=
  if string_size < 32 then SDS_TYPE_5
  else if string_size < 0xff then SDS_TYPE_8
  else if string_size < 0xffff then SDS_TYPE_16
  else if string_size < 0xffffffff then SDS_TYPE_32
  else SDS_TYPE_64

/-- The bytes `sdsnewlen` leaves in `s[0..initlen-1]`: zero from `memset` when
`init` is NULL, otherwise the `initlen` bytes copied from `init`; `none` when
`init` is shorter than `initlen`. -/
def sdsInitBytes (init : Option (List Nat)) (initlen : Nat) : Option (List Nat) :=
  match init with
  | none => some (List.replicate initlen 0)
  | some l => if initlen ≤ l.length then some (l.take initlen) else none

/-- The part of `sdsnewlen` that follows the choice of the header type.  The
block asked from `s_malloc` has `hdrlen+initlen+1` bytes, a sum of `size_t`
taken modulo `2^64`; `s_malloc` tells whether the allocation of a block of so
many bytes succeeds, and when it fails `sdsnewlen` returns NULL: `some none`.
The outer `none` is undefined behaviour: a block too small for the bytes
written (the sum wrapped around) or an `init` shorter than `initlen`. -/
def sdsnewlenWith (s_malloc : Nat → Bool) (type : Nat) (init : Option (List Nat))
    (initlen : Nat) : Option (Option sdshdr) :=
  let hdrlen := sdsHdrSize type
  let size := (hdrlen + initlen + 1) % 2 ^ 64
  if s_malloc size = false then some none
  else if size < hdrlen + initlen + 1 then none
  else
    match sdsInitBytes init initlen with
    | none => none
    | some bytes =>
      if type = SDS_TYPE_5 then
        some (some ⟨(type ||| (initlen <<< SDS_TYPE_BITS) % 2 ^ 64) % 256, 0, 0, bytes ++ [0]⟩)
      else
        some (some ⟨type, initlen % 2 ^ sdsFieldBits type, initlen % 2 ^ sdsFieldBits type,
          bytes ++ [0]⟩)

/-- `sdsnewlen`: a new string of `initlen` bytes, copied from `init` or zero
when `init` is NULL, or NULL when `s_malloc` returns NULL; `initlen` is a
`size_t`.  An empty string gets a type 8 header. -/
def sdsnewlen (s_malloc : Nat → Bool) (init : Option (List Nat)) (initlen : Nat) :
    Option (Option sdshdr) :=
  sdsnewlenWith s_malloc
    (if sdsReqType initlen = SDS_TYPE_5 ∧ initlen = 0 then SDS_TYPE_8 else sdsReqType initlen)
    init initlen

/-- The header type of the strings of a length: type 5 for 0 < n < 32, type 8
for n < 255, type 16 for n < 65535, type 32 for n < 2^32 - 1, else type 64. -/
def sdsTypeFor (n : Nat) : Nat :=
  if 0 < n ∧ n < 32 then SDS_TYPE_5
  else if n < 255 then SDS_TYPE_8
  else if n < 65535 then SDS_TYPE_16
  else if n < 4294967295 then SDS_TYPE_32
  else SDS_TYPE_64

/-- `sdsnew`: the string of the bytes before the first NUL of `init`. -/
def sdsnew (s_malloc : Nat → Bool) (init : Option (List Nat)) : Option (Option sdshdr) :=
  match init with
  | none => sdsnewlen s_malloc none 0
  | some l => sdsnewlen s_malloc (some l) (strlen l)

/-! ## Sets of 2^31 and of 2^32 members -/

/-- The hash table encoded set of the integers 0, 1, ..., n - 1, as
`setTypeConvert` builds it from the intset. -/
@[irreducible]
def rangeSet (n : Nat) : Option robj :=
  setTypeConvert exampleServer ⟨OBJ_SET, OBJ_ENCODING_INTSET, .intset (intRange 0 n)⟩
    OBJ_ENCODING_HT

/-- A keyspace with a set of 2^31 = 2147483648 members at the key "a". -/
def countDb : redisDb := fun k => if k = [97] then rangeSet 2147483648 else none

theorem sdsll2strLoop_eq (fuel v : Nat) (hv : 0 < v) (hf : v < 10 ^ fuel) :
    sdsll2strLoop fuel v = (Nat.digits 10 v).map (48 + ·) := by
  induction fuel generalizing v with
  | zero => simp at hf; omega
  | succ fuel ih =>
    rw [sdsll2strLoop, Nat.digits_def' (by norm_num) hv]
    by_cases h : v / 10 = 0
    · simp [h]
    · simp only [h, if_false, List.map_cons]
      rw [ih (v / 10) (by omega) (by rw [pow_succ] at hf; omega)]

theorem string2llDigits_eq (acc : Nat) (cs : List Nat) (h : ∀ c ∈ cs, 48 ≤ c ∧ c ≤ 57) :
    string2llDigits acc cs
      = some (acc * 10 ^ cs.length + Nat.ofDigits 10 ((cs.map (· - 48)).reverse)) := by
  induction cs generalizing acc with
  | nil => simp [string2llDigits]
  | cons c cs ih =>
    have hc := h c (List.mem_cons_self _ _)
    rw [string2llDigits, if_pos hc, ih _ (fun c hc => h c (List.mem_cons_of_mem _ hc))]
    simp [Nat.ofDigits_append, pow_succ]
    ring

theorem string2llDigits_some (acc : Nat) (cs : List Nat) (v : Nat)
    (h : string2llDigits acc cs = some v) : ∀ c ∈ cs, 48 ≤ c ∧ c ≤ 57 := by
  induction cs generalizing acc with
  | nil => simp
  | cons c cs ih =>
    rw [string2llDigits] at h
    split at h
    · rename_i hc
      intro c' hc'
      rcases List.mem_cons.1 hc' with rfl | hc'
      · exact hc
      · exact ih _ h c' hc'
    · cases h

theorem string2llAbs_decStr (v : Nat) (hv : 0 < v) : string2llAbs (decStr v) = some v := by
  have hne : Nat.digits 10 v ≠ [] := by
    simpa [Nat.digits_eq_nil_iff_eq_zero] using (Nat.pos_iff_ne_zero.1 hv)
  have hlast := Nat.getLast_digit_ne_zero 10 (Nat.pos_iff_ne_zero.1 hv)
  have hlt : ∀ d ∈ Nat.digits 10 v, d < 10 := fun d hd => Nat.digits_lt_base (by norm_num) hd
  obtain ⟨l, d, hl⟩ : ∃ l d, Nat.digits 10 v = l ++ [d] :=
    ⟨_, _, (List.dropLast_append_getLast hne).symm⟩
  have hd0 : d ≠ 0 := by
    have := hlast
    simp [hl] at this
    exact this
  have hd : d < 10 := hlt d (by simp [hl])
  have hds : decStr v = (48 + d) :: (l.map (48 + ·)).reverse := by
    simp [decStr, hl]
  rw [hds, string2llAbs, if_pos (by omega), string2llDigits_eq]
  · have hv2 := Nat.ofDigits_digits 10 v
    rw [hl, Nat.ofDigits_append] at hv2
    simp at hv2 ⊢
    have : (fun x => x - 48) ∘ (fun x => 48 + x) = (id : Nat → Nat) := by
      funext x; simp
    rw [this, List.map_id, ← hv2]
    ring
  · intro c hc
    simp at hc
    obtain ⟨a, ha, rfl⟩ := hc
    have := hlt a (by simp [hl, ha])
    omega

theorem string2llAbs_some (s : List Nat) (v : Nat) (h : string2llAbs s = some v) :
    0 < v ∧ s = decStr v := by
  cases s with
  | nil => simp [string2llAbs] at h
  | cons c cs =>
    rw [string2llAbs] at h
    split at h
    · rename_i hc
      have hall := string2llDigits_some _ _ _ h
      rw [string2llDigits_eq _ _ hall] at h
      injection h with h
      -- the least-significant-first digit list
      set L : List Nat := (cs.map (· - 48)).reverse ++ [c - 48] with hL
      have hv : v = Nat.ofDigits 10 L := by
        rw [hL, Nat.ofDigits_append, ← h]
        simp [Nat.ofDigits_singleton]
        ring
      have hdig : Nat.digits 10 v = L := by
        rw [hv]
        apply Nat.digits_ofDigits 10 (by norm_num)
        · intro d hd
          simp [hL] at hd
          rcases hd with ⟨a, ha, rfl⟩ | rfl
          · have := hall a ha; omega
          · omega
        · intro _
          simp [hL]
          omega
      refine ⟨?_, ?_⟩
      · rcases Nat.eq_zero_or_pos v with h0 | h0
        · rw [h0] at hdig; simp [hL] at hdig
        · exact h0
      · simp only [decStr, hdig, hL]
        simp
        refine ⟨by omega, ?_⟩
        rw [List.map_congr_left (g := id)]
        · simp
        · intro a ha
          have := hall a ha
          simp; omega
    · cases h

theorem decStr_ne (v : Nat) (hv : 0 < v) :
    ∃ c cs, decStr v = c :: cs ∧ 49 ≤ c ∧ c ≤ 57 := by
  have h := string2llAbs_decStr v hv
  cases hs : decStr v with
  | nil => rw [hs] at h; simp [string2llAbs] at h
  | cons c cs =>
    rw [hs, string2llAbs] at h
    split at h
    · exact ⟨c, cs, rfl, by assumption⟩
    · cases h

theorem sdsfromlonglong_pos (n : Int) (h0 : 0 < n) (h1 : n ≤ LLONG_MAX) :
    sdsfromlonglong n = decStr n.toNat := by
  have hlt : ¬ n < 0 := by omega
  have hmod : n.toNat % 2 ^ 64 = n.toNat := by
    apply Nat.mod_eq_of_lt
    simp [LLONG_MAX] at h1; omega
  simp only [sdsfromlonglong, sdsll2str, hlt, if_false, hmod]
  rw [sdsll2strLoop_eq _ _ (by omega) (by simp [LLONG_MAX] at h1; omega)]
  rfl

theorem sdsfromlonglong_neg (n : Int) (h0 : n < 0) (h1 : LLONG_MIN ≤ n) :
    sdsfromlonglong n = 45 :: decStr (-n).toNat := by
  have hmod : (-n).toNat % 2 ^ 64 = (-n).toNat := by
    apply Nat.mod_eq_of_lt
    simp [LLONG_MIN] at h1; omega
  simp only [sdsfromlonglong, sdsll2str, h0, if_true, hmod]
  rw [sdsll2strLoop_eq _ _ (by omega) (by simp [LLONG_MIN] at h1; omega)]
  simp [decStr]

theorem sdsfromlonglong_zero : sdsfromlonglong 0 = [48] := by decide

/-- Rendering then parsing gives the integer back. -/
theorem string2ll_sdsfromlonglong (n : Int) (h1 : LLONG_MIN ≤ n) (h2 : n ≤ LLONG_MAX) :
    string2ll (sdsfromlonglong n) = some n := by
  rcases lt_trichotomy n 0 with h | h | h
  · rw [sdsfromlonglong_neg n h h1]
    have hv : 0 < (-n).toNat := by omega
    have hle : (-n).toNat ≤ 2 ^ 63 := by simp [LLONG_MIN] at h1; omega
    simp only [string2ll]
    rw [if_neg (by simp)]
    simp only [if_true, string2llAbs_decStr _ hv, if_pos hle]
    congr 1
    omega
  · subst h; decide
  · rw [sdsfromlonglong_pos n h h2]
    have hv : 0 < n.toNat := by omega
    have hle : n.toNat ≤ 2 ^ 63 - 1 := by simp [LLONG_MAX] at h2; omega
    obtain ⟨c, cs, hs, hc1, hc2⟩ := decStr_ne _ hv
    have habs := string2llAbs_decStr _ hv
    rw [hs] at habs ⊢
    simp only [string2ll]
    rw [if_neg (by simp; omega), if_neg (by omega)]
    simp only [habs, if_pos hle]
    congr 1
    omega

/-- Only canonical renderings parse: the parser is the exact inverse of
the rendering on the 64-bit range. -/
theorem string2ll_some (s : sds) (n : Int) (h : string2ll s = some n) :
    s = sdsfromlonglong n ∧ LLONG_MIN ≤ n ∧ n ≤ LLONG_MAX := by
  unfold string2ll at h
  split at h
  · rename_i hs
    injection h with h
    subst h; subst hs
    refine ⟨by decide, by decide, by decide⟩
  · cases s with
    | nil => cases h
    | cons c cs =>
      simp only at h
      split at h
      · rename_i hc
        subst hc
        cases hab : string2llAbs cs with
        | none => rw [hab] at h; cases h
        | some v =>
          rw [hab] at h
          simp only at h
          split at h
          · rename_i hv
            injection h with h
            obtain ⟨hpos, hcs⟩ := string2llAbs_some _ _ hab
            subst h
            have hr : LLONG_MIN ≤ -(v : Int) := by simp [LLONG_MIN]; omega
            refine ⟨?_, hr, by simp [LLONG_MAX]; omega⟩
            rw [sdsfromlonglong_neg _ (by omega) hr, hcs]
            simp
          · cases h
      · cases hab : string2llAbs (c :: cs) with
        | none => rw [hab] at h; cases h
        | some v =>
          rw [hab] at h
          simp only at h
          split at h
          · rename_i hv
            injection h with h
            obtain ⟨hpos, hcs⟩ := string2llAbs_some _ _ hab
            subst h
            have hr : (v : Int) ≤ LLONG_MAX := by simp [LLONG_MAX]; omega
            refine ⟨?_, by simp [LLONG_MIN]; omega, hr⟩
            rw [sdsfromlonglong_pos _ (by omega) hr, hcs]
            simp
          · cases h

theorem string2ll_iff (s : sds) (n : Int) :
    string2ll s = some n ↔ (s = sdsfromlonglong n ∧ LLONG_MIN ≤ n ∧ n ≤ LLONG_MAX) :=
  ⟨string2ll_some s n, fun ⟨h, h1, h2⟩ => h ▸ string2ll_sdsfromlonglong n h1 h2⟩

theorem sdsfromlonglong_injective (a b : Int) (ha1 : LLONG_MIN ≤ a) (ha2 : a ≤ LLONG_MAX)
    (hb1 : LLONG_MIN ≤ b) (hb2 : b ≤ LLONG_MAX) (h : sdsfromlonglong a = sdsfromlonglong b) :
    a = b := by
  have h1 := string2ll_sdsfromlonglong a ha1 ha2
  rw [h, string2ll_sdsfromlonglong b hb1 hb2] at h1
  injection h1 with h1
  exact h1.symm

/-! ## Lemmas on bucket arrays -/

theorem getD_set_bucket {α : Type} (t : List (List α)) (i j : Nat) (c : List α) :
    (t.set i c).getD j [] = if i = j ∧ i < t.length then c else t.getD j [] := by
  simp only [List.getD_eq_getElem?_getD, List.getElem?_set]
  by_cases h : i = j
  · subst h
    by_cases h2 : i < t.length
    · simp [h2]
    · simp [h2, List.getElem?_eq_none (not_lt.1 h2)]
  · simp [h]

theorem flatten_perm_getD {α : Type} (t : List (List α)) (i : Nat) :
    t.flatten.Perm (t.getD i [] ++ (t.eraseIdx i).flatten) := by
  induction t generalizing i with
  | nil => simp
  | cons b t ih =>
    cases i with
    | zero => simp
    | succ i =>
      simp only [List.flatten_cons, List.getD_cons_succ, List.eraseIdx_cons_succ]
      refine ((ih i).append_left b).trans ?_
      rw [← List.append_assoc, ← List.append_assoc]
      exact List.Perm.append_right _ List.perm_append_comm

theorem flatten_set_perm {α : Type} (t : List (List α)) (i : Nat) (c : List α)
    (h : i < t.length) : (t.set i c).flatten.Perm (c ++ (t.eraseIdx i).flatten) := by
  induction t generalizing i with
  | nil => simp at h
  | cons b t ih =>
    cases i with
    | zero => simp
    | succ i =>
      simp only [List.set_cons_succ, List.flatten_cons, List.eraseIdx_cons_succ]
      refine ((ih i (by simpa using h)).append_left b).trans ?_
      rw [← List.append_assoc, ← List.append_assoc]
      exact List.Perm.append_right _ List.perm_append_comm

/-- Replacing a bucket by a permutation-compatible chain. -/
theorem flatten_set_perm_of {α : Type} (t : List (List α)) (i : Nat) (c l : List α)
    (h : i < t.length) (hc : c.Perm (l ++ t.getD i [])) :
    (t.set i c).flatten.Perm (l ++ t.flatten) := by
  refine (flatten_set_perm t i c h).trans ?_
  refine (hc.append_right _).trans ?_
  rw [List.append_assoc]
  exact (flatten_perm_getD t i).symm.append_left l

theorem flatten_set_nil_perm {α : Type} (t : List (List α)) (i : Nat) :
    t.flatten.Perm (t.getD i [] ++ (t.set i []).flatten) := by
  by_cases h : i < t.length
  · refine (flatten_perm_getD t i).trans ?_
    exact ((flatten_set_perm t i [] h).symm).append_left _
  · have h2 : t.getD i [] = [] := by
      simp [List.getD_eq_getElem?_getD, List.getElem?_eq_none (not_lt.1 h)]
    have h3 : t.set i [] = t := by
      apply List.ext_getElem?
      intro j
      rw [List.getElem?_set]
      split
      · subst_vars
        simp [h, List.getElem?_eq_none (not_lt.1 h)]
      · rfl
    rw [h2, h3]; simp

theorem flatten_replicate_nil {α : Type} (n : Nat) :
    (List.replicate n ([] : List α)).flatten = [] := by
  induction n with
  | zero => rfl
  | succ n ih => simp [List.replicate_succ, ih]

theorem getD_replicate_nil {α : Type} (n i : Nat) :
    (List.replicate n ([] : List α)).getD i [] = [] := by
  simp only [List.getD_eq_getElem?_getD, List.getElem?_replicate]
  split <;> rfl

theorem mem_flatten_of_getD {α : Type} (t : List (List α)) (i : Nat) (e : α)
    (h : e ∈ t.getD i []) : e ∈ t.flatten := by
  exact (flatten_perm_getD t i).symm.subset (List.mem_append_left _ h)

theorem exists_getD_of_mem_flatten {α : Type} (t : List (List α)) (e : α)
    (h : e ∈ t.flatten) : ∃ i, i < t.length ∧ e ∈ t.getD i [] := by
  obtain ⟨l, hl, he⟩ := List.mem_flatten.1 h
  obtain ⟨i, hi, rfl⟩ := List.getElem_of_mem hl
  exact ⟨i, hi, by simpa [List.getD_eq_getElem?_getD, List.getElem?_eq_getElem hi] using he⟩

theorem dicthtReset_wf (hash : sds → Nat) : dicthtReset.wf hash :=
  ⟨rfl, rfl, rfl, by intro i e h; simp [dicthtReset, dictht.bucket] at h⟩

theorem dictCreate_wf (type : dictType) : (dictCreate type).wf :=
  ⟨dicthtReset_wf _, dicthtReset_wf _, by simp [dictCreate, dictEntries, dicthtReset],
    by simp [dictCreate], fun _ => rfl, by simp [dictCreate]⟩

theorem dictEntries_dictCreate (type : dictType) : dictEntries (dictCreate type) = [] := rfl

theorem dictht.wf.idx_lt {hash : sds → Nat} {ht : dictht} (h : ht.wf hash) (hs : 0 < ht.size)
    (x : Nat) : x &&& ht.sizemask < ht.table.length := by
  have := @Nat.and_le_right x ht.sizemask
  rw [h.length_eq]
  rw [h.mask_eq] at this ⊢
  omega

theorem dictht.bucket_set (ht : dictht) (i j : Nat) (c : List dictEntry) (u : Nat) :
    ({ ht with table := ht.table.set i c, used := u } : dictht).bucket j
      = if i = j ∧ i < ht.table.length then c else ht.bucket j := by
  simp only [dictht.bucket]
  exact getD_set_bucket _ _ _ _

theorem dictht.wf_of_size_zero {hash : sds → Nat} {ht : dictht} (h : ht.wf hash)
    (hs : ht.size = 0) : ht.table = [] := by
  have := h.length_eq
  rw [hs] at this
  exact List.length_eq_zero.1 this

theorem dictht.push_wf {hash : sds → Nat} {ht : dictht} (h : ht.wf hash) (hs : 0 < ht.size)
    (e : dictEntry) : (ht.push (hash e.key &&& ht.sizemask) e).wf hash := by
  have hlt := h.idx_lt hs (hash e.key)
  refine ⟨by simp [dictht.push, h.length_eq], h.mask_eq, ?_, ?_⟩
  · have hp := flatten_set_perm_of ht.table (hash e.key &&& ht.sizemask)
      (e :: ht.bucket (hash e.key &&& ht.sizemask)) [e] hlt (by simp [dictht.bucket])
    simp only [dictht.push]
    rw [hp.length_eq, h.used_eq]
    simp
  · intro i x hx
    simp only [dictht.push, dictht.bucket_set] at hx
    split at hx
    · rename_i hc
      rcases List.mem_cons.1 hx with rfl | hx
      · exact hc.1
      · rw [← hc.1]; exact h.home _ _ hx
    · exact h.home _ _ hx

theorem dictht.push_perm {hash : sds → Nat} {ht : dictht} (h : ht.wf hash) (hs : 0 < ht.size)
    (x : Nat) (e : dictEntry) :
    (ht.push (x &&& ht.sizemask) e).table.flatten.Perm (e :: ht.table.flatten) := by
  have hlt := h.idx_lt hs x
  exact flatten_set_perm_of ht.table _ _ [e] hlt (by simp [dictht.bucket])

theorem dictht.push_size (ht : dictht) (i : Nat) (e : dictEntry) :
    (ht.push i e).size = ht.size := rfl

theorem dictht.push_sizemask (ht : dictht) (i : Nat) (e : dictEntry) :
    (ht.push i e).sizemask = ht.sizemask := rfl

theorem dictRehashChain_spec (hash : sds → Nat) (chain : List dictEntry) (ht1 : dictht)
    (h : ht1.wf hash) (hs : 0 < ht1.size) :
    (dictRehashChain hash chain ht1).wf hash ∧
    (dictRehashChain hash chain ht1).size = ht1.size ∧
    (dictRehashChain hash chain ht1).table.flatten.Perm (chain ++ ht1.table.flatten) := by
  induction chain generalizing ht1 with
  | nil => exact ⟨h, rfl, List.Perm.refl _⟩
  | cons de next ih =>
    have hw := dictht.push_wf h hs de
    obtain ⟨h1, h2, h3⟩ := ih (ht1.push (hash de.key &&& ht1.sizemask) de) hw hs
    refine ⟨h1, h2, ?_⟩
    refine h3.trans ?_
    refine ((dictht.push_perm h hs _ de).append_left next).trans ?_
    simp only [List.cons_append]
    exact List.perm_middle

theorem dictRehashSkip_spec (d0 : dict) (ev : Nat) (d : dict) (h : dict.rehashInv d0 d) :
    dict.rehashInv d0 (dictRehashSkip ev d).1 ∧
    ∀ ev', (dictRehashSkip ev d).2 = some ev' →
      (dictRehashSkip ev d).1.ht0.bucket (dictRehashSkip ev d).1.rehashidx.toNat ≠ [] := by
  induction ev generalizing d with
  | zero => exact ⟨h, by simp [dictRehashSkip]⟩
  | succ ev ih =>
    rw [dictRehashSkip]
    by_cases hb : d.ht0.bucket d.rehashidx.toNat ≠ []
    · rw [if_pos hb]
      exact ⟨h, fun _ _ => hb⟩
    · have hb' : d.ht0.bucket d.rehashidx.toNat = [] := not_not.1 hb
      have hinv : dict.rehashInv d0 { d with rehashidx := d.rehashidx + 1 } := by
        refine ⟨h.type_eq, h.iterators_eq, h.wf0, h.wf1, h.perm, ?_, h.size0, h.size1, ?_⟩
        · have := h.idx_ge; simp only; omega
        · intro i hi
          simp only at hi
          by_cases hlt : (i : Int) < d.rehashidx
          · exact h.below i hlt
          · have : i = d.rehashidx.toNat := by have := h.idx_ge; omega
            rw [this]; exact hb'
      rw [if_neg hb]
      by_cases hev : ev = 0
      · simp only [hev, if_true]
        exact ⟨hinv, by simp⟩
      · simp only [hev, if_false]
        exact ih _ hinv

theorem dictRehashLoop_spec (d0 : dict) (n ev : Nat) (d : dict) (h : dict.rehashInv d0 d) :
    dict.rehashInv d0 (dictRehashLoop n ev d).1 := by
  induction n generalizing ev d with
  | zero => exact h
  | succ n ih =>
    rw [dictRehashLoop]
    by_cases hu : d.ht0.used = 0
    · simp only [hu, if_true]; exact h
    · simp only [hu, if_false]
      have hs := dictRehashSkip_spec d0 ev d h
      rcases hr : dictRehashSkip ev d with ⟨d', o⟩
      rw [hr] at hs
      cases o with
      | none => exact hs.1
      | some ev' =>
        simp only
        apply ih
        obtain ⟨hi, hne⟩ := hs
        have hne := hne ev' rfl
        simp only at hne hi
        have hidx : d'.rehashidx.toNat < d'.ht0.table.length := by
          by_contra hcon
          apply hne
          simp [dictht.bucket, List.getD_eq_getElem?_getD, List.getElem?_eq_none (not_lt.1 hcon)]
        obtain ⟨c1, c2, c3⟩ := dictRehashChain_spec d'.type.hashFunction
          (d'.ht0.bucket d'.rehashidx.toNat) d'.ht1 hi.wf1 hi.size1
        have hp0 := flatten_set_nil_perm d'.ht0.table d'.rehashidx.toNat
        refine ⟨hi.type_eq, hi.iterators_eq, ?_, c1, ?_, ?_, hi.size0, ?_, ?_⟩
        · refine ⟨by simp [hi.wf0.length_eq], hi.wf0.mask_eq, ?_, ?_⟩
          · simp only
            have := hp0.length_eq
            rw [List.length_append] at this
            rw [hi.wf0.used_eq, this]
            simp [dictht.bucket]
          · intro i e he
            simp only [dictht.bucket_set] at he
            split at he
            · simp at he
            · exact hi.wf0.home _ _ he
        · refine List.Perm.trans ?_ hi.perm
          simp only [dictEntries]
          refine (c3.append_left _).trans ?_
          refine List.Perm.trans ?_ (hp0.symm.append_right _)
          rw [← List.append_assoc]
          exact List.Perm.append_right _ List.perm_append_comm
        · have := hi.idx_ge; simp only; omega
        · simpa using (by rw [c2]; exact hi.size1 : 0 < (dictRehashChain d'.type.hashFunction
            (d'.ht0.bucket d'.rehashidx.toNat) d'.ht1).size)
        · intro i hlt
          simp only at hlt
          simp only [dictht.bucket_set]
          split
          · rfl
          · rename_i hc
            apply hi.below
            have := hi.idx_ge
            by_contra hcon
            apply hc
            exact ⟨by omega, hidx⟩

theorem dict.reorg.refl {d : dict} (h : d.wf) : dict.reorg d d :=
  ⟨h, rfl, rfl, List.Perm.refl _⟩

theorem dict.reorg.trans {a b c : dict} (h1 : dict.reorg a b) (h2 : dict.reorg b c) :
    dict.reorg a c :=
  ⟨h2.wf, h2.type_eq.trans h1.type_eq, h2.iterators_eq.trans h1.iterators_eq,
    h2.perm.trans h1.perm⟩

theorem dict.wf.rehashInv {d : dict} (h : d.wf) (hr : d.rehashidx ≠ -1) : dict.rehashInv d d :=
  ⟨rfl, rfl, h.wf0, h.wf1, List.Perm.refl _, by have := h.idx_ge; omega, (h.busy hr).1,
    (h.busy hr).2.1, (h.busy hr).2.2⟩

theorem dict.rehashInv.reorg {d0 d : dict} (h0 : d0.wf) (h : dict.rehashInv d0 d) :
    dict.reorg d0 d := by
  refine ⟨⟨h.wf0, h.wf1, ?_, by have := h.idx_ge; omega, ?_, ?_⟩, h.type_eq, h.iterators_eq, h.perm⟩
  · exact (h.perm.map _).nodup_iff.2 h0.nodup
  · intro hc; have := h.idx_ge; omega
  · intro _; exact ⟨h.size0, h.size1, h.below⟩

theorem dictIsRehashing_eq_true (d : dict) : dictIsRehashing d = true ↔ d.rehashidx ≠ -1 := by
  simp [dictIsRehashing]

theorem dictIsRehashing_eq_false (d : dict) : dictIsRehashing d = false ↔ d.rehashidx = -1 := by
  simp [dictIsRehashing]

theorem dictRehash_reorg (d : dict) (n : Nat) (h : d.wf) : dict.reorg d (dictRehash d n).2 := by
  unfold dictRehash
  by_cases hr : dictIsRehashing d = true
  · simp only [hr, not_true_eq_false, if_false]
    have hinv := dictRehashLoop_spec d n (n * 10) d (h.rehashInv ((dictIsRehashing_eq_true d).1 hr))
    rcases hl : dictRehashLoop n (n * 10) d with ⟨d', b⟩
    rw [hl] at hinv
    simp only at hinv
    cases b with
    | true => exact hinv.reorg h
    | false =>
      simp only
      by_cases hu : d'.ht0.used = 0
      · simp only [hu, if_true]
        have he : d'.ht0.table.flatten = [] := by
          have := hinv.wf0.used_eq
          rw [hu] at this
          exact List.length_eq_zero.1 this.symm
        have hp : (dictEntries { d' with ht0 := d'.ht1, ht1 := dicthtReset, rehashidx := -1 }).Perm
            (dictEntries d) := by
          refine List.Perm.trans ?_ hinv.perm
          simp [dictEntries, he, dicthtReset]
        refine ⟨⟨hinv.wf1, dicthtReset_wf _, (hp.map _).nodup_iff.2 h.nodup, by simp,
          fun _ => rfl, by simp⟩, hinv.type_eq, hinv.iterators_eq, hp⟩
      · simp only [hu, if_false]
        exact hinv.reorg h
  · simp only [hr, not_false_eq_true, if_true]
    exact dict.reorg.refl h

theorem dictRehashStep_reorg (d : dict) (h : d.wf) : dict.reorg d (dictRehashStep d) := by
  unfold dictRehashStep
  split
  · exact dictRehash_reorg d 1 h
  · exact dict.reorg.refl h

theorem dictStepIf_reorg (d : dict) (h : d.wf) :
    dict.reorg d (if dictIsRehashing d then dictRehashStep d else d) := by
  split
  · exact dictRehashStep_reorg d h
  · exact dict.reorg.refl h

theorem dictNextPowerLoop_ge (fuel i size : Nat) : i ≤ dictNextPowerLoop fuel i size := by
  induction fuel generalizing i with
  | zero => simp [dictNextPowerLoop]
  | succ fuel ih =>
    rw [dictNextPowerLoop]
    split
    · exact le_rfl
    · have := ih (i * 2); omega

theorem dictNextPower_pos (size : Nat) : 0 < dictNextPower size := by
  have := dictNextPowerLoop_ge size DICT_HT_INITIAL_SIZE size
  unfold dictNextPower
  simp [DICT_HT_INITIAL_SIZE] at this ⊢
  omega

theorem dictht_fresh_wf (hash : sds → Nat) (n : Nat) :
    (⟨List.replicate n [], n, n - 1, 0⟩ : dictht).wf hash :=
  ⟨by simp, rfl, by simp [flatten_replicate_nil], by
    intro i e he
    simp [dictht.bucket, getD_replicate_nil] at he⟩

theorem dictExpand_reorg (d : dict) (size : Nat) (h : d.wf) :
    dict.reorg d (dictExpand d size).2 := by
  unfold dictExpand
  by_cases hr : dictIsRehashing d = true
  · simp only [hr, if_true]; exact dict.reorg.refl h
  · simp only [hr, if_false]
    have hidle := h.idle ((dictIsRehashing_eq_false d).1 (by simpa using hr))
    have hpos := dictNextPower_pos (max size d.ht0.used)
    generalize dictNextPower (max size d.ht0.used) = realsize at hpos
    by_cases hs : d.ht0.size = 0
    · simp only [hs, if_true]
      have ht := dictht.wf_of_size_zero h.wf0 hs
      have hp : ∀ d2 : dict, d2.ht0 = (⟨List.replicate realsize [], realsize, realsize - 1, 0⟩ : dictht) →
          d2.ht1 = d.ht1 → (dictEntries d2).Perm (dictEntries d) := by
        intro d2 h0 h1
        simp [dictEntries, ht, h0, h1, flatten_replicate_nil]
      have hp := hp _ (rfl : ({ d with ht0 := (⟨List.replicate realsize [], realsize, realsize - 1, 0⟩ : dictht) } : dict).ht0 = _) rfl
      exact ⟨⟨dictht_fresh_wf _ _, h.wf1, (hp.map _).nodup_iff.2 h.nodup, h.idx_ge, h.idle,
        fun hb => absurd ((dictIsRehashing_eq_true d).2 hb) hr⟩, rfl, rfl, hp⟩
    · simp only [hs, if_false]
      have hp : ∀ d2 : dict, d2.ht1 = (⟨List.replicate realsize [], realsize, realsize - 1, 0⟩ : dictht) →
          d2.ht0 = d.ht0 → (dictEntries d2).Perm (dictEntries d) := by
        intro d2 h1 h0
        simp [dictEntries, hidle, h0, h1, dicthtReset, flatten_replicate_nil]
      have hp := hp _ (rfl : ({ d with ht1 := (⟨List.replicate realsize [], realsize, realsize - 1, 0⟩ : dictht), rehashidx := (0 : Int) } : dict).ht1 = _) rfl
      refine ⟨⟨h.wf0, dictht_fresh_wf _ _, (hp.map _).nodup_iff.2 h.nodup, by simp,
        by simp, fun _ => ⟨Nat.pos_of_ne_zero hs, hpos, ?_⟩⟩, rfl, rfl, hp⟩
      intro i hi
      have hi' : (i : Int) < 0 := hi
      omega

theorem dictExpandIfNeeded_reorg (cr : Bool) (d : dict) (h : d.wf) :
    dict.reorg d (dictExpandIfNeeded cr d).2 := by
  unfold dictExpandIfNeeded
  split
  · exact dict.reorg.refl h
  · split
    · exact dictExpand_reorg d _ h
    · split
      · exact dictExpand_reorg d _ h
      · exact dict.reorg.refl h

theorem dictResize_reorg (cr : Bool) (d : dict) (h : d.wf) :
    dict.reorg d (dictResize cr d).2 := by
  unfold dictResize
  split
  · exact dict.reorg.refl h
  · exact dictExpand_reorg d _ h

/-- The growth check never fails on a well-formed dictionary, and leaves a
table with storage. -/
theorem dictExpandIfNeeded_ok (cr : Bool) (d : dict) (h : d.wf) :
    (dictExpandIfNeeded cr d).1 = DICT_OK ∧ 0 < (dictExpandIfNeeded cr d).2.ht0.size := by
  unfold dictExpandIfNeeded
  by_cases hr : dictIsRehashing d = true
  · rw [if_pos hr]
    exact ⟨rfl, (h.busy ((dictIsRehashing_eq_true d).1 hr)).1⟩
  · rw [if_neg hr]
    have hpos := fun s => dictNextPower_pos (max s d.ht0.used)
    by_cases hs : d.ht0.size = 0
    · rw [if_pos hs]
      unfold dictExpand
      rw [if_neg hr]
      simp only [hs, if_true]
      exact ⟨trivial, hpos _⟩
    · rw [if_neg hs]
      split
      · unfold dictExpand
        rw [if_neg hr]
        simp only [hs, if_false]
        exact ⟨trivial, Nat.pos_of_ne_zero hs⟩
      · exact ⟨rfl, Nat.pos_of_ne_zero hs⟩

/-! ## Chains -/

theorem dictChainFind_none (key : sds) (chain : List dictEntry) :
    dictChainFind key chain = none ↔ ∀ e ∈ chain, e.key ≠ key := by
  induction chain with
  | nil => simp [dictChainFind]
  | cons he next ih =>
    rw [dictChainFind]
    by_cases h : he.key = key
    · simp [h]
    · simp [h, ih]

theorem dictChainFind_isSome (key : sds) (chain : List dictEntry) :
    (dictChainFind key chain).isSome = true ↔ ∃ e ∈ chain, e.key = key := by
  rw [← Option.ne_none_iff_isSome, Ne, dictChainFind_none]
  push_neg
  rfl

theorem dictChainFind_some (key : sds) (chain : List dictEntry) (pos : Nat)
    (h : dictChainFind key chain = some pos) :
    ∃ e, chain[pos]? = some e ∧ e.key = key := by
  induction chain generalizing pos with
  | nil => simp [dictChainFind] at h
  | cons he next ih =>
    rw [dictChainFind] at h
    by_cases hk : he.key = key
    · simp only [hk, if_true] at h
      injection h with h
      subst h
      exact ⟨he, by simp, hk⟩
    · simp only [hk, if_false, Option.map_eq_some'] at h
      obtain ⟨p, hp, rfl⟩ := h
      obtain ⟨e, h1, h2⟩ := ih p hp
      exact ⟨e, by simpa using h1, h2⟩

theorem filter_key_ne_eq_self (key : sds) (l : List dictEntry) (h : ∀ e ∈ l, e.key ≠ key) :
    l.filter (fun e => decide (e.key ≠ key)) = l := by
  apply List.filter_eq_self.2
  intro e he
  simpa using h e he

theorem dictChainUnlink_eq_filter (key : sds) (chain : List dictEntry)
    (hn : (chain.map (·.key)).Nodup) :
    dictChainUnlink key chain = chain.filter (fun e => decide (e.key ≠ key)) := by
  induction chain with
  | nil => rfl
  | cons he next ih =>
    rw [dictChainUnlink]
    simp only [List.map_cons, List.nodup_cons] at hn
    by_cases hk : he.key = key
    · simp only [hk, if_true]
      rw [List.filter_cons_of_neg (by simp [hk])]
      symm
      apply filter_key_ne_eq_self
      intro e he' hek
      apply hn.1
      rw [hk, ← hek]
      exact List.mem_map_of_mem _ he'
    · simp only [hk, if_false]
      rw [List.filter_cons_of_pos (by simp [hk]), ih hn.2]

theorem chain_set_perm (key : sds) (chain : List dictEntry) (pos : Nat) (e' : dictEntry)
    (hn : (chain.map (·.key)).Nodup) (h : dictChainFind key chain = some pos) :
    (chain.set pos e').Perm (e' :: chain.filter (fun e => decide (e.key ≠ key))) := by
  induction chain generalizing pos with
  | nil => simp [dictChainFind] at h
  | cons he next ih =>
    rw [dictChainFind] at h
    simp only [List.map_cons, List.nodup_cons] at hn
    by_cases hk : he.key = key
    · simp only [hk, if_true] at h
      injection h with h
      subst h
      rw [List.filter_cons_of_neg (by simp [hk])]
      simp only [List.set_cons_zero]
      rw [filter_key_ne_eq_self]
      intro e he' hek
      apply hn.1
      rw [hk, ← hek]
      exact List.mem_map_of_mem _ he'
    · simp only [hk, if_false, Option.map_eq_some'] at h
      obtain ⟨p, hp, rfl⟩ := h
      rw [List.filter_cons_of_pos (by simp [hk])]
      simp only [List.set_cons_succ]
      exact ((ih p hn.2 hp).cons he).trans (List.Perm.swap _ _ _)

/-! ## Keys and their home buckets -/

theorem dictht.wf.mem_flatten_iff {hash : sds → Nat} {ht : dictht} (h : ht.wf hash) (e : dictEntry) :
    e ∈ ht.table.flatten ↔ e ∈ ht.bucket (hash e.key &&& ht.sizemask) := by
  constructor
  · intro he
    obtain ⟨i, _, hi⟩ := exists_getD_of_mem_flatten _ _ he
    have := h.home i e hi
    rw [this]; exact hi
  · intro he
    exact mem_flatten_of_getD _ _ _ he

theorem mem_dictEntries_iff {d : dict} (h : d.wf) (e : dictEntry) :
    e ∈ dictEntries d ↔
      e ∈ d.ht0.bucket (d.type.hashFunction e.key &&& d.ht0.sizemask) ∨
      e ∈ d.ht1.bucket (d.type.hashFunction e.key &&& d.ht1.sizemask) := by
  simp only [dictEntries, List.mem_append, h.wf0.mem_flatten_iff, h.wf1.mem_flatten_iff]

theorem mem_dictKeys {d : dict} (k : sds) :
    k ∈ dictKeys d ↔ ∃ e ∈ dictEntries d, e.key = k := by
  simp [dictKeys]

theorem dict.reorg.mem_keys {d d' : dict} (h : dict.reorg d d') (k : sds) :
    k ∈ dictKeys d' ↔ k ∈ dictKeys d := (h.perm.map _).mem_iff

theorem dict.wf.size_eq {d : dict} (h : d.wf) : dictSize d = (dictEntries d).length := by
  simp [dictSize, dictEntries, h.wf0.used_eq, h.wf1.used_eq]

theorem dict.reorg.size_same {d d' : dict} (h0 : d.wf) (h : dict.reorg d d') :
    dictSize d' = dictSize d := by
  rw [h.wf.size_eq, h0.size_eq, h.perm.length_eq]

theorem dict.wf.ht1_bucket_idle {d : dict} (h : d.wf) (hr : dictIsRehashing d = false) (i : Nat) :
    d.ht1.bucket i = [] := by
  rw [h.idle ((dictIsRehashing_eq_false d).1 hr)]
  simp [dictht.bucket, dicthtReset]

theorem flatten_set_perm_nil {α : Type} (t : List (List α)) (i : Nat) (c : List α)
    (h : i < t.length) : (t.set i c).flatten.Perm (c ++ (t.set i []).flatten) := by
  have := flatten_set_nil_perm (t.set i c) i
  rw [List.set_set] at this
  rw [getD_set_bucket, if_pos ⟨rfl, h⟩] at this
  exact this

/-- Replacing the chain of the home bucket of a key in a table: the entries of
the new table, its invariant, and that no other bucket holds the key. -/
theorem dictht.wf.set_bucket {hash : sds → Nat} {ht : dictht} (h : ht.wf hash) (key : sds)
    (c new : List dictEntry) (u : Nat) (hs : 0 < ht.size)
    (hc : c.Perm (new ++ (ht.bucket (hash key &&& ht.sizemask)).filter
      (fun e => decide (e.key ≠ key))))
    (hnew : ∀ e ∈ new, e.key = key)
    (hu : u + (ht.bucket (hash key &&& ht.sizemask)).length = ht.used + c.length) :
    ({ ht with table := ht.table.set (hash key &&& ht.sizemask) c, used := u } : dictht).wf hash ∧
    ({ ht with table := ht.table.set (hash key &&& ht.sizemask) c, used := u } : dictht).table.flatten.Perm
      (new ++ ht.table.flatten.filter (fun e => decide (e.key ≠ key))) := by
  have hlt : hash key &&& ht.sizemask < ht.table.length := h.idx_lt hs _
  generalize hidx : hash key &&& ht.sizemask = idx at *
  have hp1 := flatten_set_perm_nil ht.table idx c hlt
  have hp0 := flatten_set_nil_perm ht.table idx
  have hrest : ∀ e ∈ (ht.table.set idx []).flatten, e.key ≠ key := by
    intro e he hek
    obtain ⟨j, _, hj⟩ := exists_getD_of_mem_flatten _ _ he
    rw [getD_set_bucket] at hj
    split at hj
    · simp at hj
    · rename_i hne
      have := h.home j e hj
      rw [hek, hidx] at this
      exact hne ⟨this, hlt⟩
  have hperm : (ht.table.set idx c).flatten.Perm
      (new ++ ht.table.flatten.filter (fun e => decide (e.key ≠ key))) := by
    have hf := hp0.filter (fun e => decide (e.key ≠ key))
    rw [List.filter_append, filter_key_ne_eq_self key _ hrest] at hf
    refine hp1.trans ?_
    refine (hc.append_right _).trans ?_
    rw [List.append_assoc]
    exact hf.symm.append_left new
  refine ⟨⟨by simp [h.length_eq], h.mask_eq, ?_, ?_⟩, hperm⟩
  · have e1 := hp1.length_eq
    have e0 := hp0.length_eq
    have e2 := h.used_eq
    have e3 : (ht.table.getD idx []).length = (ht.bucket idx).length := rfl
    simp only [List.length_append] at e1 e0
    show u = (ht.table.set idx c).flatten.length
    omega
  · intro i e he
    rw [dictht.bucket_set] at he
    split at he
    · rename_i hcnd
      rw [← hcnd.1]
      rcases List.mem_append.1 (hc.subset he) with hm | hm
      · show hash e.key &&& ht.sizemask = idx
        rw [hnew e hm]; exact hidx
      · exact h.home _ _ (List.mem_of_mem_filter hm)
    · exact h.home _ _ he

theorem nodup_keys_put (key : sds) (new l : List dictEntry) (hnew : ∀ e ∈ new, e.key = key)
    (hnd : (new.map (·.key)).Nodup) (hl : (l.map (·.key)).Nodup) :
    ((new ++ l.filter (fun e => decide (e.key ≠ key))).map (·.key)).Nodup := by
  rw [List.map_append, List.nodup_append]
  refine ⟨hnd, (hl.sublist ((List.filter_sublist _).map _)), ?_⟩
  intro a ha hb
  obtain ⟨x, hx, rfl⟩ := List.mem_map.1 ha
  obtain ⟨y, hy, hxy⟩ := List.mem_map.1 hb
  have := (List.mem_filter.1 hy).2
  simp only [decide_eq_true_eq] at this
  exact this (by rw [hxy]; exact hnew x hx)

/-- Replacing the chain of the home bucket of `key` in `ht0`. -/
theorem dict.wf.set_bucket0 {d : dict} (h : d.wf) (key : sds) (c new : List dictEntry) (u : Nat)
    (hs : 0 < d.ht0.size)
    (hc : c.Perm (new ++ (d.ht0.bucket (d.type.hashFunction key &&& d.ht0.sizemask)).filter
      (fun e => decide (e.key ≠ key))))
    (hnew : ∀ e ∈ new, e.key = key) (hnd : (new.map (·.key)).Nodup)
    (hu : u + (d.ht0.bucket (d.type.hashFunction key &&& d.ht0.sizemask)).length
      = d.ht0.used + c.length)
    (h1 : ∀ e ∈ d.ht1.table.flatten, e.key ≠ key)
    (hb : d.rehashidx = -1 ∨ d.ht0.bucket (d.type.hashFunction key &&& d.ht0.sizemask) ≠ []) :
    ({ d with ht0 := { d.ht0 with
      table := d.ht0.table.set (d.type.hashFunction key &&& d.ht0.sizemask) c, used := u } } : dict).wf ∧
    (dictEntries { d with ht0 := { d.ht0 with
      table := d.ht0.table.set (d.type.hashFunction key &&& d.ht0.sizemask) c, used := u } }).Perm
      (new ++ (dictEntries d).filter (fun e => decide (e.key ≠ key))) := by
  obtain ⟨w, p⟩ := h.wf0.set_bucket key c new u hs hc hnew hu
  have hperm : (dictEntries { d with ht0 := { d.ht0 with
      table := d.ht0.table.set (d.type.hashFunction key &&& d.ht0.sizemask) c, used := u } }).Perm
      (new ++ (dictEntries d).filter (fun e => decide (e.key ≠ key))) := by
    simp only [dictEntries, List.filter_append]
    rw [filter_key_ne_eq_self key _ h1, ← List.append_assoc]
    exact p.append_right _
  refine ⟨⟨w, h.wf1, ?_, h.idx_ge, h.idle, ?_⟩, hperm⟩
  · rw [(hperm.map (·.key)).nodup_iff]
    exact nodup_keys_put key new _ hnew hnd h.nodup
  · intro hbz
    obtain ⟨b1, b2, b3⟩ := h.busy hbz
    refine ⟨b1, b2, ?_⟩
    intro i hi
    rw [dictht.bucket_set]
    split
    · rename_i hcnd
      exfalso
      rcases hb with hb | hb
      · exact hbz hb
      · apply hb
        rw [hcnd.1]
        exact b3 i hi
    · exact b3 i hi

/-- Replacing the chain of the home bucket of `key` in `ht1`. -/
theorem dict.wf.set_bucket1 {d : dict} (h : d.wf) (key : sds) (c new : List dictEntry) (u : Nat)
    (hs : 0 < d.ht1.size)
    (hc : c.Perm (new ++ (d.ht1.bucket (d.type.hashFunction key &&& d.ht1.sizemask)).filter
      (fun e => decide (e.key ≠ key))))
    (hnew : ∀ e ∈ new, e.key = key) (hnd : (new.map (·.key)).Nodup)
    (hu : u + (d.ht1.bucket (d.type.hashFunction key &&& d.ht1.sizemask)).length
      = d.ht1.used + c.length)
    (h0 : ∀ e ∈ d.ht0.table.flatten, e.key ≠ key) :
    ({ d with ht1 := { d.ht1 with
      table := d.ht1.table.set (d.type.hashFunction key &&& d.ht1.sizemask) c, used := u } } : dict).wf ∧
    (dictEntries { d with ht1 := { d.ht1 with
      table := d.ht1.table.set (d.type.hashFunction key &&& d.ht1.sizemask) c, used := u } }).Perm
      (new ++ (dictEntries d).filter (fun e => decide (e.key ≠ key))) := by
  obtain ⟨w, p⟩ := h.wf1.set_bucket key c new u hs hc hnew hu
  have hperm : (dictEntries { d with ht1 := { d.ht1 with
      table := d.ht1.table.set (d.type.hashFunction key &&& d.ht1.sizemask) c, used := u } }).Perm
      (new ++ (dictEntries d).filter (fun e => decide (e.key ≠ key))) := by
    simp only [dictEntries, List.filter_append]
    rw [filter_key_ne_eq_self key _ h0]
    refine (p.append_left _).trans ?_
    rw [← List.append_assoc, ← List.append_assoc]
    exact List.Perm.append_right _ List.perm_append_comm
  refine ⟨⟨h.wf0, w, ?_, h.idx_ge, ?_, ?_⟩, hperm⟩
  · rw [(hperm.map (·.key)).nodup_iff]
    exact nodup_keys_put key new _ hnew hnd h.nodup
  · intro hi
    have := h.idle hi
    rw [this] at hs
    simp [dicthtReset] at hs
  · intro hbz
    exact h.busy hbz

theorem dict.reorg.isPut {a b c : dict} {e : dictEntry} (h1 : dict.reorg a b)
    (h2 : dict.isPut b c e) : dict.isPut a c e :=
  ⟨h2.wf, h2.type_eq.trans h1.type_eq, h2.iterators_eq.trans h1.iterators_eq,
    h2.perm.trans ((h1.perm.filter _).cons e)⟩

theorem dict.reorg.isDel {a b c : dict} {key : sds} (h1 : dict.reorg a b)
    (h2 : dict.isDel b c key) : dict.isDel a c key :=
  ⟨h2.wf, h2.type_eq.trans h1.type_eq, h2.iterators_eq.trans h1.iterators_eq,
    h2.perm.trans (h1.perm.filter _)⟩

theorem dict.isPut.put_reorg {a b c : dict} {e : dictEntry} (h1 : dict.isPut a b e)
    (h2 : dict.reorg b c) : dict.isPut a c e :=
  ⟨h2.wf, h2.type_eq.trans h1.type_eq, h2.iterators_eq.trans h1.iterators_eq,
    h2.perm.trans h1.perm⟩

theorem dict.isDel.del_reorg {a b c : dict} {key : sds} (h1 : dict.isDel a b key)
    (h2 : dict.reorg b c) : dict.isDel a c key :=
  ⟨h2.wf, h2.type_eq.trans h1.type_eq, h2.iterators_eq.trans h1.iterators_eq,
    h2.perm.trans h1.perm⟩

theorem dict.reorg.toDel {a b : dict} {key : sds} (_h0 : a.wf) (h : dict.reorg a b)
    (hk : key ∉ dictKeys a) : dict.isDel a b key := by
  refine ⟨h.wf, h.type_eq, h.iterators_eq, ?_⟩
  rw [filter_key_ne_eq_self]
  · exact h.perm
  · intro e he hek
    exact hk ((mem_dictKeys key).2 ⟨e, he, hek⟩)

theorem dictht.wf.not_mem_of_find_none {hash : sds → Nat} {ht : dictht} (h : ht.wf hash)
    (key : sds) (hf : dictChainFind key (ht.bucket (hash key &&& ht.sizemask)) = none) :
    ∀ e ∈ ht.table.flatten, e.key ≠ key := by
  intro e he hek
  have := (h.mem_flatten_iff e).1 he
  rw [hek] at this
  exact (dictChainFind_none _ _).1 hf e this hek

theorem dictht.wf.bucket_nodup {hash : sds → Nat} {ht : dictht} (_h : ht.wf hash) (i : Nat)
    (hn : (ht.table.flatten.map (·.key)).Nodup) : ((ht.bucket i).map (·.key)).Nodup := by
  have hp := flatten_perm_getD ht.table i
  have := ((hp.map (·.key)).nodup_iff).1 hn
  rw [List.map_append, List.nodup_append] at this
  exact this.1

theorem dict.wf.nodup0 {d : dict} (h : d.wf) : (d.ht0.table.flatten.map (·.key)).Nodup := by
  have := h.nodup
  simp only [dictEntries, List.map_append, List.nodup_append] at this
  exact this.1

theorem dict.wf.nodup1 {d : dict} (h : d.wf) : (d.ht1.table.flatten.map (·.key)).Nodup := by
  have := h.nodup
  simp only [dictEntries, List.map_append, List.nodup_append] at this
  exact this.2.1

theorem dict.wf.disjoint {d : dict} (h : d.wf) (e0 e1 : dictEntry)
    (h0 : e0 ∈ d.ht0.table.flatten) (h1 : e1 ∈ d.ht1.table.flatten) : e0.key ≠ e1.key := by
  have := h.nodup
  simp only [dictEntries, List.map_append, List.nodup_append] at this
  intro hk
  exact this.2.2 (List.mem_map_of_mem _ h0) (by rw [hk]; exact List.mem_map_of_mem _ h1)

theorem dictht.wf.size_pos_of_mem {hash : sds → Nat} {ht : dictht} (h : ht.wf hash)
    (i : Nat) (e : dictEntry) (he : e ∈ ht.bucket i) : 0 < ht.size := by
  rw [← h.length_eq]
  rcases Nat.eq_zero_or_pos ht.table.length with hz | hz
  · have := List.length_eq_zero.1 hz
    simp [dictht.bucket, this] at he
  · exact hz

theorem dict.wf.used_pos0 {d : dict} (h : d.wf) (i : Nat) (e : dictEntry)
    (he : e ∈ d.ht0.bucket i) : 0 < d.ht0.used := by
  rw [h.wf0.used_eq]
  exact List.length_pos_of_mem (mem_flatten_of_getD _ _ _ he)

theorem dict.wf.used_pos1 {d : dict} (h : d.wf) (i : Nat) (e : dictEntry)
    (he : e ∈ d.ht1.bucket i) : 0 < d.ht1.used := by
  rw [h.wf1.used_eq]
  exact List.length_pos_of_mem (mem_flatten_of_getD _ _ _ he)

theorem dictChainUnlink_length (key : sds) (chain : List dictEntry)
    (h : ∃ e ∈ chain, e.key = key) : (dictChainUnlink key chain).length + 1 = chain.length := by
  induction chain with
  | nil => simp at h
  | cons he next ih =>
    rw [dictChainUnlink]
    by_cases hk : he.key = key
    · simp [hk]
    · simp only [hk, if_false, List.length_cons]
      obtain ⟨e, he', hek⟩ := h
      rcases List.mem_cons.1 he' with rfl | hm
      · exact absurd hek hk
      · rw [ih ⟨e, hm, hek⟩]

/-- Writing the value of the entry found in the home bucket of `ht0`. -/
theorem dict.wf.setVal0 {d : dict} (h : d.wf) (key : sds) (pos : Nat) (val : Option sds)
    (hf : dictChainFind key (d.ht0.bucket (d.type.hashFunction key &&& d.ht0.sizemask)) = some pos) :
    dict.isPut d (dictSetVal d ⟨0, d.type.hashFunction key &&& d.ht0.sizemask, pos⟩ val) ⟨key, val⟩ := by
  obtain ⟨e, he, hek⟩ := dictChainFind_some _ _ _ hf
  have hmem : e ∈ d.ht0.bucket (d.type.hashFunction key &&& d.ht0.sizemask) :=
    List.getElem?_mem he
  have hget : dictGetEntry d ⟨0, d.type.hashFunction key &&& d.ht0.sizemask, pos⟩ = some e := by
    simp [dictGetEntry, he]
  have hs := h.wf0.size_pos_of_mem _ _ hmem
  have hnd := h.wf0.bucket_nodup (d.type.hashFunction key &&& d.ht0.sizemask) h.nodup0
  obtain ⟨w, p⟩ := h.set_bucket0 key
    ((d.ht0.bucket (d.type.hashFunction key &&& d.ht0.sizemask)).set pos { e with val := val })
    [⟨key, val⟩] d.ht0.used hs
    (by rw [hek]; exact chain_set_perm key _ pos _ hnd hf)
    (by simp) (by simp) (by simp)
    (fun e1 h1 hk1 => h.disjoint e e1 (mem_flatten_of_getD _ _ _ hmem) h1 (by rw [hek, hk1]))
    (Or.inr (List.ne_nil_of_mem hmem))
  have heq : dictSetVal d ⟨0, d.type.hashFunction key &&& d.ht0.sizemask, pos⟩ val =
      { d with ht0 := { d.ht0 with
        table := d.ht0.table.set (d.type.hashFunction key &&& d.ht0.sizemask)
          ((d.ht0.bucket (d.type.hashFunction key &&& d.ht0.sizemask)).set pos { e with val := val }),
        used := d.ht0.used } } := by
    simp [dictSetVal, hget, dictSetEntry]
  rw [heq]
  exact ⟨w, rfl, rfl, p⟩

/-- Writing the value of the entry found in the home bucket of `ht1`. -/
theorem dict.wf.setVal1 {d : dict} (h : d.wf) (key : sds) (pos : Nat) (val : Option sds)
    (hf0 : dictChainFind key (d.ht0.bucket (d.type.hashFunction key &&& d.ht0.sizemask)) = none)
    (hf : dictChainFind key (d.ht1.bucket (d.type.hashFunction key &&& d.ht1.sizemask)) = some pos) :
    dict.isPut d (dictSetVal d ⟨1, d.type.hashFunction key &&& d.ht1.sizemask, pos⟩ val) ⟨key, val⟩ := by
  obtain ⟨e, he, hek⟩ := dictChainFind_some _ _ _ hf
  have hmem : e ∈ d.ht1.bucket (d.type.hashFunction key &&& d.ht1.sizemask) :=
    List.getElem?_mem he
  have hget : dictGetEntry d ⟨1, d.type.hashFunction key &&& d.ht1.sizemask, pos⟩ = some e := by
    simp [dictGetEntry, he]
  have hs := h.wf1.size_pos_of_mem _ _ hmem
  have hnd := h.wf1.bucket_nodup (d.type.hashFunction key &&& d.ht1.sizemask) h.nodup1
  obtain ⟨w, p⟩ := h.set_bucket1 key
    ((d.ht1.bucket (d.type.hashFunction key &&& d.ht1.sizemask)).set pos { e with val := val })
    [⟨key, val⟩] d.ht1.used hs
    (by rw [hek]; exact chain_set_perm key _ pos _ hnd hf)
    (by simp) (by simp) (by simp)
    (h.wf0.not_mem_of_find_none key hf0)
  have heq : dictSetVal d ⟨1, d.type.hashFunction key &&& d.ht1.sizemask, pos⟩ val =
      { d with ht1 := { d.ht1 with
        table := d.ht1.table.set (d.type.hashFunction key &&& d.ht1.sizemask)
          ((d.ht1.bucket (d.type.hashFunction key &&& d.ht1.sizemask)).set pos { e with val := val }),
        used := d.ht1.used } } := by
    simp [dictSetVal, hget, dictSetEntry]
  rw [heq]
  exact ⟨w, rfl, rfl, p⟩

theorem not_mem_dictKeys_of_find_none {d : dict} (h : d.wf) (key : sds)
    (hf0 : dictChainFind key (d.ht0.bucket (d.type.hashFunction key &&& d.ht0.sizemask)) = none)
    (hf1 : dictChainFind key (d.ht1.bucket (d.type.hashFunction key &&& d.ht1.sizemask)) = none) :
    key ∉ dictKeys d := by
  intro hk
  obtain ⟨e, he, hek⟩ := (mem_dictKeys key).1 hk
  rcases List.mem_append.1 he with h0 | h1
  · exact h.wf0.not_mem_of_find_none key hf0 e h0 hek
  · exact h.wf1.not_mem_of_find_none key hf1 e h1 hek

/-- What `dictFind` returns on a well-formed dictionary. -/
theorem dictFind_spec (d : dict) (key : sds) (h : d.wf) :
    dict.reorg d (dictFind d key).2 ∧
    ((dictFind d key).1 = none → key ∉ dictKeys d) ∧
    (∀ de, (dictFind d key).1 = some de →
      (∃ e, dictGetEntry (dictFind d key).2 de = some e ∧ e.key = key ∧
        e ∈ dictEntries (dictFind d key).2) ∧
      ∀ val, dict.isPut (dictFind d key).2 (dictSetVal (dictFind d key).2 de val) ⟨key, val⟩) := by
  unfold dictFind
  by_cases hz : d.ht0.used + d.ht1.used = 0
  · rw [if_pos hz]
    refine ⟨dict.reorg.refl h, fun _ hk => ?_, fun de hde => by cases hde⟩
    have hl : (dictEntries d).length = 0 := by rw [← h.size_eq]; exact hz
    rw [dictKeys, List.length_eq_zero.1 hl] at hk
    simp at hk
  · rw [if_neg hz]
    have hre := dictStepIf_reorg d h
    generalize (if dictIsRehashing d = true then dictRehashStep d else d) = d1 at hre
    have h1 := hre.wf
    simp only [dictHashKey]
    cases hf0 : dictChainFind key (d1.ht0.bucket (d1.type.hashFunction key &&& d1.ht0.sizemask)) with
    | some pos =>
      simp only
      refine ⟨hre, fun hc => (by cases hc), fun de hde => ?_⟩
      injection hde with hde
      subst hde
      obtain ⟨e, he, hek⟩ := dictChainFind_some _ _ _ hf0
      refine ⟨⟨e, by simp [dictGetEntry, he], hek, ?_⟩, fun val => h1.setVal0 key pos val hf0⟩
      exact List.mem_append_left _ (mem_flatten_of_getD _ _ _ (List.getElem?_mem he))
    | none =>
      simp only
      by_cases hr : dictIsRehashing d1 = true
      · simp only [hr, not_true_eq_false, if_false]
        cases hf1 : dictChainFind key (d1.ht1.bucket (d1.type.hashFunction key &&& d1.ht1.sizemask)) with
        | some pos =>
          simp only
          refine ⟨hre, fun hc => (by cases hc), fun de hde => ?_⟩
          injection hde with hde
          subst hde
          obtain ⟨e, he, hek⟩ := dictChainFind_some _ _ _ hf1
          refine ⟨⟨e, by simp [dictGetEntry, he], hek, ?_⟩,
            fun val => h1.setVal1 key pos val hf0 hf1⟩
          exact List.mem_append_right _ (mem_flatten_of_getD _ _ _ (List.getElem?_mem he))
        | none =>
          simp only
          refine ⟨hre, fun _ => ?_, fun de hde => by cases hde⟩
          rw [← hre.mem_keys]
          exact not_mem_dictKeys_of_find_none h1 key hf0 hf1
      · simp only [hr, not_false_eq_true, if_true]
        refine ⟨hre, fun _ => ?_, fun de hde => by cases hde⟩
        rw [← hre.mem_keys]
        apply not_mem_dictKeys_of_find_none h1 key hf0
        rw [h1.ht1_bucket_idle (by simpa using hr)]
        rfl

theorem mem_dictKeys_of_find0 {d : dict} (key : sds)
    (hf : (dictChainFind key (d.ht0.bucket (d.type.hashFunction key &&& d.ht0.sizemask))).isSome = true) :
    key ∈ dictKeys d := by
  obtain ⟨e, he, hek⟩ := (dictChainFind_isSome _ _).1 hf
  exact (mem_dictKeys key).2 ⟨e, List.mem_append_left _ (mem_flatten_of_getD _ _ _ he), hek⟩

theorem mem_dictKeys_of_find1 {d : dict} (key : sds)
    (hf : (dictChainFind key (d.ht1.bucket (d.type.hashFunction key &&& d.ht1.sizemask))).isSome = true) :
    key ∈ dictKeys d := by
  obtain ⟨e, he, hek⟩ := (dictChainFind_isSome _ _).1 hf
  exact (mem_dictKeys key).2 ⟨e, List.mem_append_right _ (mem_flatten_of_getD _ _ _ he), hek⟩

theorem isSome_eq_false_iff {α : Type} (o : Option α) : ¬ (o.isSome = true) ↔ o = none := by
  cases o <;> simp

/-- What `dictKeyIndex` returns on a well-formed dictionary. -/
theorem dictKeyIndex_spec (cr : Bool) (d : dict) (key : sds) (h : d.wf) :
    dict.reorg d (dictKeyIndex cr d key (d.type.hashFunction key)).2 ∧
    ((dictKeyIndex cr d key (d.type.hashFunction key)).1 = none → key ∈ dictKeys d) ∧
    (∀ idx, (dictKeyIndex cr d key (d.type.hashFunction key)).1 = some idx →
      key ∉ dictKeys d ∧ 0 < (dictKeyIndex cr d key (d.type.hashFunction key)).2.ht0.size ∧
      idx = d.type.hashFunction key &&&
        (if dictIsRehashing (dictKeyIndex cr d key (d.type.hashFunction key)).2
          then (dictKeyIndex cr d key (d.type.hashFunction key)).2.ht1.sizemask
          else (dictKeyIndex cr d key (d.type.hashFunction key)).2.ht0.sizemask)) := by
  unfold dictKeyIndex
  have hre := dictExpandIfNeeded_reorg cr d h
  obtain ⟨hok, hpos⟩ := dictExpandIfNeeded_ok cr d h
  rcases hx : dictExpandIfNeeded cr d with ⟨st, d1⟩
  rw [hx] at hre hok hpos
  simp only at hre hok hpos ⊢
  have h1 := hre.wf
  have hty : d1.type = d.type := hre.type_eq
  rw [if_neg (by rw [hok]; decide), ← hty]
  by_cases hf0 : (dictChainFind key (d1.ht0.bucket (d1.type.hashFunction key &&& d1.ht0.sizemask))).isSome = true
  · rw [if_pos hf0]
    refine ⟨hre, fun _ => ?_, fun idx hc => by cases hc⟩
    rw [← hre.mem_keys]; exact mem_dictKeys_of_find0 key hf0
  · rw [if_neg hf0]
    have hn0 := (isSome_eq_false_iff _).1 hf0
    by_cases hr : dictIsRehashing d1 = true
    · rw [if_neg (by simpa using hr)]
      by_cases hf1 : (dictChainFind key (d1.ht1.bucket (d1.type.hashFunction key &&& d1.ht1.sizemask))).isSome = true
      · rw [if_pos hf1]
        refine ⟨hre, fun _ => ?_, fun idx hc => by cases hc⟩
        rw [← hre.mem_keys]; exact mem_dictKeys_of_find1 key hf1
      · rw [if_neg hf1]
        have hn1 := (isSome_eq_false_iff _).1 hf1
        refine ⟨hre, fun hc => (by simp at hc), fun idx hc => ?_⟩
        injection hc with hc
        refine ⟨?_, hpos, ?_⟩
        · rw [← hre.mem_keys]; exact not_mem_dictKeys_of_find_none h1 key hn0 hn1
        · simp only [hr, if_true]; exact hc.symm
    · rw [if_pos (by simpa using hr)]
      refine ⟨hre, fun hc => (by simp at hc), fun idx hc => ?_⟩
      injection hc with hc
      refine ⟨?_, hpos, ?_⟩
      · rw [← hre.mem_keys]
        apply not_mem_dictKeys_of_find_none h1 key hn0
        rw [h1.ht1_bucket_idle (by simpa using hr)]; rfl
      · simp only [hr]; exact hc.symm

theorem dictht.push_bucket_self {hash : sds → Nat} {ht : dictht} (h : ht.wf hash) (hs : 0 < ht.size)
    (x : Nat) (e : dictEntry) :
    (ht.push (x &&& ht.sizemask) e).bucket (x &&& ht.sizemask) = e :: ht.bucket (x &&& ht.sizemask) := by
  simp only [dictht.push]
  rw [dictht.bucket_set, if_pos ⟨rfl, h.idx_lt hs x⟩]

/-- Linking a new key in at the head of its bucket of `ht0` (no rehash in
progress) and writing its value. -/
theorem dict.wf.push0 {d : dict} (h : d.wf) (key : sds) (val : Option sds)
    (hs : 0 < d.ht0.size) (hr : dictIsRehashing d = false) (hk : key ∉ dictKeys d) :
    dict.isPut d { d with ht0 := d.ht0.push (d.type.hashFunction key &&& d.ht0.sizemask) ⟨key, none⟩ }
      ⟨key, none⟩ ∧
    dictGetEntry { d with ht0 := d.ht0.push (d.type.hashFunction key &&& d.ht0.sizemask) ⟨key, none⟩ }
      ⟨0, d.type.hashFunction key &&& d.ht0.sizemask, 0⟩ = some ⟨key, none⟩ ∧
    dict.isPut d (dictSetVal
      { d with ht0 := d.ht0.push (d.type.hashFunction key &&& d.ht0.sizemask) ⟨key, none⟩ }
      ⟨0, d.type.hashFunction key &&& d.ht0.sizemask, 0⟩ val) ⟨key, val⟩ := by
  have hnb : ∀ e ∈ d.ht0.bucket (d.type.hashFunction key &&& d.ht0.sizemask), e.key ≠ key :=
    fun e he hek => hk ((mem_dictKeys key).2
      ⟨e, List.mem_append_left _ (mem_flatten_of_getD _ _ _ he), hek⟩)
  have h1 : ∀ e ∈ d.ht1.table.flatten, e.key ≠ key :=
    fun e he hek => hk ((mem_dictKeys key).2 ⟨e, List.mem_append_right _ he, hek⟩)
  have hput : ∀ v : Option sds, dict.isPut d { d with ht0 := { d.ht0 with
      table := d.ht0.table.set (d.type.hashFunction key &&& d.ht0.sizemask)
        (⟨key, v⟩ :: d.ht0.bucket (d.type.hashFunction key &&& d.ht0.sizemask)),
      used := d.ht0.used + 1 } } ⟨key, v⟩ := by
    intro v
    obtain ⟨w, p⟩ := h.set_bucket0 key
      (⟨key, v⟩ :: d.ht0.bucket (d.type.hashFunction key &&& d.ht0.sizemask)) [⟨key, v⟩]
      (d.ht0.used + 1) hs (by rw [filter_key_ne_eq_self key _ hnb]; rfl) (by simp) (by simp)
      (by simp; omega) h1 (Or.inl ((dictIsRehashing_eq_false d).1 hr))
    exact ⟨w, rfl, rfl, p⟩
  have hget : dictGetEntry { d with ht0 := d.ht0.push (d.type.hashFunction key &&& d.ht0.sizemask) ⟨key, none⟩ }
      ⟨0, d.type.hashFunction key &&& d.ht0.sizemask, 0⟩ = some ⟨key, none⟩ := by
    simp [dictGetEntry, dictht.push_bucket_self h.wf0 hs]
  refine ⟨hput none, hget, ?_⟩
  have heq : dictSetVal
      { d with ht0 := d.ht0.push (d.type.hashFunction key &&& d.ht0.sizemask) ⟨key, none⟩ }
      ⟨0, d.type.hashFunction key &&& d.ht0.sizemask, 0⟩ val = { d with ht0 := { d.ht0 with
      table := d.ht0.table.set (d.type.hashFunction key &&& d.ht0.sizemask)
        (⟨key, val⟩ :: d.ht0.bucket (d.type.hashFunction key &&& d.ht0.sizemask)),
      used := d.ht0.used + 1 } } := by
    simp only [dictSetVal, hget, dictSetEntry, if_true, dictht.push_bucket_self h.wf0 hs]
    simp [dictht.push]
  rw [heq]
  exact hput val

/-- Linking a new key in at the head of its bucket of `ht1` (during a rehash)
and writing its value. -/
theorem dict.wf.push1 {d : dict} (h : d.wf) (key : sds) (val : Option sds)
    (hr : dictIsRehashing d = true) (hk : key ∉ dictKeys d) :
    dict.isPut d { d with ht1 := d.ht1.push (d.type.hashFunction key &&& d.ht1.sizemask) ⟨key, none⟩ }
      ⟨key, none⟩ ∧
    dictGetEntry { d with ht1 := d.ht1.push (d.type.hashFunction key &&& d.ht1.sizemask) ⟨key, none⟩ }
      ⟨1, d.type.hashFunction key &&& d.ht1.sizemask, 0⟩ = some ⟨key, none⟩ ∧
    dict.isPut d (dictSetVal
      { d with ht1 := d.ht1.push (d.type.hashFunction key &&& d.ht1.sizemask) ⟨key, none⟩ }
      ⟨1, d.type.hashFunction key &&& d.ht1.sizemask, 0⟩ val) ⟨key, val⟩ := by
  have hs : 0 < d.ht1.size := (h.busy ((dictIsRehashing_eq_true d).1 hr)).2.1
  have hnb : ∀ e ∈ d.ht1.bucket (d.type.hashFunction key &&& d.ht1.sizemask), e.key ≠ key :=
    fun e he hek => hk ((mem_dictKeys key).2
      ⟨e, List.mem_append_right _ (mem_flatten_of_getD _ _ _ he), hek⟩)
  have h0 : ∀ e ∈ d.ht0.table.flatten, e.key ≠ key :=
    fun e he hek => hk ((mem_dictKeys key).2 ⟨e, List.mem_append_left _ he, hek⟩)
  have hput : ∀ v : Option sds, dict.isPut d { d with ht1 := { d.ht1 with
      table := d.ht1.table.set (d.type.hashFunction key &&& d.ht1.sizemask)
        (⟨key, v⟩ :: d.ht1.bucket (d.type.hashFunction key &&& d.ht1.sizemask)),
      used := d.ht1.used + 1 } } ⟨key, v⟩ := by
    intro v
    obtain ⟨w, p⟩ := h.set_bucket1 key
      (⟨key, v⟩ :: d.ht1.bucket (d.type.hashFunction key &&& d.ht1.sizemask)) [⟨key, v⟩]
      (d.ht1.used + 1) hs (by rw [filter_key_ne_eq_self key _ hnb]; rfl) (by simp) (by simp)
      (by simp; omega) h0
    exact ⟨w, rfl, rfl, p⟩
  have hget : dictGetEntry { d with ht1 := d.ht1.push (d.type.hashFunction key &&& d.ht1.sizemask) ⟨key, none⟩ }
      ⟨1, d.type.hashFunction key &&& d.ht1.sizemask, 0⟩ = some ⟨key, none⟩ := by
    simp [dictGetEntry, dictht.push_bucket_self h.wf1 hs]
  refine ⟨hput none, hget, ?_⟩
  have heq : dictSetVal
      { d with ht1 := d.ht1.push (d.type.hashFunction key &&& d.ht1.sizemask) ⟨key, none⟩ }
      ⟨1, d.type.hashFunction key &&& d.ht1.sizemask, 0⟩ val = { d with ht1 := { d.ht1 with
      table := d.ht1.table.set (d.type.hashFunction key &&& d.ht1.sizemask)
        (⟨key, val⟩ :: d.ht1.bucket (d.type.hashFunction key &&& d.ht1.sizemask)),
      used := d.ht1.used + 1 } } := by
    simp only [dictSetVal, hget, dictSetEntry, dictht.push_bucket_self h.wf1 hs]
    simp [dictht.push]
  rw [heq]
  exact hput val

/-- What `dictAddRaw` does on a well-formed dictionary. -/
theorem dictAddRaw_spec (cr : Bool) (d : dict) (key : sds) (h : d.wf) :
    (key ∈ dictKeys d →
      (dictAddRaw cr d key).1 = none ∧ dict.reorg d (dictAddRaw cr d key).2) ∧
    (key ∉ dictKeys d → ∃ de, (dictAddRaw cr d key).1 = some de ∧
      dict.isPut d (dictAddRaw cr d key).2 ⟨key, none⟩ ∧
      dictGetEntry (dictAddRaw cr d key).2 de = some ⟨key, none⟩ ∧
      ∀ val, dict.isPut d (dictSetVal (dictAddRaw cr d key).2 de val) ⟨key, val⟩) := by
  unfold dictAddRaw
  have hre := dictStepIf_reorg d h
  generalize (if dictIsRehashing d = true then dictRehashStep d else d) = d1 at hre
  have h1 := hre.wf
  simp only [dictHashKey]
  obtain ⟨k1, k2, k3⟩ := dictKeyIndex_spec cr d1 key h1
  rcases hx : dictKeyIndex cr d1 key (d1.type.hashFunction key) with ⟨r, d2⟩
  rw [hx] at k1 k2 k3
  simp only at k1 k2 k3
  have h2 := k1.wf
  have hty : d2.type = d1.type := k1.type_eq
  have h12 := hre.trans k1
  cases r with
  | none =>
    simp only
    have hin : key ∈ dictKeys d := by rw [← hre.mem_keys]; exact k2 rfl
    exact ⟨fun _ => ⟨trivial, h12⟩, fun hn => absurd hin hn⟩
  | some index =>
    simp only
    obtain ⟨hnk, hpos, hidx⟩ := k3 index rfl
    have hnk2 : key ∉ dictKeys d2 := by rw [k1.mem_keys]; exact hnk
    have hnk0 : key ∉ dictKeys d := by rw [← hre.mem_keys]; exact hnk
    refine ⟨fun hin => absurd hin hnk0, fun _ => ?_⟩
    by_cases hr : dictIsRehashing d2 = true
    · simp only [hr, if_true] at hidx ⊢
      rw [← hty] at hidx
      subst hidx
      obtain ⟨p1, p2, p3⟩ := h2.push1 key none hr hnk2
      exact ⟨_, rfl, h12.isPut p1, p2, fun val => h12.isPut (h2.push1 key val hr hnk2).2.2⟩
    · have hr' : dictIsRehashing d2 = false := by simpa using hr
      simp only [hr', if_false] at hidx ⊢
      rw [← hty] at hidx
      subst hidx
      simp only [Bool.false_eq_true, if_false]
      obtain ⟨p1, p2, p3⟩ := h2.push0 key none hpos hr' hnk2
      exact ⟨_, rfl, h12.isPut p1, p2, fun val => h12.isPut (h2.push0 key val hpos hr' hnk2).2.2⟩

/-- What `dictAdd` does on a well-formed dictionary. -/
theorem dictAdd_spec (cr : Bool) (d : dict) (key : sds) (val : Option sds) (h : d.wf) :
    (key ∈ dictKeys d →
      (dictAdd cr d key val).1 = DICT_ERR ∧ dict.reorg d (dictAdd cr d key val).2) ∧
    (key ∉ dictKeys d →
      (dictAdd cr d key val).1 = DICT_OK ∧ dict.isPut d (dictAdd cr d key val).2 ⟨key, val⟩) := by
  obtain ⟨a1, a2⟩ := dictAddRaw_spec cr d key h
  unfold dictAdd
  constructor
  · intro hin
    obtain ⟨b1, b2⟩ := a1 hin
    rcases hx : dictAddRaw cr d key with ⟨r, d1⟩
    rw [hx] at b1 b2
    simp only at b1 b2
    subst b1
    exact ⟨rfl, b2⟩
  · intro hnin
    obtain ⟨de, b1, _, _, b4⟩ := a2 hnin
    rcases hx : dictAddRaw cr d key with ⟨r, d1⟩
    rw [hx] at b1 b4
    simp only at b1 b4
    subst b1
    exact ⟨rfl, b4 val⟩

/-- What `dictDelete` does on a well-formed dictionary. -/
theorem dictDelete_spec (d : dict) (key : sds) (h : d.wf) :
    dict.isDel d (dictDelete d key).2 key ∧
    (key ∈ dictKeys d → (dictDelete d key).1 = DICT_OK) ∧
    (key ∉ dictKeys d → (dictDelete d key).1 = DICT_ERR) := by
  unfold dictDelete
  by_cases hz : d.ht0.used = 0 ∧ d.ht1.used = 0
  · rw [if_pos hz]
    have hl : (dictEntries d).length = 0 := by rw [← h.size_eq, dictSize]; omega
    have hnk : key ∉ dictKeys d := by
      rw [dictKeys, List.length_eq_zero.1 hl]; simp
    exact ⟨(dict.reorg.refl h).toDel h hnk, fun hin => absurd hin hnk, fun _ => rfl⟩
  · rw [if_neg hz]
    have hre := dictStepIf_reorg d h
    generalize (if dictIsRehashing d = true then dictRehashStep d else d) = d1 at hre
    have h1 := hre.wf
    simp only [dictHashKey]
    by_cases hf0 : (dictChainFind key (d1.ht0.bucket (d1.type.hashFunction key &&& d1.ht0.sizemask))).isSome = true
    · rw [if_pos hf0]
      have hin : key ∈ dictKeys d := by rw [← hre.mem_keys]; exact mem_dictKeys_of_find0 key hf0
      refine ⟨?_, fun _ => rfl, fun hn => absurd hin hn⟩
      obtain ⟨e, he, hek⟩ := (dictChainFind_isSome _ _).1 hf0
      have hs := h1.wf0.size_pos_of_mem _ _ he
      have hu := h1.used_pos0 _ _ he
      have hnd := h1.wf0.bucket_nodup (d1.type.hashFunction key &&& d1.ht0.sizemask) h1.nodup0
      have hlen := dictChainUnlink_length key _ ⟨e, he, hek⟩
      obtain ⟨w, p⟩ := h1.set_bucket0 key
        (dictChainUnlink key (d1.ht0.bucket (d1.type.hashFunction key &&& d1.ht0.sizemask))) []
        (d1.ht0.used - 1) hs (by rw [dictChainUnlink_eq_filter key _ hnd]; rfl) (by simp) (by simp)
        (by omega)
        (fun e1 h1' hk1 => h1.disjoint e e1 (mem_flatten_of_getD _ _ _ he) h1' (by rw [hek, hk1]))
        (Or.inr (List.ne_nil_of_mem he))
      exact hre.isDel ⟨w, rfl, rfl, p⟩
    · rw [if_neg hf0]
      have hn0 := (isSome_eq_false_iff _).1 hf0
      by_cases hr : dictIsRehashing d1 = true
      · rw [if_neg (by simpa using hr)]
        by_cases hf1 : (dictChainFind key (d1.ht1.bucket (d1.type.hashFunction key &&& d1.ht1.sizemask))).isSome = true
        · rw [if_pos hf1]
          have hin : key ∈ dictKeys d := by rw [← hre.mem_keys]; exact mem_dictKeys_of_find1 key hf1
          refine ⟨?_, fun _ => rfl, fun hn => absurd hin hn⟩
          obtain ⟨e, he, hek⟩ := (dictChainFind_isSome _ _).1 hf1
          have hs := h1.wf1.size_pos_of_mem _ _ he
          have hu := h1.used_pos1 _ _ he
          have hnd := h1.wf1.bucket_nodup (d1.type.hashFunction key &&& d1.ht1.sizemask) h1.nodup1
          have hlen := dictChainUnlink_length key _ ⟨e, he, hek⟩
          obtain ⟨w, p⟩ := h1.set_bucket1 key
            (dictChainUnlink key (d1.ht1.bucket (d1.type.hashFunction key &&& d1.ht1.sizemask))) []
            (d1.ht1.used - 1) hs (by rw [dictChainUnlink_eq_filter key _ hnd]; rfl) (by simp) (by simp)
            (by omega) (h1.wf0.not_mem_of_find_none key hn0)
          exact hre.isDel ⟨w, rfl, rfl, p⟩
        · rw [if_neg hf1]
          have hn1 := (isSome_eq_false_iff _).1 hf1
          have hnk : key ∉ dictKeys d := by
            rw [← hre.mem_keys]; exact not_mem_dictKeys_of_find_none h1 key hn0 hn1
          exact ⟨hre.toDel h hnk, fun hin => absurd hin hnk, fun _ => rfl⟩
      · rw [if_pos (by simpa using hr)]
        have hnk : key ∉ dictKeys d := by
          rw [← hre.mem_keys]
          apply not_mem_dictKeys_of_find_none h1 key hn0
          rw [h1.ht1_bucket_idle (by simpa using hr)]; rfl
        exact ⟨hre.toDel h hnk, fun hin => absurd hin hnk, fun _ => rfl⟩

theorem zlentryMatches_iff (e : zlentry) (he : e.valid) (vstr : sds) :
    zlentryMatches e vstr = true ↔ e.bytes = vstr := by
  cases e with
  | str s => simp [zlentryMatches, zlentry.bytes]
  | int v =>
    simp only [zlentryMatches, zlentry.bytes, decide_eq_true_eq, string2ll_iff]
    constructor
    · intro h; exact h.1.symm
    · intro h; exact ⟨h.symm, he.1, he.2⟩

theorem zlentryOf_valid (s : sds) : (zlentryOf s).valid := by
  unfold zlentryOf
  cases h : string2ll s with
  | none => trivial
  | some v => exact (string2ll_some s v h).2

theorem zlentryOf_bytes (s : sds) : (zlentryOf s).bytes = s := by
  unfold zlentryOf
  cases h : string2ll s with
  | none => rfl
  | some v => exact (string2ll_some s v h).1.symm

/-- Induction over a list two entries at a time. -/
theorem even_list_induction {α : Type} (P : List α → Prop) (h0 : P [])
    (h2 : ∀ a b l, l.length % 2 = 0 → P l → P (a :: b :: l)) :
    ∀ l : List α, l.length % 2 = 0 → P l := by
  have key : ∀ n (l : List α), l.length = n → l.length % 2 = 0 → P l := by
    intro n
    induction n using Nat.strong_induction_on with
    | _ n ih =>
      intro l hn hl
      match l, hn, hl with
      | [], _, _ => exact h0
      | [a], _, hl => simp at hl
      | a :: b :: rest, hn, hl =>
        have hr : rest.length % 2 = 0 := by simp at hl; omega
        exact h2 a b rest hr (ih rest.length (by simp at hn; omega) rest rfl hr)
  exact fun l => key l.length l rfl

theorem zlPairs_append (pre l : List zlentry) (h : pre.length % 2 = 0) :
    zlPairs (pre ++ l) = zlPairs pre ++ zlPairs l := by
  revert h
  apply even_list_induction (fun pre => zlPairs (pre ++ l) = zlPairs pre ++ zlPairs l)
  · rfl
  · intro a b pre _ ih
    simp [zlPairs, ih]

theorem zlPairs_length (zl : List zlentry) (h : zl.length % 2 = 0) :
    (zlPairs zl).length = zl.length / 2 := by
  revert h
  apply even_list_induction (fun zl => (zlPairs zl).length = zl.length / 2)
  · rfl
  · intro a b l _ ih
    simp [zlPairs, ih]
    omega

/-- The outcome of the field scan of a ziplist with an even number of
entries: the first pair whose field matches, with the entries before and after
it, or no pair at all. -/
theorem ziplistFindFrom_spec (vstr : sds) (zl : List zlentry) (h : zl.length % 2 = 0) :
    ∀ p, (ziplistFindFrom vstr 1 zl p 0 = none ∧ ∀ pr ∈ zlPairs zl, zlentryMatches pr.1 vstr = false) ∨
      (∃ pre fe ve post, zl = pre ++ fe :: ve :: post ∧ pre.length % 2 = 0 ∧
        ziplistFindFrom vstr 1 zl p 0 = some (p + pre.length) ∧ zlentryMatches fe vstr = true ∧
        ∀ pr ∈ zlPairs pre, zlentryMatches pr.1 vstr = false) := by
  revert h
  apply even_list_induction (fun zl => ∀ p,
    (ziplistFindFrom vstr 1 zl p 0 = none ∧ ∀ pr ∈ zlPairs zl, zlentryMatches pr.1 vstr = false) ∨
      (∃ pre fe ve post, zl = pre ++ fe :: ve :: post ∧ pre.length % 2 = 0 ∧
        ziplistFindFrom vstr 1 zl p 0 = some (p + pre.length) ∧ zlentryMatches fe vstr = true ∧
        ∀ pr ∈ zlPairs pre, zlentryMatches pr.1 vstr = false))
  · intro p
    exact Or.inl ⟨rfl, by simp [zlPairs]⟩
  · intro a b l hl ih p
    by_cases hm : zlentryMatches a vstr = true
    · refine Or.inr ⟨[], a, b, l, rfl, rfl, ?_, hm, by simp [zlPairs]⟩
      simp [ziplistFindFrom, hm]
    · have hm' : zlentryMatches a vstr = false := by simpa using hm
      have hstep : ziplistFindFrom vstr 1 (a :: b :: l) p 0 = ziplistFindFrom vstr 1 l (p + 2) 0 := by
        simp [ziplistFindFrom, hm']
      rcases ih (p + 2) with ⟨h1, h2⟩ | ⟨pre, fe, ve, post, e1, e2, e3, e4, e5⟩
      · refine Or.inl ⟨by rw [hstep, h1], ?_⟩
        intro pr hpr
        simp only [zlPairs, List.mem_cons] at hpr
        rcases hpr with rfl | hpr
        · exact hm'
        · exact h2 pr hpr
      · refine Or.inr ⟨a :: b :: pre, fe, ve, post, by simp [e1], by simp; omega, ?_, e4, ?_⟩
        · rw [hstep, e3]; simp; omega
        · intro pr hpr
          simp only [zlPairs, List.mem_cons] at hpr
          rcases hpr with rfl | hpr
          · exact hm'
          · exact e5 pr hpr

theorem whileNext_eq_foldOpt {ι α σ : Type} (next : ι → Option (Option α × ι))
    (body : σ → α → Option σ) (it : ι) (xs : List α) (h : Yields next it xs) :
    ∀ (fuel : Nat) (s : σ), xs.length < fuel → whileNext next body fuel it s = foldOpt body xs s := by
  induction h with
  | done it it' hn =>
    intro fuel s hf
    cases fuel with
    | zero => simp at hf
    | succ fuel => simp [whileNext, hn, foldOpt]
  | step it it' x xs hn _ ih =>
    intro fuel s hf
    cases fuel with
    | zero => simp at hf
    | succ fuel =>
      simp only [whileNext, hn, foldOpt]
      cases body s x with
      | none => rfl
      | some s' => exact ih fuel s' (by simpa using hf)

theorem foldOpt_append {α σ : Type} (body : σ → α → Option σ) (xs ys : List α) (s : σ) :
    foldOpt body (xs ++ ys) s = (foldOpt body xs s).bind (foldOpt body ys) := by
  induction xs generalizing s with
  | nil => rfl
  | cons x xs ih =>
    simp only [List.cons_append, foldOpt]
    cases body s x with
    | none => rfl
    | some s' => exact ih s'

theorem foldOpt_map {α β σ : Type} (body : σ → β → Option σ) (g : α → β) (xs : List α) (s : σ) :
    foldOpt body (xs.map g) s = foldOpt (fun s x => body s (g x)) xs s := by
  induction xs generalizing s with
  | nil => rfl
  | cons x xs ih =>
    simp only [List.map_cons, foldOpt]
    cases body s (g x) with
    | none => rfl
    | some s' => exact ih s'

/-- A loop invariant carried through a fold whose body never fails under it;
the invariant speaks of the elements already processed. -/
theorem foldOpt_inv {α σ : Type} (body : σ → α → Option σ) (l : List α)
    (I : List α → σ → Prop)
    (hstep : ∀ done x rest s, l = done ++ x :: rest → I done s →
      ∃ s', body s x = some s' ∧ I (done ++ [x]) s')
    (s0 : σ) (h0 : I [] s0) : ∃ s', foldOpt body l s0 = some s' ∧ I l s' := by
  have key : ∀ (rest done : List α) (s : σ), l = done ++ rest → I done s →
      ∃ s', foldOpt body rest s = some s' ∧ I l s' := by
    intro rest
    induction rest with
    | nil =>
      intro done s hl h
      rw [List.append_nil] at hl
      exact ⟨s, rfl, hl ▸ h⟩
    | cons x xs ih =>
      intro done s hl h
      obtain ⟨s1, h1, h2⟩ := hstep done x xs s hl h
      obtain ⟨s2, h3, h4⟩ := ih (done ++ [x]) s1 (by simp [hl]) h2
      refine ⟨s2, ?_, h4⟩
      simp only [foldOpt, h1]
      exact h3
  exact key l [] s0 rfl h0

theorem pairsLookup_cons (p : sds × sds) (l : List (sds × sds)) (f : sds) :
    pairsLookup (p :: l) f = if p.1 = f then some p.2 else pairsLookup l f := by
  simp only [pairsLookup, List.find?_cons]
  by_cases h : p.1 = f <;> simp [h]

theorem pairsLookup_eq_none (l : List (sds × sds)) (f : sds) :
    pairsLookup l f = none ↔ f ∉ l.map (·.1) := by
  induction l with
  | nil => simp [pairsLookup]
  | cons p l ih =>
    rw [pairsLookup_cons]
    by_cases h : p.1 = f
    · simp [h]
    · simp only [h, if_false, ih, List.map_cons, List.mem_cons]
      constructor
      · intro h1 h2
        rcases h2 with h2 | h2
        · exact h h2.symm
        · exact h1 h2
      · intro h1 h2
        exact h1 (Or.inr h2)

theorem pairsLookup_eq_some (l : List (sds × sds)) (hn : (l.map (·.1)).Nodup) (f v : sds) :
    pairsLookup l f = some v ↔ (f, v) ∈ l := by
  induction l with
  | nil => simp [pairsLookup]
  | cons p l ih =>
    rw [pairsLookup_cons]
    simp only [List.map_cons, List.nodup_cons] at hn
    by_cases h : p.1 = f
    · simp only [h, if_true, List.mem_cons]
      constructor
      · intro hv
        injection hv with hv
        left
        rw [← h, ← hv]
      · intro hm
        rcases hm with hm | hm
        · rw [← hm]
        · exfalso
          apply hn.1
          rw [h]
          exact List.mem_map_of_mem (·.1) hm
    · simp only [h, if_false, ih hn.2, List.mem_cons]
      constructor
      · intro hm; exact Or.inr hm
      · intro hm
        rcases hm with hm | hm
        · exfalso; apply h; rw [← hm]
        · exact hm

/-- Lookup does not depend on the order of pairs with distinct fields. -/
theorem pairsLookup_perm (l l' : List (sds × sds)) (hp : l.Perm l') (hn : (l.map (·.1)).Nodup)
    (f : sds) : pairsLookup l f = pairsLookup l' f := by
  have hn' : (l'.map (·.1)).Nodup := ((hp.map _).nodup_iff).1 hn
  cases h : pairsLookup l' f with
  | none =>
    rw [pairsLookup_eq_none] at h ⊢
    intro hm
    exact h ((hp.map _).mem_iff.1 hm)
  | some v =>
    rw [pairsLookup_eq_some _ hn'] at h
    rw [pairsLookup_eq_some _ hn]
    exact hp.mem_iff.2 h

theorem pairsLookup_filter_ne (l : List (sds × sds)) (f g : sds) (h : g ≠ f) :
    pairsLookup (l.filter (fun p => decide (p.1 ≠ f))) g = pairsLookup l g := by
  induction l with
  | nil => rfl
  | cons p l ih =>
    by_cases hp : p.1 = f
    · rw [List.filter_cons_of_neg (by simp [hp]), ih, pairsLookup_cons, if_neg]
      rw [hp]; exact fun hc => h hc.symm
    · rw [List.filter_cons_of_pos (by simp [hp]), pairsLookup_cons, pairsLookup_cons, ih]

theorem pairs_filter_length (l : List (sds × sds)) (hn : (l.map (·.1)).Nodup) (f : sds) :
    (l.filter (fun p => decide (p.1 ≠ f))).length + (if f ∈ l.map (·.1) then 1 else 0) = l.length := by
  induction l with
  | nil => simp
  | cons p l ih =>
    simp only [List.map_cons, List.nodup_cons] at hn
    have := ih hn.2
    by_cases hp : p.1 = f
    · rw [List.filter_cons_of_neg (by simp [hp])]
      have hnot : f ∉ l.map (·.1) := by rw [← hp]; exact hn.1
      simp only [hnot, if_false] at this
      rw [if_pos (by simp [hp])]
      simp only [List.length_cons]
      omega
    · rw [List.filter_cons_of_pos (by simp [hp])]
      have : (f ∈ (p :: l).map (·.1)) ↔ f ∈ l.map (·.1) := by
        simp only [List.map_cons, List.mem_cons]
        constructor
        · intro h; rcases h with h | h
          · exact absurd h.symm hp
          · exact h
        · intro h; exact Or.inr h
      simp only [this, List.length_cons]
      omega

theorem mem_zlPairs (zl : List zlentry) (pr : zlentry × zlentry) (h : pr ∈ zlPairs zl) :
    pr.1 ∈ zl ∧ pr.2 ∈ zl := by
  induction zl using zlPairs.induct with
  | case1 f v rest ih =>
    simp only [zlPairs, List.mem_cons] at h
    rcases h with rfl | h
    · simp
    · have := ih h
      exact ⟨List.mem_cons_of_mem _ (List.mem_cons_of_mem _ this.1),
        List.mem_cons_of_mem _ (List.mem_cons_of_mem _ this.2)⟩
  | case2 x hx =>
    rw [zlPairs] at h
    · simp at h
    · exact hx

/-! ## Operations on a ziplist encoded hash -/

theorem eraseIdx_append_length {α : Type} (pre : List α) (a : α) (post : List α) :
    (pre ++ a :: post).eraseIdx pre.length = pre ++ post := by
  induction pre with
  | nil => rfl
  | cons x pre ih => simp [ih]

theorem eraseIdx_append_length_succ {α : Type} (pre : List α) (a b : α) (post : List α) :
    (pre ++ a :: b :: post).eraseIdx (pre.length + 1) = pre ++ a :: post := by
  have := eraseIdx_append_length (pre ++ [a]) b post
  simpa using this

theorem getElem?_append_length_succ {α : Type} (pre : List α) (a b : α) (post : List α) :
    (pre ++ a :: b :: post)[pre.length + 1]? = some b := by
  induction pre with
  | nil => simp
  | cons x pre ih => simpa using ih

theorem take_append_length_succ {α : Type} (pre : List α) (a : α) (post : List α) :
    (pre ++ a :: post).take (pre.length + 1) = pre ++ [a] := by
  induction pre with
  | nil => simp
  | cons x pre ih => simpa using ih

theorem drop_append_length_succ {α : Type} (pre : List α) (a : α) (post : List α) :
    (pre ++ a :: post).drop (pre.length + 1) = post := by
  induction pre with
  | nil => simp
  | cons x pre ih => simp [ih]

/-- The field scan the hash operations start with. -/
theorem hashZlFind_eq (zl : ziplist) (field : sds) :
    (ziplistIndex zl ZIPLIST_HEAD).bind (fun fptr => ziplistFind zl fptr field 1)
      = ziplistFindFrom field 1 zl 0 0 := by
  unfold ziplistIndex ZIPLIST_HEAD
  by_cases h : 0 < zl.length
  · simp [h, ziplistFind]
  · have : zl = [] := List.length_eq_zero.1 (by omega)
    subst this
    simp [ziplistFindFrom]

theorem hashValid.nodup {o : robj} (h : hashValid o) : ((hashPairs o).map (·.1)).Nodup := by
  unfold hashValid at h
  unfold hashPairs
  cases hp : o.ptr with
  | ziplist zl =>
    rw [hp] at h
    simpa [List.map_map, Function.comp_def] using h.2.2.2
  | dict d =>
    rw [hp] at h
    simpa [List.map_map, Function.comp_def] using h.2.1.nodup
  | sds s => rw [hp] at h; exact h.elim
  | intset s => rw [hp] at h; exact h.elim

theorem pairs_filter_eq_self (l : List (sds × sds)) (f : sds) (h : f ∉ l.map (·.1)) :
    l.filter (fun p => decide (p.1 ≠ f)) = l := by
  apply List.filter_eq_self.2
  intro p hp
  simp only [ne_eq, decide_not, Bool.not_eq_true', decide_eq_false_iff_not]
  intro hc
  exact h (hc ▸ List.mem_map_of_mem (·.1) hp)

/-- The decomposition of a ziplist encoded hash at a field, together with what
the hash operations compute from it. -/
theorem hashZl_cases (zl : ziplist) (field : sds) (hlen : zl.length % 2 = 0)
    (hval : ∀ e ∈ zl, e.valid) :
    (ziplistFindFrom field 1 zl 0 0 = none ∧ field ∉ (zlPairs zl).map (·.1.bytes)) ∨
    (∃ pre fe ve post, zl = pre ++ fe :: ve :: post ∧ pre.length % 2 = 0 ∧
      ziplistFindFrom field 1 zl 0 0 = some pre.length ∧ fe.bytes = field ∧
      field ∉ (zlPairs pre).map (·.1.bytes)) := by
  rcases ziplistFindFrom_spec field zl hlen 0 with ⟨h1, h2⟩ | ⟨pre, fe, ve, post, e1, e2, e3, e4, e5⟩
  · refine Or.inl ⟨h1, ?_⟩
    intro hm
    obtain ⟨pr, hpr, hb⟩ := List.mem_map.1 hm
    have := h2 pr hpr
    rw [(zlentryMatches_iff pr.1 (hval _ (mem_zlPairs zl pr hpr).1) field).2 hb] at this
    cases this
  · refine Or.inr ⟨pre, fe, ve, post, e1, e2, by simpa using e3, ?_, ?_⟩
    · exact (zlentryMatches_iff fe (hval _ (by simp [e1])) field).1 e4
    · intro hm
      obtain ⟨pr, hpr, hb⟩ := List.mem_map.1 hm
      have := e5 pr hpr
      have hin : pr.1 ∈ zl := by
        rw [e1]; exact List.mem_append_left _ (mem_zlPairs pre pr hpr).1
      rw [(zlentryMatches_iff pr.1 (hval _ hin) field).2 hb] at this
      cases this

theorem hashTypeLength_ziplist (o : robj) (zl : ziplist) (hp : o.ptr = .ziplist zl)
    (hv : hashValid o) : hashTypeLength o = some (hashPairs o).length := by
  unfold hashValid at hv
  rw [hp] at hv
  simp [hashTypeLength, hv.1, hp, hashPairs, ziplistLen, zlPairs_length zl hv.2.1]

theorem hashTypeGetValue_ziplist (o : robj) (zl : ziplist) (hp : o.ptr = .ziplist zl)
    (hv : hashValid o) (field : sds) :
    ∃ r v, hashTypeGetValue o field = some (r, v, o) ∧
      hashTypeGetBytes o field = some (pairsLookup (hashPairs o) field) := by
  unfold hashValid at hv
  rw [hp] at hv
  obtain ⟨henc, hlen, hval, hnd⟩ := hv
  rcases hashZl_cases zl field hlen hval with ⟨h1, h2⟩ | ⟨pre, fe, ve, post, e1, e2, e3, e4, e5⟩
  · have hget : hashTypeGetFromZiplist o field = some none := by
      simp [hashTypeGetFromZiplist, henc, hp, hashZlFind_eq, h1]
    have hl : pairsLookup (hashPairs o) field = none := by
      rw [pairsLookup_eq_none]
      simpa [hashPairs, hp, List.map_map, Function.comp_def] using h2
    refine ⟨C_ERR, none, ?_, ?_⟩
    · simp [hashTypeGetValue, henc, hget]
    · simp [hashTypeGetBytes, hashTypeGetValue, henc, hget, hl, C_ERR, C_OK]
  · have hnext : ziplistNext zl pre.length = some (pre.length + 1) := by
      simp [ziplistNext, e1]
    have hg : ziplistGet zl (pre.length + 1) = some ve := by
      simp only [ziplistGet, e1]
      exact getElem?_append_length_succ pre fe ve post
    have hget : hashTypeGetFromZiplist o field = some (some ve) := by
      simp [hashTypeGetFromZiplist, henc, hp, hashZlFind_eq, e3, hnext, hg]
    have hl : pairsLookup (hashPairs o) field = some ve.bytes := by
      simp only [hashPairs, hp, e1, zlPairs_append pre _ e2, zlPairs, List.map_append, List.map_cons,
        pairsLookup]
      rw [List.find?_append, List.find?_eq_none.2, Option.none_or, List.find?_cons_of_pos]
      · rfl
      · simp [e4]
      · intro p hpm
        simp only [decide_eq_true_eq]
        intro hc
        apply e5
        obtain ⟨pr, hpr, rfl⟩ := List.mem_map.1 hpm
        exact List.mem_map.2 ⟨pr, hpr, hc⟩
    refine ⟨C_OK, some ve, ?_, ?_⟩
    · simp [hashTypeGetValue, henc, hget]
    · simp [hashTypeGetBytes, hashTypeGetValue, henc, hget, hl, C_OK]

/-! ## Conversion of a ziplist encoded hash -/

theorem getElem?_append_length {α : Type} (pre : List α) (a : α) (post : List α) :
    (pre ++ a :: post)[pre.length]? = some a := by
  induction pre with
  | nil => simp
  | cons x pre ih => simpa using ih

theorem hashTypeNextStep_end (o : robj) (zl : ziplist) (hp : o.ptr = .ziplist zl)
    (hi : hashTypeIterator) (hb : hiBefore o zl.length hi) :
    hashTypeNextStep hi = some (none, hi) := by
  obtain ⟨h1, h2, _, _, h5⟩ := hb
  rcases h5 with ⟨k0, f0, v0⟩ | ⟨k2, f2, v2⟩
  · simp [hashTypeNextStep, hashTypeNext, h1, h2, hp, f0, v0, ziplistIndex, k0, C_ERR]
  · have : ziplistNext zl (zl.length - 1) = none := by
      simp only [ziplistNext]
      rw [if_neg (by omega)]
    simp [hashTypeNextStep, hashTypeNext, h1, h2, hp, f2, v2, this, C_ERR]

theorem hashTypeNextStep_pair (o : robj) (zl : ziplist) (hp : o.ptr = .ziplist zl)
    (pre : List zlentry) (a b : zlentry) (rest : List zlentry) (hzl : zl = pre ++ a :: b :: rest)
    (hi : hashTypeIterator) (hb : hiBefore o pre.length hi) :
    hashTypeNextStep hi =
      some (some ⟨o, OBJ_ENCODING_ZIPLIST, some pre.length, some (pre.length + 1), none, none⟩,
        ⟨o, OBJ_ENCODING_ZIPLIST, some pre.length, some (pre.length + 1), none, none⟩) ∧
    hiBefore o (pre ++ [a, b]).length
      ⟨o, OBJ_ENCODING_ZIPLIST, some pre.length, some (pre.length + 1), none, none⟩ := by
  obtain ⟨h1, h2, h3, h4, h5⟩ := hb
  have hlen : zl.length = pre.length + 2 + rest.length := by
    rw [hzl]; simp only [List.length_append, List.length_cons]; omega
  have hn : ziplistNext zl pre.length = some (pre.length + 1) := by
    simp only [ziplistNext]
    rw [if_pos (by omega)]
  constructor
  · rcases hi with ⟨s, e, f, v, di, de⟩
    simp only at h1 h2 h3 h4 h5
    subst h1 h2 h3 h4
    rcases h5 with ⟨k0, f0, v0⟩ | ⟨k2, f2, v2⟩
    · subst f0 v0
      have hi0 : ziplistIndex zl 0 = some 0 := by
        simp only [ziplistIndex]
        rw [if_pos (by omega)]
      rw [k0] at hn ⊢
      simp [hashTypeNextStep, hashTypeNext, hp, hi0, hn, C_OK, C_ERR]
    · subst f2 v2
      have hn1 : ziplistNext zl (pre.length - 1) = some pre.length := by
        simp only [ziplistNext]
        rw [if_pos (by omega)]
        congr 1
        omega
      simp [hashTypeNextStep, hashTypeNext, hp, hn1, hn, C_OK, C_ERR]
  · refine ⟨rfl, rfl, rfl, rfl, Or.inr ⟨by simp, by simp, by simp⟩⟩

theorem hiList_yields (o : robj) (zl : ziplist) (hp : o.ptr = .ziplist zl) (rest : List zlentry)
    (hr : rest.length % 2 = 0) :
    ∀ (pre : List zlentry) (hi : hashTypeIterator), zl = pre ++ rest → hiBefore o pre.length hi →
      Yields hashTypeNextStep hi (hiList o pre.length rest) := by
  revert hr
  apply even_list_induction (fun rest => ∀ (pre : List zlentry) (hi : hashTypeIterator),
    zl = pre ++ rest → hiBefore o pre.length hi →
      Yields hashTypeNextStep hi (hiList o pre.length rest))
  · intro pre hi hzl hb
    rw [List.append_nil] at hzl
    subst hzl
    exact Yields.done hi hi (hashTypeNextStep_end o zl hp hi hb)
  · intro a b rest _ ih pre hi hzl hb
    obtain ⟨h1, h2⟩ := hashTypeNextStep_pair o zl hp pre a b rest hzl hi hb
    refine Yields.step hi _ _ _ h1 ?_
    have := ih (pre ++ [a, b]) _ (by simp [hzl]) h2
    simpa using this

theorem hiList_fold (server : redisServer) (o : robj) (zl : ziplist) (hp : o.ptr = .ziplist zl)
    (rest : List zlentry) (hr : rest.length % 2 = 0) :
    ∀ (pre : List zlentry) (d : dict), zl = pre ++ rest →
      foldOpt (hashTypeConvertZiplistBody server) (hiList o pre.length rest) d
      = foldOpt (hashConvertBody server.dict_can_resize)
          ((zlPairs rest).map (fun p => (p.1.bytes, p.2.bytes))) d := by
  revert hr
  apply even_list_induction (fun rest => ∀ (pre : List zlentry) (d : dict), zl = pre ++ rest →
      foldOpt (hashTypeConvertZiplistBody server) (hiList o pre.length rest) d
      = foldOpt (hashConvertBody server.dict_can_resize)
          ((zlPairs rest).map (fun p => (p.1.bytes, p.2.bytes))) d)
  · intro pre d _
    rfl
  · intro a b rest _ ih pre d hzl
    have hk : zl[pre.length]? = some a := by
      rw [hzl]; exact getElem?_append_length pre a (b :: rest)
    have hvv : zl[pre.length + 1]? = some b := by
      rw [hzl]; exact getElem?_append_length_succ pre a b rest
    have hkey : hashTypeCurrentObjectNewSds
        ⟨o, OBJ_ENCODING_ZIPLIST, some pre.length, some (pre.length + 1), none, none⟩ OBJ_HASH_KEY
        = some a.bytes := by
      simp only [hashTypeCurrentObjectNewSds, hashTypeCurrentObject, hashTypeCurrentFromZiplist, hp,
        if_true, ne_eq, not_true_eq_false, if_false, OBJ_HASH_KEY, ziplistGet, Option.bind, hk]
      cases a <;> simp [zlentry.bytes]
    have hval : hashTypeCurrentObjectNewSds
        ⟨o, OBJ_ENCODING_ZIPLIST, some pre.length, some (pre.length + 1), none, none⟩ OBJ_HASH_VALUE
        = some b.bytes := by
      simp only [hashTypeCurrentObjectNewSds, hashTypeCurrentObject, hashTypeCurrentFromZiplist, hp,
        if_true, ne_eq, not_true_eq_false, if_false, OBJ_HASH_KEY, OBJ_HASH_VALUE, ziplistGet,
        Option.bind, hvv]
      cases b <;> simp [zlentry.bytes]
    simp only [hiList, zlPairs, List.map_cons, foldOpt, hashTypeConvertZiplistBody, hkey, hval,
      hashConvertBody]
    rcases hx : dictAdd server.dict_can_resize d a.bytes (some b.bytes) with ⟨ret, d1⟩
    simp only
    by_cases hret : ret ≠ DICT_OK
    · simp [hret]
    · simp only [hret, if_false]
      have := ih (pre ++ [a, b]) d1 (by simp [hzl])
      simpa using this

theorem dictPairs_keys (d : dict) : (dictPairs d).map (·.1) = dictKeys d := by
  simp [dictPairs, dictKeys, List.map_map, Function.comp_def]

theorem dict.isPut.put_pairs {d d' : dict} {k v : sds} (h : dict.isPut d d' ⟨k, some v⟩) :
    (dictPairs d').Perm ((k, v) :: (dictPairs d).filter (fun p => decide (p.1 ≠ k))) := by
  have := h.perm.map (fun e : dictEntry => (e.key, e.val.getD []))
  simp only [dictPairs, List.map_cons, Option.getD_some] at this ⊢
  refine this.trans ?_
  rw [List.filter_map]
  rfl

theorem dict.isDel.del_pairs {d d' : dict} {k : sds} (h : dict.isDel d d' k) :
    (dictPairs d').Perm ((dictPairs d).filter (fun p => decide (p.1 ≠ k))) := by
  have := h.perm.map (fun e : dictEntry => (e.key, e.val.getD []))
  simp only [dictPairs] at this ⊢
  refine this.trans ?_
  rw [List.filter_map]
  rfl

theorem dict.reorg.pairs {d d' : dict} (h : dict.reorg d d') :
    (dictPairs d').Perm (dictPairs d) := h.perm.map _

theorem dict.isPut.put_vals {d d' : dict} {k v : sds} (h : dict.isPut d d' ⟨k, some v⟩)
    (hv : ∀ e ∈ dictEntries d, e.val ≠ none) : ∀ e ∈ dictEntries d', e.val ≠ none := by
  intro e he
  rcases List.mem_cons.1 (h.perm.subset he) with rfl | hm
  · simp
  · exact hv e (List.mem_of_mem_filter hm)

theorem dict.isDel.del_vals {d d' : dict} {k : sds} (h : dict.isDel d d' k)
    (hv : ∀ e ∈ dictEntries d, e.val ≠ none) : ∀ e ∈ dictEntries d', e.val ≠ none := by
  intro e he
  exact hv e (List.mem_of_mem_filter (h.perm.subset he))

theorem dict.reorg.vals {d d' : dict} (h : dict.reorg d d')
    (hv : ∀ e ∈ dictEntries d, e.val ≠ none) : ∀ e ∈ dictEntries d', e.val ≠ none := by
  intro e he
  exact hv e (h.perm.subset he)

/-- The conversion loop builds a dictionary holding exactly the pairs. -/
theorem hashConvert_fold (cr : Bool) (l : List (sds × sds)) (hn : (l.map (·.1)).Nodup)
    (d0 : dict) (h0 : d0.wf) (he : dictEntries d0 = []) :
    ∃ d, foldOpt (hashConvertBody cr) l d0 = some d ∧ d.wf ∧ d.type = d0.type ∧
      (dictPairs d).Perm l ∧ ∀ e ∈ dictEntries d, e.val ≠ none := by
  have := foldOpt_inv (hashConvertBody cr) l
    (fun done d => d.wf ∧ d.type = d0.type ∧ (dictPairs d).Perm done ∧
      ∀ e ∈ dictEntries d, e.val ≠ none)
    (by
      intro done x rest d hl ⟨hw, hty, hp, hvals⟩
      have hnk : x.1 ∉ dictKeys d := by
        rw [← dictPairs_keys, (hp.map _).mem_iff]
        rw [hl, List.map_append, List.map_cons] at hn
        have := (List.nodup_append.1 hn).2.2
        intro hc
        exact this hc (List.mem_cons_self _ _)
      obtain ⟨hok, hput⟩ := (dictAdd_spec cr d x.1 (some x.2) hw).2 hnk
      refine ⟨(dictAdd cr d x.1 (some x.2)).2, ?_, hput.wf, hput.type_eq.trans hty, ?_, hput.put_vals hvals⟩
      · simp [hashConvertBody, hok]
      · refine hput.put_pairs.trans ?_
        rw [pairs_filter_eq_self _ _ (by rw [dictPairs_keys]; exact hnk)]
        exact (@List.perm_append_comm _ [x] (dictPairs d)).trans (hp.append_right [x]))
    d0 ⟨h0, rfl, by simp [dictPairs, he], by simp [he]⟩
  obtain ⟨d, h1, h2, h3, h4, h5⟩ := this
  exact ⟨d, h1, h2, h3, h4, h5⟩

theorem hashValid_ziplist {o : robj} (hv : hashValid o) (henc : o.encoding = OBJ_ENCODING_ZIPLIST) :
    ∃ zl, o.ptr = .ziplist zl ∧ zl.length % 2 = 0 ∧ (∀ e ∈ zl, e.valid) ∧
      ((zlPairs zl).map (·.1.bytes)).Nodup := by
  unfold hashValid at hv
  cases hp : o.ptr with
  | ziplist zl => rw [hp] at hv; exact ⟨zl, rfl, hv.2⟩
  | dict d =>
    rw [hp] at hv
    rw [henc] at hv
    exact absurd hv.1 (by decide)
  | sds s => rw [hp] at hv; exact hv.elim
  | intset s => rw [hp] at hv; exact hv.elim

theorem hashValid_dict {o : robj} (hv : hashValid o) (henc : o.encoding = OBJ_ENCODING_HT) :
    ∃ d, o.ptr = .dict d ∧ d.wf ∧ ∀ e ∈ dictEntries d, e.val ≠ none := by
  unfold hashValid at hv
  cases hp : o.ptr with
  | ziplist zl =>
    rw [hp] at hv
    rw [henc] at hv
    exact absurd hv.1 (by decide)
  | dict d => rw [hp] at hv; exact ⟨d, rfl, hv.2⟩
  | sds s => rw [hp] at hv; exact hv.elim
  | intset s => rw [hp] at hv; exact hv.elim

theorem hashValid.encoding {o : robj} (hv : hashValid o) :
    o.encoding = OBJ_ENCODING_ZIPLIST ∨ o.encoding = OBJ_ENCODING_HT := by
  unfold hashValid at hv
  cases hp : o.ptr with
  | ziplist zl => rw [hp] at hv; exact Or.inl hv.1
  | dict d => rw [hp] at hv; exact Or.inr hv.1
  | sds s => rw [hp] at hv; exact hv.elim
  | intset s => rw [hp] at hv; exact hv.elim

theorem hiList_length (o : robj) (zl : List zlentry) (h : zl.length % 2 = 0) :
    ∀ k, (hiList o k zl).length = zl.length / 2 := by
  revert h
  apply even_list_induction (fun zl => ∀ k, (hiList o k zl).length = zl.length / 2)
  · intro k; rfl
  · intro a b l _ ih k
    simp only [hiList, List.length_cons, ih]
    omega

/-- `hashTypeConvert` of a valid ziplist encoded hash to the hash table
encoding succeeds and keeps the pairs. -/
theorem hashTypeConvert_spec (server : redisServer) (o : robj) (hv : hashValid o)
    (henc : o.encoding = OBJ_ENCODING_ZIPLIST) :
    ∃ o', hashTypeConvert server o OBJ_ENCODING_HT = some o' ∧ o'.encoding = OBJ_ENCODING_HT ∧
      o'.type = o.type ∧ hashSame o o' := by
  obtain ⟨zl, hp, hlen, hval, hnd⟩ := hashValid_ziplist hv henc
  have hy := hiList_yields o zl hp zl hlen [] ⟨o, OBJ_ENCODING_ZIPLIST, none, none, none, none⟩ rfl
    ⟨rfl, rfl, rfl, rfl, Or.inl ⟨rfl, rfl, rfl⟩⟩
  have hw := whileNext_eq_foldOpt hashTypeNextStep (hashTypeConvertZiplistBody server) _ _ hy
    (ziplistLen zl / 2 + 1) (dictCreate server.hashDictType)
    (by rw [hiList_length o zl hlen]; simp [ziplistLen])
  rw [hiList_fold server o zl hp zl hlen [] _ rfl] at hw
  have hnd' : (((zlPairs zl).map (fun p => (p.1.bytes, p.2.bytes))).map (·.1)).Nodup := by
    simpa [List.map_map, Function.comp_def] using hnd
  obtain ⟨d, hd, hwf, _, hperm, hvals⟩ := hashConvert_fold server.dict_can_resize _ hnd'
    (dictCreate server.hashDictType) (dictCreate_wf _) rfl
  rw [hd] at hw
  refine ⟨{ o with encoding := OBJ_ENCODING_HT, ptr := .dict d }, ?_, rfl, rfl, ?_, ?_⟩
  · have hne : OBJ_ENCODING_HT ≠ OBJ_ENCODING_ZIPLIST := by decide
    simp only [hashTypeConvert, henc, if_true, hashTypeConvertZiplist, ne_eq, not_true_eq_false,
      if_false, hne, hashTypeInitIterator, hashTypeLength, hp]
    rw [hw]
  · exact ⟨rfl, hwf, hvals⟩
  · simpa [hashPairs, hp, dictPairs] using hperm

/-! ## The hash operations on either encoding -/

theorem hashSame.hash_refl {o : robj} (h : hashValid o) : hashSame o o := ⟨h, List.Perm.refl _⟩

theorem hashIsPut.trans_same {o o1 o2 : robj} {f v : sds} (h1 : hashIsPut o o1 f v)
    (h2 : hashSame o1 o2) : hashIsPut o o2 f v := ⟨h2.valid, h2.perm.trans h1.perm⟩

theorem hashTypeLength_spec (o : robj) (hv : hashValid o) :
    hashTypeLength o = some (hashPairs o).length := by
  rcases hv.encoding with henc | henc
  · obtain ⟨zl, hp, _⟩ := hashValid_ziplist hv henc
    exact hashTypeLength_ziplist o zl hp hv
  · obtain ⟨d, hp, hw, _⟩ := hashValid_dict hv henc
    have hne : OBJ_ENCODING_HT ≠ OBJ_ENCODING_ZIPLIST := by decide
    simp [hashTypeLength, henc, hne, hp, hashPairs, hw.size_eq]

theorem hashTypeGetValue_ht (o : robj) (hv : hashValid o) (henc : o.encoding = OBJ_ENCODING_HT)
    (field : sds) :
    ∃ r v o', hashTypeGetValue o field = some (r, v, o') ∧ hashSame o o' ∧
      o'.encoding = o.encoding ∧ o'.type = o.type ∧
      hashTypeGetBytes o field = some (pairsLookup (hashPairs o) field) := by
  obtain ⟨d, hp, hw, hvals⟩ := hashValid_dict hv henc
  have hne : OBJ_ENCODING_HT ≠ OBJ_ENCODING_ZIPLIST := by decide
  obtain ⟨hre, hnone, hsome⟩ := dictFind_spec d field hw
  have hsame : hashSame o { o with ptr := .dict (dictFind d field).2 } :=
    ⟨⟨henc, hre.wf, hre.vals hvals⟩, by simpa [hashPairs, hp] using hre.perm.map _⟩
  have hnd := hv.nodup
  rcases hx : dictFind d field with ⟨de, d1⟩
  rw [hx] at hre hnone hsome hsame
  simp only at hre hnone hsome hsame
  cases de with
  | none =>
    have hl : pairsLookup (hashPairs o) field = none := by
      rw [pairsLookup_eq_none]
      have := hnone rfl
      simpa [hashPairs, hp, dictKeys, List.map_map, Function.comp_def] using this
    have hget : hashTypeGetFromHashTable o field = some (none, { o with ptr := .dict d1 }) := by
      simp [hashTypeGetFromHashTable, henc, hp, hx]
    refine ⟨C_ERR, none, _, ?_, hsame, rfl, rfl, ?_⟩
    · simp [hashTypeGetValue, henc, hne, hget]
    · simp [hashTypeGetBytes, hashTypeGetValue, henc, hne, hget, hl, C_OK, C_ERR]
  | some de =>
    obtain ⟨⟨e, he1, he2, he3⟩, _⟩ := hsome de rfl
    have hval : ∃ value, e.val = some value := Option.ne_none_iff_exists'.1 (hre.vals hvals e he3)
    obtain ⟨value, hvalue⟩ := hval
    have hl : pairsLookup (hashPairs o) field = some value := by
      rw [pairsLookup_perm _ _ hsame.perm.symm hnd, pairsLookup_eq_some _ hsame.valid.nodup]
      simp only [hashPairs, List.mem_map]
      exact ⟨e, he3, by simp [he2, hvalue]⟩
    have hget : hashTypeGetFromHashTable o field = some (some value, { o with ptr := .dict d1 }) := by
      simp [hashTypeGetFromHashTable, henc, hp, hx, he1, hvalue]
    refine ⟨C_OK, some (.str value), _, ?_, hsame, rfl, rfl, ?_⟩
    · simp [hashTypeGetValue, henc, hne, hget]
    · simp [hashTypeGetBytes, hashTypeGetValue, henc, hne, hget, hl, C_OK, zlentry.bytes]

/-- `hashTypeGetValue` on a valid hash: it returns, the hash afterwards holds
the same pairs in the same encoding, and the bytes read are those of the pair
of the field. -/
theorem hashTypeGetValue_spec (o : robj) (hv : hashValid o) (field : sds) :
    ∃ r v o', hashTypeGetValue o field = some (r, v, o') ∧ hashSame o o' ∧
      o'.encoding = o.encoding ∧ o'.type = o.type ∧
      hashTypeGetBytes o field = some (pairsLookup (hashPairs o) field) := by
  rcases hv.encoding with henc | henc
  · obtain ⟨zl, hp, _⟩ := hashValid_ziplist hv henc
    obtain ⟨r, v, h1, h2⟩ := hashTypeGetValue_ziplist o zl hp hv field
    exact ⟨r, v, o, h1, hashSame.hash_refl hv, rfl, rfl, h2⟩
  · exact hashTypeGetValue_ht o hv henc field

theorem hashTypeGetBytes_of_same {o o' : robj} (hv : hashValid o) (h : hashSame o o') (field : sds) :
    hashTypeGetBytes o' field = hashTypeGetBytes o field := by
  obtain ⟨_, _, _, _, _, _, _, h1⟩ := hashTypeGetValue_spec o hv field
  obtain ⟨_, _, _, _, _, _, _, h2⟩ := hashTypeGetValue_spec o' h.valid field
  rw [h1, h2, pairsLookup_perm _ _ h.perm h.valid.nodup]

theorem zlPairs_two (a b : zlentry) : zlPairs [a, b] = [(a, b)] := rfl

/-- `hashTypeSet` on a valid ziplist encoded hash, before the check of the
entry count. -/
theorem hashZl_set (o : robj) (zl : ziplist) (hp : o.ptr = .ziplist zl) (hv : hashValid o)
    (field value : sds) :
    ∃ zl', hashTypeSetZiplist zl field value
        = some (if field ∈ (hashPairs o).map (·.1) then 1 else 0, zl') ∧
      hashIsPut o { o with ptr := .ziplist zl' } field value := by
  have hv' := hv
  unfold hashValid at hv
  rw [hp] at hv
  obtain ⟨henc, hlen, hval, hnd⟩ := hv
  unfold hashTypeSetZiplist
  rw [hashZlFind_eq]
  have hfields : (hashPairs o).map (·.1) = (zlPairs zl).map (·.1.bytes) := by
    simp [hashPairs, hp, List.map_map, Function.comp_def]
  rcases hashZl_cases zl field hlen hval with ⟨h1, h2⟩ | ⟨pre, fe, ve, post, e1, e2, e3, e4, e5⟩
  · refine ⟨ziplistPush (ziplistPush zl field) value, ?_, ?_⟩
    · rw [h1, hfields, if_neg h2]
    · have hzl' : ziplistPush (ziplistPush zl field) value = zl ++ [zlentryOf field, zlentryOf value] := by
        simp [ziplistPush]
      rw [hzl']
      have hpairs : hashPairs { o with ptr := .ziplist (zl ++ [zlentryOf field, zlentryOf value]) }
          = hashPairs o ++ [(field, value)] := by
        simp [hashPairs, hp, zlPairs_append zl _ hlen, zlPairs_two, zlentryOf_bytes]
      refine ⟨?_, ?_⟩
      · refine ⟨henc, by simp; omega, ?_, ?_⟩
        · intro e he
          rcases List.mem_append.1 he with h | h
          · exact hval e h
          · simp at h
            rcases h with rfl | rfl <;> exact zlentryOf_valid _
        · rw [zlPairs_append zl _ hlen, zlPairs_two, List.map_append, List.nodup_append]
          refine ⟨hnd, by simp, ?_⟩
          intro a ha hb
          simp [zlentryOf_bytes] at hb
          rw [hb] at ha
          exact h2 ha
      · rw [hpairs, pairs_filter_eq_self _ _ (by rw [hfields]; exact h2)]
        exact List.perm_append_comm
  · have hpost : field ∉ (zlPairs post).map (·.1.bytes) := by
      rw [e1, zlPairs_append pre _ e2] at hnd
      simp only [zlPairs, List.map_append, List.map_cons] at hnd
      have := (List.nodup_append.1 hnd).2.1
      rw [List.nodup_cons] at this
      rw [← e4]; exact this.1
    have hin : field ∈ (zlPairs zl).map (·.1.bytes) := by
      rw [e1, zlPairs_append pre _ e2]
      simp [zlPairs, e4]
    have hnext : ziplistNext zl pre.length = some (pre.length + 1) := by
      simp only [ziplistNext]
      rw [if_pos (by rw [e1]; simp only [List.length_append, List.length_cons]; omega)]
    have hzl' : ziplistInsert (ziplistDelete zl (pre.length + 1)) (pre.length + 1) value
        = pre ++ fe :: zlentryOf value :: post := by
      simp only [ziplistInsert, ziplistDelete, e1, eraseIdx_append_length_succ,
        take_append_length_succ, drop_append_length_succ]
      simp
    refine ⟨pre ++ fe :: zlentryOf value :: post, ?_, ?_⟩
    · rw [e3]
      simp only [hnext, hzl']
      rw [hfields, if_pos hin]
    · have hpairs : hashPairs { o with ptr := .ziplist (pre ++ fe :: zlentryOf value :: post) }
          = (zlPairs pre).map (fun p => (p.1.bytes, p.2.bytes)) ++ (field, value) ::
            (zlPairs post).map (fun p => (p.1.bytes, p.2.bytes)) := by
        simp [hashPairs, zlPairs_append pre _ e2, zlPairs, zlentryOf_bytes, e4]
      have hpairs0 : hashPairs o
          = (zlPairs pre).map (fun p => (p.1.bytes, p.2.bytes)) ++ (field, ve.bytes) ::
            (zlPairs post).map (fun p => (p.1.bytes, p.2.bytes)) := by
        simp [hashPairs, hp, e1, zlPairs_append pre _ e2, zlPairs, e4]
      refine ⟨?_, ?_⟩
      · refine ⟨henc, ?_, ?_, ?_⟩
        · rw [e1] at hlen
          simp only [List.length_append, List.length_cons] at hlen ⊢
          exact hlen
        · intro e he
          rcases List.mem_append.1 he with h | h
          · exact hval e (by rw [e1]; exact List.mem_append_left _ h)
          · simp only [List.mem_cons] at h
            rcases h with rfl | rfl | h
            · exact hval _ (by rw [e1]; simp)
            · exact zlentryOf_valid _
            · exact hval e (by rw [e1]; simp [h])
        · rw [e1, zlPairs_append pre _ e2] at hnd
          rw [zlPairs_append pre _ e2]
          simpa [zlPairs] using hnd
      · rw [hpairs, hpairs0, List.filter_append, List.filter_cons_of_neg (by simp),
          pairs_filter_eq_self _ _ (by simpa [List.map_map, Function.comp_def] using e5),
          pairs_filter_eq_self _ _ (by simpa [List.map_map, Function.comp_def] using hpost)]
        exact List.perm_middle

theorem hashIsPut_length {o o' : robj} {f v : sds} (hv : hashValid o) (h : hashIsPut o o' f v) :
    (hashPairs o').length + (if f ∈ (hashPairs o).map (·.1) then 1 else 0)
      = (hashPairs o).length + 1 := by
  have h1 := h.perm.length_eq
  have h2 := pairs_filter_length (hashPairs o) hv.nodup f
  simp only [List.length_cons] at h1
  omega

theorem hashIsDel_length {o o' : robj} {f : sds} (hv : hashValid o) (h : hashIsDel o o' f) :
    (hashPairs o').length + (if f ∈ (hashPairs o).map (·.1) then 1 else 0)
      = (hashPairs o).length := by
  have h1 := h.perm.length_eq
  have h2 := pairs_filter_length (hashPairs o) hv.nodup f
  omega

/-- `hashTypeSet` on a valid hash: the return value tells whether the field
existed, the field is set, and a ziplist encoded hash is converted exactly
when its length exceeds the configured maximum. -/
theorem hashTypeSet_spec (server : redisServer) (o : robj) (hv : hashValid o)
    (field value : sds) (flags : Nat) :
    ∃ o', hashTypeSet server o field value flags
        = some (if field ∈ (hashPairs o).map (·.1) then 1 else 0, o') ∧
      hashIsPut o o' field value ∧ o'.type = o.type ∧
      (o.encoding = OBJ_ENCODING_HT → o'.encoding = OBJ_ENCODING_HT) ∧
      (o.encoding = OBJ_ENCODING_ZIPLIST →
        o'.encoding = (if server.hash_max_ziplist_entries < (hashPairs o').length
          then OBJ_ENCODING_HT else OBJ_ENCODING_ZIPLIST)) := by
  have hne : OBJ_ENCODING_HT ≠ OBJ_ENCODING_ZIPLIST := by decide
  rcases hv.encoding with henc | henc
  · obtain ⟨zl, hp, _⟩ := hashValid_ziplist hv henc
    obtain ⟨zl', h1, h2⟩ := hashZl_set o zl hp hv field value
    rw [henc] at h2
    have hlen := hashTypeLength_spec _ h2.valid
    by_cases hmax : server.hash_max_ziplist_entries <
        (hashPairs ⟨o.type, OBJ_ENCODING_ZIPLIST, .ziplist zl'⟩).length
    · obtain ⟨o2, c1, c2, c3, c4⟩ := hashTypeConvert_spec server _ h2.valid rfl
      refine ⟨o2, ?_, h2.trans_same c4, c3, fun hc => c2, fun _ => ?_⟩
      · simp only [hashTypeSet, henc, if_true, hp, h1, hlen, hmax, c1, Option.map_some']
      · rw [c4.perm.length_eq, if_pos hmax]; exact c2
    · refine ⟨_, ?_, h2, rfl, fun hc => absurd (henc.symm.trans hc) hne.symm, fun _ => ?_⟩
      · simp only [hashTypeSet, henc, if_true, hp, h1, hlen, hmax, if_false]
      · rw [if_neg hmax]
  · obtain ⟨d, hp, hw, hvals⟩ := hashValid_dict hv henc
    obtain ⟨hre, hnone, hsome⟩ := dictFind_spec d field hw
    have hkeys : (hashPairs o).map (·.1) = dictKeys d := by
      simp [hashPairs, hp, dictKeys, List.map_map, Function.comp_def]
    rcases hx : dictFind d field with ⟨de, d1⟩
    rw [hx] at hre hnone hsome
    simp only at hre hnone hsome
    cases de with
    | some de =>
      obtain ⟨⟨e, _, he2, he3⟩, hput⟩ := hsome de rfl
      have hput := hre.isPut (hput (some value))
      have hin : field ∈ dictKeys d := by
        rw [← hre.mem_keys]; exact (mem_dictKeys field).2 ⟨e, he3, he2⟩
      refine ⟨{ o with ptr := .dict (dictSetVal d1 de (some value)) }, ?_, ⟨⟨henc, hput.wf,
        hput.put_vals hvals⟩, ?_⟩, rfl, fun _ => henc, fun hc => absurd (henc.symm.trans hc) hne⟩
      · simp only [hashTypeSet, henc, hne, if_false, if_true, hp, hx, hkeys, hin]
      · simpa [hashPairs, hp, dictPairs] using hput.put_pairs
    | none =>
      have hnin : field ∉ dictKeys d := hnone rfl
      have hnin1 : field ∉ dictKeys d1 := by rw [hre.mem_keys]; exact hnin
      obtain ⟨_, hput⟩ := (dictAdd_spec server.dict_can_resize d1 field (some value) hre.wf).2 hnin1
      have hput := hre.isPut hput
      refine ⟨{ o with ptr := .dict (dictAdd server.dict_can_resize d1 field (some value)).2 }, ?_,
        ⟨⟨henc, hput.wf, hput.put_vals hvals⟩, ?_⟩, rfl, fun _ => henc,
        fun hc => absurd (henc.symm.trans hc) hne⟩
      · simp only [hashTypeSet, henc, hne, if_false, if_true, hp, hx, hkeys, hnin]
      · simpa [hashPairs, hp, dictPairs] using hput.put_pairs

/-- `hashTypeDelete` on a valid hash: the return value tells whether the field
existed, the field is gone and the encoding is kept. -/
theorem hashTypeDelete_spec (server : redisServer) (o : robj) (hv : hashValid o) (field : sds) :
    ∃ o', hashTypeDelete server o field
        = some (if field ∈ (hashPairs o).map (·.1) then 1 else 0, o') ∧
      hashIsDel o o' field ∧ o'.type = o.type ∧ o'.encoding = o.encoding := by
  have hne : OBJ_ENCODING_HT ≠ OBJ_ENCODING_ZIPLIST := by decide
  rcases hv.encoding with henc | henc
  · obtain ⟨zl, hp, hlen, hval, hnd⟩ := hashValid_ziplist hv henc
    have hfields : (hashPairs o).map (·.1) = (zlPairs zl).map (·.1.bytes) := by
      simp [hashPairs, hp, List.map_map, Function.comp_def]
    rcases hashZl_cases zl field hlen hval with ⟨h1, h2⟩ | ⟨pre, fe, ve, post, e1, e2, e3, e4, e5⟩
    · refine ⟨o, ?_, ⟨hv, ?_⟩, rfl, rfl⟩
      · simp only [hashTypeDelete, henc, if_true, hp, hashZlFind_eq, h1, hfields, h2, if_false]
      · rw [pairs_filter_eq_self _ _ (by rw [hfields]; exact h2)]
    · have hpost : field ∉ (zlPairs post).map (·.1.bytes) := by
        rw [e1, zlPairs_append pre _ e2] at hnd
        simp only [zlPairs, List.map_append, List.map_cons] at hnd
        have := (List.nodup_append.1 hnd).2.1
        rw [List.nodup_cons] at this
        rw [← e4]; exact this.1
      have hin : field ∈ (zlPairs zl).map (·.1.bytes) := by
        rw [e1, zlPairs_append pre _ e2]
        simp [zlPairs, e4]
      have hzl' : ziplistDelete (ziplistDelete zl pre.length) pre.length = pre ++ post := by
        simp only [ziplistDelete, e1, eraseIdx_append_length]
      refine ⟨⟨o.type, OBJ_ENCODING_ZIPLIST, .ziplist (pre ++ post)⟩, ?_, ⟨⟨rfl, ?_, ?_, ?_⟩, ?_⟩,
        rfl, henc.symm⟩
      · simp only [hashTypeDelete, henc, if_true, hp, hashZlFind_eq, e3, hzl', hfields, hin]
      · rw [e1] at hlen
        simp only [List.length_append, List.length_cons] at hlen ⊢
        omega
      · intro e he
        apply hval e
        rw [e1]
        rcases List.mem_append.1 he with h | h
        · exact List.mem_append_left _ h
        · simp [h]
      · rw [e1, zlPairs_append pre _ e2] at hnd
        rw [zlPairs_append pre _ e2]
        simp only [zlPairs, List.map_append, List.map_cons] at hnd ⊢
        have := List.nodup_append.1 hnd
        rw [List.nodup_append]
        refine ⟨this.1, (List.nodup_cons.1 this.2.1).2, ?_⟩
        intro a ha hb
        exact this.2.2 ha (List.mem_cons_of_mem _ hb)
      · have hpairs0 : hashPairs o
            = (zlPairs pre).map (fun p => (p.1.bytes, p.2.bytes)) ++ (field, ve.bytes) ::
              (zlPairs post).map (fun p => (p.1.bytes, p.2.bytes)) := by
          simp [hashPairs, hp, e1, zlPairs_append pre _ e2, zlPairs, e4]
        have hpairs : hashPairs ⟨o.type, OBJ_ENCODING_ZIPLIST, .ziplist (pre ++ post)⟩
            = (zlPairs pre).map (fun p => (p.1.bytes, p.2.bytes)) ++
              (zlPairs post).map (fun p => (p.1.bytes, p.2.bytes)) := by
          simp [hashPairs, zlPairs_append pre _ e2]
        rw [hpairs, hpairs0, List.filter_append, List.filter_cons_of_neg (by simp),
          pairs_filter_eq_self _ _ (by simpa [List.map_map, Function.comp_def] using e5),
          pairs_filter_eq_self _ _ (by simpa [List.map_map, Function.comp_def] using hpost)]
  · obtain ⟨d, hp, hw, hvals⟩ := hashValid_dict hv henc
    obtain ⟨hdel, hin, hnin⟩ := dictDelete_spec d field hw
    have hkeys : (hashPairs o).map (·.1) = dictKeys d := by
      simp [hashPairs, hp, dictKeys, List.map_map, Function.comp_def]
    rcases hx : dictDelete d field with ⟨ret, d1⟩
    rw [hx] at hdel hin hnin
    simp only at hdel hin hnin
    have hres := dictResize_reorg server.dict_can_resize d1 hdel.wf
    have hdel2 := hdel.del_reorg hres
    by_cases hk : field ∈ dictKeys d
    · have hret := hin hk
      subst hret
      by_cases hnr : htNeedsResize d1 = true
      · refine ⟨{ o with ptr := .dict (dictResize server.dict_can_resize d1).2 }, ?_,
          ⟨⟨henc, hdel2.wf, hdel2.del_vals hvals⟩, ?_⟩, rfl, rfl⟩
        · simp [hashTypeDelete, henc, hne, hp, hx, hnr, hkeys, hk]
        · simpa [hashPairs, hp, dictPairs] using hdel2.del_pairs
      · refine ⟨{ o with ptr := .dict d1 }, ?_, ⟨⟨henc, hdel.wf, hdel.del_vals hvals⟩, ?_⟩, rfl, rfl⟩
        · simp [hashTypeDelete, henc, hne, hp, hx, hnr, hkeys, hk]
        · simpa [hashPairs, hp, dictPairs] using hdel.del_pairs
    · have hret := hnin hk
      subst hret
      have hne2 : DICT_ERR ≠ DICT_OK := by decide
      refine ⟨{ o with ptr := .dict d1 }, ?_, ⟨⟨henc, hdel.wf, hdel.del_vals hvals⟩, ?_⟩, rfl, rfl⟩
      · simp [hashTypeDelete, henc, hne, hp, hx, hne2, hkeys, hk]
      · simpa [hashPairs, hp, dictPairs] using hdel.del_pairs

theorem intsetAdd_mem (is : intset) (v x : Int) :
    x ∈ (intsetAdd is v).1 ↔ x = v ∨ x ∈ is := by
  induction is with
  | nil => simp [intsetAdd]
  | cons y ys ih =>
    rw [intsetAdd]
    by_cases h1 : v < y
    · simp [h1]
    · by_cases h2 : v = y
      · simp [h1, h2]
      · simp only [h1, h2, if_false, List.mem_cons, ih]
        tauto

theorem intsetAdd_flag (is : intset) (v : Int) (hs : is.Pairwise (· < ·)) :
    (intsetAdd is v).2 = true ↔ v ∉ is := by
  induction is with
  | nil => simp [intsetAdd]
  | cons y ys ih =>
    rw [intsetAdd]
    rw [List.pairwise_cons] at hs
    by_cases h1 : v < y
    · simp only [h1, if_true, List.mem_cons, true_iff]
      intro hc
      rcases hc with hc | hc
      · omega
      · have := hs.1 v hc; omega
    · by_cases h2 : v = y
      · simp [h1, h2]
      · simp only [h1, h2, if_false, ih hs.2, List.mem_cons]
        tauto

theorem intsetAdd_sorted (is : intset) (v : Int) (hs : is.Pairwise (· < ·)) :
    (intsetAdd is v).1.Pairwise (· < ·) := by
  induction is with
  | nil => simp [intsetAdd]
  | cons y ys ih =>
    rw [intsetAdd]
    have hs' := List.pairwise_cons.1 hs
    by_cases h1 : v < y
    · simp only [h1, if_true]
      refine List.pairwise_cons.2 ⟨?_, hs⟩
      intro a ha
      rcases List.mem_cons.1 ha with rfl | ha
      · exact h1
      · have := hs'.1 a ha; omega
    · by_cases h2 : v = y
      · subst h2
        simp only [lt_self_iff_false, if_false, if_true]
        exact hs
      · simp only [h1, h2, if_false]
        refine List.pairwise_cons.2 ⟨?_, ih hs'.2⟩
        intro a ha
        rcases (intsetAdd_mem ys v a).1 ha with rfl | ha
        · omega
        · exact hs'.1 a ha

theorem intsetAdd_perm (is : intset) (v : Int) (hv : v ∉ is) :
    (intsetAdd is v).1.Perm (v :: is) := by
  induction is with
  | nil => simp [intsetAdd]
  | cons y ys ih =>
    rw [intsetAdd]
    by_cases h1 : v < y
    · simp [h1]
    · have h2 : v ≠ y := fun hc => hv (by simp [hc])
      simp only [h1, h2, if_false]
      exact ((ih (fun hc => hv (List.mem_cons_of_mem _ hc))).cons y).trans (List.Perm.swap _ _ _)

theorem intsetAdd_of_mem (is : intset) (v : Int) (hs : is.Pairwise (· < ·)) (hv : v ∈ is) :
    (intsetAdd is v).1 = is := by
  induction is with
  | nil => simp at hv
  | cons y ys ih =>
    rw [intsetAdd]
    have hs' := List.pairwise_cons.1 hs
    by_cases h1 : v < y
    · exfalso
      rcases List.mem_cons.1 hv with hc | hc
      · omega
      · have := hs'.1 v hc; omega
    · by_cases h2 : v = y
      · simp [h1, h2]
      · simp only [h1, h2, if_false]
        rcases List.mem_cons.1 hv with hc | hc
        · exact absurd hc h2
        · rw [ih hs'.2 hc]

theorem intsetRemove_flag (is : intset) (v : Int) :
    (intsetRemove is v).2 = true ↔ v ∈ is := by
  induction is with
  | nil => simp [intsetRemove]
  | cons y ys ih =>
    rw [intsetRemove]
    by_cases h2 : v = y
    · simp [h2]
    · simp only [h2, if_false, ih, List.mem_cons, false_or]

theorem intsetRemove_eq (is : intset) (v : Int) (hs : is.Pairwise (· < ·)) :
    (intsetRemove is v).1 = is.filter (fun x => decide (x ≠ v)) := by
  induction is with
  | nil => rfl
  | cons y ys ih =>
    rw [intsetRemove]
    have hs' := List.pairwise_cons.1 hs
    by_cases h2 : v = y
    · simp only [h2, if_true]
      rw [List.filter_cons_of_neg (by simp)]
      symm
      apply List.filter_eq_self.2
      intro a ha
      have := hs'.1 a ha
      simp only [ne_eq, decide_not, Bool.not_eq_true', decide_eq_false_iff_not]
      omega
    · simp only [h2, if_false]
      rw [List.filter_cons_of_pos (by simp; exact fun hc => h2 hc.symm), ih hs'.2]

theorem intset_nodup (is : intset) (hs : is.Pairwise (· < ·)) : is.Nodup :=
  hs.imp (fun h => ne_of_lt h)

/-- Distinct 64-bit integers have distinct decimal strings. -/
theorem intset_members_nodup (is : intset) (hs : is.Pairwise (· < ·))
    (hr : ∀ v ∈ is, LLONG_MIN ≤ v ∧ v ≤ LLONG_MAX) : (is.map sdsfromlonglong).Nodup := by
  rw [List.nodup_map_iff_inj_on (intset_nodup is hs)]
  intro a ha b hb hab
  exact sdsfromlonglong_injective a b (hr a ha).1 (hr a ha).2 (hr b hb).1 (hr b hb).2 hab

theorem mem_intset_members (is : intset) (hr : ∀ v ∈ is, LLONG_MIN ≤ v ∧ v ≤ LLONG_MAX)
    (value : sds) :
    value ∈ is.map sdsfromlonglong ↔ ∃ n, string2ll value = some n ∧ n ∈ is := by
  constructor
  · intro h
    obtain ⟨n, hn, rfl⟩ := List.mem_map.1 h
    exact ⟨n, string2ll_sdsfromlonglong n (hr n hn).1 (hr n hn).2, hn⟩
  · rintro ⟨n, h1, h2⟩
    exact List.mem_map.2 ⟨n, h2, ((string2ll_some value n h1).1).symm⟩

theorem setValid.members_nodup {o : robj} (h : setValid o) : (setMembers o).Nodup := by
  unfold setValid at h
  unfold setMembers
  cases hp : o.ptr with
  | intset is =>
    rw [hp] at h
    exact intset_members_nodup is h.2.2.1 h.2.2.2
  | dict d =>
    rw [hp] at h
    exact h.2.2.nodup
  | sds s => rw [hp] at h; exact h.2.elim
  | ziplist s => rw [hp] at h; exact h.2.elim

theorem setValid_intset {o : robj} (hv : setValid o) (henc : o.encoding = OBJ_ENCODING_INTSET) :
    ∃ is, o.ptr = .intset is ∧ is.Pairwise (· < ·) ∧ ∀ v ∈ is, LLONG_MIN ≤ v ∧ v ≤ LLONG_MAX := by
  unfold setValid at hv
  cases hp : o.ptr with
  | intset is => rw [hp] at hv; exact ⟨is, rfl, hv.2.2⟩
  | dict d =>
    rw [hp, henc] at hv
    exact absurd hv.2.1 (by decide)
  | sds s => rw [hp] at hv; exact hv.2.elim
  | ziplist s => rw [hp] at hv; exact hv.2.elim

theorem setValid_dict {o : robj} (hv : setValid o) (henc : o.encoding = OBJ_ENCODING_HT) :
    ∃ d, o.ptr = .dict d ∧ d.wf := by
  unfold setValid at hv
  cases hp : o.ptr with
  | intset is =>
    rw [hp, henc] at hv
    exact absurd hv.2.1 (by decide)
  | dict d => rw [hp] at hv; exact ⟨d, rfl, hv.2.2⟩
  | sds s => rw [hp] at hv; exact hv.2.elim
  | ziplist s => rw [hp] at hv; exact hv.2.elim

theorem setValid.set_encoding {o : robj} (hv : setValid o) :
    o.encoding = OBJ_ENCODING_INTSET ∨ o.encoding = OBJ_ENCODING_HT := by
  unfold setValid at hv
  cases hp : o.ptr with
  | intset is => rw [hp] at hv; exact Or.inl hv.2.1
  | dict d => rw [hp] at hv; exact Or.inr hv.2.1
  | sds s => rw [hp] at hv; exact hv.2.elim
  | ziplist s => rw [hp] at hv; exact hv.2.elim

theorem setValid.type_eq {o : robj} (hv : setValid o) : o.type = OBJ_SET := hv.1

theorem setSame.set_refl {o : robj} (h : setValid o) : setSame o o := ⟨h, List.Perm.refl _⟩

theorem setSame.trans_set {a b c : robj} (h1 : setSame a b) (h2 : setSame b c) : setSame a c :=
  ⟨h2.valid, h2.perm.trans h1.perm⟩

theorem setSame.mem_iff {o o' : robj} (h : setSame o o') (v : sds) :
    v ∈ setMembers o' ↔ v ∈ setMembers o := h.perm.mem_iff

theorem setTypeSize_spec (o : robj) (hv : setValid o) :
    setTypeSize o = some (setMembers o).length := by
  have hne : OBJ_ENCODING_INTSET ≠ OBJ_ENCODING_HT := by decide
  rcases hv.set_encoding with henc | henc
  · obtain ⟨is, hp, _⟩ := setValid_intset hv henc
    simp [setTypeSize, henc, hne, hp, setMembers, intsetLen]
  · obtain ⟨d, hp, hw⟩ := setValid_dict hv henc
    simp [setTypeSize, henc, hp, setMembers, dictKeys, hw.size_eq]

/-- `setTypeIsMember` on a valid set. -/
theorem setTypeIsMember_spec (o : robj) (hv : setValid o) (value : sds) :
    ∃ o', setTypeIsMember o value = some (if value ∈ setMembers o then 1 else 0, o') ∧
      setSame o o' ∧ o'.encoding = o.encoding := by
  have hne : OBJ_ENCODING_INTSET ≠ OBJ_ENCODING_HT := by decide
  rcases hv.set_encoding with henc | henc
  · obtain ⟨is, hp, hs, hr⟩ := setValid_intset hv henc
    refine ⟨o, ?_, setSame.set_refl hv, rfl⟩
    have hmem := mem_intset_members is hr value
    simp only [setTypeIsMember, henc, hne, if_false, if_true, hp, isSdsRepresentableAsLongLong,
      setMembers]
    cases hx : string2ll value with
    | none =>
      simp only
      rw [if_neg]
      rw [hmem, hx]; simp
    | some n =>
      simp only [intsetFind]
      have : value ∈ is.map sdsfromlonglong ↔ n ∈ is := by
        rw [hmem, hx]; simp
      by_cases hn : n ∈ is
      · simp [hn, this]
      · simp [hn, this]
  · obtain ⟨d, hp, hw⟩ := setValid_dict hv henc
    obtain ⟨hre, hnone, hsome⟩ := dictFind_spec d value hw
    have hsame : setSame o { o with ptr := .dict (dictFind d value).2 } :=
      ⟨⟨hv.1, henc, hre.wf⟩, by simpa [setMembers, hp, dictKeys] using hre.perm.map _⟩
    refine ⟨{ o with ptr := .dict (dictFind d value).2 }, ?_, hsame, rfl⟩
    simp only [setTypeIsMember, henc, if_true, hp, setMembers]
    cases hx : (dictFind d value).1 with
    | none =>
      have := hnone hx
      simp [this]
    | some de =>
      obtain ⟨⟨e, _, he2, he3⟩, _⟩ := hsome de hx
      have : value ∈ dictKeys d := by
        rw [← hre.mem_keys]; exact (mem_dictKeys value).2 ⟨e, he3, he2⟩
      simp [this]

/-! ## Conversion of an intset and the set operations -/

theorem setTypeNextStep_intset (o : robj) (is : intset) (hp : o.ptr = .intset is) (k : Nat) :
    setTypeNextStep ⟨o, OBJ_ENCODING_INTSET, k, none⟩ =
      match is[k]? with
      | none => some (none, ⟨o, OBJ_ENCODING_INTSET, k + 1, none⟩)
      | some n => some (some (OBJ_ENCODING_INTSET, none, n), ⟨o, OBJ_ENCODING_INTSET, k + 1, none⟩) := by
  have hne : OBJ_ENCODING_INTSET ≠ OBJ_ENCODING_HT := by decide
  simp only [setTypeNextStep, setTypeNext, hne, if_false, if_true, hp, intsetGet]
  cases is[k]? with
  | none => simp
  | some n => simp [OBJ_ENCODING_INTSET]

theorem setTypeNextObject_intset (o : robj) (is : intset) (hp : o.ptr = .intset is) (k : Nat) :
    setTypeNextObject ⟨o, OBJ_ENCODING_INTSET, k, none⟩ =
      match is[k]? with
      | none => some (none, ⟨o, OBJ_ENCODING_INTSET, k + 1, none⟩)
      | some n => some (some (sdsfromlonglong n), ⟨o, OBJ_ENCODING_INTSET, k + 1, none⟩) := by
  have hne : OBJ_ENCODING_INTSET ≠ OBJ_ENCODING_HT := by decide
  simp only [setTypeNextObject, setTypeNext, hne, if_false, if_true, hp, intsetGet]
  cases is[k]? with
  | none => simp
  | some n => simp [OBJ_ENCODING_INTSET]

theorem intset_yields_step (o : robj) (is : intset) (hp : o.ptr = .intset is) (rest : List Int) :
    ∀ pre : List Int, is = pre ++ rest →
      Yields setTypeNextStep ⟨o, OBJ_ENCODING_INTSET, pre.length, none⟩
        (rest.map (fun n => (OBJ_ENCODING_INTSET, (none : Option sds), n))) := by
  induction rest with
  | nil =>
    intro pre h
    refine Yields.done _ ⟨o, OBJ_ENCODING_INTSET, pre.length + 1, none⟩ ?_
    rw [setTypeNextStep_intset o is hp]
    have : is[pre.length]? = none := by
      rw [h]; simp
    rw [this]
  | cons n rest ih =>
    intro pre h
    refine Yields.step _ ⟨o, OBJ_ENCODING_INTSET, pre.length + 1, none⟩ _ _ ?_ ?_
    · rw [setTypeNextStep_intset o is hp]
      have : is[pre.length]? = some n := by
        rw [h]; exact getElem?_append_length pre n rest
      rw [this]
    · have := ih (pre ++ [n]) (by simp [h])
      simpa using this

theorem intset_yields_object (o : robj) (is : intset) (hp : o.ptr = .intset is) (rest : List Int) :
    ∀ pre : List Int, is = pre ++ rest →
      Yields setTypeNextObject ⟨o, OBJ_ENCODING_INTSET, pre.length, none⟩
        (rest.map sdsfromlonglong) := by
  induction rest with
  | nil =>
    intro pre h
    refine Yields.done _ ⟨o, OBJ_ENCODING_INTSET, pre.length + 1, none⟩ ?_
    rw [setTypeNextObject_intset o is hp]
    have : is[pre.length]? = none := by
      rw [h]; simp
    rw [this]
  | cons n rest ih =>
    intro pre h
    refine Yields.step _ ⟨o, OBJ_ENCODING_INTSET, pre.length + 1, none⟩ _ _ ?_ ?_
    · rw [setTypeNextObject_intset o is hp]
      have : is[pre.length]? = some n := by
        rw [h]; exact getElem?_append_length pre n rest
      rw [this]
    · have := ih (pre ++ [n]) (by simp [h])
      simpa using this

/-- The conversion loop of a set builds a dictionary whose keys are the
decimal strings of the integers. -/
theorem setConvert_fold (server : redisServer) (l : List Int)
    (hn : (l.map sdsfromlonglong).Nodup) (d0 : dict) (h0 : d0.wf) (he : dictEntries d0 = []) :
    ∃ d, foldOpt (setTypeConvertBody server)
        (l.map (fun n => (OBJ_ENCODING_INTSET, (none : Option sds), n))) d0 = some d ∧
      d.wf ∧ (dictKeys d).Perm (l.map sdsfromlonglong) := by
  rw [foldOpt_map]
  have := foldOpt_inv (fun s x => setTypeConvertBody server s (OBJ_ENCODING_INTSET, none, x)) l
    (fun done d => d.wf ∧ (dictKeys d).Perm (done.map sdsfromlonglong))
    (by
      intro done x rest d hl ⟨hw, hp⟩
      have hnk : sdsfromlonglong x ∉ dictKeys d := by
        rw [hp.mem_iff]
        rw [hl, List.map_append, List.map_cons] at hn
        have := (List.nodup_append.1 hn).2.2
        intro hc
        exact this hc (List.mem_cons_self _ _)
      obtain ⟨hok, hput⟩ := (dictAdd_spec server.dict_can_resize d (sdsfromlonglong x) none hw).2 hnk
      refine ⟨(dictAdd server.dict_can_resize d (sdsfromlonglong x) none).2, ?_, hput.wf, ?_⟩
      · simp [setTypeConvertBody, hok]
      · have hk := hput.perm.map (·.key)
        simp only [List.map_cons] at hk
        rw [filter_key_ne_eq_self _ _ (fun e he hek => hnk ((mem_dictKeys _).2 ⟨e, he, hek⟩))] at hk
        refine hk.trans ?_
        rw [List.map_append]
        exact (@List.perm_append_comm _ [sdsfromlonglong x] _).trans (hp.append_right _))
    d0 ⟨h0, by simp [dictKeys, he]⟩
  obtain ⟨d, h1, h2, h3⟩ := this
  exact ⟨d, h1, h2, h3⟩

/-- `setTypeConvert` of a valid intset encoded set to the hash table encoding
succeeds and keeps the members. -/
theorem setTypeConvert_spec (server : redisServer) (o : robj) (hv : setValid o)
    (henc : o.encoding = OBJ_ENCODING_INTSET) :
    ∃ o', setTypeConvert server o OBJ_ENCODING_HT = some o' ∧ o'.encoding = OBJ_ENCODING_HT ∧
      setSame o o' := by
  obtain ⟨is, hp, hs, hr⟩ := setValid_intset hv henc
  have hne : OBJ_ENCODING_INTSET ≠ OBJ_ENCODING_HT := by decide
  have hy := intset_yields_step o is hp is [] rfl
  have hd0 := dictExpand_reorg (dictCreate server.setDictType) (intsetLen is) (dictCreate_wf _)
  have he0 : dictEntries (dictExpand (dictCreate server.setDictType) (intsetLen is)).2 = [] := by
    have := hd0.perm
    rw [dictEntries_dictCreate] at this
    exact List.Perm.eq_nil this
  have hw := whileNext_eq_foldOpt setTypeNextStep (setTypeConvertBody server) _ _ hy
    (intsetLen is + 1) (dictExpand (dictCreate server.setDictType) (intsetLen is)).2
    (by simp [intsetLen])
  obtain ⟨d, hd, hwf, hperm⟩ := setConvert_fold server is (intset_members_nodup is hs hr)
    _ hd0.wf he0
  rw [hd] at hw
  refine ⟨{ o with encoding := OBJ_ENCODING_HT, ptr := .dict d }, ?_, rfl, ⟨hv.1, rfl, hwf⟩, ?_⟩
  · simp only [setTypeConvert, hv.1, henc, and_self, not_true_eq_false, if_false, if_true, hp,
      setTypeInitIterator, hne]
    simp only [List.length_nil] at hw
    rw [hw]
  · simpa [setMembers, hp] using hperm

theorem dictSetEntry_self (d : dict) (de : dictEntryRef) (e : dictEntry)
    (h : dictGetEntry d de = some e) : dictSetEntry d de e = d := by
  have key : ∀ (t : List (List dictEntry)) (i p : Nat), (t.getD i [])[p]? = some e →
      t.set i ((t.getD i []).set p e) = t := by
    intro t i p hg
    have h1 : (t.getD i []).set p e = t.getD i [] := by
      apply List.ext_getElem?
      intro j
      rw [List.getElem?_set]
      split
      · rename_i hj
        subst hj
        split
        · exact hg.symm
        · rename_i hlt
          rw [List.getElem?_eq_none (not_lt.1 hlt)] at hg
          cases hg
      · rfl
    rw [h1]
    apply List.ext_getElem?
    intro j
    rw [List.getElem?_set]
    split
    · rename_i hj
      subst hj
      split
      · rename_i hlt
        simp [List.getD_eq_getElem?_getD, List.getElem?_eq_getElem hlt]
      · rename_i hlt
        rw [List.getElem?_eq_none (not_lt.1 hlt)]
    · rfl
  unfold dictGetEntry at h
  unfold dictSetEntry
  by_cases ht : de.table = 0
  · simp only [ht, if_true] at h ⊢
    rw [dictht.bucket] at h ⊢
    rw [key _ _ _ h]
  · simp only [ht, if_false] at h ⊢
    rw [dictht.bucket] at h ⊢
    rw [key _ _ _ h]

theorem setAdded.trans_same_set {o o1 o2 : robj} {v : sds} (h1 : setAdded o o1 v)
    (h2 : setSame o1 o2) : setAdded o o2 v := ⟨h2.valid, h2.perm.trans h1.2⟩

theorem setTypeAdd_ht (server : redisServer) (o : robj) (hv : setValid o)
    (henc : o.encoding = OBJ_ENCODING_HT) (value : sds) :
    ∃ o', setTypeAdd server o value = some (if value ∈ setMembers o then 0 else 1, o') ∧
      setAdded o o' value ∧ o'.encoding = OBJ_ENCODING_HT := by
  obtain ⟨d, hp, hw⟩ := setValid_dict hv henc
  obtain ⟨a1, a2⟩ := dictAddRaw_spec server.dict_can_resize d value hw
  have hmem : setMembers o = dictKeys d := by simp [setMembers, hp]
  by_cases hin : value ∈ dictKeys d
  · obtain ⟨b1, b2⟩ := a1 hin
    rcases hx : dictAddRaw server.dict_can_resize d value with ⟨r, d1⟩
    rw [hx] at b1 b2
    simp only at b1 b2
    subst b1
    refine ⟨{ o with ptr := .dict d1 }, ?_, ⟨⟨hv.1, henc, b2.wf⟩, ?_⟩, henc⟩
    · simp [setTypeAdd, henc, hp, hx, hmem, hin]
    · rw [hmem, if_pos hin]
      simpa [setMembers, dictKeys] using b2.perm.map (·.key)
  · obtain ⟨de, b1, b2, b3, _⟩ := a2 hin
    rcases hx : dictAddRaw server.dict_can_resize d value with ⟨r, d1⟩
    rw [hx] at b1 b2 b3
    simp only at b1 b2 b3
    subst b1
    have hk : dictSetKey d1 de value = d1 := by
      simp only [dictSetKey, b3]
      exact dictSetEntry_self d1 de _ b3
    have hvv : dictSetVal d1 de none = d1 := by
      simp only [dictSetVal, b3]
      exact dictSetEntry_self d1 de _ b3
    refine ⟨{ o with ptr := .dict d1 }, ?_, ⟨⟨hv.1, henc, b2.wf⟩, ?_⟩, henc⟩
    · simp [setTypeAdd, henc, hp, hx, hmem, hin, hk, hvv]
    · rw [hmem, if_neg hin]
      have hk := b2.perm.map (·.key)
      simp only [List.map_cons] at hk
      rw [filter_key_ne_eq_self _ _ (fun e he hek => hin ((mem_dictKeys _).2 ⟨e, he, hek⟩))] at hk
      simpa [setMembers, dictKeys] using hk

theorem setTypeAdd_intset (server : redisServer) (o : robj) (hv : setValid o)
    (henc : o.encoding = OBJ_ENCODING_INTSET) (value : sds) :
    ∃ o', setTypeAdd server o value = some (if value ∈ setMembers o then 0 else 1, o') ∧
      setAdded o o' value ∧
      o'.encoding = (if string2ll value = none ∨ (value ∉ setMembers o ∧
          server.set_max_intset_entries < (setMembers o').length)
        then OBJ_ENCODING_HT else OBJ_ENCODING_INTSET) := by
  obtain ⟨is, hp, hs, hr⟩ := setValid_intset hv henc
  have hne : OBJ_ENCODING_INTSET ≠ OBJ_ENCODING_HT := by decide
  have hmem : setMembers o = is.map sdsfromlonglong := by simp [setMembers, hp]
  have hmemiff := mem_intset_members is hr value
  cases hx : string2ll value with
  | none =>
    have hnin : value ∉ is.map sdsfromlonglong := by
      rw [hmemiff, hx]; simp
    obtain ⟨o1, c1, c2, c3⟩ := setTypeConvert_spec server o hv henc
    obtain ⟨d, hp1, hw1⟩ := setValid_dict c3.valid c2
    have hnk : value ∉ dictKeys d := by
      have := c3.perm
      rw [hmem] at this
      simp only [setMembers, hp1] at this
      rw [this.mem_iff]; exact hnin
    obtain ⟨hok, hput⟩ := (dictAdd_spec server.dict_can_resize d value none hw1).2 hnk
    refine ⟨{ o1 with ptr := .dict (dictAdd server.dict_can_resize d value none).2 }, ?_,
      ⟨⟨c3.valid.1, c2, hput.wf⟩, ?_⟩, ?_⟩
    · simp [setTypeAdd, henc, hne, hp, isSdsRepresentableAsLongLong, hx, c1, hp1, hok, hmem, hnin]
    · rw [hmem, if_neg hnin]
      have hk := hput.perm.map (·.key)
      simp only [List.map_cons] at hk
      rw [filter_key_ne_eq_self _ _ (fun e he hek => hnk ((mem_dictKeys _).2 ⟨e, he, hek⟩))] at hk
      refine (show (setMembers { o1 with ptr := .dict (dictAdd server.dict_can_resize d value none).2 }).Perm
        (value :: dictKeys d) from hk).trans ?_
      have := c3.perm
      rw [hmem] at this
      simp only [setMembers, hp1] at this
      exact this.cons value
    · simp [c2]
  | some n =>
    obtain ⟨hval, hr1, hr2⟩ := string2ll_some value n hx
    have hflag := intsetAdd_flag is n hs
    have hin_iff : value ∈ is.map sdsfromlonglong ↔ n ∈ is := by
      rw [hmemiff, hx]; simp
    have hv1 : setValid ⟨o.type, OBJ_ENCODING_INTSET, .intset (intsetAdd is n).1⟩ := by
      refine ⟨hv.1, rfl, intsetAdd_sorted is n hs, ?_⟩
      intro x hxm
      rcases (intsetAdd_mem is n x).1 hxm with rfl | hxm
      · exact ⟨hr1, hr2⟩
      · exact hr x hxm
    by_cases hn : n ∈ is
    · have hf : (intsetAdd is n).2 = false := by
        cases h : (intsetAdd is n).2 with
        | false => rfl
        | true => exact absurd hn (hflag.1 h)
      have hvin : value ∈ is.map sdsfromlonglong := hin_iff.2 hn
      refine ⟨⟨o.type, OBJ_ENCODING_INTSET, .intset (intsetAdd is n).1⟩, ?_, ⟨hv1, ?_⟩, ?_⟩
      · simp [setTypeAdd, henc, hne, hp, isSdsRepresentableAsLongLong, hx, hf, hmem, hvin]
      · rw [hmem, if_pos hvin]
        simp [setMembers, intsetAdd_of_mem is n hs hn]
      · simp [hmem, hvin]
    · have hf : (intsetAdd is n).2 = true := hflag.2 hn
      have hvnin : value ∉ is.map sdsfromlonglong := fun hc => hn (hin_iff.1 hc)
      have hadd : setAdded o ⟨o.type, OBJ_ENCODING_INTSET, .intset (intsetAdd is n).1⟩ value := by
        refine ⟨hv1, ?_⟩
        rw [hmem, if_neg hvnin, hval]
        simpa [setMembers] using (intsetAdd_perm is n hn).map sdsfromlonglong
      have hlen : intsetLen (intsetAdd is n).1
          = (setMembers ⟨o.type, OBJ_ENCODING_INTSET, .intset (intsetAdd is n).1⟩).length := by
        simp [setMembers, intsetLen]
      by_cases hmax : server.set_max_intset_entries < intsetLen (intsetAdd is n).1
      · obtain ⟨o2, c1, c2, c3⟩ := setTypeConvert_spec server _ hv1 rfl
        refine ⟨o2, ?_, hadd.trans_same_set c3, ?_⟩
        · simp [setTypeAdd, henc, hne, hp, isSdsRepresentableAsLongLong, hx, hf, hmem, hvnin, hmax, c1]
        · rw [c2, c3.perm.length_eq, ← hlen]
          simp [hmem, hvnin, hmax]
      · refine ⟨⟨o.type, OBJ_ENCODING_INTSET, .intset (intsetAdd is n).1⟩, ?_, hadd, ?_⟩
        · simp [setTypeAdd, henc, hne, hp, isSdsRepresentableAsLongLong, hx, hf, hmem, hvnin, hmax]
        · rw [← hlen]
          simp [hmem, hvnin, hmax]

/-- `setTypeAdd` on a valid set: the return value tells whether the value was
new, the value is a member afterwards, and the encoding changes only from
intset to hash table: for a value that is not an integer, or when the intset
has grown beyond the configured maximum. -/
theorem setTypeAdd_spec (server : redisServer) (o : robj) (hv : setValid o) (value : sds) :
    ∃ o', setTypeAdd server o value = some (if value ∈ setMembers o then 0 else 1, o') ∧
      setAdded o o' value ∧
      (o.encoding = OBJ_ENCODING_HT → o'.encoding = OBJ_ENCODING_HT) ∧
      (o.encoding = OBJ_ENCODING_INTSET →
        o'.encoding = (if string2ll value = none ∨ (value ∉ setMembers o ∧
            server.set_max_intset_entries < (setMembers o').length)
          then OBJ_ENCODING_HT else OBJ_ENCODING_INTSET)) := by
  have hne : OBJ_ENCODING_INTSET ≠ OBJ_ENCODING_HT := by decide
  rcases hv.set_encoding with henc | henc
  · obtain ⟨o', h1, h2, h3⟩ := setTypeAdd_intset server o hv henc value
    exact ⟨o', h1, h2, fun hc => absurd (henc.symm.trans hc) hne, fun _ => h3⟩
  · obtain ⟨o', h1, h2, h3⟩ := setTypeAdd_ht server o hv henc value
    exact ⟨o', h1, h2, fun _ => h3, fun hc => absurd (hc.symm.trans henc) hne⟩

/-- `setTypeRemove` on a valid set: the return value tells whether the value
was a member, the value is no member afterwards and the encoding is kept. -/
theorem setTypeRemove_spec (server : redisServer) (o : robj) (hv : setValid o) (value : sds) :
    ∃ o', setTypeRemove server o value = some (if value ∈ setMembers o then 1 else 0, o') ∧
      setValid o' ∧
      (setMembers o').Perm ((setMembers o).filter (fun x => decide (x ≠ value))) ∧
      o'.encoding = o.encoding := by
  have hne : OBJ_ENCODING_INTSET ≠ OBJ_ENCODING_HT := by decide
  rcases hv.set_encoding with henc | henc
  · obtain ⟨is, hp, hs, hr⟩ := setValid_intset hv henc
    have hmem : setMembers o = is.map sdsfromlonglong := by simp [setMembers, hp]
    have hmemiff := mem_intset_members is hr value
    cases hx : string2ll value with
    | none =>
      have hnin : value ∉ is.map sdsfromlonglong := by
        rw [hmemiff, hx]; simp
      refine ⟨o, ?_, hv, ?_, rfl⟩
      · simp [setTypeRemove, henc, hne, hp, isSdsRepresentableAsLongLong, hx, hmem, hnin]
      · rw [List.filter_eq_self.2]
        intro a ha
        simp only [ne_eq, decide_not, Bool.not_eq_true', decide_eq_false_iff_not]
        rintro rfl
        exact hnin (hmem ▸ ha)
    | some n =>
      obtain ⟨hval, hr1, hr2⟩ := string2ll_some value n hx
      have hin_iff : value ∈ is.map sdsfromlonglong ↔ n ∈ is := by
        rw [hmemiff, hx]; simp
      have hflag := intsetRemove_flag is n
      have heq := intsetRemove_eq is n hs
      have hv1 : setValid ⟨o.type, OBJ_ENCODING_INTSET, .intset (intsetRemove is n).1⟩ := by
        refine ⟨hv.1, rfl, ?_, ?_⟩
        · rw [heq]; exact hs.sublist (List.filter_sublist _)
        · intro x hxm
          rw [heq] at hxm
          exact hr x (List.mem_of_mem_filter hxm)
      have hperm : (setMembers ⟨o.type, OBJ_ENCODING_INTSET, .intset (intsetRemove is n).1⟩).Perm
          ((setMembers o).filter (fun x => decide (x ≠ value))) := by
        rw [hmem]
        simp only [setMembers, heq, List.filter_map]
        rw [List.filter_congr]
        intro x hxm
        simp only [Function.comp_apply, ne_eq, decide_not, Bool.not_eq_eq_eq_not, Bool.not_not,
          decide_eq_decide]
        rw [hval]
        constructor
        · intro h; rw [h]
        · intro h
          exact sdsfromlonglong_injective x n (hr x hxm).1 (hr x hxm).2 hr1 hr2 h
      by_cases hn : n ∈ is
      · have hf : (intsetRemove is n).2 = true := hflag.2 hn
        refine ⟨_, ?_, hv1, hperm, henc.symm⟩
        simp [setTypeRemove, henc, hne, hp, isSdsRepresentableAsLongLong, hx, hf, hmem, hin_iff, hn]
      · have hf : (intsetRemove is n).2 = false := by
          cases h : (intsetRemove is n).2 with
          | false => rfl
          | true => exact absurd (hflag.1 h) hn
        refine ⟨_, ?_, hv1, hperm, henc.symm⟩
        simp [setTypeRemove, henc, hne, hp, isSdsRepresentableAsLongLong, hx, hf, hmem, hin_iff, hn]
  · obtain ⟨d, hp, hw⟩ := setValid_dict hv henc
    obtain ⟨hdel, hin, hnin⟩ := dictDelete_spec d value hw
    have hmem : setMembers o = dictKeys d := by simp [setMembers, hp]
    rcases hx : dictDelete d value with ⟨ret, d1⟩
    rw [hx] at hdel hin hnin
    simp only at hdel hin hnin
    have hres := dictResize_reorg server.dict_can_resize d1 hdel.wf
    have hdel2 := hdel.del_reorg hres
    have hkeys : ∀ d2, dict.isDel d d2 value →
        (dictKeys d2).Perm ((dictKeys d).filter (fun x => decide (x ≠ value))) := by
      intro d2 h2
      have := h2.perm.map (·.key)
      simp only [dictKeys, List.filter_map]
      exact this
    by_cases hk : value ∈ dictKeys d
    · have hret := hin hk
      subst hret
      by_cases hnr : htNeedsResize d1 = true
      · refine ⟨{ o with ptr := .dict (dictResize server.dict_can_resize d1).2 }, ?_,
          ⟨hv.1, henc, hdel2.wf⟩, ?_, rfl⟩
        · simp [setTypeRemove, henc, hp, hx, hnr, hmem, hk]
        · rw [hmem]; exact hkeys _ hdel2
      · refine ⟨{ o with ptr := .dict d1 }, ?_, ⟨hv.1, henc, hdel.wf⟩, ?_, rfl⟩
        · simp [setTypeRemove, henc, hp, hx, hnr, hmem, hk]
        · rw [hmem]; exact hkeys _ hdel
    · have hret := hnin hk
      subst hret
      have hne2 : DICT_ERR ≠ DICT_OK := by decide
      refine ⟨{ o with ptr := .dict d1 }, ?_, ⟨hv.1, henc, hdel.wf⟩, ?_, rfl⟩
      · simp [setTypeRemove, henc, hp, hx, hne2, hmem, hk]
      · rw [hmem]; exact hkeys _ hdel

theorem drop_flatten_getD {α : Type} (t : List (List α)) (i : Nat) (h : i < t.length) :
    (t.drop i).flatten = t.getD i [] ++ (t.drop (i + 1)).flatten := by
  rw [List.drop_eq_getElem_cons h, List.flatten_cons, List.getD_eq_getElem?_getD,
    List.getElem?_eq_getElem h]
  rfl

theorem dictNextLoopOk_return (fuel : Nat) (it it' : dictIterator) (de : dictEntry)
    (tl : List dictEntry) (h : dictNextLoop fuel it = some (some de, it')) (hrest : it.rest = de :: tl)
    (hok : it'.ok) (hd : it'.d = it.d) (hrest' : it'.rest = tl) : dictNextLoopOk fuel it := by
  refine ⟨fun hc => ?_, fun e tl' hc => ?_⟩
  · rw [hrest] at hc; cases hc
  · rw [hrest] at hc
    injection hc with h1 h2
    subst h1 h2
    exact ⟨it', h, hok, hd, hrest'⟩

theorem dictNextLoopOk_end (fuel : Nat) (it it' : dictIterator)
    (h : dictNextLoop fuel it = some (none, it')) (hrest : it.rest = []) :
    dictNextLoopOk fuel it := by
  refine ⟨fun _ => ⟨it', h⟩, fun e tl' hc => ?_⟩
  rw [hrest] at hc; cases hc

theorem dictNextLoopOk_skip (fuel : Nat) (it it1 : dictIterator)
    (h : dictNextLoop (fuel + 1) it = dictNextLoop fuel it1) (hrest : it1.rest = it.rest)
    (hd : it1.d = it.d) (h1 : dictNextLoopOk fuel it1) : dictNextLoopOk (fuel + 1) it := by
  unfold dictNextLoopOk at h1 ⊢
  rw [h, ← hrest, ← hd]
  exact h1

theorem dictNextLoop_spec (fuel : Nat) : ∀ it : dictIterator, it.ok → it.steps ≤ fuel →
    dictNextLoopOk fuel it := by
  induction fuel with
  | zero =>
    intro it _ hs
    exfalso
    unfold dictIterator.steps at hs
    split at hs <;> split at hs <;> omega
  | succ fuel ih =>
    intro it hok hs
    obtain ⟨d, index, table, safe, entry, nextEntry⟩ := it
    have hwf : d.wf := hok.wf
    have hidx : -1 ≤ index := hok.idx_ge
    have htab : table = 0 ∨ (table = 1 ∧ dictIsRehashing d = true) := hok.table
    have hent : entry ≠ [] → 0 ≤ index := hok.entry
    have h10 : (1 : Nat) ≠ 0 := by decide
    have htn : (index + 1 + 1).toNat = (index + 1).toNat + 1 := by omega
    cases entry with
    | cons e0 es =>
      -- the current entry has a successor or its bucket is finished
      cases nextEntry with
      | nil =>
        apply dictNextLoopOk_skip fuel _ ⟨d, index, table, safe, [], []⟩
        · simp [dictNextLoop]
        · simp [dictIterator.rest]
        · rfl
        · apply ih _ ⟨hwf, hidx, htab, by simp⟩
          simp only [dictIterator.steps] at hs ⊢
          simp only [if_true, reduceCtorEq, if_false] at hs ⊢
          omega
      | cons de next =>
        apply dictNextLoopOk_return (fuel + 1) _ ⟨d, index, table, safe, de :: next, next⟩ de
          (next ++ (if table = 0 then (d.ht0.table.drop (index + 1).toNat).flatten ++
              (if dictIsRehashing d then d.ht1.table.flatten else [])
            else (d.ht1.table.drop (index + 1).toNat).flatten))
        · simp [dictNextLoop]
        · simp [dictIterator.rest]
        · exact ⟨hwf, hidx, htab, fun _ => hent (by simp)⟩
        · rfl
        · simp [dictIterator.rest]
    | nil =>
      rcases htab with ht | ⟨ht, hr⟩
      · subst ht
        have hlen0 := hwf.wf0.length_eq
        by_cases hsz : (d.ht0.size : Int) ≤ index + 1
        · have hdrop : d.ht0.table.drop (index + 1).toNat = [] := by
            apply List.drop_eq_nil_of_le
            omega
          by_cases hr : dictIsRehashing d = true
          · have hs1 : 0 < d.ht1.size := (hwf.busy ((dictIsRehashing_eq_true _).1 hr)).2.1
            have hlen1 := hwf.wf1.length_eq
            have hrest : dictIterator.rest ⟨d, index, 0, safe, [], nextEntry⟩
                = d.ht1.bucket 0 ++ (d.ht1.table.drop 1).flatten := by
              simp only [dictIterator.rest, if_true, hdrop, hr, List.flatten_nil, List.nil_append]
              have := drop_flatten_getD d.ht1.table 0 (by omega)
              rw [List.drop_zero] at this
              exact this
            cases hb : d.ht1.bucket 0 with
            | nil =>
              rw [hb] at hrest
              apply dictNextLoopOk_skip fuel _ ⟨d, 0, 1, safe, [], nextEntry⟩
              · simp [dictNextLoop, hsz, hr, hb]
              · rw [hrest]; simp [dictIterator.rest]
              · rfl
              · apply ih _ ⟨hwf, by simp, Or.inr ⟨rfl, hr⟩, by simp⟩
                simp only [dictIterator.steps, if_true, hr] at hs
                simp only [dictIterator.steps, if_true, h10, if_false]
                have : ((0 : Int) + 1).toNat = 1 := rfl
                rw [this]
                omega
            | cons de next =>
              rw [hb] at hrest
              apply dictNextLoopOk_return (fuel + 1) _ ⟨d, 0, 1, safe, de :: next, next⟩ de
                (next ++ (d.ht1.table.drop 1).flatten)
              · simp [dictNextLoop, hsz, hr, hb]
              · rw [hrest]; rfl
              · exact ⟨hwf, by simp, Or.inr ⟨rfl, hr⟩, by simp⟩
              · rfl
              · simp [dictIterator.rest]
          · apply dictNextLoopOk_end (fuel + 1) _ ⟨d, index + 1, 0, safe, [], nextEntry⟩
            · simp [dictNextLoop, hsz, hr]
            · simp [dictIterator.rest, hdrop, hr]
        · have hi : (index + 1).toNat < d.ht0.table.length := by omega
          have hrest : dictIterator.rest ⟨d, index, 0, safe, [], nextEntry⟩
              = d.ht0.bucket (index + 1).toNat ++
                ((d.ht0.table.drop ((index + 1).toNat + 1)).flatten ++
                  (if dictIsRehashing d then d.ht1.table.flatten else [])) := by
            simp only [dictIterator.rest, if_true, List.nil_append]
            rw [drop_flatten_getD _ _ hi, List.append_assoc]
            rfl
          cases hb : d.ht0.bucket (index + 1).toNat with
          | nil =>
            rw [hb] at hrest
            apply dictNextLoopOk_skip fuel _ ⟨d, index + 1, 0, safe, [], nextEntry⟩
            · simp [dictNextLoop, hsz, hb]
            · rw [hrest]; simp [dictIterator.rest, htn]
            · rfl
            · apply ih _ ⟨hwf, by simp only; omega, Or.inl rfl, by simp⟩
              simp only [dictIterator.steps, if_true] at hs
              simp only [dictIterator.steps, if_true, htn]
              omega
          | cons de next =>
            rw [hb] at hrest
            apply dictNextLoopOk_return (fuel + 1) _ ⟨d, index + 1, 0, safe, de :: next, next⟩ de
              (next ++ ((d.ht0.table.drop ((index + 1).toNat + 1)).flatten ++
                  (if dictIsRehashing d then d.ht1.table.flatten else [])))
            · simp [dictNextLoop, hsz, hb]
            · rw [hrest]; rfl
            · exact ⟨hwf, by simp only; omega, Or.inl rfl, fun _ => by simp only; omega⟩
            · rfl
            · simp [dictIterator.rest, htn]
      · subst ht
        have hlen1 := hwf.wf1.length_eq
        by_cases hsz : (d.ht1.size : Int) ≤ index + 1
        · have hdrop : d.ht1.table.drop (index + 1).toNat = [] := by
            apply List.drop_eq_nil_of_le
            omega
          apply dictNextLoopOk_end (fuel + 1) _ ⟨d, index + 1, 1, safe, [], nextEntry⟩
          · simp [dictNextLoop, hsz]
          · simp [dictIterator.rest, hdrop]
        · have hi : (index + 1).toNat < d.ht1.table.length := by omega
          have hrest : dictIterator.rest ⟨d, index, 1, safe, [], nextEntry⟩
              = d.ht1.bucket (index + 1).toNat ++
                (d.ht1.table.drop ((index + 1).toNat + 1)).flatten := by
            simp only [dictIterator.rest, if_true, h10, if_false, List.nil_append]
            rw [drop_flatten_getD _ _ hi]
            rfl
          cases hb : d.ht1.bucket (index + 1).toNat with
          | nil =>
            rw [hb] at hrest
            apply dictNextLoopOk_skip fuel _ ⟨d, index + 1, 1, safe, [], nextEntry⟩
            · simp [dictNextLoop, hsz, hb]
            · rw [hrest]; simp [dictIterator.rest, htn]
            · rfl
            · apply ih _ ⟨hwf, by simp only; omega, Or.inr ⟨rfl, hr⟩, by simp⟩
              simp only [dictIterator.steps, if_true, h10, if_false] at hs
              simp only [dictIterator.steps, if_true, h10, if_false, htn]
              omega
          | cons de next =>
            rw [hb] at hrest
            apply dictNextLoopOk_return (fuel + 1) _ ⟨d, index + 1, 1, safe, de :: next, next⟩ de
              (next ++ (d.ht1.table.drop ((index + 1).toNat + 1)).flatten)
            · simp [dictNextLoop, hsz, hb]
            · rw [hrest]; rfl
            · exact ⟨hwf, by simp only; omega, Or.inr ⟨rfl, hr⟩, fun _ => by simp only; omega⟩
            · rfl
            · simp [dictIterator.rest, htn]

theorem dictIterator.ok.steps_le {it : dictIterator} (h : it.ok) : it.steps ≤ dictSlots it.d + 2 := by
  have h1 := h.idx_ge
  have h2 := h.entry
  unfold dictIterator.steps dictSlots
  by_cases he : it.entry = []
  · simp only [he, if_true]
    split
    · split <;> omega
    · omega
  · have := h2 he
    simp only [he, if_false]
    split
    · split <;> omega
    · omega

theorem dictNext_yields : ∀ (l : List dictEntry) (it : dictIterator), it.ok → it.rest = l →
    Yields dictNext it l := by
  intro l
  induction l with
  | nil =>
    intro it hok hr
    obtain ⟨it', h⟩ := (dictNextLoop_spec _ it hok hok.steps_le).1 hr
    exact Yields.done it it' h
  | cons e tl ih =>
    intro it hok hr
    obtain ⟨it', h1, h2, _, h4⟩ := (dictNextLoop_spec _ it hok hok.steps_le).2 e tl hr
    exact Yields.step it it' e tl h1 (ih it' h2 h4)

theorem dictGetIterator_rest (d : dict) (h : d.wf) : (dictGetIterator d).rest = dictEntries d := by
  simp only [dictIterator.rest, dictGetIterator, if_true, List.nil_append, dictEntries]
  have : ((-1 : Int) + 1).toNat = 0 := rfl
  rw [this, List.drop_zero]
  by_cases hr : dictIsRehashing d = true
  · simp [hr]
  · have := h.idle ((dictIsRehashing_eq_false d).1 (by simpa using hr))
    simp [hr, this, dicthtReset]

theorem dictGetIterator_ok (d : dict) (h : d.wf) : (dictGetIterator d).ok :=
  ⟨h, by simp [dictGetIterator], Or.inl rfl, by simp [dictGetIterator]⟩

theorem setTypeNextStep_yields_ht (o : robj) (ii : Nat) (l : List dictEntry) (di : dictIterator)
    (h : Yields dictNext di l) :
    Yields setTypeNextStep ⟨o, OBJ_ENCODING_HT, ii, some di⟩
      (l.map (fun e => (OBJ_ENCODING_HT, some e.key, (-123456789 : Int)))) := by
  induction h with
  | done it it' hn =>
    refine Yields.done _ ⟨o, OBJ_ENCODING_HT, ii, some it'⟩ ?_
    simp [setTypeNextStep, setTypeNext, hn]
  | step it it' x xs hn _ ih =>
    refine Yields.step _ ⟨o, OBJ_ENCODING_HT, ii, some it'⟩ _ _ ?_ ih
    simp [setTypeNextStep, setTypeNext, hn, OBJ_ENCODING_HT]

theorem setTypeNextObject_yields_ht (o : robj) (ii : Nat) (l : List dictEntry) (di : dictIterator)
    (h : Yields dictNext di l) :
    Yields setTypeNextObject ⟨o, OBJ_ENCODING_HT, ii, some di⟩ (l.map (·.key)) := by
  induction h with
  | done it it' hn =>
    refine Yields.done _ ⟨o, OBJ_ENCODING_HT, ii, some it'⟩ ?_
    simp [setTypeNextObject, setTypeNext, hn]
  | step it it' x xs hn _ ih =>
    refine Yields.step _ ⟨o, OBJ_ENCODING_HT, ii, some it'⟩ _ _ ?_ ih
    simp [setTypeNextObject, setTypeNext, hn, OBJ_ENCODING_HT, OBJ_ENCODING_INTSET]

/-- The iterator of a valid set yields its members, in traversal order. -/
theorem setTypeInitIterator_spec (o : robj) (hv : setValid o) :
    ∃ si, setTypeInitIterator o = some si ∧ Yields setTypeNextStep si (setElems o) ∧
      Yields setTypeNextObject si (setMembers o) := by
  have hne : OBJ_ENCODING_INTSET ≠ OBJ_ENCODING_HT := by decide
  rcases hv.set_encoding with henc | henc
  · obtain ⟨is, hp, _⟩ := setValid_intset hv henc
    refine ⟨⟨o, OBJ_ENCODING_INTSET, 0, none⟩, ?_, ?_, ?_⟩
    · simp [setTypeInitIterator, henc, hne]
    · have := intset_yields_step o is hp is [] rfl
      simpa [setElems, hp] using this
    · have := intset_yields_object o is hp is [] rfl
      simpa [setMembers, hp] using this
  · obtain ⟨d, hp, hw⟩ := setValid_dict hv henc
    have hy := dictNext_yields _ _ (dictGetIterator_ok d hw) (dictGetIterator_rest d hw)
    refine ⟨⟨o, OBJ_ENCODING_HT, 0, some (dictGetIterator d)⟩, ?_, ?_, ?_⟩
    · simp [setTypeInitIterator, henc, hp]
    · simpa [setElems, hp] using setTypeNextStep_yields_ht o 0 _ _ hy
    · simpa [setMembers, hp, dictKeys] using setTypeNextObject_yields_ht o 0 _ _ hy

theorem setElems_length (o : robj) : (setElems o).length = (setMembers o).length := by
  unfold setElems setMembers
  cases hp : o.ptr with
  | intset is => simp
  | dict d => simp [dictKeys]
  | sds s => rfl
  | ziplist s => rfl

/-- A loop over the members of a valid set is the fold of its body. -/
theorem setTypeForEach_spec {σ : Type} (o : robj) (hv : setValid o) (body : σ → sds → Option σ)
    (s : σ) : setTypeForEach o body s = foldOpt body (setMembers o) s := by
  obtain ⟨si, h1, _, h3⟩ := setTypeInitIterator_spec o hv
  simp only [setTypeForEach, h1, setTypeSize_spec o hv]
  exact whileNext_eq_foldOpt _ _ _ _ h3 _ _ (Nat.lt_succ_self _)

theorem checkType_set (c : client) (o : robj) (h : setValid o) :
    (checkType c o OBJ_SET).1 = false := by
  simp [checkType, h.1]

theorem sunionDiffLookup_spec (dstkey : Option sds) (c : client) (setkeys : List sds)
    (hv : operandsValid c.db setkeys) (acc : List (Option sds)) :
    sunionDiffLookup dstkey setkeys c acc
      = .inr (acc ++ setkeys.map (fun k => if (c.db k).isSome then some k else none)) := by
  induction setkeys generalizing acc with
  | nil => simp [sunionDiffLookup]
  | cons key keys ih =>
    have hv' : operandsValid c.db keys := fun k hk => hv k (List.mem_cons_of_mem _ hk)
    rw [sunionDiffLookup]
    have hl : (if dstkey.isSome then lookupKeyWrite c.db key else lookupKeyRead c.db key)
        = c.db key := by
      split <;> rfl
    rw [hl]
    cases hk : c.db key with
    | none =>
      simp only
      rw [ih hv']
      simp [hk]
    | some o =>
      simp only
      rw [checkType_set c o (hv key (List.mem_cons_self _ _) o hk)]
      simp only [Bool.false_eq_true, if_false]
      rw [ih hv']
      simp [hk]

theorem setAdded.mem_added_iff {o o' : robj} {v : sds} (h : setAdded o o' v) (x : sds) :
    x ∈ setMembers o' ↔ x = v ∨ x ∈ setMembers o := by
  rw [h.2.mem_iff]
  split
  · rename_i hin
    constructor
    · intro hx; exact Or.inr hx
    · rintro (rfl | hx)
      · exact hin
      · exact hx
  · simp

theorem setAdded.length {o o' : robj} {v : sds} (h : setAdded o o' v) :
    (setMembers o').length = (setMembers o).length + (if v ∈ setMembers o then 0 else 1) := by
  rw [h.2.length_eq]
  split <;> simp

theorem intWrap_zero : intWrap 0 = 0 := by decide

theorem intWrap_succ (x : Int) : intWrap (intWrap x + 1) = intWrap (x + 1) := by
  unfold intWrap
  omega

theorem intWrap_pred (x : Int) : intWrap (intWrap x - 1) = intWrap (x - 1) := by
  unfold intWrap
  omega

theorem intWrap_of_lt (n : Nat) (h : n < 2147483648) : intWrap n = n := by
  unfold intWrap
  omega

theorem intWrap_ne_of_ge (n : Nat) (h : 2147483648 ≤ n) : intWrap n ≠ n := by
  unfold intWrap
  omega

theorem intWrap_eq_zero (n : Nat) (h : n < 4294967296) (h0 : intWrap n = 0) : n = 0 := by
  unfold intWrap at h0
  omega

theorem sunionBody_spec (server : redisServer) (db0 : redisDb) (base done : List sds)
    (st : sunionDiffState) (x : sds) (h : sunionInv db0 base done st) :
    ∃ st', sunionBody server st x = some st' ∧ sunionInv db0 base (done ++ [x]) st' := by
  obtain ⟨o', h1, h2, _, _⟩ := setTypeAdd_spec server st.dstset h.valid x
  have hlen := h2.length
  by_cases hin : x ∈ setMembers st.dstset
  · simp only [hin, if_true] at h1 hlen
    refine ⟨{ st with dstset := o', cardinality := st.cardinality }, ?_, h.db_eq, h2.1, ?_, ?_⟩
    · simp [sunionBody, h1]
    · intro v
      rw [h2.mem_added_iff, h.mem, List.mem_append, List.mem_singleton]
      have := (h.mem x).1 hin
      constructor
      · rintro (rfl | h3 | h3)
        · rcases this with h4 | h4
          · exact Or.inl h4
          · exact Or.inr (Or.inl h4)
        · exact Or.inl h3
        · exact Or.inr (Or.inl h3)
      · rintro (h3 | h3 | h3)
        · exact Or.inr (Or.inl h3)
        · exact Or.inr (Or.inr h3)
        · exact Or.inl h3
    · simp only [hlen, h.card, Nat.add_zero]
  · simp only [hin, if_false] at h1 hlen
    refine ⟨{ st with dstset := o', cardinality := intWrap (st.cardinality + 1) }, ?_, h.db_eq,
      h2.1, ?_, ?_⟩
    · simp [sunionBody, h1]
    · intro v
      rw [h2.mem_added_iff, h.mem, List.mem_append, List.mem_singleton]
      tauto
    · simp only [hlen, h.card, intWrap_succ]
      push_cast
      rfl

theorem sunionFold_spec (server : redisServer) (db0 : redisDb) (base l : List sds)
    (st : sunionDiffState) (h : sunionInv db0 base [] st) :
    ∃ st', foldOpt (sunionBody server) l st = some st' ∧ sunionInv db0 base l st' :=
  foldOpt_inv (sunionBody server) l (fun done st => sunionInv db0 base done st)
    (fun done x _ s _ hI => sunionBody_spec server db0 base done s x hI) st h

theorem sunionInv.rebase {db0 : redisDb} {base added : List sds} {st : sunionDiffState}
    (h : sunionInv db0 base added st) (base' : List sds)
    (hb : ∀ v, v ∈ base' ↔ v ∈ base ∨ v ∈ added) : sunionInv db0 base' [] st :=
  ⟨h.db_eq, h.valid, fun v => by rw [h.mem, hb]; simp, h.card⟩

/-- The union loop collects the members of all existing sets. -/
theorem sunionLoop_spec (server : redisServer) (db0 : redisDb) (keys : List sds)
    (hv : operandsValid db0 keys) :
    ∀ (base : List sds) (st : sunionDiffState), sunionInv db0 base [] st →
      ∃ st', sunionLoop server (keys.map (fun k => if (db0 k).isSome then some k else none)) st
          = some st' ∧
        sunionInv db0 base (keys.flatMap (dbMembers db0)) st' := by
  induction keys with
  | nil =>
    intro base st h
    exact ⟨st, rfl, h⟩
  | cons key keys ih =>
    intro base st h
    have hv' : operandsValid db0 keys := fun k hk => hv k (List.mem_cons_of_mem _ hk)
    cases hk : db0 key with
    | none =>
      obtain ⟨st', h1, h2⟩ := ih hv' base st h
      refine ⟨st', ?_, ?_⟩
      · simp only [List.map_cons, hk, Option.isSome_none, Bool.false_eq_true, if_false, sunionLoop]
        exact h1
      · simpa [List.flatMap_cons, dbMembers, hk] using h2
    | some o =>
      have hov := hv key (List.mem_cons_self _ _) o hk
      obtain ⟨st1, f1, f2⟩ := sunionFold_spec server db0 base (setMembers o) st h
      obtain ⟨st2, g1, g2⟩ := ih hv' (base ++ setMembers o) st1
        (f2.rebase _ (fun v => by simp))
      refine ⟨st2, ?_, ?_⟩
      · simp only [List.map_cons, hk, Option.isSome_some, if_true, sunionLoop, h.db_eq,
          setTypeForEach_spec o hov, f1]
        exact g1
      · refine ⟨g2.db_eq, g2.valid, fun v => ?_, g2.card⟩
        rw [g2.mem]
        simp only [List.flatMap_cons, dbMembers, hk, List.mem_append]
        tauto

theorem sunionDiffReply_fold (c : client) (l : List sds) :
    foldOpt sunionDiffReplyBody l c = some { c with reply := c.reply ++ l.map .bulk } := by
  induction l generalizing c with
  | nil => simp [foldOpt]
  | cons x l ih =>
    simp only [foldOpt, sunionDiffReplyBody]
    rw [ih]
    simp [addReply]

theorem createIntsetObject_valid : setValid createIntsetObject :=
  ⟨rfl, rfl, List.Pairwise.nil, by simp⟩

theorem sunionInv_init (db0 : redisDb) : sunionInv db0 [] [] ⟨db0, createIntsetObject, 0⟩ :=
  ⟨rfl, createIntsetObject_valid, fun v => by simp [setMembers, createIntsetObject], by
    simp [setMembers, createIntsetObject, intWrap_zero]⟩

theorem mem_flatMap_dbMembers (db : redisDb) (keys : List sds) (v : sds) :
    v ∈ keys.flatMap (dbMembers db) ↔ ∃ k ∈ keys, v ∈ dbMembers db k := by
  simp [List.mem_flatMap]

/-- The state in which the union loop of `sunionDiffGenericCommand` ends. -/
theorem sunionState_spec (server : redisServer) (c : client) (setkeys : List sds)
    (hv : operandsValid c.db setkeys) :
    ∃ st, sunionLoop server (setkeys.map (fun k => if (c.db k).isSome then some k else none))
        ⟨c.db, createIntsetObject, 0⟩ = some st ∧
      st.db = c.db ∧ setValid st.dstset ∧
      (∀ v, v ∈ setMembers st.dstset ↔ ∃ k ∈ setkeys, v ∈ dbMembers c.db k) ∧
      st.cardinality = intWrap (setMembers st.dstset).length := by
  obtain ⟨st, h1, h2⟩ := sunionLoop_spec server c.db setkeys hv [] _ (sunionInv_init c.db)
  refine ⟨st, h1, h2.db_eq, h2.valid, fun v => ?_, h2.card⟩
  rw [h2.mem, mem_flatMap_dbMembers]
  simp

theorem sunionDiffChoice_union (db : redisDb) (sets : List (Option sds)) :
    sunionDiffChoice db SET_OP_UNION sets = some (1, sets) := by
  unfold sunionDiffChoice
  split
  · rw [if_neg (by decide)]
  · rfl

theorem sunionDiffGenericCommand_union (server : redisServer) (c : client) (setkeys : List sds)
    (dstkey : Option sds) (hv : operandsValid c.db setkeys) :
    ∃ st, sunionDiffGenericCommand server c setkeys dstkey SET_OP_UNION
        = sunionDiffOutput c dstkey st ∧
      st.db = c.db ∧ setValid st.dstset ∧
      (∀ v, v ∈ setMembers st.dstset ↔ ∃ k ∈ setkeys, v ∈ dbMembers c.db k) ∧
      st.cardinality = intWrap (setMembers st.dstset).length := by
  obtain ⟨st, h1, h2⟩ := sunionState_spec server c setkeys hv
  refine ⟨st, ?_, h2⟩
  unfold sunionDiffGenericCommand
  rw [sunionDiffLookup_spec dstkey c setkeys hv []]
  simp only [List.nil_append, sunionDiffChoice_union, sunionDiffCompute, if_true, h1]

/-- SUNION: the reply is the counter, the number of elements of the union as
an `int`, followed by the elements, each once. -/
theorem sunion_reply (server : redisServer) (c : client) (setkeys : List sds)
    (hv : operandsValid c.db setkeys) :
    ∃ elems : List sds,
      sunionDiffGenericCommand server c setkeys none SET_OP_UNION
        = some { c with reply := c.reply ++
            .multibulklen (intWrap elems.length) :: elems.map .bulk } ∧
      elems.Nodup ∧ ∀ v, v ∈ elems ↔ ∃ k ∈ setkeys, v ∈ dbMembers c.db k := by
  obtain ⟨st, h1, h2, h3, h4, h5⟩ := sunionDiffGenericCommand_union server c setkeys none hv
  refine ⟨setMembers st.dstset, ?_, h3.members_nodup, h4⟩
  rw [h1]
  simp only [sunionDiffOutput, setTypeForEach_spec _ h3, sunionDiffReply_fold, addReply, h2, h5]
  simp

/-- SUNIONSTORE: the destination key holds the union, or is removed when the
union is empty; the other keys are untouched. -/
theorem sunion_store (server : redisServer) (c : client) (setkeys : List sds) (dstkey : sds)
    (hv : operandsValid c.db setkeys) :
    ∃ c', sunionDiffGenericCommand server c setkeys (some dstkey) SET_OP_UNION = some c' ∧
      (dbMembers c'.db dstkey).Nodup ∧
      (∀ v, v ∈ dbMembers c'.db dstkey ↔ ∃ k ∈ setkeys, v ∈ dbMembers c.db k) ∧
      (∀ k, k ≠ dstkey → c'.db k = c.db k) ∧
      ((dbMembers c'.db dstkey = [] → c'.db dstkey = none) ∧
        ∀ o, c'.db dstkey = some o → setValid o) ∧
      c'.reply = c.reply ++ [if dbMembers c'.db dstkey = [] then .czero
        else .longlong (dbMembers c'.db dstkey).length] := by
  obtain ⟨st, h1, h2, h3, h4, h5⟩ := sunionDiffGenericCommand_union server c setkeys (some dstkey) hv
  rw [h1]
  simp only [sunionDiffOutput, setTypeSize_spec _ h3, h2]
  by_cases hpos : 0 < (setMembers st.dstset).length
  · have hne : setMembers st.dstset ≠ [] := by
      intro h; rw [h] at hpos; simp at hpos
    refine ⟨addReply { c with db := dbStore (dbDelete c.db dstkey).2 dstkey st.dstset }
      (.longlong (setMembers st.dstset).length), ?_, ?_, ?_, ?_, ?_, ?_⟩
    · simp [hpos, dbAdd, dbDelete]
    · simpa [addReply, dbMembers, dbStore] using h3.members_nodup
    · intro v
      simpa [addReply, dbMembers, dbStore] using h4 v
    · intro k hk
      simp [addReply, dbStore, dbDelete, hk]
    · refine ⟨?_, ?_⟩
      · intro h
        simp [addReply, dbMembers, dbStore] at h
        exact absurd h hne
      · intro o ho
        simp [addReply, dbStore] at ho
        subst ho
        exact h3
    · simp [addReply, dbMembers, dbStore, hne]
  · have he : setMembers st.dstset = [] := by
      cases hm : setMembers st.dstset with
      | nil => rfl
      | cons a l => rw [hm] at hpos; simp at hpos
    refine ⟨addReply { c with db := (dbDelete c.db dstkey).2 } .czero, ?_, ?_, ?_, ?_, ?_, ?_⟩
    · simp [hpos]
    · simp [addReply, dbMembers, dbDelete]
    · intro v
      rw [← h4 v, he]
      simp [addReply, dbMembers, dbDelete]
    · intro k hk
      simp [addReply, dbDelete, hk]
    · simp [addReply, dbDelete]
    · simp [addReply, dbMembers, dbDelete]

theorem setElems_bytes (o : robj) : (setElems o).map setElemBytes = setMembers o := by
  have hne : OBJ_ENCODING_HT ≠ OBJ_ENCODING_INTSET := by decide
  unfold setElems setMembers
  cases hp : o.ptr with
  | intset is => simp [setElemBytes, Function.comp_def]
  | dict d => simp [setElemBytes, Function.comp_def, hne, dictKeys]
  | sds s => rfl
  | ziplist s => rfl

theorem setElems_ok (o : robj) (hv : setValid o) : ∀ x ∈ setElems o, setElemOk x := by
  intro x hx
  unfold setElems at hx
  unfold setValid at hv
  cases hp : o.ptr with
  | intset is =>
    rw [hp] at hx hv
    obtain ⟨n, hn, rfl⟩ := List.mem_map.1 hx
    exact Or.inl ⟨rfl, hv.2.2.2 n hn⟩
  | dict d =>
    rw [hp] at hx
    obtain ⟨e, _, rfl⟩ := List.mem_map.1 hx
    exact Or.inr ⟨rfl, rfl⟩
  | sds s => rw [hp] at hx; simp at hx
  | ziplist s => rw [hp] at hx; simp at hx

theorem dbSame.db_refl (keys : List sds) (db : redisDb)
    (h : ∀ k ∈ keys, ∃ o, db k = some o ∧ setValid o) : dbSame keys db db :=
  ⟨fun _ _ => rfl, fun k hk => by
    obtain ⟨o, h1, h2⟩ := h k hk
    exact ⟨o, o, h1, h1, setSame.set_refl h2, rfl⟩⟩

theorem dbSame.store {keys : List sds} {db0 db : redisDb} (h : dbSame keys db0 db)
    {k : sds} (hk : k ∈ keys) {o o' : robj} (ho : db k = some o) (hs : setSame o o')
    (he : o'.encoding = o.encoding) : dbSame keys db0 (dbStore db k o') := by
  refine ⟨fun j hj => ?_, fun j hj => ?_⟩
  · have : j ≠ k := fun e => hj (e ▸ hk)
    simp [dbStore, this, h.frame j hj]
  · by_cases hjk : j = k
    · subst hjk
      obtain ⟨a, b, h1, h2, h3, h4⟩ := h.set j hj
      rw [ho] at h2
      injection h2 with h2
      subst h2
      exact ⟨a, o', h1, by simp [dbStore], h3.trans_set hs, he.trans h4⟩
    · obtain ⟨a, b, h1, h2, h3, h4⟩ := h.set j hj
      exact ⟨a, b, h1, by simp [dbStore, hjk, h2], h3, h4⟩

theorem dbSame.members {keys : List sds} {db0 db : redisDb} (h : dbSame keys db0 db) (k : sds) :
    (dbMembers db k).Perm (dbMembers db0 k) := by
  by_cases hk : k ∈ keys
  · obtain ⟨a, b, h1, h2, h3, _⟩ := h.set k hk
    simp only [dbMembers, h1, h2]
    exact h3.perm
  · simp only [dbMembers, h.frame k hk]
    exact List.Perm.refl _

/-- The probes of the other sets for one element of the first set: the loop
runs to the end exactly when every other set holds the element. -/
theorem sinterProbe_spec (keys : List sds) (db0 : redisDb) (sets0 : sds)
    (x : Nat × Option sds × Int) (hx : setElemOk x) :
    ∀ (rest : List sds) (db : redisDb), (∀ k ∈ rest, k ∈ keys) → dbSame keys db0 db →
      ∃ b db', sinterProbe sets0 x.1 x.2.1 x.2.2 rest db = some (b, db') ∧ dbSame keys db0 db' ∧
        (b = true ↔ ∀ k ∈ rest, k ≠ sets0 → setElemBytes x ∈ dbMembers db0 k) := by
  have hne : OBJ_ENCODING_INTSET ≠ OBJ_ENCODING_HT := by decide
  intro rest
  induction rest with
  | nil =>
    intro db _ hdb
    exact ⟨true, db, rfl, hdb, by simp⟩
  | cons setj rest ih =>
    intro db hsub hdb
    have hsub' : ∀ k ∈ rest, k ∈ keys := fun k hk => hsub k (List.mem_cons_of_mem _ hk)
    rw [sinterProbe]
    by_cases hj : setj = sets0
    · rw [if_pos hj]
      obtain ⟨b, db', h1, h2, h3⟩ := ih db hsub' hdb
      refine ⟨b, db', h1, h2, ?_⟩
      rw [h3]
      simp [hj]
    · rw [if_neg hj]
      obtain ⟨a, o, ha, ho, hs, he⟩ := hdb.set setj (hsub setj (List.mem_cons_self _ _))
      simp only [ho]
      have hmem0 : ∀ v, v ∈ setMembers o ↔ v ∈ dbMembers db0 setj := by
        intro v
        rw [hs.mem_iff]
        simp [dbMembers, ha]
      -- the outcome of one probe decides the rest
      have stop : ∀ db', dbSame keys db0 db' → setElemBytes x ∉ setMembers o →
          ∃ b db'', (some (false, db') : Option (Bool × redisDb)) = some (b, db'') ∧
            dbSame keys db0 db'' ∧
            (b = true ↔ ∀ k ∈ setj :: rest, k ≠ sets0 → setElemBytes x ∈ dbMembers db0 k) := by
        intro db' hdb' hnot
        refine ⟨false, db', rfl, hdb', ?_⟩
        simp only [Bool.false_eq_true, false_iff]
        intro hall
        exact hnot ((hmem0 _).2 (hall setj (List.mem_cons_self _ _) hj))
      have go : ∀ db', dbSame keys db0 db' → setElemBytes x ∈ setMembers o →
          ∃ b db'', sinterProbe sets0 x.1 x.2.1 x.2.2 rest db' = some (b, db'') ∧
            dbSame keys db0 db'' ∧
            (b = true ↔ ∀ k ∈ setj :: rest, k ≠ sets0 → setElemBytes x ∈ dbMembers db0 k) := by
        intro db' hdb' hin
        obtain ⟨b, db'', h1, h2, h3⟩ := ih db' hsub' hdb'
        refine ⟨b, db'', h1, h2, ?_⟩
        rw [h3]
        constructor
        · intro hall k hk hk0
          rcases List.mem_cons.1 hk with rfl | hk
          · exact (hmem0 _).1 hin
          · exact hall k hk hk0
        · intro hall k hk hk0
          exact hall k (List.mem_cons_of_mem _ hk) hk0
      rcases hx with ⟨hx1, hx2, hx3⟩ | ⟨hx1, hx2⟩
      · have hb : setElemBytes x = sdsfromlonglong x.2.2 := by simp [setElemBytes, hx1]
        rw [if_pos hx1]
        rcases hs.valid.set_encoding with henc | henc
        · obtain ⟨is, hp, _, hr⟩ := setValid_intset hs.valid henc
          rw [if_pos henc]
          simp only [hp]
          have hfind : intsetFind is x.2.2 = true ↔ setElemBytes x ∈ setMembers o := by
            rw [hb]
            simp only [intsetFind, decide_eq_true_eq, setMembers, hp]
            rw [mem_intset_members is hr, string2ll_sdsfromlonglong _ hx2 hx3]
            simp
          by_cases hf : intsetFind is x.2.2 = true
          · simp only [hf, not_true_eq_false, if_false]
            exact go db hdb (hfind.1 hf)
          · simp only [hf, not_false_eq_true, if_true]
            exact stop db hdb (fun h => hf (hfind.2 h))
        · rw [if_neg (by rw [henc]; exact hne.symm), if_pos henc]
          obtain ⟨o', h1, h2, h3⟩ := setTypeIsMember_spec o hs.valid (sdsfromlonglong x.2.2)
          by_cases hin : sdsfromlonglong x.2.2 ∈ setMembers o
          · rw [if_pos hin] at h1
            simp only [h1, one_ne_zero, if_false]
            exact go _ (hdb.store (hsub setj (List.mem_cons_self _ _)) ho h2 h3)
              (by rw [hb]; exact hin)
          · rw [if_neg hin] at h1
            simp only [h1, if_true]
            exact stop _ (hdb.store (hsub setj (List.mem_cons_self _ _)) ho h2 h3)
              (by rw [hb]; exact hin)
      · obtain ⟨ele, hele⟩ := Option.isSome_iff_exists.1 hx2
        have hb : setElemBytes x = ele := by
          simp [setElemBytes, hx1, hne.symm, hele]
        rw [if_neg (by rw [hx1]; exact hne.symm), if_pos hx1]
        simp only [hele]
        obtain ⟨o', h1, h2, h3⟩ := setTypeIsMember_spec o hs.valid ele
        by_cases hin : ele ∈ setMembers o
        · rw [if_pos hin] at h1
          simp only [h1, one_ne_zero, if_false]
          rw [← hele]
          exact go _ (hdb.store (hsub setj (List.mem_cons_self _ _)) ho h2 h3) (hb ▸ hin)
        · rw [if_neg hin] at h1
          simp only [h1, if_true]
          exact stop _ (hdb.store (hsub setj (List.mem_cons_self _ _)) ho h2 h3) (hb ▸ hin)

theorem inAllSets_iff (db : redisDb) (keys : List sds) (v : sds) :
    inAllSets db keys v = true ↔ ∀ k ∈ keys, v ∈ dbMembers db k := by
  simp [inAllSets]

theorem sinterInv.skip {keys : List sds} {db0 : redisDb} {r0 : List replyItem} {P : sds → Bool}
    {dstkey : Option sds} {done : List sds} {st : sinterState}
    (h : sinterInv keys db0 r0 P dstkey done st) (v : sds) (hP : P v = false) (db : redisDb)
    (hdb : dbSame keys db0 db) :
    sinterInv keys db0 r0 P dstkey (done ++ [v]) { st with c := { st.c with db := db } } := by
  refine ⟨hdb, ?_, ?_, ?_⟩
  · simp [h.reply, List.filter_append, hP]
  · simp [h.card, List.filter_append, hP]
  · intro hd
    obtain ⟨ds, h1, h2, h3⟩ := h.dst hd
    refine ⟨ds, h1, h2, fun w => ?_⟩
    rw [h3, List.mem_append, List.mem_singleton]
    constructor
    · rintro ⟨a, b⟩; exact ⟨Or.inl a, b⟩
    · rintro ⟨a | a, b⟩
      · exact ⟨a, b⟩
      · rw [a, hP] at b; cases b

theorem sinterFound_spec (server : redisServer) (keys : List sds) (db0 : redisDb)
    (r0 : List replyItem) (P : sds → Bool) (dstkey : Option sds) (done : List sds)
    (st : sinterState) (h : sinterInv keys db0 r0 P dstkey done st)
    (x : Nat × Option sds × Int) (hx : setElemOk x) (hP : P (setElemBytes x) = true)
    (db : redisDb) (hdb : dbSame keys db0 db) :
    ∃ st', sinterFound server dstkey st db x = some st' ∧
      sinterInv keys db0 r0 P dstkey (done ++ [setElemBytes x]) st' := by
  have hne : OBJ_ENCODING_INTSET ≠ OBJ_ENCODING_HT := by decide
  unfold sinterFound
  cases dstkey with
  | none =>
    simp only
    rcases hx with ⟨hx1, _, _⟩ | ⟨hx1, hx2⟩
    · have hb : setElemBytes x = sdsfromlonglong x.2.2 := by simp [setElemBytes, hx1]
      have hP' : P (sdsfromlonglong x.2.2) = true := hb ▸ hP
      rw [if_neg (by rw [hx1]; exact hne)]
      refine ⟨_, rfl, ?_, ?_, ?_, ?_⟩
      · exact hdb
      · simp [addReply, h.reply, List.filter_append, hP', hb]
      · simp [h.card, List.filter_append, hP', hb]
      · intro hd; simp at hd
    · obtain ⟨ele, hele⟩ := Option.isSome_iff_exists.1 hx2
      have hb : setElemBytes x = ele := by simp [setElemBytes, hx1, hne.symm, hele]
      have hP' : P ele = true := hb ▸ hP
      rw [if_pos hx1]
      simp only [hele]
      refine ⟨_, rfl, ?_, ?_, ?_, ?_⟩
      · exact hdb
      · simp [addReply, h.reply, List.filter_append, hP', hb]
      · simp [h.card, List.filter_append, hP', hb]
      · intro hd; simp at hd
  | some dk =>
    simp only
    obtain ⟨ds, h1, h2, h3⟩ := h.dst rfl
    simp only [h1]
    have fin : ∀ ds', setAdded ds ds' (setElemBytes x) →
        sinterInv keys db0 r0 P (some dk) (done ++ [setElemBytes x])
          { st with c := { st.c with db := db }, dstset := some ds' } := by
      intro ds' had
      refine ⟨hdb, ?_, ?_, ?_⟩
      · simpa using h.reply
      · simpa using h.card
      · intro _
        refine ⟨ds', rfl, had.1, fun w => ?_⟩
        rw [had.mem_added_iff, h3, List.mem_append, List.mem_singleton]
        constructor
        · rintro (rfl | ⟨a, b⟩)
          · exact ⟨Or.inr rfl, hP⟩
          · exact ⟨Or.inl a, b⟩
        · rintro ⟨a | a, b⟩
          · exact Or.inr ⟨a, b⟩
          · exact Or.inl a
    rcases hx with ⟨hx1, _, _⟩ | ⟨hx1, hx2⟩
    · have hb : setElemBytes x = sdsfromlonglong x.2.2 := by simp [setElemBytes, hx1]
      rw [if_pos hx1]
      obtain ⟨ds', g1, g2, _, _⟩ := setTypeAdd_spec server ds h2 (sdsfromlonglong x.2.2)
      simp only [g1]
      exact ⟨_, rfl, fin ds' (by rw [hb]; exact g2)⟩
    · obtain ⟨ele, hele⟩ := Option.isSome_iff_exists.1 hx2
      have hb : setElemBytes x = ele := by simp [setElemBytes, hx1, hne.symm, hele]
      rw [if_neg (by rw [hx1]; exact hne.symm)]
      simp only [hele]
      obtain ⟨ds', g1, g2, _, _⟩ := setTypeAdd_spec server ds h2 ele
      simp only [g1]
      exact ⟨_, rfl, fin ds' (by rw [hb]; exact g2)⟩

theorem sinterBody_spec (server : redisServer) (db0 : redisDb) (r0 : List replyItem)
    (sets0 : sds) (rest : List sds) (dstkey : Option sds) (done : List sds) (st : sinterState)
    (h : sinterInv (sets0 :: rest) db0 r0 (inAllSets db0 (sets0 :: rest)) dstkey done st)
    (x : Nat × Option sds × Int) (hx : setElemOk x)
    (hx0 : setElemBytes x ∈ dbMembers db0 sets0) :
    ∃ st', sinterBody server (sets0 :: rest) dstkey st x = some st' ∧
      sinterInv (sets0 :: rest) db0 r0 (inAllSets db0 (sets0 :: rest)) dstkey
        (done ++ [setElemBytes x]) st' := by
  obtain ⟨b, db', h1, h2, h3⟩ := sinterProbe_spec (sets0 :: rest) db0 sets0 x hx rest st.c.db
    (fun k hk => List.mem_cons_of_mem _ hk) h.db
  have hP : inAllSets db0 (sets0 :: rest) (setElemBytes x) = b := by
    cases b with
    | true =>
      rw [inAllSets_iff]
      intro k hk
      by_cases hk0 : k = sets0
      · rw [hk0]; exact hx0
      · rcases List.mem_cons.1 hk with e | hk
        · exact absurd e hk0
        · exact h3.1 rfl k hk hk0
    | false =>
      cases hc : inAllSets db0 (sets0 :: rest) (setElemBytes x) with
      | false => rfl
      | true =>
        rw [inAllSets_iff] at hc
        have := h3.2 (fun k hk _ => hc k (List.mem_cons_of_mem _ hk))
        cases this
  unfold sinterBody
  simp only [h1]
  cases b with
  | false => exact ⟨_, rfl, h.skip _ hP db' h2⟩
  | true => exact sinterFound_spec server _ db0 r0 _ dstkey done st h x hx hP db' h2

/-- The main loop of `sinterGenericCommand` over the elements of the first
set. -/
theorem sinterFold_spec (server : redisServer) (db0 : redisDb) (r0 : List replyItem)
    (sets0 : sds) (rest : List sds) (dstkey : Option sds) (o0 : robj)
    (h0 : db0 sets0 = some o0) (hv0 : setValid o0) (st : sinterState)
    (h : sinterInv (sets0 :: rest) db0 r0 (inAllSets db0 (sets0 :: rest)) dstkey [] st) :
    ∃ st', foldOpt (sinterBody server (sets0 :: rest) dstkey) (setElems o0) st = some st' ∧
      sinterInv (sets0 :: rest) db0 r0 (inAllSets db0 (sets0 :: rest)) dstkey
        (setMembers o0) st' := by
  have := foldOpt_inv (sinterBody server (sets0 :: rest) dstkey) (setElems o0)
    (fun done st => sinterInv (sets0 :: rest) db0 r0 (inAllSets db0 (sets0 :: rest)) dstkey
      (done.map setElemBytes) st)
    (fun done x tl s hl hI => by
      have hxm : x ∈ setElems o0 := by rw [hl]; simp
      have hx0 : setElemBytes x ∈ dbMembers db0 sets0 := by
        simp only [dbMembers, h0, ← setElems_bytes o0]
        exact List.mem_map_of_mem _ hxm
      obtain ⟨s', g1, g2⟩ := sinterBody_spec server db0 r0 sets0 rest dstkey _ s hI x
        (setElems_ok o0 hv0 x hxm) hx0
      exact ⟨s', g1, by simpa using g2⟩) st (by simpa using h)
  simpa [setElems_bytes] using this

theorem sinterLookup_all (dstkey : Option sds) (c : client) (setkeys : List sds)
    (hv : operandsValid c.db setkeys) (he : operandsExist c.db setkeys) (acc : List sds) :
    sinterLookup dstkey setkeys c acc = .inr (acc ++ setkeys) := by
  induction setkeys generalizing acc with
  | nil => simp [sinterLookup]
  | cons key keys ih =>
    have hv' : operandsValid c.db keys := fun k hk => hv k (List.mem_cons_of_mem _ hk)
    have he' : operandsExist c.db keys := fun k hk => he k (List.mem_cons_of_mem _ hk)
    rw [sinterLookup]
    have hl : (if dstkey.isSome then lookupKeyWrite c.db key else lookupKeyRead c.db key)
        = c.db key := by
      split <;> rfl
    rw [hl]
    obtain ⟨o, ho⟩ := Option.isSome_iff_exists.1 (he key (List.mem_cons_self _ _))
    simp only [ho]
    rw [checkType_set c o (hv key (List.mem_cons_self _ _) o ho)]
    simp only [Bool.false_eq_true, if_false]
    rw [ih hv' he']
    simp

theorem sinterLookup_missing (dstkey : Option sds) (c : client) (setkeys : List sds)
    (hv : operandsValid c.db setkeys) (hm : ∃ k ∈ setkeys, c.db k = none) (acc : List sds) :
    sinterLookup dstkey setkeys c acc = .inl (sinterMissing c dstkey) := by
  induction setkeys generalizing acc with
  | nil => simp at hm
  | cons key keys ih =>
    have hv' : operandsValid c.db keys := fun k hk => hv k (List.mem_cons_of_mem _ hk)
    rw [sinterLookup]
    have hl : (if dstkey.isSome then lookupKeyWrite c.db key else lookupKeyRead c.db key)
        = c.db key := by
      split <;> rfl
    rw [hl]
    cases ho : c.db key with
    | none => rfl
    | some o =>
      simp only
      rw [checkType_set c o (hv key (List.mem_cons_self _ _) o ho)]
      simp only [Bool.false_eq_true, if_false]
      obtain ⟨k, hk, hk0⟩ := hm
      rcases List.mem_cons.1 hk with rfl | hk
      · rw [ho] at hk0; cases hk0
      · exact ih hv' ⟨k, hk, hk0⟩ _

theorem setSizes_spec (db : redisDb) (keys : List sds) (hv : operandsValid db keys)
    (he : operandsExist db keys) :
    setSizes db keys = some (keys.map (fun k => (k, (dbMembers db k).length))) := by
  induction keys with
  | nil => rfl
  | cons key keys ih =>
    have hv' : operandsValid db keys := fun k hk => hv k (List.mem_cons_of_mem _ hk)
    have he' : operandsExist db keys := fun k hk => he k (List.mem_cons_of_mem _ hk)
    obtain ⟨o, ho⟩ := Option.isSome_iff_exists.1 (he key (List.mem_cons_self _ _))
    rw [setSizes]
    simp only [ho, setTypeSize_spec o (hv key (List.mem_cons_self _ _) o ho), ih hv' he']
    simp [dbMembers, ho]

theorem qsort_keys_perm (cmp : Nat → Nat → Int) (keys : List sds) (f : sds → Nat) :
    ((qsort cmp (keys.map (fun k => (k, f k)))).map (·.1)).Perm keys := by
  have h1 : (qsort cmp (keys.map (fun k => (k, f k)))).Perm (keys.map (fun k => (k, f k))) :=
    List.perm_insertionSort _ _
  have h2 := h1.map (·.1)
  simpa [Function.comp_def] using h2

theorem set_append_length {α : Type} (l r : List α) (a b : α) :
    (l ++ a :: r).set l.length b = l ++ b :: r := by
  induction l with
  | nil => rfl
  | cons x l ih => simp [ih]

/-- The main loop and the output of SINTER. -/
theorem sinterMain_reply (server : redisServer) (c : client) (sets : List sds)
    (hne : sets ≠ []) (hv : operandsValid c.db sets) (he : operandsExist c.db sets) :
    ∃ (elems : List sds) (c' : client), sinterMain server c sets none = some c' ∧
      c'.reply = c.reply ++ .multibulklen elems.length :: elems.map .bulk ∧
      elems.Nodup ∧ (∀ v, v ∈ elems ↔ ∀ k ∈ sets, v ∈ dbMembers c.db k) ∧
      dbSame sets c.db c'.db := by
  obtain ⟨sets0, rest, rfl⟩ := List.exists_cons_of_ne_nil hne
  obtain ⟨o0, h0⟩ := Option.isSome_iff_exists.1 (he sets0 (List.mem_cons_self _ _))
  have hv0 := hv sets0 (List.mem_cons_self _ _) o0 h0
  obtain ⟨si, hi1, hi2, _⟩ := setTypeInitIterator_spec o0 hv0
  have hinit : sinterInv (sets0 :: rest) c.db (c.reply ++ [.deferredlen])
      (inAllSets c.db (sets0 :: rest)) none []
      ⟨(addDeferredMultiBulkLength c).2, none, 0⟩ := by
    refine ⟨?_, ?_, ?_, ?_⟩
    · refine dbSame.db_refl _ _ (fun k hk => ?_)
      obtain ⟨o, ho⟩ := Option.isSome_iff_exists.1 (he k hk)
      exact ⟨o, ho, hv k hk o ho⟩
    · simp [addDeferredMultiBulkLength, addReply]
    · simp
    · intro hd; simp at hd
  obtain ⟨st, f1, f2⟩ := sinterFold_spec server c.db _ sets0 rest none o0 h0 hv0 _ hinit
  refine ⟨(setMembers o0).filter (inAllSets c.db (sets0 :: rest)),
    setDeferredMultiBulkLength st.c c.reply.length st.cardinality, ?_, ?_, ?_, ?_, ?_⟩
  · unfold sinterMain
    simp only [Option.isNone_none, if_true]
    have hdb : (addDeferredMultiBulkLength c).2.db sets0 = some o0 := h0
    simp only [hdb, hi1, setTypeSize_spec o0 hv0]
    rw [whileNext_eq_foldOpt _ _ si (setElems o0) hi2 _ _
      (by rw [setElems_length]; exact Nat.lt_succ_self _), f1]
    rfl
  · have hr := f2.reply
    have hc := f2.card
    simp only [Option.isNone_none, if_true] at hr hc
    simp only [setDeferredMultiBulkLength, hr, hc, List.append_assoc, List.singleton_append,
      set_append_length]
  · exact hv0.members_nodup.filter _
  · intro v
    rw [List.mem_filter, inAllSets_iff]
    constructor
    · exact fun h => h.2
    · intro h
      refine ⟨?_, h⟩
      have := h sets0 (List.mem_cons_self _ _)
      simpa [dbMembers, h0] using this
  · exact f2.db

/-- The main loop and the output of SINTERSTORE. -/
theorem sinterMain_store (server : redisServer) (c : client) (sets : List sds) (dstkey : sds)
    (hne : sets ≠ []) (hv : operandsValid c.db sets) (he : operandsExist c.db sets) :
    ∃ (st : sinterState) (ds : robj),
      sinterMain server c sets (some dstkey) = sinterOutput (some dstkey) c.reply.length st ∧
      st.dstset = some ds ∧ setValid ds ∧ st.c.reply = c.reply ∧
      (∀ v, v ∈ setMembers ds ↔ ∀ k ∈ sets, v ∈ dbMembers c.db k) ∧
      dbSame sets c.db st.c.db := by
  obtain ⟨sets0, rest, rfl⟩ := List.exists_cons_of_ne_nil hne
  obtain ⟨o0, h0⟩ := Option.isSome_iff_exists.1 (he sets0 (List.mem_cons_self _ _))
  have hv0 := hv sets0 (List.mem_cons_self _ _) o0 h0
  obtain ⟨si, hi1, hi2, _⟩ := setTypeInitIterator_spec o0 hv0
  have hinit : sinterInv (sets0 :: rest) c.db c.reply
      (inAllSets c.db (sets0 :: rest)) (some dstkey) []
      ⟨c, some createIntsetObject, 0⟩ := by
    refine ⟨?_, ?_, ?_, ?_⟩
    · refine dbSame.db_refl _ _ (fun k hk => ?_)
      obtain ⟨o, ho⟩ := Option.isSome_iff_exists.1 (he k hk)
      exact ⟨o, ho, hv k hk o ho⟩
    · simp
    · simp
    · intro _
      exact ⟨createIntsetObject, rfl, createIntsetObject_valid, fun v => by
        simp [setMembers, createIntsetObject]⟩
  obtain ⟨st, f1, f2⟩ := sinterFold_spec server c.db _ sets0 rest (some dstkey) o0 h0 hv0 _ hinit
  obtain ⟨ds, g1, g2, g3⟩ := f2.dst rfl
  refine ⟨st, ds, ?_, g1, g2, ?_, ?_, f2.db⟩
  · unfold sinterMain
    simp only [Option.isNone_some, Bool.false_eq_true, if_false]
    simp only [h0, hi1, setTypeSize_spec o0 hv0]
    rw [whileNext_eq_foldOpt _ _ si (setElems o0) hi2 _ _
      (by rw [setElems_length]; exact Nat.lt_succ_self _), f1]
    rfl
  · simpa using f2.reply
  · intro v
    rw [g3, inAllSets_iff]
    constructor
    · exact fun h => h.2
    · intro h
      refine ⟨?_, h⟩
      have := h sets0 (List.mem_cons_self _ _)
      simpa [dbMembers, h0] using this

theorem sinterGenericCommand_all (server : redisServer) (c : client) (setkeys : List sds)
    (dstkey : Option sds) (hv : operandsValid c.db setkeys) (he : operandsExist c.db setkeys) :
    ∃ sets : List sds, sets.Perm setkeys ∧
      sinterGenericCommand server c setkeys dstkey = sinterMain server c sets dstkey := by
  refine ⟨_, qsort_keys_perm qsortCompareSetsByCardinality setkeys
    (fun k => (dbMembers c.db k).length), ?_⟩
  unfold sinterGenericCommand
  rw [sinterLookup_all dstkey c setkeys hv he []]
  simp only [List.nil_append, setSizes_spec c.db setkeys hv he]

theorem sinterGenericCommand_missing (server : redisServer) (c : client) (setkeys : List sds)
    (dstkey : Option sds) (hv : operandsValid c.db setkeys) (hm : ∃ k ∈ setkeys, c.db k = none) :
    sinterGenericCommand server c setkeys dstkey = some (sinterMissing c dstkey) := by
  unfold sinterGenericCommand
  rw [sinterLookup_missing dstkey c setkeys hv hm []]

/-- SINTER on existing sets: the reply is the number of common elements
followed by these elements, each once. -/
theorem sinter_reply (server : redisServer) (c : client) (setkeys : List sds)
    (hne : setkeys ≠ []) (hv : operandsValid c.db setkeys) (he : operandsExist c.db setkeys) :
    ∃ (elems : List sds) (c' : client), sinterGenericCommand server c setkeys none = some c' ∧
      c'.reply = c.reply ++ .multibulklen elems.length :: elems.map .bulk ∧
      elems.Nodup ∧ (∀ v, v ∈ elems ↔ ∀ k ∈ setkeys, v ∈ dbMembers c.db k) ∧
      ∀ k, (dbMembers c'.db k).Perm (dbMembers c.db k) := by
  obtain ⟨sets, hp, hs⟩ := sinterGenericCommand_all server c setkeys none hv he
  have hne' : sets ≠ [] := fun h => hne (by rw [h] at hp; exact hp.symm.eq_nil)
  obtain ⟨elems, c', h1, h2, h3, h4, h5⟩ := sinterMain_reply server c sets hne'
    (fun k hk => hv k (hp.mem_iff.1 hk)) (fun k hk => he k (hp.mem_iff.1 hk))
  refine ⟨elems, c', hs.trans h1, h2, h3, fun v => ?_, fun k => h5.members k⟩
  rw [h4]
  exact ⟨fun h k hk => h k (hp.mem_iff.2 hk), fun h k hk => h k (hp.mem_iff.1 hk)⟩

/-- SINTERSTORE on existing sets: the destination key holds the common
elements, or is removed when there is none. -/
theorem sinter_store (server : redisServer) (c : client) (setkeys : List sds) (dstkey : sds)
    (hne : setkeys ≠ []) (hv : operandsValid c.db setkeys) (he : operandsExist c.db setkeys) :
    ∃ c', sinterGenericCommand server c setkeys (some dstkey) = some c' ∧
      (dbMembers c'.db dstkey).Nodup ∧
      (∀ v, v ∈ dbMembers c'.db dstkey ↔ ∀ k ∈ setkeys, v ∈ dbMembers c.db k) ∧
      (∀ k, k ≠ dstkey → (dbMembers c'.db k).Perm (dbMembers c.db k)) ∧
      (dbMembers c'.db dstkey = [] → c'.db dstkey = none) ∧
      c'.reply = c.reply ++ [if dbMembers c'.db dstkey = [] then .czero
        else .longlong (dbMembers c'.db dstkey).length] := by
  obtain ⟨sets, hp, hs⟩ := sinterGenericCommand_all server c setkeys (some dstkey) hv he
  have hne' : sets ≠ [] := fun h => hne (by rw [h] at hp; exact hp.symm.eq_nil)
  obtain ⟨st, ds, h1, h2, h3, h4, h5, h6⟩ := sinterMain_store server c sets dstkey hne'
    (fun k hk => hv k (hp.mem_iff.1 hk)) (fun k hk => he k (hp.mem_iff.1 hk))
  have h5' : ∀ v, v ∈ setMembers ds ↔ ∀ k ∈ setkeys, v ∈ dbMembers c.db k := by
    intro v
    rw [h5]
    exact ⟨fun h k hk => h k (hp.mem_iff.2 hk), fun h k hk => h k (hp.mem_iff.1 hk)⟩
  have hother : ∀ (db : redisDb), (∀ k, k ≠ dstkey → db k = st.c.db k) →
      ∀ k, k ≠ dstkey → (dbMembers db k).Perm (dbMembers c.db k) := by
    intro db hdb k hk
    have := h6.members k
    simpa [dbMembers, hdb k hk] using this
  rw [hs, h1]
  simp only [sinterOutput, h2, setTypeSize_spec _ h3]
  by_cases hpos : 0 < (setMembers ds).length
  · have hnil : setMembers ds ≠ [] := by
      intro h; rw [h] at hpos; simp at hpos
    refine ⟨addReply { st.c with db := dbStore (dbDelete st.c.db dstkey).2 dstkey ds }
      (.longlong (setMembers ds).length), ?_, ?_, ?_, ?_, ?_, ?_⟩
    · simp [hpos, dbAdd, dbDelete]
    · simpa [addReply, dbMembers, dbStore] using h3.members_nodup
    · intro v
      simpa [addReply, dbMembers, dbStore] using h5' v
    · exact hother _ (fun k hk => by simp [addReply, dbStore, dbDelete, hk])
    · intro h
      simp [addReply, dbMembers, dbStore] at h
      exact absurd h hnil
    · simp [addReply, dbMembers, dbStore, hnil, h4]
  · have hnil : setMembers ds = [] := by
      cases hm : setMembers ds with
      | nil => rfl
      | cons a l => rw [hm] at hpos; simp at hpos
    refine ⟨addReply { st.c with db := (dbDelete st.c.db dstkey).2 } .czero, ?_, ?_, ?_, ?_, ?_, ?_⟩
    · simp [hpos]
    · simp [addReply, dbMembers, dbDelete]
    · intro v
      rw [← h5' v, hnil]
      simp [addReply, dbMembers, dbDelete]
    · exact hother _ (fun k hk => by simp [addReply, dbDelete, hk])
    · simp [addReply, dbDelete]
    · simp [addReply, dbMembers, dbDelete, h4]

/-- The common elements do not depend on the order of the operands. -/
theorem sinter_reply_order (server : redisServer) (c : client) (setkeys setkeys' : List sds)
    (hp : setkeys'.Perm setkeys)
    (hne : setkeys ≠ []) (hv : operandsValid c.db setkeys) (he : operandsExist c.db setkeys) :
    ∃ (elems elems' : List sds) (c1 c2 : client),
      sinterGenericCommand server c setkeys none = some c1 ∧
      sinterGenericCommand server c setkeys' none = some c2 ∧
      c1.reply = c.reply ++ .multibulklen elems.length :: elems.map .bulk ∧
      c2.reply = c.reply ++ .multibulklen elems'.length :: elems'.map .bulk ∧
      elems'.Perm elems := by
  have hne' : setkeys' ≠ [] := fun h => hne (by rw [h] at hp; exact hp.symm.eq_nil)
  obtain ⟨elems, c1, a1, a2, a3, a4, _⟩ := sinter_reply server c setkeys hne hv he
  obtain ⟨elems', c2, b1, b2, b3, b4, _⟩ := sinter_reply server c setkeys' hne'
    (fun k hk => hv k (hp.mem_iff.1 hk)) (fun k hk => he k (hp.mem_iff.1 hk))
  refine ⟨elems, elems', c1, c2, a1, b1, a2, b2, ?_⟩
  rw [List.perm_ext_iff_of_nodup b3 a3]
  intro v
  rw [a4, b4]
  exact ⟨fun h k hk => h k (hp.mem_iff.2 hk), fun h k hk => h k (hp.mem_iff.1 hk)⟩

/-! ## The contracts of the hash and set types -/

theorem intset_obj_valid (is : intset) (hs : is.Pairwise (· < ·))
    (hr : ∀ v ∈ is, LLONG_MIN ≤ v ∧ v ≤ LLONG_MAX) :
    setValid ⟨OBJ_SET, OBJ_ENCODING_INTSET, .intset is⟩ := ⟨rfl, rfl, hs, hr⟩

theorem exampleHash_valid : hashValid exampleHash := by
  refine ⟨rfl, by decide, ?_, by decide⟩
  intro e he
  simp only [List.mem_cons, List.mem_singleton, List.not_mem_nil, or_false] at he
  rcases he with rfl | rfl | rfl | rfl
  · trivial
  · exact ⟨by decide, by decide⟩
  · trivial
  · trivial

theorem createHashObject_valid : hashValid createHashObject := by
  refine ⟨rfl, by decide, ?_, by decide⟩
  intro e he
  cases he

theorem exampleSet_valid : setValid exampleSet :=
  intset_obj_valid _ (by decide) (by decide)

theorem exampleDb_valid (keys : List sds) : operandsValid exampleDb keys := by
  intro k _ o ho
  unfold exampleDb at ho
  split at ho
  · injection ho with ho
    subst ho
    exact intset_obj_valid _ (by decide) (by decide)
  · split at ho
    · obtain ⟨o', h1, _, h2⟩ := setTypeConvert_spec exampleServer
        ⟨OBJ_SET, OBJ_ENCODING_INTSET, .intset [3, 4, 5, 6, 7]⟩
        (intset_obj_valid _ (by decide) (by decide)) rfl
      rw [h1] at ho
      injection ho with ho
      subst ho
      exact h2.valid
    · split at ho
      · injection ho with ho
        subst ho
        exact intset_obj_valid _ (by decide) (by decide)
      · cases ho

theorem hashTypeGetBytes_spec (o : robj) (hv : hashValid o) (field : sds) :
    hashTypeGetBytes o field = some (pairsLookup (hashPairs o) field) := by
  obtain ⟨_, _, _, _, _, _, _, h⟩ := hashTypeGetValue_spec o hv field
  exact h

theorem pairsLookup_isSome (l : List (sds × sds)) (f : sds) :
    (∃ w, pairsLookup l f = some w) ↔ f ∈ l.map (·.1) := by
  constructor
  · rintro ⟨w, hw⟩
    by_contra hc
    rw [(pairsLookup_eq_none l f).2 hc] at hw
    cases hw
  · intro h
    cases hc : pairsLookup l f with
    | some w => exact ⟨w, rfl⟩
    | none => exact absurd h ((pairsLookup_eq_none l f).1 hc)

theorem hashTypeGetBytes_found (o : robj) (hv : hashValid o) (field : sds) :
    (∃ w, hashTypeGetBytes o field = some (some w)) ↔ field ∈ (hashPairs o).map (·.1) := by
  rw [hashTypeGetBytes_spec o hv, ← pairsLookup_isSome]
  simp

theorem hashIsPut.get_self {o o' : robj} {f v : sds} (h : hashIsPut o o' f v) :
    hashTypeGetBytes o' f = some (some v) := by
  rw [hashTypeGetBytes_spec o' h.valid, pairsLookup_perm _ _ h.perm h.valid.nodup,
    pairsLookup_cons, if_pos rfl]

theorem hashIsPut.get_other {o o' : robj} {f v : sds} (hv : hashValid o) (h : hashIsPut o o' f v)
    (g : sds) (hg : g ≠ f) : hashTypeGetBytes o' g = hashTypeGetBytes o g := by
  rw [hashTypeGetBytes_spec o' h.valid, hashTypeGetBytes_spec o hv,
    pairsLookup_perm _ _ h.perm h.valid.nodup, pairsLookup_cons,
    if_neg (fun e => hg e.symm), pairsLookup_filter_ne _ _ _ hg]

theorem hashIsDel.get_deleted {o o' : robj} {f : sds} (h : hashIsDel o o' f) :
    hashTypeGetBytes o' f = some none := by
  rw [hashTypeGetBytes_spec o' h.valid, pairsLookup_perm _ _ h.perm h.valid.nodup]
  congr 1
  rw [pairsLookup_eq_none]
  simp

theorem hashIsDel.get_kept {o o' : robj} {f : sds} (hv : hashValid o) (h : hashIsDel o o' f)
    (g : sds) (hg : g ≠ f) : hashTypeGetBytes o' g = hashTypeGetBytes o g := by
  rw [hashTypeGetBytes_spec o' h.valid, hashTypeGetBytes_spec o hv,
    pairsLookup_perm _ _ h.perm h.valid.nodup, pairsLookup_filter_ne _ _ _ hg]

/-- C1: a ziplist encoded hash with pairwise distinct fields is converted by
`hashTypeConvert` into a hash table encoded hash of the same length, in which
`hashTypeGetValue` gives for every field the answer it gave before, with the
same value bytes (`hashTypeGetBytes` reads a numeric value as its decimal
string); both functions return before and after.  In the example the value 12
of the field "a", held as a number, is read as the string "12" afterwards. -/
theorem hashTypeConvert_preserves (server : redisServer) (o : robj) (hv : hashValid o)
    (henc : o.encoding = OBJ_ENCODING_ZIPLIST) :
    (∃ o', hashTypeConvert server o OBJ_ENCODING_HT = some o' ∧
      o'.encoding = OBJ_ENCODING_HT ∧
      (∃ n, hashTypeLength o = some n ∧ hashTypeLength o' = some n) ∧
      ∀ f, ∃ r, hashTypeGetBytes o f = some r ∧ hashTypeGetBytes o' f = some r) ∧
    (hashTypeGetValue exampleHash [97]).map (fun r => (r.1, r.2.1))
      = some (C_OK, some (.int 12)) ∧
    ((hashTypeConvert exampleServer exampleHash OBJ_ENCODING_HT).bind fun o' =>
      (hashTypeGetValue o' [97]).map (fun r => (r.1, r.2.1)))
      = some (C_OK, some (.str [49, 50])) := by
  obtain ⟨o', h1, h2, _, h3⟩ := hashTypeConvert_spec server o hv henc
  refine ⟨⟨o', h1, h2, ⟨(hashPairs o).length, hashTypeLength_spec o hv, ?_⟩, fun f => ?_⟩,
    by decide, by decide⟩
  · rw [hashTypeLength_spec o' h3.valid, h3.perm.length_eq]
  · exact ⟨_, hashTypeGetBytes_spec o hv f, by
      rw [hashTypeGetBytes_of_same hv h3, hashTypeGetBytes_spec o hv f]⟩

theorem hashTypeConvert_preserves_witness :
    hashValid exampleHash ∧ exampleHash.encoding = OBJ_ENCODING_ZIPLIST ∧
    ∃ o', hashTypeConvert exampleServer exampleHash OBJ_ENCODING_HT = some o' ∧
      o'.encoding = OBJ_ENCODING_HT ∧
      (∃ n, hashTypeLength exampleHash = some n ∧ hashTypeLength o' = some n) ∧
      ∀ f, ∃ r, hashTypeGetBytes exampleHash f = some r ∧ hashTypeGetBytes o' f = some r :=
  ⟨exampleHash_valid, rfl,
    (hashTypeConvert_preserves exampleServer exampleHash exampleHash_valid rfl).1⟩

theorem setTypeIsMemberRet_spec (o : robj) (hv : setValid o) (value : sds) :
    setTypeIsMemberRet o value = some (if value ∈ setMembers o then 1 else 0) := by
  obtain ⟨o', h, _⟩ := setTypeIsMember_spec o hv value
  simp [setTypeIsMemberRet, h]

theorem setTypeIsMemberRet_of_mem_iff {o o' : robj} (hv : setValid o) (hv' : setValid o')
    (w : sds) (h : w ∈ setMembers o' ↔ w ∈ setMembers o) :
    setTypeIsMemberRet o' w = setTypeIsMemberRet o w := by
  rw [setTypeIsMemberRet_spec o hv, setTypeIsMemberRet_spec o' hv']
  by_cases hw : w ∈ setMembers o
  · rw [if_pos hw, if_pos (h.2 hw)]
  · rw [if_neg hw, if_neg (fun hc => hw (h.1 hc))]

/-- C2: `hashTypeSet` on a ziplist encoded hash returns, and the hash is hash
table encoded afterwards exactly when its length after the call exceeds
`hash_max_ziplist_entries`; `setTypeAdd` on an intset encoded set returns, and
when it returns 1 for a value that is a 64-bit integer the set is hash table
encoded afterwards exactly when its size exceeds `set_max_intset_entries`.
With a maximum of 3 entries the hash stays a ziplist for f1, f2, f3, is
converted by f4, and f1 keeps its value "v1". -/
theorem threshold_promotes_exactly (server : redisServer) (o : robj) (field value : sds)
    (flags : Nat) (s : robj) (v : sds)
    (ho : hashValid o) (henc : o.encoding = OBJ_ENCODING_ZIPLIST)
    (hs : setValid s) (hsenc : s.encoding = OBJ_ENCODING_INTSET)
    (hint : (isSdsRepresentableAsLongLong v).isSome = true) :
    (∃ r o' n, hashTypeSet server o field value flags = some (r, o') ∧
      hashTypeLength o' = some n ∧
      (o'.encoding = OBJ_ENCODING_HT ↔ server.hash_max_ziplist_entries < n) ∧
      (o'.encoding = OBJ_ENCODING_HT ∨ o'.encoding = OBJ_ENCODING_ZIPLIST)) ∧
    (∃ r s' n, setTypeAdd server s v = some (r, s') ∧ setTypeSize s' = some n ∧
      (r = 1 → (s'.encoding = OBJ_ENCODING_HT ↔ server.set_max_intset_entries < n)) ∧
      (s'.encoding = OBJ_ENCODING_HT ∨ s'.encoding = OBJ_ENCODING_INTSET)) ∧
    ((hashTypeSetAll exampleServer createHashObject
        [([102, 49], [118, 49]), ([102, 50], [118, 50]), ([102, 51], [118, 51])]).map
      (fun h => (h.encoding, hashTypeGetBytes h [102, 49])))
      = some (OBJ_ENCODING_ZIPLIST, some (some [118, 49])) ∧
    ((hashTypeSetAll exampleServer createHashObject
        [([102, 49], [118, 49]), ([102, 50], [118, 50]), ([102, 51], [118, 51]),
         ([102, 52], [118, 52])]).map
      (fun h => (h.encoding, hashTypeGetBytes h [102, 49])))
      = some (OBJ_ENCODING_HT, some (some [118, 49])) := by
  have hne : OBJ_ENCODING_ZIPLIST ≠ OBJ_ENCODING_HT := by decide
  have hne2 : OBJ_ENCODING_INTSET ≠ OBJ_ENCODING_HT := by decide
  refine ⟨?_, ?_, by decide, by decide⟩
  · obtain ⟨o', h1, h2, _, _, h3⟩ := hashTypeSet_spec server o ho field value flags
    refine ⟨_, o', _, h1, hashTypeLength_spec o' h2.valid, ?_, ?_⟩
    · rw [h3 henc]
      split
      · rename_i h; exact ⟨fun _ => h, fun _ => rfl⟩
      · rename_i h; exact ⟨fun e => absurd e hne, fun e => absurd e h⟩
    · rw [h3 henc]
      split
      · exact Or.inl rfl
      · exact Or.inr rfl
  · obtain ⟨s', h1, h2, _, h3⟩ := setTypeAdd_spec server s hs v
    have hsome : string2ll v ≠ none := by
      intro hc
      rw [isSdsRepresentableAsLongLong, hc] at hint
      cases hint
    refine ⟨_, s', _, h1, setTypeSize_spec s' h2.1, ?_, ?_⟩
    · intro hr
      have hnot : v ∉ setMembers s := by
        intro hc
        rw [if_pos hc] at hr
        cases hr
      rw [h3 hsenc]
      split
      · rename_i h
        rcases h with h | h
        · exact absurd h hsome
        · exact ⟨fun _ => h.2, fun _ => rfl⟩
      · rename_i h
        refine ⟨fun e => absurd e hne2, fun e => absurd (Or.inr ⟨hnot, e⟩) h⟩
    · rw [h3 hsenc]
      split
      · exact Or.inl rfl
      · exact Or.inr rfl

theorem threshold_promotes_exactly_witness :
    hashValid exampleHash ∧ exampleHash.encoding = OBJ_ENCODING_ZIPLIST ∧
    setValid exampleSet ∧ exampleSet.encoding = OBJ_ENCODING_INTSET ∧
    (isSdsRepresentableAsLongLong [52]).isSome = true ∧
    (∃ r o' n, hashTypeSet exampleServer exampleHash [99] [121] 0 = some (r, o') ∧
      hashTypeLength o' = some n ∧
      (o'.encoding = OBJ_ENCODING_HT ↔ exampleServer.hash_max_ziplist_entries < n) ∧
      (o'.encoding = OBJ_ENCODING_HT ∨ o'.encoding = OBJ_ENCODING_ZIPLIST)) ∧
    ∃ r s' n, setTypeAdd exampleServer exampleSet [52] = some (r, s') ∧
      setTypeSize s' = some n ∧
      (r = 1 → (s'.encoding = OBJ_ENCODING_HT ↔ exampleServer.set_max_intset_entries < n)) ∧
      (s'.encoding = OBJ_ENCODING_HT ∨ s'.encoding = OBJ_ENCODING_INTSET) :=
  ⟨exampleHash_valid, rfl, exampleSet_valid, rfl, by decide,
    (threshold_promotes_exactly exampleServer exampleHash [99] [121] 0 exampleSet [52]
      exampleHash_valid rfl exampleSet_valid rfl (by decide)).1,
    (threshold_promotes_exactly exampleServer exampleHash [99] [121] 0 exampleSet [52]
      exampleHash_valid rfl exampleSet_valid rfl (by decide)).2.1⟩

/-- C3: `hashTypeSet` on a hash of either encoding returns 1 when
`hashTypeGetValue` found the field before the call and 0 otherwise; afterwards
the field is found with the bytes of the value, every other field is read as
before, and `hashTypeLength` has grown by one when 0 was returned and is the
same when 1 was returned. -/
theorem hashTypeSet_contract (server : redisServer) (o : robj) (field value : sds) (flags : Nat)
    (hv : hashValid o) :
    ∃ r o' n, hashTypeSet server o field value flags = some (r, o') ∧ hashValid o' ∧
      (r = 1 ∨ r = 0) ∧
      (r = 1 ↔ ∃ w, hashTypeGetBytes o field = some (some w)) ∧
      (r = 0 ↔ hashTypeGetBytes o field = some none) ∧
      hashTypeGetBytes o' field = some (some value) ∧
      (∀ g, g ≠ field → hashTypeGetBytes o' g = hashTypeGetBytes o g) ∧
      hashTypeLength o = some n ∧
      hashTypeLength o' = some (if r = 0 then n + 1 else n) := by
  obtain ⟨o', h1, h2, _, _, _⟩ := hashTypeSet_spec server o hv field value flags
  have hlen := hashIsPut_length hv h2
  have hfound := hashTypeGetBytes_found o hv field
  have hnone : hashTypeGetBytes o field = some none ↔ field ∉ (hashPairs o).map (·.1) := by
    rw [hashTypeGetBytes_spec o hv, ← pairsLookup_eq_none]
    simp
  refine ⟨_, o', (hashPairs o).length, h1, h2.valid, ?_, ?_, ?_, h2.get_self,
    h2.get_other hv, hashTypeLength_spec o hv, ?_⟩
  · split
    · exact Or.inl rfl
    · exact Or.inr rfl
  · rw [hfound]
    split
    · rename_i h; exact ⟨fun _ => h, fun _ => rfl⟩
    · rename_i h; exact ⟨fun e => absurd e (by decide), fun e => absurd e h⟩
  · rw [hnone]
    split
    · rename_i h; exact ⟨fun e => absurd e (by decide), fun e => absurd h e⟩
    · rename_i h; exact ⟨fun _ => h, fun _ => rfl⟩
  · rw [hashTypeLength_spec o' h2.valid]
    congr 1
    by_cases hf : field ∈ (hashPairs o).map (·.1)
    · rw [if_pos hf] at hlen ⊢
      rw [if_neg (by decide)]
      omega
    · rw [if_neg hf] at hlen ⊢
      rw [if_pos rfl]
      omega

theorem hashTypeSet_contract_witness :
    hashValid exampleHash ∧
    ∃ r o' n, hashTypeSet exampleServer exampleHash [98] [122] 0 = some (r, o') ∧ hashValid o' ∧
      (r = 1 ∨ r = 0) ∧
      (r = 1 ↔ ∃ w, hashTypeGetBytes exampleHash [98] = some (some w)) ∧
      (r = 0 ↔ hashTypeGetBytes exampleHash [98] = some none) ∧
      hashTypeGetBytes o' [98] = some (some [122]) ∧
      (∀ g, g ≠ [98] → hashTypeGetBytes o' g = hashTypeGetBytes exampleHash g) ∧
      hashTypeLength exampleHash = some n ∧
      hashTypeLength o' = some (if r = 0 then n + 1 else n) :=
  ⟨exampleHash_valid, hashTypeSet_contract exampleServer exampleHash [98] [122] 0 exampleHash_valid⟩

/-- C4: `hashTypeDelete` on a hash of either encoding returns 1 exactly when
`hashTypeGetValue` found the field before the call, and 0 otherwise; the field
is absent afterwards, every other field is read as before, and
`hashTypeLength` has decreased by one when 1 was returned and is the same when
0 was returned.  In the example "x" is the value of the field "b" and not a
field: deleting "x" returns 0 and "b" keeps its value. -/
theorem hashTypeDelete_contract (server : redisServer) (o : robj) (field : sds)
    (hv : hashValid o) :
    (∃ r o' n, hashTypeDelete server o field = some (r, o') ∧ hashValid o' ∧
      (r = 1 ∨ r = 0) ∧
      (r = 1 ↔ ∃ w, hashTypeGetBytes o field = some (some w)) ∧
      hashTypeGetBytes o' field = some none ∧
      (∀ g, g ≠ field → hashTypeGetBytes o' g = hashTypeGetBytes o g) ∧
      (r = 0 → ∀ g, hashTypeGetBytes o' g = hashTypeGetBytes o g) ∧
      hashTypeLength o = some n ∧
      hashTypeLength o' = some (if r = 1 then n - 1 else n) ∧ (r = 1 → 0 < n)) ∧
    (hashTypeDelete exampleServer exampleHash [120]).map
      (fun p => (p.1, hashTypeGetBytes p.2 [98], hashTypeLength p.2))
      = some (0, some (some [120]), some 2) := by
  refine ⟨?_, by decide⟩
  obtain ⟨o', h1, h2, _, _⟩ := hashTypeDelete_spec server o hv field
  have hlen := hashIsDel_length hv h2
  have hfound := hashTypeGetBytes_found o hv field
  refine ⟨_, o', (hashPairs o).length, h1, h2.valid, ?_, ?_, h2.get_deleted,
    h2.get_kept hv, ?_, hashTypeLength_spec o hv, ?_, ?_⟩
  · split
    · exact Or.inl rfl
    · exact Or.inr rfl
  · rw [hfound]
    split
    · rename_i h; exact ⟨fun _ => h, fun _ => rfl⟩
    · rename_i h; exact ⟨fun e => absurd e (by decide), fun e => absurd e h⟩
  · intro hr g
    by_cases hf : field ∈ (hashPairs o).map (·.1)
    · rw [if_pos hf] at hr
      cases hr
    · by_cases hg : g = field
      · subst hg
        rw [h2.get_deleted, hashTypeGetBytes_spec o hv, (pairsLookup_eq_none _ _).2 hf]
      · exact h2.get_kept hv g hg
  · rw [hashTypeLength_spec o' h2.valid]
    congr 1
    by_cases hf : field ∈ (hashPairs o).map (·.1)
    · rw [if_pos hf] at hlen ⊢
      rw [if_pos rfl]
      omega
    · rw [if_neg hf] at hlen ⊢
      rw [if_neg (by decide)]
      omega
  · intro hr
    by_cases hf : field ∈ (hashPairs o).map (·.1)
    · rw [if_pos hf] at hlen
      omega
    · rw [if_neg hf] at hr
      cases hr

theorem hashTypeDelete_contract_witness :
    hashValid exampleHash ∧
    ∃ r o' n, hashTypeDelete exampleServer exampleHash [97] = some (r, o') ∧ hashValid o' ∧
      (r = 1 ∨ r = 0) ∧
      (r = 1 ↔ ∃ w, hashTypeGetBytes exampleHash [97] = some (some w)) ∧
      hashTypeGetBytes o' [97] = some none ∧
      (∀ g, g ≠ [97] → hashTypeGetBytes o' g = hashTypeGetBytes exampleHash g) ∧
      (r = 0 → ∀ g, hashTypeGetBytes o' g = hashTypeGetBytes exampleHash g) ∧
      hashTypeLength exampleHash = some n ∧
      hashTypeLength o' = some (if r = 1 then n - 1 else n) ∧ (r = 1 → 0 < n) :=
  ⟨exampleHash_valid,
    (hashTypeDelete_contract exampleServer exampleHash [97] exampleHash_valid).1⟩

theorem setAdded.ret_self {o o' : robj} {v : sds} (h : setAdded o o' v) :
    setTypeIsMemberRet o' v = some 1 := by
  rw [setTypeIsMemberRet_spec o' h.1, if_pos ((h.mem_added_iff v).2 (Or.inl rfl))]

theorem setAdded.ret_other {o o' : robj} {v : sds} (hv : setValid o) (h : setAdded o o' v)
    (w : sds) (hw : w ≠ v) : setTypeIsMemberRet o' w = setTypeIsMemberRet o w := by
  apply setTypeIsMemberRet_of_mem_iff hv h.1
  rw [h.mem_added_iff]
  exact ⟨fun hc => hc.resolve_left hw, Or.inr⟩

theorem setTypeIsMemberRet_one (o : robj) (hv : setValid o) (v : sds) :
    setTypeIsMemberRet o v = some 1 ↔ v ∈ setMembers o := by
  rw [setTypeIsMemberRet_spec o hv]
  split
  · rename_i h; exact ⟨fun _ => h, fun _ => rfl⟩
  · rename_i h; exact ⟨fun e => absurd e (by decide), fun e => absurd e h⟩

/-- C5: `setTypeAdd` on a set of either encoding returns 0 when
`setTypeIsMember` answered 1 before the call, and then every membership and
the size are as before; otherwise it returns 1 and `setTypeSize` has grown by
one.  In both cases the value is a member afterwards and the membership of
every other string is as before, and a second `setTypeAdd` of the same value
returns 0 and changes neither a membership nor the size. -/
theorem setTypeAdd_contract (server : redisServer) (s : robj) (v : sds) (hv : setValid s) :
    ∃ r s' n, setTypeAdd server s v = some (r, s') ∧ setValid s' ∧
      (r = 0 ↔ setTypeIsMemberRet s v = some 1) ∧
      (r = 1 ↔ setTypeIsMemberRet s v = some 0) ∧
      (r = 0 → ∀ w, setTypeIsMemberRet s' w = setTypeIsMemberRet s w) ∧
      setTypeIsMemberRet s' v = some 1 ∧
      (∀ w, w ≠ v → setTypeIsMemberRet s' w = setTypeIsMemberRet s w) ∧
      setTypeSize s = some n ∧ setTypeSize s' = some (n + r) ∧
      ∃ s'', setTypeAdd server s' v = some (0, s'') ∧
        (∀ w, setTypeIsMemberRet s'' w = setTypeIsMemberRet s' w) ∧
        setTypeSize s'' = setTypeSize s' := by
  obtain ⟨s', h1, h2, _, _⟩ := setTypeAdd_spec server s hv v
  obtain ⟨s'', g1, g2, _, _⟩ := setTypeAdd_spec server s' h2.1 v
  have hin' : v ∈ setMembers s' := (h2.mem_added_iff v).2 (Or.inl rfl)
  rw [if_pos hin'] at g1
  have hlen := h2.length
  have hlen2 := g2.length
  rw [if_pos hin'] at hlen2
  refine ⟨_, s', (setMembers s).length, h1, h2.1, ?_, ?_, ?_, h2.ret_self,
    h2.ret_other hv, setTypeSize_spec s hv, ?_, s'', g1, ?_, ?_⟩
  · rw [setTypeIsMemberRet_one s hv]
    split
    · rename_i h; exact ⟨fun _ => h, fun _ => rfl⟩
    · rename_i h; exact ⟨fun e => absurd e (by decide), fun e => absurd e h⟩
  · rw [setTypeIsMemberRet_spec s hv]
    split
    · exact ⟨fun e => absurd e (by decide), fun e => absurd e (by decide)⟩
    · exact ⟨fun _ => rfl, fun _ => rfl⟩
  · intro hr w
    by_cases hin : v ∈ setMembers s
    · apply setTypeIsMemberRet_of_mem_iff hv h2.1
      rw [h2.mem_added_iff]
      constructor
      · rintro (rfl | hw)
        · exact hin
        · exact hw
      · exact Or.inr
    · rw [if_neg hin] at hr
      exact absurd hr (by decide)
  · rw [setTypeSize_spec s' h2.1, hlen]
  · intro w
    apply setTypeIsMemberRet_of_mem_iff h2.1 g2.1
    rw [g2.mem_added_iff]
    constructor
    · rintro (rfl | hw)
      · exact hin'
      · exact hw
    · exact Or.inr
  · rw [setTypeSize_spec s'' g2.1, setTypeSize_spec s' h2.1, hlen2, Nat.add_zero]

theorem setTypeAdd_contract_witness :
    setValid exampleSet ∧
    ∃ r s' n, setTypeAdd exampleServer exampleSet [52] = some (r, s') ∧ setValid s' ∧
      (r = 0 ↔ setTypeIsMemberRet exampleSet [52] = some 1) ∧
      (r = 1 ↔ setTypeIsMemberRet exampleSet [52] = some 0) ∧
      (r = 0 → ∀ w, setTypeIsMemberRet s' w = setTypeIsMemberRet exampleSet w) ∧
      setTypeIsMemberRet s' [52] = some 1 ∧
      (∀ w, w ≠ [52] → setTypeIsMemberRet s' w = setTypeIsMemberRet exampleSet w) ∧
      setTypeSize exampleSet = some n ∧ setTypeSize s' = some (n + r) ∧
      ∃ s'', setTypeAdd exampleServer s' [52] = some (0, s'') ∧
        (∀ w, setTypeIsMemberRet s'' w = setTypeIsMemberRet s' w) ∧
        setTypeSize s'' = setTypeSize s' :=
  ⟨exampleSet_valid, setTypeAdd_contract exampleServer exampleSet [52] exampleSet_valid⟩

/-- C6: `setTypeAdd` of a value that is not a 64-bit integer to an intset
encoded set returns 1 and leaves a hash table encoded set whose members are
the value and the decimal strings of the integers of the intset, each once.
In the example "abc" is added to the intset of 1, 2, 3: the size is 4 and
"1", "2", "3", "abc" are members, "4" is not. -/
theorem setTypeAdd_converts (server : redisServer) (s : robj) (v : sds) (is : intset)
    (hv : setValid s) (henc : s.encoding = OBJ_ENCODING_INTSET) (hp : s.ptr = .intset is)
    (hnot : isSdsRepresentableAsLongLong v = none) :
    (∃ s', setTypeAdd server s v = some (1, s') ∧ s'.encoding = OBJ_ENCODING_HT ∧
      setValid s' ∧ (setMembers s').Perm (v :: is.map sdsfromlonglong) ∧
      (∀ w, setTypeIsMemberRet s' w
        = some (if w = v ∨ w ∈ is.map sdsfromlonglong then 1 else 0)) ∧
      setTypeSize s' = some (is.length + 1)) ∧
    (setTypeAdd exampleServer exampleSet [97, 98, 99]).map
      (fun p => (p.1, p.2.encoding, setTypeSize p.2,
        [[49], [50], [51], [97, 98, 99], [52]].map (setTypeIsMemberRet p.2)))
      = some (1, OBJ_ENCODING_HT, some 4, [some 1, some 1, some 1, some 1, some 0]) := by
  refine ⟨?_, by decide⟩
  obtain ⟨s', h1, h2, _, h3⟩ := setTypeAdd_spec server s hv v
  have hm : setMembers s = is.map sdsfromlonglong := by simp [setMembers, hp]
  have hs : string2ll v = none := hnot
  obtain ⟨is', hp', _, hr⟩ := setValid_intset hv henc
  have hnin : v ∉ setMembers s := by
    intro hc
    rw [setMembers, hp'] at hc
    obtain ⟨n, hn, _⟩ := (mem_intset_members is' hr v).1 hc
    rw [hs] at hn
    cases hn
  rw [if_neg hnin] at h1
  have hperm := h2.2
  rw [if_neg hnin, hm] at hperm
  refine ⟨s', h1, ?_, h2.1, hperm, fun w => ?_, ?_⟩
  · rw [h3 henc, if_pos (Or.inl hs)]
  · rw [setTypeIsMemberRet_spec s' h2.1]
    congr 1
    have : w ∈ setMembers s' ↔ w = v ∨ w ∈ is.map sdsfromlonglong := by
      rw [hperm.mem_iff, List.mem_cons]
    by_cases hw : w ∈ setMembers s'
    · rw [if_pos hw, if_pos (this.1 hw)]
    · rw [if_neg hw, if_neg (fun hc => hw (this.2 hc))]
  · rw [setTypeSize_spec s' h2.1, hperm.length_eq]
    simp

theorem setTypeAdd_converts_witness :
    setValid exampleSet ∧ exampleSet.encoding = OBJ_ENCODING_INTSET ∧
    exampleSet.ptr = .intset [1, 2, 3] ∧ isSdsRepresentableAsLongLong [97, 98, 99] = none ∧
    ∃ s', setTypeAdd exampleServer exampleSet [97, 98, 99] = some (1, s') ∧
      s'.encoding = OBJ_ENCODING_HT ∧
      setValid s' ∧ (setMembers s').Perm ([97, 98, 99] :: [1, 2, 3].map sdsfromlonglong) ∧
      (∀ w, setTypeIsMemberRet s' w
        = some (if w = [97, 98, 99] ∨ w ∈ [1, 2, 3].map sdsfromlonglong then 1 else 0)) ∧
      setTypeSize s' = some ([1, 2, 3].length + 1) :=
  ⟨exampleSet_valid, rfl, rfl, by decide,
    (setTypeAdd_converts exampleServer exampleSet [97, 98, 99] [1, 2, 3] exampleSet_valid rfl rfl
      (by decide)).1⟩

/-- C7: an intset encoded set is converted by `setTypeConvert` into a hash
table encoded set of the same size for which `setTypeIsMember` answers as
before for every string; both functions return before and after.  (The
integer test is `string2ll`, which accepts exactly the strings
`sdsfromlonglong` produces.) -/
theorem setTypeConvert_preserves (server : redisServer) (s : robj) (hv : setValid s)
    (henc : s.encoding = OBJ_ENCODING_INTSET) :
    ∃ s', setTypeConvert server s OBJ_ENCODING_HT = some s' ∧
      s'.encoding = OBJ_ENCODING_HT ∧
      (∃ n, setTypeSize s = some n ∧ setTypeSize s' = some n) ∧
      (∀ v, ∃ r, setTypeIsMemberRet s v = some r ∧ setTypeIsMemberRet s' v = some r) ∧
      ∀ v n, isSdsRepresentableAsLongLong v = some n ↔
        (v = sdsfromlonglong n ∧ LLONG_MIN ≤ n ∧ n ≤ LLONG_MAX) := by
  obtain ⟨s', h1, h2, h3⟩ := setTypeConvert_spec server s hv henc
  refine ⟨s', h1, h2, ⟨_, setTypeSize_spec s hv, ?_⟩, fun v => ⟨_, setTypeIsMemberRet_spec s hv v, ?_⟩,
    fun v n => ?_⟩
  · rw [setTypeSize_spec s' h3.valid, h3.perm.length_eq]
  · rw [setTypeIsMemberRet_of_mem_iff hv h3.valid v (h3.mem_iff v)]
    exact setTypeIsMemberRet_spec s hv v
  · exact string2ll_iff v n

theorem setTypeConvert_preserves_witness :
    setValid exampleSet ∧ exampleSet.encoding = OBJ_ENCODING_INTSET ∧
    ∃ s', setTypeConvert exampleServer exampleSet OBJ_ENCODING_HT = some s' ∧
      s'.encoding = OBJ_ENCODING_HT ∧
      (∃ n, setTypeSize exampleSet = some n ∧ setTypeSize s' = some n) ∧
      (∀ v, ∃ r, setTypeIsMemberRet exampleSet v = some r ∧ setTypeIsMemberRet s' v = some r) ∧
      ∀ v n, isSdsRepresentableAsLongLong v = some n ↔
        (v = sdsfromlonglong n ∧ LLONG_MIN ≤ n ∧ n ≤ LLONG_MAX) :=
  ⟨exampleSet_valid, rfl, setTypeConvert_preserves exampleServer exampleSet exampleSet_valid rfl⟩

/-- C8: `setTypeRemove` on a set of either encoding returns 1 exactly when
`setTypeIsMember` answered 1 before the call, and 0 otherwise; the value is
not a member afterwards, the membership of every other string is as before,
and `setTypeSize` has decreased by one when 1 was returned and is the same
when 0 was returned.  In the example "abc" is removed from the intset of 1, 2,
3: 0 is returned and the set is the same object. -/
theorem setTypeRemove_contract (server : redisServer) (s : robj) (v : sds) (hv : setValid s) :
    (∃ r s' n, setTypeRemove server s v = some (r, s') ∧ setValid s' ∧
      (r = 1 ∨ r = 0) ∧
      (r = 1 ↔ setTypeIsMemberRet s v = some 1) ∧
      setTypeIsMemberRet s' v = some 0 ∧
      (∀ w, w ≠ v → setTypeIsMemberRet s' w = setTypeIsMemberRet s w) ∧
      (r = 0 → ∀ w, setTypeIsMemberRet s' w = setTypeIsMemberRet s w) ∧
      setTypeSize s = some n ∧
      setTypeSize s' = some (if r = 1 then n - 1 else n) ∧ (r = 1 → 0 < n)) ∧
    setTypeRemove exampleServer exampleSet [97, 98, 99] = some (0, exampleSet) := by
  refine ⟨?_, rfl⟩
  obtain ⟨s', h1, h2, h3, _⟩ := setTypeRemove_spec server s hv v
  have hmem : ∀ w, w ∈ setMembers s' ↔ w ∈ setMembers s ∧ w ≠ v := by
    intro w
    rw [h3.mem_iff, List.mem_filter]
    simp
  have hlen : (setMembers s').length + (if v ∈ setMembers s then 1 else 0)
      = (setMembers s).length := by
    rw [h3.length_eq]
    have hn := hv.members_nodup
    generalize setMembers s = l at hn
    induction l with
    | nil => simp
    | cons a l ih =>
      have hn' := (List.nodup_cons.1 hn)
      have := ih hn'.2
      by_cases ha : a = v
      · subst ha
        have hf : List.filter (fun x => decide (x ≠ a)) l = l := by
          apply List.filter_eq_self.2
          intro x hx
          simp only [ne_eq, decide_not, Bool.not_eq_true', decide_eq_false_iff_not]
          intro hc
          exact hn'.1 (hc ▸ hx)
        rw [List.filter_cons_of_neg (by simp), hf]
        simp
      · rw [List.filter_cons_of_pos (by simp [ha])]
        have hne : (v ∈ a :: l) ↔ v ∈ l := by
          rw [List.mem_cons]
          exact ⟨fun h => h.resolve_left (fun e => ha e.symm), Or.inr⟩
        simp only [List.length_cons]
        by_cases hvl : v ∈ l
        · rw [if_pos (hne.2 hvl)]
          rw [if_pos hvl] at this
          omega
        · rw [if_neg (fun hc => hvl (hne.1 hc))]
          rw [if_neg hvl] at this
          omega
  refine ⟨_, s', (setMembers s).length, h1, h2, ?_, ?_, ?_, ?_, ?_, setTypeSize_spec s hv, ?_, ?_⟩
  · split
    · exact Or.inl rfl
    · exact Or.inr rfl
  · rw [setTypeIsMemberRet_one s hv]
    split
    · rename_i h; exact ⟨fun _ => h, fun _ => rfl⟩
    · rename_i h; exact ⟨fun e => absurd e (by decide), fun e => absurd e h⟩
  · rw [setTypeIsMemberRet_spec s' h2, if_neg (fun hc => ((hmem v).1 hc).2 rfl)]
  · intro w hw
    apply setTypeIsMemberRet_of_mem_iff hv h2
    rw [hmem]
    exact ⟨fun h => h.1, fun h => ⟨h, hw⟩⟩
  · intro hr w
    by_cases hin : v ∈ setMembers s
    · rw [if_pos hin] at hr
      exact absurd hr (by decide)
    · apply setTypeIsMemberRet_of_mem_iff hv h2
      rw [hmem]
      exact ⟨fun h => h.1, fun h => ⟨h, fun e => hin (e ▸ h)⟩⟩
  · rw [setTypeSize_spec s' h2]
    congr 1
    by_cases hin : v ∈ setMembers s
    · rw [if_pos hin] at hlen ⊢
      rw [if_pos rfl]
      omega
    · rw [if_neg hin] at hlen ⊢
      rw [if_neg (by decide)]
      omega
  · intro hr
    by_cases hin : v ∈ setMembers s
    · rw [if_pos hin] at hlen
      omega
    · rw [if_neg hin] at hr
      exact absurd hr (by decide)

theorem setTypeRemove_contract_witness :
    setValid exampleSet ∧
    ∃ r s' n, setTypeRemove exampleServer exampleSet [50] = some (r, s') ∧ setValid s' ∧
      (r = 1 ∨ r = 0) ∧
      (r = 1 ↔ setTypeIsMemberRet exampleSet [50] = some 1) ∧
      setTypeIsMemberRet s' [50] = some 0 ∧
      (∀ w, w ≠ [50] → setTypeIsMemberRet s' w = setTypeIsMemberRet exampleSet w) ∧
      (r = 0 → ∀ w, setTypeIsMemberRet s' w = setTypeIsMemberRet exampleSet w) ∧
      setTypeSize exampleSet = some n ∧
      setTypeSize s' = some (if r = 1 then n - 1 else n) ∧ (r = 1 → 0 < n) :=
  ⟨exampleSet_valid, (setTypeRemove_contract exampleServer exampleSet [50] exampleSet_valid).1⟩

theorem exampleDb_exist : operandsExist exampleDb [[49], [50], [51]] := by
  intro k hk
  simp only [List.mem_cons, List.mem_singleton, List.not_mem_nil, or_false] at hk
  rcases hk with rfl | rfl | rfl <;> decide

/-- C9: for a non-empty list of keys whose values are sets
(`operandsValid`), `sinterGenericCommand` returns.  When every key exists,
SINTER replies the number of elements followed by the elements, each once,
an element being replied exactly when every operand holds it, and SINTERSTORE
leaves at the destination key a set with exactly these members (no key when
there is none) and replies their number; the members of the other keys are as
before, and another order of the operands gives the same elements.  When a key
is missing, SINTER replies the empty multi bulk and SINTERSTORE deletes the
destination key and replies 0.  In the example the sets are 1..5, 3..7 (hash
table encoded) and 4..6: the result is 4 and 5, in any order of the keys. -/
theorem sinterGenericCommand_intersection (server : redisServer) (c : client)
    (setkeys : List sds) (hne : setkeys ≠ []) (hv : operandsValid c.db setkeys) :
    (operandsExist c.db setkeys →
      (∃ (elems : List sds) (c' : client),
        sinterGenericCommand server c setkeys none = some c' ∧
        c'.reply = c.reply ++ .multibulklen elems.length :: elems.map .bulk ∧
        elems.Nodup ∧ (∀ v, v ∈ elems ↔ ∀ k ∈ setkeys, v ∈ dbMembers c.db k) ∧
        ∀ k, (dbMembers c'.db k).Perm (dbMembers c.db k)) ∧
      (∀ dstkey, ∃ c', sinterGenericCommand server c setkeys (some dstkey) = some c' ∧
        (dbMembers c'.db dstkey).Nodup ∧
        (∀ v, v ∈ dbMembers c'.db dstkey ↔ ∀ k ∈ setkeys, v ∈ dbMembers c.db k) ∧
        (∀ k, k ≠ dstkey → (dbMembers c'.db k).Perm (dbMembers c.db k)) ∧
        (dbMembers c'.db dstkey = [] → c'.db dstkey = none) ∧
        c'.reply = c.reply ++ [if dbMembers c'.db dstkey = [] then .czero
          else .longlong (dbMembers c'.db dstkey).length]) ∧
      (∀ setkeys' : List sds, setkeys'.Perm setkeys →
        ∃ (elems elems' : List sds) (c1 c2 : client),
          sinterGenericCommand server c setkeys none = some c1 ∧
          sinterGenericCommand server c setkeys' none = some c2 ∧
          c1.reply = c.reply ++ .multibulklen elems.length :: elems.map .bulk ∧
          c2.reply = c.reply ++ .multibulklen elems'.length :: elems'.map .bulk ∧
          elems'.Perm elems)) ∧
    ((∃ k ∈ setkeys, c.db k = none) →
      sinterGenericCommand server c setkeys none = some (addReply c .emptymultibulk) ∧
      ∀ dstkey, sinterGenericCommand server c setkeys (some dstkey)
        = some (addReply { c with db := (dbDelete c.db dstkey).2 } .czero)) ∧
    (sinterGenericCommand exampleServer ⟨exampleDb, []⟩ [[49], [50], [51]] none).map (·.reply)
      = some [.multibulklen 2, .bulk [52], .bulk [53]] ∧
    (sinterGenericCommand exampleServer ⟨exampleDb, []⟩ [[50], [51], [49]] none).map (·.reply)
      = some [.multibulklen 2, .bulk [52], .bulk [53]] ∧
    (sinterGenericCommand exampleServer ⟨exampleDb, []⟩ [[50], [57], [49]] none).map (·.reply)
      = some [.emptymultibulk] ∧
    ((sinterGenericCommand exampleServer ⟨exampleDb, []⟩ [[49], [50], [51]] (some [100])).bind
      fun c' => (c'.db [100]).map fun o =>
        (c'.reply, setTypeSize o, [[51], [52], [53], [54]].map (setTypeIsMemberRet o)))
      = some ([.longlong 2], some 2, [some 0, some 1, some 1, some 0]) := by
  refine ⟨fun he => ⟨sinter_reply server c setkeys hne hv he,
      fun dstkey => sinter_store server c setkeys dstkey hne hv he,
      fun setkeys' hp => sinter_reply_order server c setkeys setkeys' hp hne hv he⟩,
    fun hm => ⟨sinterGenericCommand_missing server c setkeys none hv hm,
      fun dstkey => sinterGenericCommand_missing server c setkeys (some dstkey) hv hm⟩,
    by decide, by decide, by decide, by decide⟩

theorem sinterGenericCommand_intersection_witness :
    [[49], [50], [51]] ≠ ([] : List sds) ∧ operandsValid exampleDb [[49], [50], [51]] ∧
    operandsExist exampleDb [[49], [50], [51]] ∧
    ∃ (elems : List sds) (c' : client),
      sinterGenericCommand exampleServer ⟨exampleDb, []⟩ [[49], [50], [51]] none = some c' ∧
      c'.reply = [] ++ .multibulklen elems.length :: elems.map .bulk ∧
      elems.Nodup ∧ (∀ v, v ∈ elems ↔ ∀ k ∈ [[49], [50], [51]], v ∈ dbMembers exampleDb k) ∧
      ∀ k, (dbMembers c'.db k).Perm (dbMembers exampleDb k) :=
  ⟨by decide, exampleDb_valid _, exampleDb_exist,
    ((sinterGenericCommand_intersection exampleServer ⟨exampleDb, []⟩ [[49], [50], [51]]
      (by decide) (exampleDb_valid _)).1 exampleDb_exist).1⟩

/-- C10: for a list of keys whose values, where they exist, are sets
(`operandsValid`), `sunionDiffGenericCommand` with `SET_OP_UNION` returns.
SUNION replies the counter (the number of elements, as the `int` it is kept
in) followed by the elements, each once, an element being replied exactly when
the set at one of the keys holds it (a missing key holds nothing); SUNIONSTORE leaves at the destination key a set
with exactly these members (no key when there is none), replies their number
and leaves the other keys untouched.  In the example the sets are 1..5 and
4..6 and one key is missing: the result is 1..6. -/
theorem sunionDiffGenericCommand_union_result (server : redisServer) (c : client)
    (setkeys : List sds) (hv : operandsValid c.db setkeys) :
    (∃ elems : List sds,
      sunionDiffGenericCommand server c setkeys none SET_OP_UNION
        = some { c with reply := c.reply ++
            .multibulklen (intWrap elems.length) :: elems.map .bulk } ∧
      elems.Nodup ∧ ∀ v, v ∈ elems ↔ ∃ k ∈ setkeys, v ∈ dbMembers c.db k) ∧
    (∀ dstkey, ∃ c',
      sunionDiffGenericCommand server c setkeys (some dstkey) SET_OP_UNION = some c' ∧
      (dbMembers c'.db dstkey).Nodup ∧
      (∀ v, v ∈ dbMembers c'.db dstkey ↔ ∃ k ∈ setkeys, v ∈ dbMembers c.db k) ∧
      (∀ k, k ≠ dstkey → c'.db k = c.db k) ∧
      ((dbMembers c'.db dstkey = [] → c'.db dstkey = none) ∧
        ∀ o, c'.db dstkey = some o → setValid o) ∧
      c'.reply = c.reply ++ [if dbMembers c'.db dstkey = [] then .czero
        else .longlong (dbMembers c'.db dstkey).length]) ∧
    (sunionDiffGenericCommand exampleServer ⟨exampleDb, []⟩ [[49], [51], [57]] none
        SET_OP_UNION).map (·.reply)
      = some [.multibulklen 6, .bulk [51], .bulk [49], .bulk [50], .bulk [52], .bulk [53],
          .bulk [54]] ∧
    ((sunionDiffGenericCommand exampleServer ⟨exampleDb, []⟩ [[49], [51], [57]] (some [100])
        SET_OP_UNION).bind
      fun c' => (c'.db [100]).map fun o =>
        (c'.reply, setTypeSize o,
          [[48], [49], [50], [51], [52], [53], [54], [55]].map (setTypeIsMemberRet o)))
      = some ([.longlong 6], some 6,
          [some 0, some 1, some 1, some 1, some 1, some 1, some 1, some 0]) := by
  exact ⟨sunion_reply server c setkeys hv, fun dstkey => sunion_store server c setkeys dstkey hv,
    by decide, by decide⟩

theorem sunionDiffGenericCommand_union_result_witness :
    operandsValid exampleDb [[49], [51], [57]] ∧
    ∃ elems : List sds,
      sunionDiffGenericCommand exampleServer ⟨exampleDb, []⟩ [[49], [51], [57]] none SET_OP_UNION
        = some { (⟨exampleDb, []⟩ : client) with
            reply := [] ++ .multibulklen (intWrap elems.length) :: elems.map .bulk } ∧
      elems.Nodup ∧ ∀ v, v ∈ elems ↔ ∃ k ∈ [[49], [51], [57]], v ∈ dbMembers exampleDb k :=
  ⟨exampleDb_valid _,
    (sunionDiffGenericCommand_union_result exampleServer ⟨exampleDb, []⟩ [[49], [51], [57]]
      (exampleDb_valid _)).1⟩


/-! ## Lookup, existence test and conversion of hashes -/

theorem hashTypeExists_eq (o : robj) (field : sds) :
    hashTypeExists o field
      = (hashTypeGetValue o field).map (fun r => (if r.1 = C_OK then 1 else 0, r.2.2)) := by
  unfold hashTypeExists hashTypeGetValue
  split
  · cases hashTypeGetFromZiplist o field with
    | none => rfl
    | some v =>
      cases v with
      | none => rfl
      | some x => rfl
  · split
    · cases hashTypeGetFromHashTable o field with
      | none => rfl
      | some p =>
        obtain ⟨v, o'⟩ := p
        cases v with
        | none => rfl
        | some x => rfl
    · rfl

/-- The shape of what `hashTypeGetValue` returns: `C_OK` with a value, which is
a string for a hash table encoded hash, or `C_ERR` without. -/
theorem hashTypeGetValue_shape (o : robj) (field : sds) (r : Int) (v : Option zlentry)
    (o' : robj) (h : hashTypeGetValue o field = some (r, v, o')) :
    (r = C_OK ∧ ∃ x, v = some x ∧ (o.encoding = OBJ_ENCODING_HT → ∃ s, x = .str s)) ∨
    (r = C_ERR ∧ v = none) := by
  have hne : OBJ_ENCODING_HT ≠ OBJ_ENCODING_ZIPLIST := by decide
  unfold hashTypeGetValue at h
  split at h
  · rename_i henc
    split at h
    · cases h
    · injection h with h
      injection h with h1 h2
      injection h2 with h2 h3
      exact Or.inl ⟨h1.symm, _, h2.symm, fun hc => absurd (hc.symm.trans henc) hne⟩
    · injection h with h
      injection h with h1 h2
      injection h2 with h2 h3
      exact Or.inr ⟨h1.symm, h2.symm⟩
  · split at h
    · split at h
      · cases h
      · injection h with h
        injection h with h1 h2
        injection h2 with h2 h3
        exact Or.inl ⟨h1.symm, _, h2.symm, fun _ => ⟨_, rfl⟩⟩
      · injection h with h
        injection h with h1 h2
        injection h2 with h2 h3
        exact Or.inr ⟨h1.symm, h2.symm⟩
    · cases h

theorem hashTypeTryConversionLoop_spec (server : redisServer) (argv : List robj) :
    ∀ (n i : Nat), argvOk argv i (i + n - 1) ∨ n = 0 →
      ∃ b, hashTypeTryConversionLoop server argv n i = some b ∧
        (b = true ↔ ∃ j a, i ≤ j ∧ j < i + n ∧ argv[j]? = some a ∧ isLongArg server a = true) := by
  intro n
  induction n with
  | zero =>
    intro i _
    refine ⟨false, rfl, ?_⟩
    constructor
    · intro h; cases h
    · rintro ⟨j, a, h1, h2, _⟩
      omega
  | succ n ih =>
    intro i hok
    have hok' : argvOk argv i (i + n) := by
      rcases hok with h | h
      · simpa using h
      · cases h
    obtain ⟨a, ha, hs⟩ := hok' i (le_refl _) (by omega)
    have hrest : argvOk argv (i + 1) (i + 1 + n - 1) ∨ n = 0 := by
      by_cases hn : n = 0
      · exact Or.inr hn
      · refine Or.inl (fun j h1 h2 => hok' j (by omega) (by omega))
    rw [hashTypeTryConversionLoop, ha]
    simp only
    have key : ∀ b : Bool, isLongArg server a = b →
        ((∃ j x, i ≤ j ∧ j < i + (n + 1) ∧ argv[j]? = some x ∧ isLongArg server x = true) ↔
          (b = true ∨ ∃ j x, i + 1 ≤ j ∧ j < i + 1 + n ∧ argv[j]? = some x ∧
            isLongArg server x = true)) := by
      intro b hb
      constructor
      · rintro ⟨j, x, h1, h2, h3, h4⟩
        by_cases hj : j = i
        · subst hj
          rw [ha] at h3
          injection h3 with h3
          subst h3
          exact Or.inl (hb.symm.trans h4)
        · exact Or.inr ⟨j, x, by omega, by omega, h3, h4⟩
      · rintro (h | ⟨j, x, h1, h2, h3, h4⟩)
        · exact ⟨i, a, le_refl _, by omega, ha, hb.trans h⟩
        · exact ⟨j, x, by omega, by omega, h3, h4⟩
    obtain ⟨b, hb1, hb2⟩ := ih (i + 1) hrest
    by_cases henc : sdsEncodedObject a = true
    · obtain ⟨s, hp⟩ := hs henc
      rw [if_pos henc]
      simp only [hp]
      by_cases hl : server.hash_max_ziplist_value < sdslen s
      · rw [if_pos hl]
        have hb : isLongArg server a = true := by simp [isLongArg, henc, hp, hl]
        refine ⟨true, rfl, ?_⟩
        rw [key true hb]
        simp
      · rw [if_neg hl]
        have hb : isLongArg server a = false := by simp [isLongArg, henc, hp, hl]
        refine ⟨b, hb1, ?_⟩
        rw [key false hb, hb2]
        simp
    · rw [if_neg henc]
      have hb : isLongArg server a = false := by
        simp only [Bool.not_eq_true] at henc
        simp [isLongArg, henc]
      refine ⟨b, hb1, ?_⟩
      rw [key false hb, hb2]
      simp

/-- `hashTypeTryConversion`: an object that is not ziplist encoded is returned
as it is; a valid ziplist encoded hash is converted exactly when one of the
arguments is a long string, and holds the same pairs afterwards. -/
theorem hashTypeTryConversion_spec (server : redisServer) (o : robj) (argv : List robj)
    (start endi : Nat) (hv : hashValid o) (hok : argvOk argv start endi) :
    ∃ o', hashTypeTryConversion server o argv start endi = some o' ∧ hashSame o o' ∧
      (o.encoding = OBJ_ENCODING_HT → o' = o) ∧
      (o.encoding = OBJ_ENCODING_ZIPLIST →
        ((o'.encoding = OBJ_ENCODING_HT ↔
          ∃ i a, start ≤ i ∧ i ≤ endi ∧ argv[i]? = some a ∧ isLongArg server a = true) ∧
        (o'.encoding = OBJ_ENCODING_HT ∨ o' = o))) := by
  have hne : OBJ_ENCODING_HT ≠ OBJ_ENCODING_ZIPLIST := by decide
  unfold hashTypeTryConversion
  rcases hv.encoding with henc | henc
  · rw [if_neg (by rw [henc]; simp)]
    have hok' : argvOk argv start (start + (endi + 1 - start) - 1) ∨ endi + 1 - start = 0 := by
      by_cases h : endi + 1 - start = 0
      · exact Or.inr h
      · refine Or.inl (fun i h1 h2 => hok i h1 (by omega))
    obtain ⟨b, hb1, hb2⟩ := hashTypeTryConversionLoop_spec server argv _ start hok'
    have hb3 : b = true ↔
        ∃ i a, start ≤ i ∧ i ≤ endi ∧ argv[i]? = some a ∧ isLongArg server a = true := by
      rw [hb2]
      constructor
      · rintro ⟨j, a, h1, h2, h3, h4⟩
        exact ⟨j, a, h1, by omega, h3, h4⟩
      · rintro ⟨j, a, h1, h2, h3, h4⟩
        exact ⟨j, a, h1, by omega, h3, h4⟩
    rw [hb1]
    cases b with
    | true =>
      obtain ⟨o', h1, h2, _, h3⟩ := hashTypeConvert_spec server o hv henc
      refine ⟨o', h1, h3, fun hc => absurd (hc.symm.trans henc) hne, fun _ => ⟨?_, Or.inl h2⟩⟩
      exact ⟨fun _ => hb3.1 rfl, fun _ => h2⟩
    | false =>
      refine ⟨o, rfl, hashSame.hash_refl hv, fun _ => rfl, fun _ => ⟨?_, Or.inr rfl⟩⟩
      constructor
      · intro hc
        exact absurd (hc.symm.trans henc) hne
      · intro hc
        have := hb3.2 hc
        cases this
  · rw [if_pos (by rw [henc]; exact hne)]
    exact ⟨o, rfl, hashSame.hash_refl hv, fun _ => rfl, fun hc => absurd (henc.symm.trans hc) hne⟩

theorem hashTypeNext_subject (hi : hashTypeIterator) (r : Int) (hi' : hashTypeIterator)
    (h : hashTypeNext hi = some (r, hi')) : hi'.subject = hi.subject := by
  simp only [hashTypeNext] at h
  repeat' split at h
  all_goals first
    | (simp only [Option.some.injEq, Prod.mk.injEq] at h; obtain ⟨_, rfl⟩ := h; rfl)
    | cases h

theorem setTypeNext_subject (si : setTypeIterator) (r : Int) (e : Option sds) (l : Int)
    (si' : setTypeIterator) (h : setTypeNext si = some (r, e, l, si')) :
    si'.subject = si.subject := by
  simp only [setTypeNext] at h
  repeat' split at h
  all_goals first
    | (simp only [Option.some.injEq, Prod.mk.injEq] at h; obtain ⟨_, _, _, rfl⟩ := h; rfl)
    | cases h

theorem hashTypeExists_spec (o : robj) (hv : hashValid o) (field : sds) :
    ∃ o', hashTypeExists o field
        = some (if field ∈ (hashPairs o).map (·.1) then 1 else 0, o') ∧
      hashSame o o' ∧ o'.encoding = o.encoding := by
  obtain ⟨r, v, o', h1, h2, h3, _, h4⟩ := hashTypeGetValue_spec o hv field
  refine ⟨o', ?_, h2, h3⟩
  rw [hashTypeExists_eq, h1]
  simp only [Option.map_some']
  have hb : hashTypeGetBytes o field = if r = C_OK then some (v.map zlentry.bytes) else some none := by
    simp [hashTypeGetBytes, h1]
  rw [hb] at h4
  rcases hashTypeGetValue_shape o field r v o' h1 with ⟨hr, x, hx, _⟩ | ⟨hr, hx⟩
  · rw [if_pos hr, hx] at h4
    have : field ∈ (hashPairs o).map (·.1) :=
      (pairsLookup_isSome _ _).1 ⟨x.bytes, by injection h4 with h4; exact h4.symm⟩
    rw [if_pos hr, if_pos this]
  · have hne : r ≠ C_OK := by rw [hr]; decide
    rw [if_neg hne] at h4
    have : field ∉ (hashPairs o).map (·.1) :=
      (pairsLookup_eq_none _ _).1 (by injection h4 with h4; exact h4.symm)
    rw [if_neg hne, if_neg this]

theorem encodingKept_of_eq {o o' : robj} (h : o'.encoding = o.encoding) : encodingKept o o' :=
  ⟨Or.inl h, fun hc => h.trans hc⟩

theorem exampleArgv_ok : argvOk [createStringObject longValue] 0 0 := by
  intro i _ h
  have : i = 0 := by omega
  subst this
  exact ⟨_, rfl, fun _ => ⟨_, rfl⟩⟩

/-- C17: the operations of the hash and set types on a valid object return,
and the object they leave has the encoding it had or, if it was ziplist or
intset encoded, the hash table encoding (`encodingKept`); a hash table encoded
object stays hash table encoded.  This holds of `hashTypeSet`,
`hashTypeDelete`, `hashTypeGetValue`, `hashTypeExists`,
`hashTypeTryConversion`, `setTypeAdd`, `setTypeRemove` and `setTypeIsMember`;
`hashTypeNext` and `setTypeNext` keep the object of the iterator, and
`hashTypeConvert` and `setTypeConvert` refuse a hash table encoded object. -/
theorem encoding_transitions_one_way (server : redisServer) (o s : robj) (field value : sds)
    (flags : Nat) (argv : List robj) (start endi : Nat)
    (ho : hashValid o) (hs : setValid s) (hargv : argvOk argv start endi) :
    (∃ r o', hashTypeSet server o field value flags = some (r, o') ∧ encodingKept o o') ∧
    (∃ r o', hashTypeDelete server o field = some (r, o') ∧ encodingKept o o') ∧
    (∃ r v o', hashTypeGetValue o field = some (r, v, o') ∧ encodingKept o o') ∧
    (∃ r o', hashTypeExists o field = some (r, o') ∧ encodingKept o o') ∧
    (∃ o', hashTypeTryConversion server o argv start endi = some o' ∧ encodingKept o o') ∧
    (∃ r s', setTypeAdd server s value = some (r, s') ∧ encodingKept s s') ∧
    (∃ r s', setTypeRemove server s value = some (r, s') ∧ encodingKept s s') ∧
    (∃ r s', setTypeIsMember s value = some (r, s') ∧ encodingKept s s') ∧
    (∀ hi r hi', hashTypeNext hi = some (r, hi') → hi'.subject = hi.subject) ∧
    (∀ si r e l si', setTypeNext si = some (r, e, l, si') → si'.subject = si.subject) ∧
    (o.encoding = OBJ_ENCODING_HT → ∀ enc, hashTypeConvert server o enc = none) ∧
    (s.encoding = OBJ_ENCODING_HT → ∀ enc, setTypeConvert server s enc = none) := by
  have hne : OBJ_ENCODING_ZIPLIST ≠ OBJ_ENCODING_HT := by decide
  have hne2 : OBJ_ENCODING_INTSET ≠ OBJ_ENCODING_HT := by decide
  refine ⟨?_, ?_, ?_, ?_, ?_, ?_, ?_, ?_, hashTypeNext_subject, setTypeNext_subject, ?_, ?_⟩
  · obtain ⟨o', h1, _, _, h2, h3⟩ := hashTypeSet_spec server o ho field value flags
    refine ⟨_, o', h1, ?_, h2⟩
    rcases ho.encoding with henc | henc
    · rw [h3 henc]
      split
      · exact Or.inr ⟨rfl, by rw [henc]; exact hne⟩
      · exact Or.inl henc.symm
    · exact Or.inl ((h2 henc).trans henc.symm)
  · obtain ⟨o', h1, _, _, h2⟩ := hashTypeDelete_spec server o ho field
    exact ⟨_, o', h1, encodingKept_of_eq h2⟩
  · obtain ⟨r, v, o', h1, _, h2, _⟩ := hashTypeGetValue_spec o ho field
    exact ⟨r, v, o', h1, encodingKept_of_eq h2⟩
  · obtain ⟨o', h1, _, h2⟩ := hashTypeExists_spec o ho field
    exact ⟨_, o', h1, encodingKept_of_eq h2⟩
  · obtain ⟨o', h1, _, h2, h3⟩ := hashTypeTryConversion_spec server o argv start endi ho hargv
    refine ⟨o', h1, ?_, fun hc => by rw [h2 hc]; exact hc⟩
    rcases ho.encoding with henc | henc
    · rcases (h3 henc).2 with h | h
      · exact Or.inr ⟨h, by rw [henc]; exact hne⟩
      · exact Or.inl (by rw [h])
    · exact Or.inl (by rw [h2 henc])
  · obtain ⟨s', h1, _, h2, h3⟩ := setTypeAdd_spec server s hs value
    refine ⟨_, s', h1, ?_, h2⟩
    rcases hs.set_encoding with henc | henc
    · rw [h3 henc]
      split
      · exact Or.inr ⟨rfl, by rw [henc]; exact hne2⟩
      · exact Or.inl henc.symm
    · exact Or.inl ((h2 henc).trans henc.symm)
  · obtain ⟨s', h1, _, _, h2⟩ := setTypeRemove_spec server s hs value
    exact ⟨_, s', h1, encodingKept_of_eq h2⟩
  · obtain ⟨s', h1, _, h2⟩ := setTypeIsMember_spec s hs value
    exact ⟨_, s', h1, encodingKept_of_eq h2⟩
  · intro henc enc
    simp [hashTypeConvert, henc, hne.symm]
  · intro henc enc
    simp [setTypeConvert, henc, hne2.symm]

theorem encoding_transitions_one_way_witness :
    hashValid exampleHash ∧ setValid exampleSet ∧
    argvOk [createStringObject longValue] 0 0 ∧
    (∃ o', hashTypeTryConversion exampleServer exampleHash [createStringObject longValue] 0 0
        = some o' ∧ encodingKept exampleHash o') ∧
    ∃ r s', setTypeAdd exampleServer exampleSet [97] = some (r, s') ∧ encodingKept exampleSet s' :=
  ⟨exampleHash_valid, exampleSet_valid, exampleArgv_ok,
    (encoding_transitions_one_way exampleServer exampleHash exampleSet [97] [97] 0
      [createStringObject longValue] 0 0 exampleHash_valid exampleSet_valid exampleArgv_ok).2.2.2.2.1,
    (encoding_transitions_one_way exampleServer exampleHash exampleSet [97] [97] 0
      [createStringObject longValue] 0 0 exampleHash_valid exampleSet_valid
      exampleArgv_ok).2.2.2.2.2.1⟩

/-- `hashTypeSet` on a ziplist encoded hash returns, and checks the number of
entries only: whatever the lengths of the field and of the
value, the hash is hash table encoded afterwards exactly when its length
exceeds `hash_max_ziplist_entries`, and is ziplist encoded otherwise.  The
length of the strings is checked by `hashTypeTryConversion`: called with the
field and the value before `hashTypeSet`, it converts the hash when one of
them is longer than `hash_max_ziplist_value`, and `hashTypeSet` then leaves
it hash table encoded. -/
theorem hashTypeSet_checks_entries_only (server : redisServer) (o : robj) (field value : sds)
    (flags : Nat) (hv : hashValid o) (henc : o.encoding = OBJ_ENCODING_ZIPLIST) :
    (∃ r o' n, hashTypeSet server o field value flags = some (r, o') ∧
      hashTypeLength o' = some n ∧
      (server.hash_max_ziplist_entries < n → o'.encoding = OBJ_ENCODING_HT) ∧
      (n ≤ server.hash_max_ziplist_entries → o'.encoding = OBJ_ENCODING_ZIPLIST) ∧
      hashTypeGetBytes o' field = some (some value)) ∧
    ((server.hash_max_ziplist_value < sdslen field ∨
        server.hash_max_ziplist_value < sdslen value) →
      ∃ o1 r o2, hashTypeTryConversion server o
          [createStringObject field, createStringObject value] 0 1 = some o1 ∧
        o1.encoding = OBJ_ENCODING_HT ∧
        hashTypeSet server o1 field value flags = some (r, o2) ∧
        o2.encoding = OBJ_ENCODING_HT) := by
  constructor
  · obtain ⟨o', h1, h2, _, _, h3⟩ := hashTypeSet_spec server o hv field value flags
    refine ⟨_, o', _, h1, hashTypeLength_spec o' h2.valid, ?_, ?_, h2.get_self⟩
    · intro hlt
      rw [h3 henc, if_pos hlt]
    · intro hle
      rw [h3 henc, if_neg (by omega)]
  · intro hlong
    have hok : argvOk [createStringObject field, createStringObject value] 0 1 := by
      intro i _ h
      have : i = 0 ∨ i = 1 := by omega
      rcases this with rfl | rfl
      · exact ⟨_, rfl, fun _ => ⟨_, rfl⟩⟩
      · exact ⟨_, rfl, fun _ => ⟨_, rfl⟩⟩
    obtain ⟨o1, h1, h2, _, h3⟩ := hashTypeTryConversion_spec server o _ 0 1 hv hok
    have henc1 : o1.encoding = OBJ_ENCODING_HT := by
      rw [(h3 henc).1]
      rcases hlong with h | h
      · exact ⟨0, _, le_refl _, by omega, rfl, by
          simp [isLongArg, createStringObject, sdsEncodedObject, h]⟩
      · exact ⟨1, _, by omega, le_refl _, rfl, by
          simp [isLongArg, createStringObject, sdsEncodedObject, h]⟩
    obtain ⟨o2, g1, _, _, g2, _⟩ := hashTypeSet_spec server o1 h2.valid field value flags
    exact ⟨o1, _, o2, h1, henc1, g1, g2 henc1⟩

/-- C18, evaluated: with `hash_max_ziplist_value` 64, HINCRBY of the key "h",
which does not exist, with a field of 65 bytes and the increment 1 replies 1
and leaves at the key a hash that is still ziplist encoded and holds the field
of 65 bytes: `hincrbyCommand` calls `hashTypeSet` without the call of
`hashTypeTryConversion` that `hsetCommand` and `hsetnxCommand` make, and
`hashTypeSet` itself checks the number of entries only.  `hashTypeSet` of a
value of 65 bytes into the empty ziplist encoded hash likewise returns a
ziplist encoded hash, not a hash table encoded one; on the path of HSET,
`hashTypeTryConversion` on the field and the value followed by `hashTypeSet`,
the hash is hash table encoded. -/
theorem hincrbyCommand_long_field_stays_ziplist :
    exampleServer.hash_max_ziplist_value = 64 ∧ sdslen longValue = 65 ∧
    replyAndHash (hincrbyCommand exampleServer ⟨fun _ => none, []⟩ [104] longValue [49]) [104]
      = some ([.longlong 1], some OBJ_ENCODING_ZIPLIST, [(longValue, [49])]) ∧
    (hashTypeSet exampleServer createHashObject [102] longValue 0).map
      (fun p => (p.1, p.2.encoding, hashTypeGetBytes p.2 [102]))
      = some (0, OBJ_ENCODING_ZIPLIST, some (some longValue)) ∧
    ((hashTypeTryConversion exampleServer createHashObject
        [createStringObject longValue, createStringObject [49]] 0 1).bind
      (fun o => hashTypeSet exampleServer o longValue [49] 0)).map
      (fun p => (p.2.encoding, hashTypeGetBytes p.2 longValue))
      = some (OBJ_ENCODING_HT, some (some [49])) ∧
    (¬ ∃ c' o', hincrbyCommand exampleServer ⟨fun _ => none, []⟩ [104] longValue [49] = some c' ∧
      c'.db [104] = some o' ∧ o'.encoding = OBJ_ENCODING_HT) ∧
    ¬ ∃ r o', hashTypeSet exampleServer createHashObject [102] longValue 0 = some (r, o') ∧
      o'.encoding = OBJ_ENCODING_HT := by
  have hc : replyAndHash
      (hincrbyCommand exampleServer ⟨fun _ => none, []⟩ [104] longValue [49]) [104]
      = some ([.longlong 1], some OBJ_ENCODING_ZIPLIST, [(longValue, [49])]) := by decide
  have hr : (hashTypeSet exampleServer createHashObject [102] longValue 0).map
      (fun p => (p.1, p.2.encoding, hashTypeGetBytes p.2 [102]))
      = some (0, OBJ_ENCODING_ZIPLIST, some (some longValue)) := by decide
  refine ⟨rfl, by decide, hc, hr, by decide, ?_, ?_⟩
  · rintro ⟨c', o', h, hk, he⟩
    rw [h] at hc
    simp only [replyAndHash, Option.map_some', hk, Option.some.injEq, Prod.mk.injEq] at hc
    rw [he] at hc
    exact absurd hc.2.1 (by decide)
  · rintro ⟨r, o', h, he⟩
    rw [h, Option.map_some'] at hr
    injection hr with hr
    injection hr with _ hr
    injection hr with hr _
    rw [he] at hr
    exact absurd hr (by decide)

/-- C19: `hashTypeTryConversion` returns a hash table encoded hash as it is,
whatever the arguments.  For a valid ziplist encoded hash and arguments
`argv[start..end]` that exist (`argvOk`) it returns, the result is hash table
encoded exactly when one of these arguments is a string encoded object longer
than `hash_max_ziplist_value` (`isLongArg`) and is the same object otherwise;
in both cases the length and what `hashTypeGetValue` reads for every field are
as before. -/
theorem hashTypeTryConversion_contract (server : redisServer) (o : robj) (argv : List robj)
    (start endi : Nat) (hv : hashValid o) (hok : argvOk argv start endi) :
    (∀ (h : robj) (args : List robj) (i j : Nat), h.encoding = OBJ_ENCODING_HT →
      hashTypeTryConversion server h args i j = some h) ∧
    ∃ o', hashTypeTryConversion server o argv start endi = some o' ∧
      (o.encoding = OBJ_ENCODING_ZIPLIST →
        ((o'.encoding = OBJ_ENCODING_HT ↔
          ∃ i a, start ≤ i ∧ i ≤ endi ∧ argv[i]? = some a ∧ isLongArg server a = true) ∧
        (o'.encoding = OBJ_ENCODING_HT ∨ o' = o))) ∧
      hashTypeLength o' = hashTypeLength o ∧
      (∀ f, hashTypeGetBytes o' f = hashTypeGetBytes o f) ∧
      (∀ a : robj, isLongArg server a = true ↔
        (a.encoding = OBJ_ENCODING_RAW ∨ a.encoding = OBJ_ENCODING_EMBSTR) ∧
          ∃ s, a.ptr = .sds s ∧ server.hash_max_ziplist_value < sdslen s) := by
  have hne : OBJ_ENCODING_HT ≠ OBJ_ENCODING_ZIPLIST := by decide
  refine ⟨fun h args i j henc => ?_, ?_⟩
  · simp [hashTypeTryConversion, henc, hne]
  · obtain ⟨o', h1, h2, _, h3⟩ := hashTypeTryConversion_spec server o argv start endi hv hok
    refine ⟨o', h1, h3, ?_, fun f => hashTypeGetBytes_of_same hv h2 f, fun a => ?_⟩
    · rw [hashTypeLength_spec o' h2.valid, hashTypeLength_spec o hv, h2.perm.length_eq]
    · unfold isLongArg sdsEncodedObject
      cases hp : a.ptr with
      | sds s => simp
      | ziplist z => simp
      | intset z => simp
      | dict z => simp

theorem hashTypeTryConversion_contract_witness :
    hashValid exampleHash ∧ argvOk [createStringObject longValue] 0 0 ∧
    ∃ o', hashTypeTryConversion exampleServer exampleHash [createStringObject longValue] 0 0
        = some o' ∧
      (exampleHash.encoding = OBJ_ENCODING_ZIPLIST →
        ((o'.encoding = OBJ_ENCODING_HT ↔
          ∃ i a, 0 ≤ i ∧ i ≤ 0 ∧ [createStringObject longValue][i]? = some a ∧
            isLongArg exampleServer a = true) ∧
        (o'.encoding = OBJ_ENCODING_HT ∨ o' = exampleHash))) ∧
      hashTypeLength o' = hashTypeLength exampleHash ∧
      (∀ f, hashTypeGetBytes o' f = hashTypeGetBytes exampleHash f) :=
  ⟨exampleHash_valid, exampleArgv_ok, by
    obtain ⟨o', h1, h2, h3, h4, _⟩ := (hashTypeTryConversion_contract exampleServer exampleHash
      [createStringObject longValue] 0 0 exampleHash_valid exampleArgv_ok).2
    exact ⟨o', h1, h2, h3, h4⟩⟩

/-- C20: on a valid hash `hashTypeGetValue` and `hashTypeExists` return;
`hashTypeGetValue` returns `C_OK` exactly when the field is one of the fields
of the hash, and `C_ERR` otherwise; with `C_OK` it gives one value, either a
string (`*vstr` with `*vlen`; always so for a hash table encoded hash) or a
number (`*vstr` is NULL and `*vll` is set), whose bytes are those stored for
the field, with `C_ERR` none; `hashTypeExists` returns 1 exactly when
`hashTypeGetValue` returns `C_OK`, and 0 otherwise.  In the example hash the
string "x" is the value of "b" and no field: it is not found, "a" is read as
the number 12 and "b" as the string "x". -/
theorem hashTypeGetValue_contract (o : robj) (field : sds) (hv : hashValid o) :
    (∃ r v o' e o'', hashTypeGetValue o field = some (r, v, o') ∧
      hashTypeExists o field = some (e, o'') ∧
      (r = C_OK ∨ r = C_ERR) ∧
      (r = C_OK ↔ field ∈ (hashPairs o).map (·.1)) ∧
      (r = C_OK → ∃ x, v = some x ∧ pairsLookup (hashPairs o) field = some x.bytes ∧
        ((∃ s, x = .str s) ∨ (∃ n, x = .int n)) ∧
        (o.encoding = OBJ_ENCODING_HT → ∃ s, x = .str s)) ∧
      (r = C_ERR → v = none) ∧
      (e = 1 ↔ r = C_OK) ∧ (e = 0 ↔ r = C_ERR)) ∧
    ((hashTypeGetValue exampleHash [120]).map (fun r => (r.1, r.2.1)) = some (C_ERR, none) ∧
      (hashTypeExists exampleHash [120]).map (·.1) = some 0 ∧
      (hashTypeGetValue exampleHash [97]).map (fun r => (r.1, r.2.1))
        = some (C_OK, some (.int 12)) ∧
      (hashTypeGetValue exampleHash [98]).map (fun r => (r.1, r.2.1))
        = some (C_OK, some (.str [120])) ∧
      (hashTypeExists exampleHash [98]).map (·.1) = some 1) := by
  refine ⟨?_, by decide, by decide, by decide, by decide, by decide⟩
  have hokerr : C_OK ≠ C_ERR := by decide
  obtain ⟨r, v, o', h1, _, _, _, h4⟩ := hashTypeGetValue_spec o hv field
  have hb : hashTypeGetBytes o field = if r = C_OK then some (v.map zlentry.bytes) else some none := by
    simp [hashTypeGetBytes, h1]
  rw [hb] at h4
  have hex := hashTypeExists_eq o field
  rw [h1] at hex
  simp only [Option.map_some'] at hex
  refine ⟨r, v, o', _, o', h1, hex, ?_⟩
  rcases hashTypeGetValue_shape o field r v o' h1 with ⟨hr, x, hx, hstr⟩ | ⟨hr, hx⟩
  · rw [if_pos hr, hx] at h4
    have hl : pairsLookup (hashPairs o) field = some x.bytes := by
      injection h4 with h4
      exact h4.symm
    have hin : field ∈ (hashPairs o).map (·.1) := (pairsLookup_isSome _ _).1 ⟨_, hl⟩
    refine ⟨Or.inl hr, ⟨fun _ => hin, fun _ => hr⟩, fun _ => ⟨x, hx, hl, ?_, hstr⟩,
      fun hc => absurd (hr.symm.trans hc) hokerr, ?_, ?_⟩
    · cases x with
      | str s => exact Or.inl ⟨s, rfl⟩
      | int n => exact Or.inr ⟨n, rfl⟩
    · rw [if_pos hr]
      exact ⟨fun _ => hr, fun _ => rfl⟩
    · rw [if_pos hr]
      exact ⟨fun hc => absurd hc (by decide), fun hc => absurd (hr.symm.trans hc) hokerr⟩
  · have hne : r ≠ C_OK := by rw [hr]; exact hokerr.symm
    rw [if_neg hne] at h4
    have hnin : field ∉ (hashPairs o).map (·.1) :=
      (pairsLookup_eq_none _ _).1 (by injection h4 with h4; exact h4.symm)
    refine ⟨Or.inr hr, ⟨fun hc => absurd hc hne, fun hc => absurd hc hnin⟩,
      fun hc => absurd hc hne, fun _ => hx, ?_, ?_⟩
    · rw [if_neg hne]
      exact ⟨fun hc => absurd hc (by decide), fun hc => absurd hc hne⟩
    · rw [if_neg hne]
      exact ⟨fun _ => hr, fun _ => rfl⟩

theorem hashTypeGetValue_contract_witness :
    hashValid exampleHash ∧
    ∃ r v o' e o'', hashTypeGetValue exampleHash [97] = some (r, v, o') ∧
      hashTypeExists exampleHash [97] = some (e, o'') ∧
      (r = C_OK ∨ r = C_ERR) ∧
      (r = C_OK ↔ [97] ∈ (hashPairs exampleHash).map (·.1)) ∧
      (r = C_OK → ∃ x, v = some x ∧ pairsLookup (hashPairs exampleHash) [97] = some x.bytes ∧
        ((∃ s, x = .str s) ∨ (∃ n, x = .int n)) ∧
        (exampleHash.encoding = OBJ_ENCODING_HT → ∃ s, x = .str s)) ∧
      (r = C_ERR → v = none) ∧
      (e = 1 ↔ r = C_OK) ∧ (e = 0 ↔ r = C_ERR) :=
  ⟨exampleHash_valid, (hashTypeGetValue_contract exampleHash [97] exampleHash_valid).1⟩

/-! ## The two algorithms of the difference -/

theorem inNoSet_iff (db : redisDb) (sets0 : sds) (sets : List (Option sds)) (v : sds) :
    inNoSet db sets0 sets v = true ↔ ∀ k, some k ∈ sets → k ≠ sets0 ∧ v ∉ dbMembers db k := by
  unfold inNoSet
  rw [List.all_eq_true]
  constructor
  · intro h k hk
    have := h (some k) hk
    simpa using this
  · intro h s hs
    cases s with
    | none => rfl
    | some k => simpa using h k hs

theorem filter_ne_length (l : List sds) (hn : l.Nodup) (v : sds) :
    (l.filter (fun x => decide (x ≠ v))).length + (if v ∈ l then 1 else 0) = l.length := by
  induction l with
  | nil => simp
  | cons a l ih =>
    have hn' := List.nodup_cons.1 hn
    have := ih hn'.2
    by_cases ha : a = v
    · subst ha
      have hf : List.filter (fun x => decide (x ≠ a)) l = l := by
        apply List.filter_eq_self.2
        intro x hx
        simp only [ne_eq, decide_not, Bool.not_eq_true', decide_eq_false_iff_not]
        intro hc
        exact hn'.1 (hc ▸ hx)
      rw [List.filter_cons_of_neg (by simp), hf]
      simp
    · rw [List.filter_cons_of_pos (by simp [ha])]
      have hne : (v ∈ a :: l) ↔ v ∈ l := by
        rw [List.mem_cons]
        exact ⟨fun h => h.resolve_left (fun e => ha e.symm), Or.inr⟩
      simp only [List.length_cons]
      by_cases hvl : v ∈ l
      · rw [if_pos (hne.2 hvl)]
        rw [if_pos hvl] at this
        omega
      · rw [if_neg (fun hc => hvl (hne.1 hc))]
        rw [if_neg hvl] at this
        omega

/-- The probes of DIFF algorithm 1 for one element: the loop runs to the end
exactly when no other set is the first set or holds the element. -/
theorem sdiffProbe_spec (keys : List sds) (db0 : redisDb) (sets0 : sds) (ele : sds) :
    ∀ (rest : List (Option sds)) (db : redisDb),
      (∀ k, some k ∈ rest → k ≠ sets0 → k ∈ keys) → dbSame keys db0 db →
      ∃ b db', sdiffProbe sets0 ele rest db = some (b, db') ∧ dbSame keys db0 db' ∧
        b = inNoSet db0 sets0 rest ele := by
  intro rest
  induction rest with
  | nil =>
    intro db _ hdb
    exact ⟨true, db, rfl, hdb, rfl⟩
  | cons s rest ih =>
    intro db hsub hdb
    have hsub' : ∀ k, some k ∈ rest → k ≠ sets0 → k ∈ keys :=
      fun k hk => hsub k (List.mem_cons_of_mem _ hk)
    cases s with
    | none =>
      rw [sdiffProbe]
      obtain ⟨b, db', h1, h2, h3⟩ := ih db hsub' hdb
      exact ⟨b, db', h1, h2, by rw [h3]; simp [inNoSet]⟩
    | some setj =>
      rw [sdiffProbe]
      by_cases hj : setj = sets0
      · rw [if_pos hj]
        exact ⟨false, db, rfl, hdb, by simp [inNoSet, hj]⟩
      · rw [if_neg hj]
        have hjk := hsub setj (List.mem_cons_self _ _) hj
        obtain ⟨a, o, ha, ho, hs, he⟩ := hdb.set setj hjk
        simp only [ho]
        obtain ⟨o', h1, h2, h3⟩ := setTypeIsMember_spec o hs.valid ele
        have hmem : ele ∈ setMembers o ↔ ele ∈ dbMembers db0 setj := by
          rw [hs.mem_iff]
          simp [dbMembers, ha]
        have hdb' := hdb.store hjk ho h2 h3
        by_cases hin : ele ∈ setMembers o
        · rw [if_pos hin] at h1
          simp only [h1, ne_eq, one_ne_zero, not_false_eq_true, if_true]
          refine ⟨false, _, rfl, hdb', ?_⟩
          simp [inNoSet, hmem.1 hin]
        · rw [if_neg hin] at h1
          simp only [h1, ne_eq, not_true_eq_false, if_false]
          obtain ⟨b, db', g1, g2, g3⟩ := ih _ hsub' hdb'
          refine ⟨b, db', g1, g2, ?_⟩
          rw [g3]
          have : ele ∉ dbMembers db0 setj := fun hc => hin (hmem.2 hc)
          simp [inNoSet, hj, this]

theorem sdiffAlgo1Body_spec (server : redisServer) (keys : List sds) (db0 : redisDb)
    (sets0 : sds) (rest : List (Option sds))
    (hsub : ∀ k, some k ∈ rest → k ≠ sets0 → k ∈ keys) (done : List sds)
    (st : sunionDiffState) (x : sds) (hx : x ∉ done)
    (h : sdiffInv keys db0 (inNoSet db0 sets0 rest) done st) :
    ∃ st', sdiffAlgo1Body server sets0 rest st x = some st' ∧
      sdiffInv keys db0 (inNoSet db0 sets0 rest) (done ++ [x]) st' := by
  obtain ⟨b, db', h1, h2, h3⟩ := sdiffProbe_spec keys db0 sets0 x rest st.db hsub h.db
  unfold sdiffAlgo1Body
  rw [h1]
  cases b with
  | false =>
    refine ⟨_, rfl, h2, h.valid, fun v => ?_, h.card⟩
    simp only
    rw [h.mem, List.mem_append, List.mem_singleton]
    constructor
    · rintro ⟨a, b⟩; exact ⟨Or.inl a, b⟩
    · rintro ⟨a | a, b⟩
      · exact ⟨a, b⟩
      · rw [a, ← h3] at b; cases b
  | true =>
    obtain ⟨o', g1, g2, _, _⟩ := setTypeAdd_spec server st.dstset h.valid x
    have hnin : x ∉ setMembers st.dstset := fun hc => hx ((h.mem x).1 hc).1
    have hlen := g2.length
    rw [if_neg hnin] at hlen
    simp only [g1]
    refine ⟨_, rfl, h2, g2.1, fun v => ?_, ?_⟩
    · simp only
      rw [g2.mem_added_iff, h.mem, List.mem_append, List.mem_singleton]
      constructor
      · rintro (rfl | ⟨a, b⟩)
        · exact ⟨Or.inr rfl, h3.symm⟩
        · exact ⟨Or.inl a, b⟩
      · rintro ⟨a | a, b⟩
        · exact Or.inr ⟨a, b⟩
        · exact Or.inl a
    · simp only [hlen, h.card, intWrap_succ]
      push_cast
      rfl

/-- DIFF algorithm 1 leaves in the temporary set the members of the first set
that no other set holds. -/
theorem sdiffAlgo1_spec (server : redisServer) (keys : List sds) (db : redisDb)
    (sets0 : sds) (rest : List (Option sds)) (o0 : robj) (h0 : db sets0 = some o0)
    (hv0 : setValid o0) (hsub : ∀ k, some k ∈ rest → k ≠ sets0 → k ∈ keys)
    (hkeys : ∀ k ∈ keys, ∃ o, db k = some o ∧ setValid o) :
    ∃ st, sdiffAlgo1 server sets0 rest ⟨db, createIntsetObject, 0⟩ = some st ∧
      dbSame keys db st.db ∧ setValid st.dstset ∧
      st.cardinality = intWrap (setMembers st.dstset).length ∧
      ∀ v, v ∈ setMembers st.dstset ↔
        v ∈ dbMembers db sets0 ∧ ∀ k, some k ∈ rest → v ∉ dbMembers db k := by
  have hinit : sdiffInv keys db (inNoSet db sets0 rest) [] ⟨db, createIntsetObject, 0⟩ :=
    ⟨dbSame.db_refl keys db hkeys, createIntsetObject_valid,
      fun v => by simp [setMembers, createIntsetObject],
      by simp [setMembers, createIntsetObject, intWrap_zero]⟩
  have hnd := hv0.members_nodup
  obtain ⟨st, f1, f2⟩ := foldOpt_inv (sdiffAlgo1Body server sets0 rest) (setMembers o0)
    (fun done st => sdiffInv keys db (inNoSet db sets0 rest) done st)
    (fun done x tl s hl hI => by
      have hx : x ∉ done := by
        rw [hl] at hnd
        have := (List.nodup_append.1 hnd).2.2
        exact fun hc => this hc (List.mem_cons_self _ _)
      exact sdiffAlgo1Body_spec server keys db sets0 rest hsub done s x hx hI) _ hinit
  refine ⟨st, ?_, f2.db, f2.valid, f2.card, fun v => ?_⟩
  · simp only [sdiffAlgo1, h0, setTypeForEach_spec o0 hv0]
    exact f1
  · rw [f2.mem, inNoSet_iff]
    simp only [dbMembers, h0]
    constructor
    · rintro ⟨a, b⟩
      exact ⟨a, fun k hk => (b k hk).2⟩
    · rintro ⟨a, b⟩
      refine ⟨a, fun k hk => ⟨?_, b k hk⟩⟩
      intro hc
      have := b k hk
      rw [hc, h0] at this
      exact this a

theorem sdiffRemoveBody_spec (server : redisServer) (db0 : redisDb) (base done : List sds)
    (st : sunionDiffState) (x : sds) (h : sdiffRemInv db0 base done st) :
    ∃ st', sdiffRemoveBody server st x = some st' ∧ sdiffRemInv db0 base (done ++ [x]) st' := by
  obtain ⟨o', h1, h2, h3, _⟩ := setTypeRemove_spec server st.dstset h.valid x
  have hlen := filter_ne_length (setMembers st.dstset) h.valid.members_nodup x
  rw [← h3.length_eq] at hlen
  have hmem : ∀ v, v ∈ setMembers o' ↔ v ∈ base ∧ v ∉ done ++ [x] := by
    intro v
    rw [h3.mem_iff, List.mem_filter, h.mem, List.mem_append, List.mem_singleton]
    simp only [ne_eq, decide_not, Bool.not_eq_true', decide_eq_false_iff_not]
    tauto
  unfold sdiffRemoveBody
  rw [h1]
  by_cases hin : x ∈ setMembers st.dstset
  · rw [if_pos hin] at hlen ⊢
    have hpos := List.length_pos_of_mem hin
    refine ⟨_, rfl, h.db_eq, h2, hmem, ?_⟩
    simp only [ne_eq, one_ne_zero, not_false_eq_true, if_true, h.card, intWrap_pred]
    congr 1
    omega
  · rw [if_neg hin] at hlen ⊢
    refine ⟨_, rfl, h.db_eq, h2, hmem, ?_⟩
    simp only [ne_eq, not_true_eq_false, if_false, h.card]
    congr 2
    omega

theorem sdiffRemoveFold_spec (server : redisServer) (db0 : redisDb) (base l : List sds)
    (st : sunionDiffState) (h : sdiffRemInv db0 base [] st) :
    ∃ st', foldOpt (sdiffRemoveBody server) l st = some st' ∧ sdiffRemInv db0 base l st' :=
  foldOpt_inv (sdiffRemoveBody server) l (fun done st => sdiffRemInv db0 base done st)
    (fun done x _ s _ hI => sdiffRemoveBody_spec server db0 base done s x hI) st h

theorem length_le_of_nodup_subset {l1 l2 : List sds} (hn : l1.Nodup)
    (hs : ∀ v, v ∈ l1 → v ∈ l2) : l1.length ≤ l2.length :=
  (List.subperm_of_subset hn hs).length_le

/-- The loops of DIFF algorithm 2 after the first set: the members of the
following sets are removed; the early exit is taken when the counter reads 0,
which for fewer than 2^32 members is the empty set. -/
theorem sdiffAlgo2_rest (server : redisServer) (db : redisDb) :
    ∀ (rest : List (Option sds)) (st : sunionDiffState), setsValid db rest →
      st.db = db → setValid st.dstset →
      st.cardinality = intWrap (setMembers st.dstset).length →
      ∃ st', sdiffAlgo2 server false rest st = some st' ∧ st'.db = db ∧
        setValid st'.dstset ∧ st'.cardinality = intWrap (setMembers st'.dstset).length ∧
        (∀ v, v ∈ setMembers st'.dstset → v ∈ setMembers st.dstset) ∧
        ((setMembers st.dstset).length < 4294967296 →
          ∀ v, v ∈ setMembers st'.dstset ↔
            v ∈ setMembers st.dstset ∧ ∀ k, some k ∈ rest → v ∉ dbMembers db k) := by
  intro rest
  induction rest with
  | nil =>
    intro st _ h1 h2 h3
    exact ⟨st, rfl, h1, h2, h3, fun v h => h, fun _ v => by simp⟩
  | cons s rest ih =>
    intro st hv h1 h2 h3
    have hv' : setsValid db rest := fun k hk => hv k (List.mem_cons_of_mem _ hk)
    cases s with
    | none =>
      obtain ⟨st', g1, g2, g3, g4, g5, g6⟩ := ih st hv' h1 h2 h3
      refine ⟨st', ?_, g2, g3, g4, g5, fun hb v => ?_⟩
      · rw [sdiffAlgo2]
        exact g1
      · rw [g6 hb]
        simp
    | some key =>
      obtain ⟨o, ho, hov⟩ := hv key (List.mem_cons_self _ _)
      have hinit : sdiffRemInv db (setMembers st.dstset) [] st :=
        ⟨h1, h2, fun v => by simp, h3⟩
      obtain ⟨st1, f1, f2⟩ := sdiffRemoveFold_spec server db _ (setMembers o) st hinit
      have hstep : sdiffAlgo2 server false (some key :: rest) st
          = if st1.cardinality = 0 then some st1 else sdiffAlgo2 server false rest st1 := by
        rw [sdiffAlgo2]
        simp only [h1, ho, Bool.false_eq_true, if_false, setTypeForEach_spec o hov, f1]
      have hm1 : ∀ v, v ∈ setMembers st1.dstset ↔
          v ∈ setMembers st.dstset ∧ v ∉ dbMembers db key := by
        intro v
        rw [f2.mem]
        simp [dbMembers, ho]
      have hle : (setMembers st1.dstset).length ≤ (setMembers st.dstset).length :=
        length_le_of_nodup_subset f2.valid.members_nodup (fun v h => ((hm1 v).1 h).1)
      by_cases hc : st1.cardinality = 0
      · rw [hstep, if_pos hc]
        refine ⟨st1, rfl, f2.db_eq, f2.valid, f2.card, fun v h => ((hm1 v).1 h).1,
          fun hb v => ?_⟩
        have hnil : setMembers st1.dstset = [] := by
          have := f2.card
          rw [hc] at this
          exact List.length_eq_zero.1
            (intWrap_eq_zero _ (lt_of_le_of_lt hle hb) this.symm)
        constructor
        · intro h
          rw [hnil] at h
          cases h
        · rintro ⟨a, b⟩
          exact (hm1 v).2 ⟨a, b key (List.mem_cons_self _ _)⟩
      · rw [hstep, if_neg hc]
        obtain ⟨st', g1, g2, g3, g4, g5, g6⟩ := ih st1 hv' f2.db_eq f2.valid f2.card
        refine ⟨st', g1, g2, g3, g4, fun v h => ((hm1 v).1 (g5 v h)).1, fun hb v => ?_⟩
        rw [g6 (lt_of_le_of_lt hle hb), hm1]
        constructor
        · rintro ⟨⟨a, b⟩, c⟩
          refine ⟨a, fun k hk => ?_⟩
          rcases List.mem_cons.1 hk with e | hk
          · injection e with e
            rw [e]
            exact b
          · exact c k hk
        · rintro ⟨a, b⟩
          exact ⟨⟨a, b key (List.mem_cons_self _ _)⟩, fun k hk => b k (List.mem_cons_of_mem _ hk)⟩

/-- The first loop of DIFF algorithm 2: the temporary set holds the members of
the first set, and the loop over the sets goes on unless the counter reads
0. -/
theorem sdiffAlgo2_first (server : redisServer) (db : redisDb) (sets0 : sds)
    (rest : List (Option sds)) (o0 : robj) (h0 : db sets0 = some o0) (hv0 : setValid o0) :
    ∃ st1, sdiffAlgo2 server true (some sets0 :: rest) ⟨db, createIntsetObject, 0⟩
        = (if st1.cardinality = 0 then some st1 else sdiffAlgo2 server false rest st1) ∧
      st1.db = db ∧ setValid st1.dstset ∧
      st1.cardinality = intWrap (setMembers st1.dstset).length ∧
      (∀ v, v ∈ setMembers st1.dstset ↔ v ∈ dbMembers db sets0) ∧
      (setMembers st1.dstset).length = (dbMembers db sets0).length := by
  obtain ⟨st1, f1, f2⟩ := sunionFold_spec server db [] (setMembers o0) _ (sunionInv_init db)
  have hm1 : ∀ v, v ∈ setMembers st1.dstset ↔ v ∈ dbMembers db sets0 := by
    intro v
    rw [f2.mem]
    simp [dbMembers, h0]
  refine ⟨st1, ?_, f2.db_eq, f2.valid, f2.card, hm1, ?_⟩
  · rw [sdiffAlgo2]
    simp only [h0, if_true, setTypeForEach_spec o0 hv0, f1]
  · apply List.Perm.length_eq
    rw [List.perm_ext_iff_of_nodup f2.valid.members_nodup
      (by simpa [dbMembers, h0] using hv0.members_nodup)]
    exact hm1

/-- DIFF algorithm 2 leaves in the temporary set members of the first set:
when the first set has fewer than 2^32 members, those that no other set
holds. -/
theorem sdiffAlgo2_spec (server : redisServer) (db : redisDb) (sets0 : sds)
    (rest : List (Option sds)) (o0 : robj) (h0 : db sets0 = some o0) (hv0 : setValid o0)
    (hv : setsValid db rest) :
    ∃ st, sdiffAlgo2 server true (some sets0 :: rest) ⟨db, createIntsetObject, 0⟩ = some st ∧
      st.db = db ∧ setValid st.dstset ∧
      st.cardinality = intWrap (setMembers st.dstset).length ∧
      (∀ v, v ∈ setMembers st.dstset → v ∈ dbMembers db sets0) ∧
      ((dbMembers db sets0).length < 4294967296 →
        ∀ v, v ∈ setMembers st.dstset ↔
          v ∈ dbMembers db sets0 ∧ ∀ k, some k ∈ rest → v ∉ dbMembers db k) := by
  obtain ⟨st1, hstep, f1, f2, f3, hm1, hlen⟩ := sdiffAlgo2_first server db sets0 rest o0 h0 hv0
  by_cases hc : st1.cardinality = 0
  · rw [hstep, if_pos hc]
    refine ⟨st1, rfl, f1, f2, f3, fun v h => (hm1 v).1 h, fun hb v => ?_⟩
    have hnil : setMembers st1.dstset = [] := by
      have := f3
      rw [hc] at this
      exact List.length_eq_zero.1 (intWrap_eq_zero _ (by rw [hlen]; exact hb) this.symm)
    constructor
    · intro h
      rw [hnil] at h
      cases h
    · rintro ⟨a, _⟩
      exact (hm1 v).2 a
  · rw [hstep, if_neg hc]
    obtain ⟨st', g1, g2, g3, g4, g5, g6⟩ := sdiffAlgo2_rest server db rest st1 hv f1 f2 f3
    refine ⟨st', g1, g2, g3, g4, fun v h => (hm1 v).1 (g5 v h), fun hb v => ?_⟩
    rw [g6 (by rw [hlen]; exact hb), hm1]

theorem qsort_fst_perm {α : Type} (cmp : Nat → Nat → Int) (l : List (α × Nat)) :
    ((qsort cmp l).map (·.1)).Perm (l.map (·.1)) :=
  (List.perm_insertionSort _ l).map _

theorem setSizesOrNull_spec (db : redisDb) (sets : List (Option sds)) (hv : setsValid db sets) :
    ∃ sized, setSizesOrNull db sets = some sized ∧ sized.map (·.1) = sets := by
  induction sets with
  | nil => exact ⟨[], rfl, rfl⟩
  | cons s sets ih =>
    obtain ⟨sized, h1, h2⟩ := ih (fun k hk => hv k (List.mem_cons_of_mem _ hk))
    cases s with
    | none =>
      refine ⟨(none, 0) :: sized, ?_, by simp [h2]⟩
      simp [setSizesOrNull, h1]
    | some key =>
      obtain ⟨o, ho, hov⟩ := hv key (List.mem_cons_self _ _)
      refine ⟨(some key, (setMembers o).length) :: sized, ?_, by simp [h2]⟩
      simp [setSizesOrNull, ho, setTypeSize_spec o hov, h1]

theorem lookup_setsValid (db : redisDb) (keys : List sds) (hv : operandsValid db keys) :
    setsValid db (keys.map (fun k => if (db k).isSome then some k else none)) := by
  intro k hk
  obtain ⟨k', hk', e⟩ := List.mem_map.1 hk
  split at e
  · injection e with e
    subst e
    rename_i hs
    obtain ⟨o, ho⟩ := Option.isSome_iff_exists.1 hs
    exact ⟨o, ho, hv k' hk' o ho⟩
  · cases e

theorem mem_lookup (db : redisDb) (keys : List sds) (k : sds) :
    some k ∈ keys.map (fun k => if (db k).isSome then some k else none)
      ↔ k ∈ keys ∧ (db k).isSome = true := by
  rw [List.mem_map]
  constructor
  · rintro ⟨a, ha, e⟩
    split at e
    · injection e with e
      subst e
      rename_i hs
      exact ⟨ha, hs⟩
    · cases e
  · rintro ⟨a, b⟩
    exact ⟨k, a, by simp [b]⟩

theorem not_mem_dbMembers_lookup (db : redisDb) (keys : List sds) (v : sds) :
    (∀ k, some k ∈ keys.map (fun k => if (db k).isSome then some k else none)
        → v ∉ dbMembers db k) ↔ ∀ k ∈ keys, v ∉ dbMembers db k := by
  constructor
  · intro h k hk
    cases hs : db k with
    | none => simp [dbMembers, hs]
    | some o => exact h k ((mem_lookup db keys k).2 ⟨hk, by simp [hs]⟩)
  · intro h k hk
    exact h k ((mem_lookup db keys k).1 hk).1

/-- The state in which the computation of the difference ends, whichever
algorithm is chosen: the temporary set holds members of operand 0, and exactly
those that no later operand holds when operand 0 has fewer than 2^32 members
or is the only operand. -/
theorem sdiffCompute_spec (server : redisServer) (c : client) (key0 : sds) (tail : List sds)
    (dstkey : Option sds) (hv : operandsValid c.db (key0 :: tail)) :
    ∃ st, sunionDiffGenericCommand server c (key0 :: tail) dstkey SET_OP_DIFF
        = sunionDiffOutput c dstkey st ∧
      (∀ k, (dbMembers st.db k).Perm (dbMembers c.db k)) ∧
      (∀ k, st.db k = none ↔ c.db k = none) ∧
      setValid st.dstset ∧ st.cardinality = intWrap (setMembers st.dstset).length ∧
      (∀ v, v ∈ setMembers st.dstset → v ∈ dbMembers c.db key0) ∧
      ((dbMembers c.db key0).length < 4294967296 ∨ tail = [] →
        ∀ v, v ∈ setMembers st.dstset ↔
          v ∈ dbMembers c.db key0 ∧ ∀ k ∈ tail, v ∉ dbMembers c.db k) := by
  have hdu : SET_OP_DIFF ≠ SET_OP_UNION := by decide
  have hv' : operandsValid c.db tail := fun k hk => hv k (List.mem_cons_of_mem _ hk)
  have hsv := lookup_setsValid c.db tail hv'
  unfold sunionDiffGenericCommand
  rw [sunionDiffLookup_spec dstkey c (key0 :: tail) hv []]
  simp only [List.nil_append, List.map_cons]
  cases h0 : c.db key0 with
  | none =>
    refine ⟨⟨c.db, createIntsetObject, 0⟩, ?_, fun k => List.Perm.refl _, fun k => Iff.rfl,
      createIntsetObject_valid, by simp [setMembers, createIntsetObject, intWrap_zero],
      fun v => ?_, fun _ v => ?_⟩
    · simp [sunionDiffChoice, sunionDiffCompute, hdu]
    · simp [setMembers, createIntsetObject]
    · simp [setMembers, createIntsetObject, dbMembers, h0]
  | some o0 =>
    have hv0 := hv key0 (List.mem_cons_self _ _) o0 h0
    simp only [Option.isSome_some, if_true]
    generalize hrest : tail.map (fun k => if (c.db k).isSome then some k else none) = rest
    rw [hrest] at hsv
    have hmemrest : ∀ v, (∀ k, some k ∈ rest → v ∉ dbMembers c.db k)
        ↔ ∀ k ∈ tail, v ∉ dbMembers c.db k := by
      intro v
      rw [← hrest]
      exact not_mem_dbMembers_lookup c.db tail v
    have hsv0 : setsValid c.db (some key0 :: rest) := by
      intro k hk
      rcases List.mem_cons.1 hk with e | hk
      · injection e with e
        subst e
        exact ⟨o0, h0, hv0⟩
      · exact hsv k hk
    obtain ⟨sized, hs1, hs2⟩ := setSizesOrNull_spec c.db (some key0 :: rest) hsv0
    -- the two outcomes of the choice
    have a2 : ∃ st, sunionDiffCompute server SET_OP_DIFF 2 (some key0 :: rest)
          ⟨c.db, createIntsetObject, 0⟩ = some st ∧
        (∀ k, (dbMembers st.db k).Perm (dbMembers c.db k)) ∧
        (∀ k, st.db k = none ↔ c.db k = none) ∧
        setValid st.dstset ∧ st.cardinality = intWrap (setMembers st.dstset).length ∧
        (∀ v, v ∈ setMembers st.dstset → v ∈ dbMembers c.db key0) ∧
        ((dbMembers c.db key0).length < 4294967296 →
          ∀ v, v ∈ setMembers st.dstset ↔
            v ∈ dbMembers c.db key0 ∧ ∀ k ∈ tail, v ∉ dbMembers c.db k) := by
      obtain ⟨st, g1, g2, g3, g4, g5, g6⟩ := sdiffAlgo2_spec server c.db key0 rest o0 h0 hv0 hsv
      refine ⟨st, ?_, fun k => by rw [g2], fun k => by rw [g2], g3, g4, g5, fun hb v => ?_⟩
      · simp [sunionDiffCompute, hdu, g1]
      · rw [g6 hb, hmemrest]
    have a1 : ∀ rest' : List (Option sds), rest'.Perm rest →
        ∃ st, sunionDiffCompute server SET_OP_DIFF 1 (some key0 :: rest')
          ⟨c.db, createIntsetObject, 0⟩ = some st ∧
        (∀ k, (dbMembers st.db k).Perm (dbMembers c.db k)) ∧
        (∀ k, st.db k = none ↔ c.db k = none) ∧
        setValid st.dstset ∧ st.cardinality = intWrap (setMembers st.dstset).length ∧
        ∀ v, v ∈ setMembers st.dstset ↔
          v ∈ dbMembers c.db key0 ∧ ∀ k ∈ tail, v ∉ dbMembers c.db k := by
      intro rest' hp
      obtain ⟨st, g1, g2, g3, g4, g5⟩ := sdiffAlgo1_spec server
        (tail.filter (fun k => (c.db k).isSome)) c.db key0 rest' o0 h0 hv0
        (fun k hk _ => by
          have := hp.mem_iff.1 hk
          rw [← hrest] at this
          exact List.mem_filter.2 ((mem_lookup c.db tail k).1 this))
        (fun k hk => by
          have := List.mem_filter.1 hk
          obtain ⟨o, ho⟩ := Option.isSome_iff_exists.1 this.2
          exact ⟨o, ho, hv' k this.1 o ho⟩)
      refine ⟨st, ?_, fun k => g2.members k, fun k => ?_, g3, g4, fun v => ?_⟩
      · simp [sunionDiffCompute, hdu, g1]
      · by_cases hk : k ∈ tail.filter (fun k => (c.db k).isSome)
        · obtain ⟨a, b, e1, e2, _⟩ := g2.set k hk
          simp [e1, e2]
        · rw [g2.frame k hk]
      · rw [g5, ← hmemrest]
        exact ⟨fun h => ⟨h.1, fun k hk => h.2 k (hp.mem_iff.2 hk)⟩,
          fun h => ⟨h.1, fun k hk => h.2 k (hp.mem_iff.1 hk)⟩⟩
    simp only [sunionDiffChoice, if_true, hs1]
    by_cases hw : (sdiffWork ((sized.head?.map (·.2)).getD 0) sized).1 / 2
        ≤ (sdiffWork ((sized.head?.map (·.2)).getD 0) sized).2
    · obtain ⟨st, g1, g2, g3, g4, g5, g6⟩ :=
        a1 ((qsort qsortCompareSetsByRevCardinality sized.tail).map (·.1)) (by
          have := qsort_fst_perm qsortCompareSetsByRevCardinality sized.tail
          rw [List.map_tail, hs2] at this
          exact this)
      refine ⟨st, ?_, g2, g3, g4, g5, fun v h => ((g6 v).1 h).1, fun _ => g6⟩
      rw [if_pos hw]
      simp only [g1]
    · obtain ⟨st, g1, g2, g3, g4, g5, g6, g7⟩ := a2
      refine ⟨st, ?_, g2, g3, g4, g5, g6, fun hb => ?_⟩
      · rw [if_neg hw]
        simp only [g1]
      · rcases hb with hb | hb
        · exact g7 hb
        · exfalso
          apply hw
          subst hb
          simp only [List.map_nil] at hrest
          subst hrest
          match sized, hs2 with
          | [(k, m)], _ =>
            simp only [List.head?_cons, Option.map_some', Option.getD_some]
            cases k with
            | none => simp [sdiffWork]
            | some k =>
              simp only [sdiffWork, add_zero]
              omega

theorem sunionDiffOutput_reply (c : client) (st : sunionDiffState) (hv : setValid st.dstset)
    (hc : st.cardinality = intWrap (setMembers st.dstset).length) :
    sunionDiffOutput c none st = some ⟨st.db, c.reply ++
      .multibulklen (intWrap (setMembers st.dstset).length) ::
        (setMembers st.dstset).map .bulk⟩ := by
  simp only [sunionDiffOutput, setTypeForEach_spec _ hv, sunionDiffReply_fold, addReply, hc]
  simp

theorem sunionDiffOutput_store (c : client) (st : sunionDiffState) (dstkey : sds)
    (hv : setValid st.dstset) :
    ∃ c', sunionDiffOutput c (some dstkey) st = some c' ∧
      dbMembers c'.db dstkey = setMembers st.dstset ∧
      (∀ k, k ≠ dstkey → c'.db k = st.db k) ∧
      (setMembers st.dstset = [] → c'.db dstkey = none) ∧
      c'.reply = c.reply ++ [if setMembers st.dstset = [] then .czero
        else .longlong (setMembers st.dstset).length] := by
  simp only [sunionDiffOutput, setTypeSize_spec _ hv]
  by_cases hpos : 0 < (setMembers st.dstset).length
  · have hne : setMembers st.dstset ≠ [] := by
      intro h; rw [h] at hpos; simp at hpos
    refine ⟨addReply { c with db := dbStore (dbDelete st.db dstkey).2 dstkey st.dstset }
      (.longlong (setMembers st.dstset).length), ?_, ?_, ?_, ?_, ?_⟩
    · simp [hpos, dbAdd, dbDelete]
    · simp [addReply, dbMembers, dbStore]
    · intro k hk
      simp [addReply, dbStore, dbDelete, hk]
    · intro h
      exact absurd h hne
    · simp [addReply, hne]
  · have he : setMembers st.dstset = [] := by
      cases hm : setMembers st.dstset with
      | nil => rfl
      | cons a l => rw [hm] at hpos; simp at hpos
    refine ⟨addReply { c with db := (dbDelete st.db dstkey).2 } .czero, ?_, ?_, ?_, ?_, ?_⟩
    · simp [hpos]
    · simp [addReply, dbMembers, dbDelete, he]
    · intro k hk
      simp [addReply, dbDelete, hk]
    · intro _
      simp [addReply, dbDelete]
    · simp [addReply, he]

/-- SDIFF: the reply is the counter, the number of elements as an `int`,
followed by the elements, each once; the elements are members of operand 0,
and exactly those that no later operand holds when operand 0 has fewer than
2^32 members or is the only operand. -/
theorem sdiff_reply (server : redisServer) (c : client) (key0 : sds) (tail : List sds)
    (hv : operandsValid c.db (key0 :: tail)) :
    ∃ (elems : List sds) (c' : client),
      sunionDiffGenericCommand server c (key0 :: tail) none SET_OP_DIFF = some c' ∧
      c'.reply = c.reply ++ .multibulklen (intWrap elems.length) :: elems.map .bulk ∧
      elems.Nodup ∧
      (∀ v, v ∈ elems → v ∈ dbMembers c.db key0) ∧
      ((dbMembers c.db key0).length < 4294967296 ∨ tail = [] →
        ∀ v, v ∈ elems ↔ v ∈ dbMembers c.db key0 ∧ ∀ k ∈ tail, v ∉ dbMembers c.db k) ∧
      ∀ k, (dbMembers c'.db k).Perm (dbMembers c.db k) := by
  obtain ⟨st, h1, h2, _, h3, h4, h5, h6⟩ := sdiffCompute_spec server c key0 tail none hv
  refine ⟨setMembers st.dstset, ⟨st.db, c.reply ++
    .multibulklen (intWrap (setMembers st.dstset).length) :: (setMembers st.dstset).map .bulk⟩,
    ?_, rfl, h3.members_nodup, h5, h6, h2⟩
  rw [h1, sunionDiffOutput_reply c st h3 h4]

/-- SDIFFSTORE: the destination key holds the result, members of operand 0
(exactly those that no later operand holds when operand 0 has fewer than 2^32
members or is the only operand), or is removed when the result is empty. -/
theorem sdiff_store (server : redisServer) (c : client) (key0 : sds) (tail : List sds)
    (dstkey : sds) (hv : operandsValid c.db (key0 :: tail)) :
    ∃ c', sunionDiffGenericCommand server c (key0 :: tail) (some dstkey) SET_OP_DIFF = some c' ∧
      (dbMembers c'.db dstkey).Nodup ∧
      (∀ v, v ∈ dbMembers c'.db dstkey → v ∈ dbMembers c.db key0) ∧
      ((dbMembers c.db key0).length < 4294967296 ∨ tail = [] →
        ∀ v, v ∈ dbMembers c'.db dstkey ↔
          v ∈ dbMembers c.db key0 ∧ ∀ k ∈ tail, v ∉ dbMembers c.db k) ∧
      (∀ k, k ≠ dstkey → (dbMembers c'.db k).Perm (dbMembers c.db k)) ∧
      (dbMembers c'.db dstkey = [] → c'.db dstkey = none) ∧
      c'.reply = c.reply ++ [if dbMembers c'.db dstkey = [] then .czero
        else .longlong (dbMembers c'.db dstkey).length] := by
  obtain ⟨st, h1, h2, _, h3, h4, h5, h6⟩ := sdiffCompute_spec server c key0 tail (some dstkey) hv
  obtain ⟨c', g1, g2, g3, g4, g5⟩ := sunionDiffOutput_store c st dstkey h3
  refine ⟨c', by rw [h1, g1], ?_, ?_, ?_, ?_, ?_, ?_⟩
  · rw [g2]; exact h3.members_nodup
  · intro v; rw [g2]; exact h5 v
  · intro hb v; rw [g2]; exact h6 hb v
  · intro k hk
    have := h2 k
    simpa [dbMembers, g3 k hk] using this
  · rw [g2]; exact g4
  · rw [g2]; exact g5

/-- C12: for a valid set `A` stored at a key, SUNION of the key given twice,
SINTER of the key alone and SDIFF of the key alone each return and reply the
members of `A`, each once; SUNION and SDIFF announce them with their counter,
the number of elements as the `int` it is kept in. -/
theorem set_algebra_identities (server : redisServer) (c : client) (key : sds) (A : robj)
    (hk : c.db key = some A) (hA : setValid A) :
    (∃ elems : List sds,
      sunionDiffGenericCommand server c [key, key] none SET_OP_UNION
        = some { c with reply := c.reply ++
            .multibulklen (intWrap elems.length) :: elems.map .bulk } ∧
      elems.Perm (setMembers A)) ∧
    (∃ (elems : List sds) (c' : client),
      sinterGenericCommand server c [key] none = some c' ∧
      c'.reply = c.reply ++ .multibulklen elems.length :: elems.map .bulk ∧
      elems.Perm (setMembers A)) ∧
    (∃ (elems : List sds) (c' : client),
      sunionDiffGenericCommand server c [key] none SET_OP_DIFF = some c' ∧
      c'.reply = c.reply ++ .multibulklen (intWrap elems.length) :: elems.map .bulk ∧
      elems.Perm (setMembers A)) := by
  have hm : dbMembers c.db key = setMembers A := by simp [dbMembers, hk]
  have hv1 : operandsValid c.db [key] := by
    intro k hk' o ho
    rw [List.mem_singleton.1 hk', hk] at ho
    injection ho with ho
    exact ho ▸ hA
  have hv2 : operandsValid c.db [key, key] := by
    intro k hk' o ho
    have : k = key := by simpa using hk'
    rw [this, hk] at ho
    injection ho with ho
    exact ho ▸ hA
  have he : operandsExist c.db [key] := by
    intro k hk'
    rw [List.mem_singleton.1 hk', hk]
    rfl
  refine ⟨?_, ?_, ?_⟩
  · obtain ⟨elems, h1, h2, h3⟩ := sunion_reply server c [key, key] hv2
    refine ⟨elems, h1, ?_⟩
    rw [List.perm_ext_iff_of_nodup h2 hA.members_nodup]
    intro v
    rw [h3, ← hm]
    simp
  · obtain ⟨elems, c', h1, h2, h3, h4, _⟩ := sinter_reply server c [key] (by simp) hv1 he
    refine ⟨elems, c', h1, h2, ?_⟩
    rw [List.perm_ext_iff_of_nodup h3 hA.members_nodup]
    intro v
    rw [h4, ← hm]
    simp
  · obtain ⟨elems, c', h1, h2, h3, _, h4, _⟩ := sdiff_reply server c key [] hv1
    refine ⟨elems, c', h1, h2, ?_⟩
    rw [List.perm_ext_iff_of_nodup h3 hA.members_nodup]
    intro v
    rw [h4 (Or.inr rfl), ← hm]
    simp

theorem set_algebra_identities_witness :
    diffDb [98] = some ⟨OBJ_SET, OBJ_ENCODING_INTSET, .intset (intRange 50 11)⟩ ∧
    setValid ⟨OBJ_SET, OBJ_ENCODING_INTSET, .intset (intRange 50 11)⟩ ∧
    (∃ (elems : List sds) (c' : client),
      sinterGenericCommand defaultServer ⟨diffDb, []⟩ [[98]] none = some c' ∧
      c'.reply = [] ++ .multibulklen elems.length :: elems.map .bulk ∧
      elems.Perm (setMembers ⟨OBJ_SET, OBJ_ENCODING_INTSET, .intset (intRange 50 11)⟩)) :=
  ⟨rfl, intset_obj_valid _ (by decide) (by decide),
    (set_algebra_identities defaultServer ⟨diffDb, []⟩ [98] _ rfl
      (intset_obj_valid _ (by decide) (by decide))).2.1⟩

/-! ## Random elements -/

theorem randLoop_inv {σ : Type} (body : σ → Nat → Option σ) (rnd : Nat → Nat) :
    ∀ (n i : Nat) (s : σ) (I : Nat → σ → Prop),
      (∀ k s, k < n → I k s → ∃ s', body s (rnd (i + k)) = some s' ∧ I (k + 1) s') →
      I 0 s → ∃ s', randLoop body rnd n i s = some s' ∧ I n s' := by
  intro n
  induction n with
  | zero =>
    intro i s I _ h0
    exact ⟨s, rfl, h0⟩
  | succ n ih =>
    intro i s I hstep h0
    obtain ⟨s1, h1, h2⟩ := hstep 0 s (Nat.succ_pos _) h0
    rw [Nat.add_zero] at h1
    obtain ⟨s', g1, g2⟩ := ih (i + 1) s1 (fun k s => I (k + 1) s)
      (fun k s hk hI => by
        have := hstep (k + 1) s (by omega) hI
        rwa [show i + (k + 1) = i + 1 + k by omega] at this) h2
    exact ⟨s', by rw [randLoop, h1]; exact g1, g2⟩

theorem getElem?_mod_length {α : Type} (l : List α) (r : Nat) (h : l.length ≠ 0) :
    ∃ x, l[r % l.length]? = some x ∧ x ∈ l := by
  have hlt : r % l.length < l.length := Nat.mod_lt _ (Nat.pos_of_ne_zero h)
  exact ⟨l[r % l.length], List.getElem?_eq_getElem hlt, List.getElem_mem hlt⟩

theorem dictGetRandomKey_spec (d : dict) (r : Nat) (h : d.wf) (hne : dictSize d ≠ 0) :
    ∃ de d', dictGetRandomKey d r = (some de, d') ∧ dict.reorg d d' ∧ de ∈ dictEntries d' := by
  have hre := dictStepIf_reorg d h
  unfold dictGetRandomKey
  rw [if_neg hne]
  simp only
  generalize (if dictIsRehashing d = true then dictRehashStep d else d) = d1 at hre
  have hs : dictSize d1 = (dictEntries d1).length := hre.wf.size_eq
  have hne1 : (dictEntries d1).length ≠ 0 := by
    rw [← hs, hre.size_same h]
    exact hne
  obtain ⟨x, hx1, hx2⟩ := getElem?_mod_length (dictEntries d1) r hne1
  rw [hs, hx1]
  exact ⟨x, d1, rfl, hre, hx2⟩

theorem dictGetRandomKey_empty (d : dict) (r : Nat) (h : dictSize d = 0) :
    dictGetRandomKey d r = (none, d) := by
  simp [dictGetRandomKey, h]

theorem setSame_of_reorg {o : robj} {d d' : dict} (hv : setValid o)
    (henc : o.encoding = OBJ_ENCODING_HT) (hp : o.ptr = .dict d) (hre : dict.reorg d d') :
    setSame o { o with ptr := .dict d' } := by
  refine ⟨⟨hv.1, henc, hre.wf⟩, ?_⟩
  simp only [setMembers, hp, dictKeys]
  exact hre.perm.map _

/-- `setTypeRandomElement` on a valid set that is not empty: the element is a
member, and the set is left with the same members. -/
theorem setTypeRandomElement_spec (o : robj) (hv : setValid o) (hne : setMembers o ≠ [])
    (r : Nat) :
    ∃ (x : Nat × Option sds × Int) (o' : robj),
      setTypeRandomElement o r = some (x.1, x.2.1, x.2.2, o') ∧ setElemOk x ∧
      x.1 = o.encoding ∧ setElemBytes x ∈ setMembers o ∧ setSame o o' ∧
      o'.encoding = o.encoding ∧
      (o.encoding = OBJ_ENCODING_INTSET → o' = o ∧ ∃ is, o.ptr = .intset is ∧ x.2.2 ∈ is) := by
  have hnee : OBJ_ENCODING_INTSET ≠ OBJ_ENCODING_HT := by decide
  rcases hv.set_encoding with henc | henc
  · obtain ⟨is, hp, hs, hr⟩ := setValid_intset hv henc
    have hlen : is.length ≠ 0 := by
      intro hc
      apply hne
      simp [setMembers, hp, List.length_eq_zero.1 hc]
    obtain ⟨ll, h1, h2⟩ := getElem?_mod_length is r hlen
    refine ⟨(OBJ_ENCODING_INTSET, none, ll), o, ?_, Or.inl ⟨rfl, hr ll h2⟩, henc.symm, ?_,
      setSame.set_refl hv, rfl, fun _ => ⟨rfl, is, hp, h2⟩⟩
    · simp [setTypeRandomElement, henc, hnee, hp, intsetRandom, intsetLen, intsetGet, hlen, h1]
    · simp only [setElemBytes, if_true, setMembers, hp]
      exact List.mem_map_of_mem _ h2
  · obtain ⟨d, hp, hw⟩ := setValid_dict hv henc
    have hsz : dictSize d ≠ 0 := by
      intro hc
      apply hne
      have : (dictEntries d).length = 0 := by rw [← hw.size_eq]; exact hc
      simp [setMembers, hp, dictKeys, List.length_eq_zero.1 this]
    obtain ⟨de, d', h1, h2, h3⟩ := dictGetRandomKey_spec d r hw hsz
    refine ⟨(OBJ_ENCODING_HT, some de.key, -123456789), { o with ptr := .dict d' }, ?_,
      Or.inr ⟨rfl, rfl⟩, henc.symm, ?_, setSame_of_reorg hv henc hp h2, rfl,
      fun hc => absurd (hc.symm.trans henc) hnee⟩
    · simp [setTypeRandomElement, henc, hp, h1]
    · simp only [setElemBytes, if_neg hnee.symm, Option.getD_some, setMembers, hp]
      exact (h2.mem_keys _).1 ((mem_dictKeys _).2 ⟨de, h3, rfl⟩)

/-- The removal of a number from an intset encoded set by `intsetRemove` is
what `setTypeRemove` does for its decimal string. -/
theorem setTypeRemove_intset (server : redisServer) (o : robj) (is : intset) (ll : Int)
    (henc : o.encoding = OBJ_ENCODING_INTSET) (hp : o.ptr = .intset is)
    (h1 : LLONG_MIN ≤ ll) (h2 : ll ≤ LLONG_MAX) :
    ∃ r, setTypeRemove server o (sdsfromlonglong ll)
      = some (r, { o with ptr := .intset (intsetRemove is ll).1 }) := by
  have hnee : OBJ_ENCODING_INTSET ≠ OBJ_ENCODING_HT := by decide
  simp only [setTypeRemove, henc, hnee, if_false, if_true, hp, isSdsRepresentableAsLongLong,
    string2ll_sdsfromlonglong ll h1 h2]
  split
  · exact ⟨1, rfl⟩
  · exact ⟨0, rfl⟩

/-- One iteration of case 2 of SPOP: a member is sent and removed. -/
theorem spopRemoveBody_spec (server : redisServer) (c : client) (s : robj) (r : Nat)
    (hv : setValid s) (hne : setMembers s ≠ []) :
    ∃ v s', spopRemoveBody server (c, s) r = some (addReply c (.bulk v), s') ∧
      v ∈ setMembers s ∧ setValid s' ∧
      (setMembers s').Perm ((setMembers s).filter (fun x => decide (x ≠ v))) := by
  have hnee : OBJ_ENCODING_INTSET ≠ OBJ_ENCODING_HT := by decide
  obtain ⟨x, o1, h1, h2, h3, h4, h5, h6, h7⟩ := setTypeRandomElement_spec s hv hne r
  rcases hv.set_encoding with henc | henc
  · obtain ⟨e1, is, hp, hin⟩ := h7 henc
    rw [e1] at h1
    have hx1 : x.1 = OBJ_ENCODING_INTSET := h3.trans henc
    have hb : setElemBytes x = sdsfromlonglong x.2.2 := by simp [setElemBytes, hx1]
    have hrange : LLONG_MIN ≤ x.2.2 ∧ x.2.2 ≤ LLONG_MAX := by
      rcases h2 with ⟨_, a, b⟩ | ⟨a, _⟩
      · exact ⟨a, b⟩
      · exact absurd (hx1.symm.trans a) hnee
    obtain ⟨ret, g⟩ := setTypeRemove_intset server s is x.2.2 henc hp hrange.1 hrange.2
    obtain ⟨o', g1, g2, g3, _⟩ := setTypeRemove_spec server s hv (sdsfromlonglong x.2.2)
    rw [g] at g1
    injection g1 with g1
    injection g1 with _ g1
    refine ⟨sdsfromlonglong x.2.2, { s with ptr := .intset (intsetRemove is x.2.2).1 }, ?_,
      hb ▸ h4, g1 ▸ g2, g1 ▸ g3⟩
    simp only [spopRemoveBody, h1, hx1, if_true, hp]
  · have hx1 : x.1 = OBJ_ENCODING_HT := h3.trans henc
    obtain ⟨ele, hele⟩ : ∃ ele, x.2.1 = some ele := by
      rcases h2 with ⟨a, _⟩ | ⟨_, a⟩
      · exact absurd (a.symm.trans hx1) hnee
      · exact Option.isSome_iff_exists.1 a
    have hb : setElemBytes x = ele := by simp [setElemBytes, hx1, hnee.symm, hele]
    obtain ⟨o', g1, g2, g3, _⟩ := setTypeRemove_spec server o1 h5.valid ele
    refine ⟨ele, o', ?_, hb ▸ h4, g2, ?_⟩
    · simp only [spopRemoveBody, h1, hx1, if_neg hnee.symm, hele, g1]
    · exact g3.trans (h5.perm.filter _)

/-! ## SPOP with a count -/

theorem perm_cons_filter_ne (l : List sds) (hn : l.Nodup) (v : sds) (hv : v ∈ l) :
    l.Perm (v :: l.filter (fun x => decide (x ≠ v))) := by
  rw [List.perm_ext_iff_of_nodup hn]
  · intro a
    simp only [List.mem_cons, List.mem_filter, ne_eq, decide_not, Bool.not_eq_true',
      decide_eq_false_iff_not]
    constructor
    · intro ha
      by_cases hav : a = v
      · exact Or.inl hav
      · exact Or.inr ⟨ha, hav⟩
    · rintro (h | h)
      · exact h ▸ hv
      · exact h.1
  · refine List.nodup_cons.2 ⟨?_, hn.filter _⟩
    simp

theorem setTypeCreate_valid (server : redisServer) (value : sds) :
    setValid (setTypeCreate server value) ∧ setMembers (setTypeCreate server value) = [] := by
  unfold setTypeCreate
  split
  · exact ⟨createIntsetObject_valid, rfl⟩
  · exact ⟨⟨rfl, rfl, dictCreate_wf _⟩, rfl⟩

/-- Case 2 of SPOP: the elements sent and the members left are the members
the set had. -/
theorem spopCase2_spec (server : redisServer) (rnd : Nat → Nat) (c : client) (key : sds)
    (S : robj) (count : Nat) (hv : setValid S) (hlt : count ≤ (setMembers S).length) :
    ∃ elems s', spopCase2 server rnd c key S count
        = some ⟨dbStore c.db key s', c.reply ++ elems.map .bulk⟩ ∧
      elems.length = count ∧ setValid s' ∧ (elems ++ setMembers s').Perm (setMembers S) := by
  obtain ⟨st, h1, elems, h2, h3, h4, h5⟩ := randLoop_inv (spopRemoveBody server) rnd count 0
    (c, S) (fun k st => ∃ elems : List sds, st.1 = ⟨c.db, c.reply ++ elems.map .bulk⟩ ∧
      elems.length = k ∧ setValid st.2 ∧ (elems ++ setMembers st.2).Perm (setMembers S))
    (fun k st hk hI => by
      obtain ⟨elems, e1, e2, e3, e4⟩ := hI
      obtain ⟨c1, s1⟩ := st
      simp only at e1 e3 e4
      have hne : setMembers s1 ≠ [] := by
        intro hc
        have := e4.length_eq
        rw [hc, List.append_nil] at this
        omega
      obtain ⟨v, s', g1, g2, g3, g4⟩ := spopRemoveBody_spec server c1 s1 (rnd (0 + k)) e3 hne
      refine ⟨_, g1, elems ++ [v], ?_, by simp [e2], g3, ?_⟩
      · simp [addReply, e1]
      · have hp := perm_cons_filter_ne (setMembers s1) e3.members_nodup v g2
        have : (elems ++ [v] ++ setMembers s').Perm (elems ++ setMembers s1) := by
          rw [List.append_assoc]
          exact List.Perm.append_left _ ((List.Perm.cons v g4).trans hp.symm)
        exact this.trans e4)
    ⟨[], by simp, rfl, hv, by simp⟩
  obtain ⟨c1, s1⟩ := st
  simp only at h2 h4 h5
  refine ⟨elems, s1, ?_, h3, h4, h5⟩
  simp only [spopCase2, h1, h2]

theorem spopKeepBody_spec (server : redisServer) (s : robj) (newset : Option robj) (r : Nat)
    (hv : setValid s) (hne : setMembers s ≠ [])
    (hn : ∀ n, newset = some n → setValid n ∧ ∀ v ∈ setMembers s, v ∉ setMembers n) :
    ∃ v s' n', spopKeepBody server (s, newset) r = some (s', some n') ∧
      v ∈ setMembers s ∧ setValid s' ∧ setValid n' ∧
      (setMembers s').Perm ((setMembers s).filter (fun x => decide (x ≠ v))) ∧
      (setMembers n').Perm (v :: (newset.map setMembers).getD []) := by
  have hnee : OBJ_ENCODING_INTSET ≠ OBJ_ENCODING_HT := by decide
  obtain ⟨x, o1, h1, h2, h3, h4, h5, h6, _⟩ := setTypeRandomElement_spec s hv hne r
  have hele : (if x.1 = OBJ_ENCODING_INTSET then some (sdsfromlonglong x.2.2) else x.2.1)
      = some (setElemBytes x) := by
    rcases h2 with ⟨a, _⟩ | ⟨a, b⟩
    · simp [setElemBytes, a]
    · obtain ⟨e, he⟩ := Option.isSome_iff_exists.1 b
      simp [setElemBytes, a, hnee.symm, he]
  have hn0 : setValid (newset.getD (setTypeCreate server (setElemBytes x))) ∧
      setElemBytes x ∉ setMembers (newset.getD (setTypeCreate server (setElemBytes x))) ∧
      setMembers (newset.getD (setTypeCreate server (setElemBytes x)))
        = (newset.map setMembers).getD [] := by
    cases newset with
    | none =>
      have := setTypeCreate_valid server (setElemBytes x)
      simp [this.1, this.2]
    | some n =>
      have := hn n rfl
      exact ⟨this.1, this.2 _ h4, rfl⟩
  obtain ⟨n', a1, a2, _, _⟩ := setTypeAdd_spec server _ hn0.1 (setElemBytes x)
  rw [if_neg hn0.2.1] at a1
  have a3 := a2.2
  rw [if_neg hn0.2.1, hn0.2.2] at a3
  obtain ⟨s', g1, g2, g3, _⟩ := setTypeRemove_spec server o1 h5.valid (setElemBytes x)
  refine ⟨setElemBytes x, s', n', ?_, h4, g2, a2.1, g3.trans (h5.perm.filter _), a3⟩
  simp only [spopKeepBody, h1, hele, a1, g1]

theorem spopReply_fold (l : List (Nat × Option sds × Int)) (hl : ∀ x ∈ l, setElemOk x)
    (c : client) :
    foldOpt spopReplyBody l c
      = some { c with reply := c.reply ++ (l.map setElemBytes).map .bulk } := by
  have hnee : OBJ_ENCODING_INTSET ≠ OBJ_ENCODING_HT := by decide
  induction l generalizing c with
  | nil => simp [foldOpt]
  | cons x l ih =>
    have hb : spopReplyBody c x = some (addReply c (.bulk (setElemBytes x))) := by
      rcases hl x (List.mem_cons_self _ _) with ⟨a, _⟩ | ⟨a, b⟩
      · simp [spopReplyBody, setElemBytes, a]
      · obtain ⟨e, he⟩ := Option.isSome_iff_exists.1 b
        simp [spopReplyBody, setElemBytes, a, hnee.symm, he]
    simp only [foldOpt, hb]
    rw [ih (fun y hy => hl y (List.mem_cons_of_mem _ hy))]
    simp [addReply]

/-- Case 3 of SPOP: the members moved to the new set and the elements sent
are the members the set had. -/
theorem spopCase3_spec (server : redisServer) (rnd : Nat → Nat) (c : client) (key : sds)
    (S : robj) (remaining : Nat) (hk : (c.db key).isSome = true) (hv : setValid S)
    (hpos : 0 < remaining) (hle : remaining ≤ (setMembers S).length) :
    ∃ elems s', spopCase3 server rnd c key S remaining
        = some ⟨dbStore c.db key s', c.reply ++ elems.map .bulk⟩ ∧
      (setMembers s').length = remaining ∧ setValid s' ∧
      (elems ++ setMembers s').Perm (setMembers S) := by
  obtain ⟨st, h1, h2, h5, h3, h4⟩ := randLoop_inv (spopKeepBody server) rnd remaining 0
    (S, none) (fun k st => setValid st.1 ∧
      (∀ n, st.2 = some n → setValid n) ∧
      (((st.2.map setMembers).getD []).length = k ∧ (0 < k → st.2.isSome = true)) ∧
      (((st.2.map setMembers).getD []) ++ setMembers st.1).Perm (setMembers S))
    (fun k st hk hI => by
      obtain ⟨e1, e2, e3, e4⟩ := hI
      obtain ⟨s1, n1⟩ := st
      simp only at e1 e2 e3 e4
      have hne : setMembers s1 ≠ [] := by
        intro hc
        have := e4.length_eq
        rw [hc, List.append_nil] at this
        omega
      have hnd : (((n1.map setMembers).getD []) ++ setMembers s1).Nodup :=
        e4.nodup_iff.2 hv.members_nodup
      obtain ⟨v, s', n', g1, g2, g3, g4, g5, g6⟩ := spopKeepBody_spec server s1 n1 (rnd (0 + k))
        e1 hne (fun n hn => ⟨e2 n hn, fun w hw hc => by
          rw [hn] at hnd
          exact (List.nodup_append.1 hnd).2.2 hc hw⟩)
      refine ⟨_, g1, g3, fun n hn => by injection hn with hn; exact hn ▸ g4,
        ⟨by simp [g6.length_eq, e3.1], fun _ => rfl⟩, ?_⟩
      simp only [Option.map_some', Option.getD_some]
      have hp := perm_cons_filter_ne (setMembers s1) e1.members_nodup v g2
      refine List.Perm.trans ?_ e4
      refine (List.Perm.append g6 g5).trans ?_
      rw [List.cons_append]
      exact List.perm_middle.symm.trans (List.Perm.append_left _ hp.symm))
    ⟨hv, (fun n hn => by cases hn), ⟨rfl, (fun h => absurd h (by omega))⟩, (by simp)⟩
  obtain ⟨s1, n1⟩ := st
  simp only at h2 h3 h4 h5
  obtain ⟨n, hn⟩ := Option.isSome_iff_exists.1 (h3.2 hpos)
  subst hn
  simp only [Option.map_some', Option.getD_some] at h3 h4
  obtain ⟨si, i1, i2, _⟩ := setTypeInitIterator_spec s1 h2
  refine ⟨setMembers s1, n, ?_, h3.1, h5 n rfl, ?_⟩
  · simp only [spopCase3, h1, dbOverwrite, hk, if_true, i1, setTypeSize_spec s1 h2]
    rw [whileNext_eq_foldOpt _ _ si (setElems s1) i2 _ _
      (by rw [setElems_length]; exact Nat.lt_succ_self _),
      spopReply_fold _ (setElems_ok s1 h2), setElems_bytes]
  · exact List.perm_append_comm.trans h4

/-! ## SRANDMEMBER with a count -/

/-- One iteration of case 1 of SRANDMEMBER: a member is sent, the set keeps
its members. -/
theorem srandRepeatBody_spec (c : client) (s : robj) (r : Nat) (hv : setValid s)
    (hne : setMembers s ≠ []) :
    ∃ v s', srandRepeatBody (c, s) r = some (addReply c (.bulk v), s') ∧
      v ∈ setMembers s ∧ setSame s s' := by
  have hnee : OBJ_ENCODING_INTSET ≠ OBJ_ENCODING_HT := by decide
  obtain ⟨x, o1, h1, h2, h3, h4, h5, _, _⟩ := setTypeRandomElement_spec s hv hne r
  refine ⟨setElemBytes x, o1, ?_, h4, h5⟩
  rcases h2 with ⟨a, _⟩ | ⟨a, b⟩
  · simp [srandRepeatBody, h1, setElemBytes, a]
  · obtain ⟨e, he⟩ := Option.isSome_iff_exists.1 b
    simp [srandRepeatBody, h1, setElemBytes, a, hnee.symm, he]

/-- Case 1 of SRANDMEMBER: `count` members are sent, repetitions allowed. -/
theorem srandCase1_spec (rnd : Nat → Nat) (c : client) (key : sds) (S : robj) (count : Nat)
    (hv : setValid S) (hne : setMembers S ≠ []) :
    ∃ (elems : List sds) (s' : robj), srandCase1 rnd c key S count
        = some ⟨dbStore c.db key s', c.reply ++ .multibulklen (count : Nat) :: elems.map .bulk⟩ ∧
      elems.length = count ∧ (∀ v ∈ elems, v ∈ setMembers S) ∧ setSame S s' := by
  obtain ⟨st, h1, elems, h2, h3, h4, h5⟩ := randLoop_inv srandRepeatBody rnd count 0
    (addReply c (.multibulklen (count : Nat)), S)
    (fun k st => ∃ elems : List sds,
      st.1 = ⟨c.db, c.reply ++ .multibulklen (count : Nat) :: elems.map .bulk⟩ ∧
      elems.length = k ∧ (∀ v ∈ elems, v ∈ setMembers S) ∧ setSame S st.2)
    (fun k st _ hI => by
      obtain ⟨elems, e1, e2, e3, e4⟩ := hI
      obtain ⟨c1, s1⟩ := st
      simp only at e1 e4
      have hne1 : setMembers s1 ≠ [] := by
        intro hc
        have := e4.perm.length_eq
        rw [hc] at this
        exact hne (List.length_eq_zero.1 this.symm)
      obtain ⟨v, s', g1, g2, g3⟩ := srandRepeatBody_spec c1 s1 (rnd (0 + k)) e4.valid hne1
      refine ⟨_, g1, elems ++ [v], ?_, by simp [e2], ?_, e4.trans_set g3⟩
      · simp [addReply, e1]
      · intro w hw
        rcases List.mem_append.1 hw with hw | hw
        · exact e3 w hw
        · rw [List.mem_singleton.1 hw]
          exact (e4.mem_iff v).1 g2)
    ⟨[], by simp [addReply], rfl, by simp, setSame.set_refl hv⟩
  obtain ⟨c1, s1⟩ := st
  simp only at h2 h5
  refine ⟨elems, s1, ?_, h3, h4, h5⟩
  simp only [srandCase1, h1, h2]

theorem dictKeys_put {d d' : dict} {k : sds} {v : Option sds} (h : dict.isPut d d' ⟨k, v⟩)
    (hk : k ∉ dictKeys d) : (dictKeys d').Perm (k :: dictKeys d) := by
  have := h.perm
  rw [filter_key_ne_eq_self k (dictEntries d)
    (fun e he hc => hk ((mem_dictKeys k).2 ⟨e, he, hc⟩))] at this
  exact this.map (·.key)

theorem dictKeys_del {d d' : dict} {k : sds} (h : dict.isDel d d' k) :
    (dictKeys d').Perm ((dictKeys d).filter (fun x => decide (x ≠ k))) := by
  have := h.perm.map (·.key)
  refine this.trans ?_
  rw [dictKeys, List.filter_map]
  rfl

/-- The copy loop of case 3 of SRANDMEMBER fills an empty dictionary with the
members of the set. -/
theorem srandCopy_spec (server : redisServer) (S : robj) (hv : setValid S) (d0 : dict)
    (h0 : d0.wf) (he : dictKeys d0 = []) :
    ∃ d, foldOpt (srandCopyBody server) (setElems S) d0 = some d ∧ d.wf ∧
      (dictKeys d).Perm (setMembers S) := by
  have hnee : OBJ_ENCODING_INTSET ≠ OBJ_ENCODING_HT := by decide
  obtain ⟨d, h1, h2, h3⟩ := foldOpt_inv (srandCopyBody server) (setElems S)
    (fun done d => d.wf ∧ (dictKeys d).Perm (done.map setElemBytes))
    (fun done x rest d hl hI => by
      obtain ⟨w, p⟩ := hI
      have hx : setElemOk x := setElems_ok S hv x (by rw [hl]; simp)
      have hele : (if x.1 = OBJ_ENCODING_INTSET then some (sdsfromlonglong x.2.2) else x.2.1)
          = some (setElemBytes x) := by
        rcases hx with ⟨a, _⟩ | ⟨a, b⟩
        · simp [setElemBytes, a]
        · obtain ⟨e, he⟩ := Option.isSome_iff_exists.1 b
          simp [setElemBytes, a, hnee.symm, he]
      have hnd : ((done ++ x :: rest).map setElemBytes).Nodup := by
        rw [← hl, setElems_bytes]
        exact hv.members_nodup
      have hnk : setElemBytes x ∉ dictKeys d := by
        intro hc
        have hc' := p.mem_iff.1 hc
        rw [List.map_append, List.map_cons] at hnd
        exact (List.nodup_append.1 hnd).2.2 hc' (List.mem_cons_self _ _)
      obtain ⟨a1, a2⟩ := (dictAdd_spec server.dict_can_resize d (setElemBytes x) none w).2 hnk
      refine ⟨(dictAdd server.dict_can_resize d (setElemBytes x) none).2, ?_, a2.wf, ?_⟩
      · simp only [srandCopyBody, hele, a1, if_true]
      · refine (dictKeys_put a2 hnk).trans ?_
        rw [List.map_append, List.map_cons, List.map_nil]
        exact (List.Perm.cons _ p).trans (List.perm_append_singleton _ _).symm)
    d0 ⟨h0, by rw [he]; exact List.Perm.refl _⟩
  refine ⟨d, h1, h2, ?_⟩
  rw [← setElems_bytes]
  exact h3

/-- The removal loop of case 3 of SRANDMEMBER: `n` keys are removed. -/
theorem srandDrop_spec (rnd : Nat → Nat) (n : Nat) (d : dict) (h : d.wf)
    (hn : n ≤ (dictKeys d).length) :
    ∃ d', randLoop srandDropBody rnd n 0 d = some d' ∧ d'.wf ∧
      (dictKeys d').length = (dictKeys d).length - n ∧ ∀ v ∈ dictKeys d', v ∈ dictKeys d := by
  refine randLoop_inv srandDropBody rnd n 0 d
    (fun k d' => d'.wf ∧ (dictKeys d').length = (dictKeys d).length - k ∧
      ∀ v ∈ dictKeys d', v ∈ dictKeys d)
    (fun k d1 hk hI => ?_) ⟨h, rfl, fun v hv => hv⟩
  obtain ⟨w, e1, e2⟩ := hI
  have hsz : dictSize d1 ≠ 0 := by
    rw [w.size_eq]
    have : (dictKeys d1).length = (dictEntries d1).length := by simp [dictKeys]
    omega
  obtain ⟨de, d2, g1, g2, g3⟩ := dictGetRandomKey_spec d1 (rnd (0 + k)) w hsz
  obtain ⟨b1, _, _⟩ := dictDelete_spec d2 de.key g2.wf
  have hp := dictKeys_del b1
  have hk2 : de.key ∈ dictKeys d2 := (mem_dictKeys _).2 ⟨de, g3, rfl⟩
  have hnd2 : (dictKeys d2).Nodup := g2.wf.nodup
  have hlen2 : (dictKeys d2).length = (dictKeys d1).length := (g2.perm.map (fun e : dictEntry => e.key)).length_eq
  have hpc := perm_cons_filter_ne (dictKeys d2) hnd2 de.key hk2
  refine ⟨(dictDelete d2 de.key).2, by simp only [srandDropBody, g1], b1.wf, ?_, ?_⟩
  · have l1 := hp.length_eq
    have l2 := hpc.length_eq
    rw [List.length_cons] at l2
    omega
  · intro v hv
    have := List.mem_of_mem_filter (hp.mem_iff.1 hv)
    exact e2 v ((g2.mem_keys v).1 this)

theorem srandReply_fold (l : List dictEntry) (c : client) :
    foldOpt srandReplyBody l c
      = some { c with reply := c.reply ++ (l.map (·.key)).map .bulk } := by
  induction l generalizing c with
  | nil => simp [foldOpt]
  | cons x l ih =>
    simp only [foldOpt, srandReplyBody]
    rw [ih]
    simp [addReply]

/-- The end of cases 3 and 4 of SRANDMEMBER: the announced length and the
keys of the dictionary. -/
theorem srandReply_spec (c : client) (count : Nat) (d : dict) (h : d.wf) :
    srandReply c count d
      = some { c with reply := c.reply ++ .multibulklen (count : Nat)
          :: (dictKeys d).map .bulk } := by
  have hy := dictNext_yields _ _ (dictGetIterator_ok d h) (dictGetIterator_rest d h)
  rw [srandReply, whileNext_eq_foldOpt _ _ _ _ hy _ _ (by rw [h.size_eq]; exact Nat.lt_succ_self _),
    srandReply_fold]
  simp [addReply, dictKeys]

/-- Case 3 of SRANDMEMBER returns `count` distinct members. -/
theorem srandCase3_spec (server : redisServer) (rnd : Nat → Nat) (c : client) (S : robj)
    (d0 : dict) (count : Nat) (hv : setValid S) (h0 : d0.wf) (he : dictKeys d0 = [])
    (hc : count ≤ (setMembers S).length) :
    ∃ elems : List sds, srandCase3 server rnd c S d0 count (setMembers S).length
        = some { c with reply := c.reply ++ .multibulklen (count : Nat) :: elems.map .bulk } ∧
      elems.length = count ∧ elems.Nodup ∧ ∀ v ∈ elems, v ∈ setMembers S := by
  obtain ⟨si, i1, i2, _⟩ := setTypeInitIterator_spec S hv
  obtain ⟨d, c1, c2, c3⟩ := srandCopy_spec server S hv d0 h0 he
  have hsz : dictSize d = (setMembers S).length := by
    rw [c2.size_eq, ← c3.length_eq]
    simp [dictKeys]
  obtain ⟨d', g1, g2, g3, g4⟩ := srandDrop_spec rnd ((setMembers S).length - count) d c2
    (by rw [c3.length_eq]; omega)
  refine ⟨dictKeys d', ?_, ?_, g2.nodup, fun v hvm => c3.mem_iff.1 (g4 v hvm)⟩
  · simp only [srandCase3, i1]
    rw [whileNext_eq_foldOpt _ _ si (setElems S) i2 _ _
      (by rw [setElems_length]; exact Nat.lt_succ_self _), c1]
    simp only [hsz, if_true, g1]
    exact srandReply_spec c count d' g2
  · rw [g3, c3.length_eq]
    omega

/-- The loop of case 4 of SRANDMEMBER, when it ends: the dictionary holds
`count` distinct members and the set has kept its members. -/
theorem srandDrawLoop_spec (server : redisServer) (rnd : Nat → Nat) (count : Nat) (S : robj)
    (hne : setMembers S ≠ []) :
    ∀ (fuel i : Nat) (st st' : robj × dict × Nat),
      setSame S st.1 → st.2.1.wf → (∀ v ∈ dictKeys st.2.1, v ∈ setMembers S) →
      (dictKeys st.2.1).length = st.2.2 → st.2.2 ≤ count →
      srandDrawLoop server rnd count fuel i st = some st' →
      setSame S st'.1 ∧ st'.2.1.wf ∧ (∀ v ∈ dictKeys st'.2.1, v ∈ setMembers S) ∧
        (dictKeys st'.2.1).length = count := by
  have hnee : OBJ_ENCODING_INTSET ≠ OBJ_ENCODING_HT := by decide
  intro fuel
  induction fuel with
  | zero =>
    intro i st st' h1 h2 h3 h4 h5 h
    rw [srandDrawLoop] at h
    by_cases hlt : st.2.2 < count
    · rw [if_pos hlt] at h
      cases h
    · rw [if_neg hlt] at h
      injection h with h
      subst h
      exact ⟨h1, h2, h3, by omega⟩
  | succ fuel ih =>
    intro i st st' h1 h2 h3 h4 h5 h
    rw [srandDrawLoop] at h
    by_cases hlt : st.2.2 < count
    · rw [if_pos hlt] at h
      have hne1 : setMembers st.1 ≠ [] := by
        intro hc
        have := h1.perm.length_eq
        rw [hc] at this
        exact hne (List.length_eq_zero.1 this.symm)
      obtain ⟨x, o1, g1, g2, _, g4, g5, _, _⟩ :=
        setTypeRandomElement_spec st.1 h1.valid hne1 (rnd i)
      have hele : (if x.1 = OBJ_ENCODING_INTSET then some (sdsfromlonglong x.2.2) else x.2.1)
          = some (setElemBytes x) := by
        rcases g2 with ⟨a, _⟩ | ⟨a, b⟩
        · simp [setElemBytes, a]
        · obtain ⟨e, he⟩ := Option.isSome_iff_exists.1 b
          simp [setElemBytes, a, hnee.symm, he]
      simp only [g1, hele] at h
      have hmS : setElemBytes x ∈ setMembers S := (h1.mem_iff _).1 g4
      obtain ⟨a1, a2⟩ := dictAdd_spec server.dict_can_resize st.2.1 (setElemBytes x) none h2
      by_cases hin : setElemBytes x ∈ dictKeys st.2.1
      · obtain ⟨b1, b2⟩ := a1 hin
        refine ih (i + 1) _ st' (h1.trans_set g5) b2.wf ?_ ?_ ?_ h
        · intro v hv
          exact h3 v ((b2.mem_keys v).1 hv)
        · simp only [b1]
          rw [if_neg (by decide)]
          rw [← h4]
          exact (b2.perm.map (fun e : dictEntry => e.key)).length_eq
        · simp only [b1]
          rw [if_neg (by decide)]
          exact h5
      · obtain ⟨b1, b2⟩ := a2 hin
        have hp := dictKeys_put b2 hin
        refine ih (i + 1) _ st' (h1.trans_set g5) b2.wf ?_ ?_ ?_ h
        · intro v hv
          rcases List.mem_cons.1 (hp.mem_iff.1 hv) with hv | hv
          · exact hv ▸ hmS
          · exact h3 v hv
        · simp only [b1, if_true]
          rw [hp.length_eq, List.length_cons, h4]
        · simp only [b1, if_true]
          omega
    · rw [if_neg hlt] at h
      injection h with h
      subst h
      exact ⟨h1, h2, h3, by omega⟩

/-- A larger bound does not change what the loop of case 4 returns. -/
theorem srandDrawLoop_mono (server : redisServer) (rnd : Nat → Nat) (count : Nat) :
    ∀ (fuel i : Nat) (st st' : robj × dict × Nat),
      srandDrawLoop server rnd count fuel i st = some st' →
      srandDrawLoop server rnd count (fuel + 1) i st = some st' := by
  intro fuel
  induction fuel with
  | zero =>
    intro i st st' h
    rw [srandDrawLoop] at h
    rw [srandDrawLoop]
    by_cases hlt : st.2.2 < count
    · rw [if_pos hlt] at h
      cases h
    · rw [if_neg hlt] at h
      rw [if_neg hlt]
      exact h
  | succ fuel ih =>
    intro i st st' h
    rw [srandDrawLoop] at h
    rw [srandDrawLoop]
    by_cases hlt : st.2.2 < count
    · rw [if_pos hlt] at h
      rw [if_pos hlt]
      cases h1 : setTypeRandomElement st.1 (rnd i) with
      | none => rw [h1] at h; cases h
      | some y =>
        obtain ⟨encoding, ele, llele, set1⟩ := y
        rw [h1] at h
        simp only at h ⊢
        cases h2 : (if encoding = OBJ_ENCODING_INTSET then some (sdsfromlonglong llele)
            else ele) with
        | none => rw [h2] at h; cases h
        | some objele =>
          rw [h2] at h
          simp only at h ⊢
          exact ih _ _ _ h
    · rw [if_neg hlt] at h
      rw [if_neg hlt]
      exact h

theorem srandDrawLoop_mono_le (server : redisServer) (rnd : Nat → Nat) (count : Nat)
    (fuel fuel' i : Nat) (st st' : robj × dict × Nat) (hle : fuel ≤ fuel')
    (h : srandDrawLoop server rnd count fuel i st = some st') :
    srandDrawLoop server rnd count fuel' i st = some st' := by
  induction hle with
  | refl => exact h
  | step _ ih => exact srandDrawLoop_mono server rnd count _ i st st' ih

/-- Case 4 of SRANDMEMBER, when it returns: `count` distinct members. -/
theorem srandCase4_spec (server : redisServer) (rnd : Nat → Nat) (fuel : Nat) (c : client)
    (key : sds) (S : robj) (d0 : dict) (count : Nat) (hv : setValid S)
    (hne : setMembers S ≠ []) (h0 : d0.wf) (he : dictKeys d0 = []) (c' : client)
    (h : srandCase4 server rnd fuel c key S d0 count = some c') :
    ∃ (elems : List sds) (s' : robj),
      c' = ⟨dbStore c.db key s', c.reply ++ .multibulklen (count : Nat) :: elems.map .bulk⟩ ∧
      elems.length = count ∧ elems.Nodup ∧ (∀ v ∈ elems, v ∈ setMembers S) ∧ setSame S s' := by
  rw [srandCase4] at h
  cases h1 : srandDrawLoop server rnd count fuel 0 (S, d0, 0) with
  | none => rw [h1] at h; cases h
  | some st =>
    obtain ⟨s1, d1, a1⟩ := st
    rw [h1] at h
    simp only at h
    obtain ⟨g1, g2, g3, g4⟩ := srandDrawLoop_spec server rnd count S hne fuel 0 (S, d0, 0)
      (s1, d1, a1) (setSame.set_refl hv) h0 (by rw [he]; simp) (by rw [he]; rfl)
      (Nat.zero_le _) h1
    rw [srandReply_spec _ count d1 g2] at h
    injection h with h
    exact ⟨dictKeys d1, s1, h.symm, g4, g2.nodup, g3, g1⟩

/-- The head of `srandmemberWithCountCommand` for a key holding a set. -/
theorem srandmemberWithCountCommand_eq (server : redisServer) (T : dictType) (rnd : Nat → Nat)
    (fuel : Nat) (c : client) (key countArg : sds) (l : Int) (S : robj)
    (hparse : string2ll countArg = some l) (hk : c.db key = some S) (hv : setValid S) :
    srandmemberWithCountCommand server T rnd fuel c key countArg =
      if (if 0 ≤ l then l.toNat % 2 ^ 32 else (-l).toNat % 2 ^ 64) = 0 then
        some (addReply c .emptymultibulk)
      else if l < 0 then srandCase1 rnd c key S ((-l).toNat % 2 ^ 64)
      else if (setMembers S).length ≤ l.toNat % 2 ^ 32 then
        sunionDiffGenericCommand server c [key] none SET_OP_UNION
      else if (setMembers S).length
          < (l.toNat % 2 ^ 32 * SRANDMEMBER_SUB_STRATEGY_MUL) % 2 ^ 64 then
        srandCase3 server rnd c S (dictCreate T) (l.toNat % 2 ^ 32) (setMembers S).length
      else
        srandCase4 server rnd fuel c key S (dictCreate T) (l.toNat % 2 ^ 32) := by
  simp only [srandmemberWithCountCommand, getLongFromObjectOrReply, hparse,
    lookupKeyReadOrReply, lookupKeyRead, hk, checkType_set c S hv, Bool.false_eq_true, if_false,
    setTypeSize_spec S hv]

theorem popDb_valid (k : sds) (o : robj) (ho : popDb k = some o) : setValid o := by
  unfold popDb at ho
  split at ho
  · injection ho with ho
    subst ho
    exact intset_obj_valid _ (by decide) (by decide)
  · split at ho
    · obtain ⟨o', h1, _, h2⟩ := setTypeConvert_spec exampleServer
        ⟨OBJ_SET, OBJ_ENCODING_INTSET, .intset [1, 2, 3, 4, 5, 6]⟩
        (intset_obj_valid _ (by decide) (by decide)) rfl
      rw [h1] at ho
      injection ho with ho
      subst ho
      exact h2.valid
    · split at ho
      · injection ho with ho
        subst ho
        exact intset_obj_valid _ (by decide) (by decide)
      · cases ho

/-- The head of `spopWithCountCommand` for a non-negative count and a key
holding a set. -/
theorem spopWithCountCommand_eq (server : redisServer) (rnd : Nat → Nat) (c : client)
    (key countArg : sds) (l : Int) (S : robj) (hparse : string2ll countArg = some l)
    (hl : 0 ≤ l) (hk : c.db key = some S) (hv : setValid S) (hpos : 0 < l.toNat % 2 ^ 32) :
    spopWithCountCommand server rnd c key countArg =
      if (setMembers S).length ≤ l.toNat % 2 ^ 32 then spopCase1 server c key
      else if l.toNat % 2 ^ 32
          < (((setMembers S).length - l.toNat % 2 ^ 32) * SPOP_MOVE_STRATEGY_MUL) % 2 ^ 64 then
        spopCase2 server rnd (addReply c (.multibulklen (l.toNat % 2 ^ 32 : Nat))) key S
          (l.toNat % 2 ^ 32)
      else
        spopCase3 server rnd (addReply c (.multibulklen (l.toNat % 2 ^ 32 : Nat))) key S
          ((setMembers S).length - l.toNat % 2 ^ 32) := by
  have h0 : ¬ (l.toNat % 2 ^ 32 = 0) := by omega
  simp only [spopWithCountCommand, getLongFromObjectOrReply, hparse, hl, if_true,
    lookupKeyReadOrReply, lookupKeyRead, hk, checkType_set c S hv, Bool.false_eq_true, if_false,
    h0, setTypeSize_spec S hv]

theorem spopCase1_spec (server : redisServer) (c : client) (key : sds) (S : robj)
    (hk : c.db key = some S) (hv : setValid S) :
    ∃ elems : List sds, spopCase1 server c key
        = some ⟨(dbDelete c.db key).2,
            c.reply ++ .multibulklen (intWrap elems.length) :: elems.map .bulk⟩ ∧
      elems.Perm (setMembers S) := by
  have hov : operandsValid c.db [key] := by
    intro k hkm o ho
    rw [List.mem_singleton] at hkm
    rw [hkm, hk] at ho
    injection ho with ho
    exact ho ▸ hv
  obtain ⟨elems, h1, h2, h3⟩ := sunion_reply server c [key] hov
  refine ⟨elems, by simp only [spopCase1, h1], ?_⟩
  rw [List.perm_ext_iff_of_nodup h2 hv.members_nodup]
  intro v
  rw [h3 v]
  simp [dbMembers, hk]

/-- C13: for a set S stored at the key and an effective count (the low 32 bits
of the non-negative argument) with count > 0 and count ≥ |S|,
spopWithCountCommand returns, its reply is the multi-bulk of all the members of
S, each once (announced with the `int` counter of the union it is computed
by), and the key is gone from the database, the other keys being untouched.
An evaluated run pops the six members of a hash-table set. -/
theorem spopWithCountCommand_whole_set (server : redisServer) (rnd : Nat → Nat) (c : client)
    (key countArg : sds) (l : Int) (S : robj) (hparse : string2ll countArg = some l)
    (hl : 0 ≤ l) (hk : c.db key = some S) (hv : setValid S) (hpos : 0 < l.toNat % 2 ^ 32)
    (hge : (setMembers S).length ≤ l.toNat % 2 ^ 32) :
    (∃ (elems : List sds) (c' : client),
      spopWithCountCommand server rnd c key countArg = some c' ∧
      c'.reply = c.reply ++ .multibulklen (intWrap elems.length) :: elems.map .bulk ∧
      elems.Perm (setMembers S) ∧ elems.Nodup ∧ elems.length = (setMembers S).length ∧
      c'.db key = none ∧ ∀ k, k ≠ key → c'.db k = c.db k) ∧
    replyAndSet (spopWithCountCommand exampleServer exampleDraws ⟨popDb, []⟩ [98] [54]) [98]
      = some ([.multibulklen 6, .bulk [49], .bulk [50], .bulk [51], .bulk [52], .bulk [53],
          .bulk [54]], none) := by
  refine ⟨?_, by decide⟩
  obtain ⟨elems, h1, h2⟩ := spopCase1_spec server c key S hk hv
  refine ⟨elems, ⟨(dbDelete c.db key).2,
      c.reply ++ .multibulklen (intWrap elems.length) :: elems.map .bulk⟩,
    ?_, rfl, h2, h2.nodup_iff.2 hv.members_nodup, h2.length_eq, ?_, ?_⟩
  · rw [spopWithCountCommand_eq server rnd c key countArg l S hparse hl hk hv hpos, if_pos hge]
    exact h1
  · simp [dbDelete]
  · intro k hkne
    simp [dbDelete, hkne]

theorem spopWithCountCommand_whole_set_witness :
    ∃ (elems : List sds) (c' : client),
      spopWithCountCommand exampleServer exampleDraws ⟨popDb, []⟩ [97] [57] = some c' ∧
      c'.reply = [] ++ .multibulklen (intWrap elems.length) :: elems.map .bulk ∧
      elems.Perm (setMembers ⟨OBJ_SET, OBJ_ENCODING_INTSET, .intset [1, 2, 3, 4, 5, 6]⟩) ∧
      elems.Nodup ∧
      elems.length = (setMembers ⟨OBJ_SET, OBJ_ENCODING_INTSET, .intset [1, 2, 3, 4, 5, 6]⟩).length ∧
      c'.db [97] = none ∧ ∀ k, k ≠ [97] → c'.db k = popDb k :=
  (spopWithCountCommand_whole_set exampleServer exampleDraws ⟨popDb, []⟩ [97] [57] 9
    ⟨OBJ_SET, OBJ_ENCODING_INTSET, .intset [1, 2, 3, 4, 5, 6]⟩ (by decide) (by decide) rfl
    (popDb_valid [97] _ rfl) (by decide) (by decide)).1

theorem perm_append_partition {elems rest all : List sds} (hp : (elems ++ rest).Perm all)
    (hn : all.Nodup) :
    elems.Nodup ∧ (∀ v ∈ elems, v ∈ all) ∧ (∀ v ∈ elems, v ∉ rest) ∧
      rest.length = all.length - elems.length := by
  have hnd := hp.nodup_iff.2 hn
  refine ⟨(List.nodup_append.1 hnd).1, fun v hv => hp.mem_iff.1 (List.mem_append_left _ hv),
    fun v hv hc => (List.nodup_append.1 hnd).2.2 hv hc, ?_⟩
  have := hp.length_eq
  rw [List.length_append] at this
  omega

/-- C14: for a set S stored at the key and an effective count with
0 < count < |S|, whatever the draws, spopWithCountCommand returns; its reply is
the multi-bulk of count pairwise-distinct members of S; the key then holds a
valid set of |S| - count members, none of them replied; replied and remaining
members together are the members of S; the other keys are untouched.  The
same holds of each of the two branches taken alone (draw-and-remove, and
build-a-new-set for any positive number of members to keep).  Two runs are
evaluated, one per branch. -/
theorem spopWithCountCommand_partition (server : redisServer) (rnd : Nat → Nat) (c : client)
    (key countArg : sds) (l : Int) (S : robj) (hparse : string2ll countArg = some l)
    (hl : 0 ≤ l) (hk : c.db key = some S) (hv : setValid S) (hpos : 0 < l.toNat % 2 ^ 32)
    (hlt : l.toNat % 2 ^ 32 < (setMembers S).length) :
    (∃ (elems : List sds) (c' : client) (s' : robj),
      spopWithCountCommand server rnd c key countArg = some c' ∧
      c'.reply = c.reply ++ .multibulklen (l.toNat % 2 ^ 32 : Nat) :: elems.map .bulk ∧
      elems.length = l.toNat % 2 ^ 32 ∧ elems.Nodup ∧ (∀ v ∈ elems, v ∈ setMembers S) ∧
      c'.db key = some s' ∧ setValid s' ∧
      (setMembers s').length = (setMembers S).length - l.toNat % 2 ^ 32 ∧
      (∀ v ∈ elems, v ∉ setMembers s') ∧
      (elems ++ setMembers s').Perm (setMembers S) ∧ ∀ k, k ≠ key → c'.db k = c.db k) ∧
    (∀ n, n ≤ (setMembers S).length → ∃ (elems : List sds) (s' : robj),
      spopCase2 server rnd c key S n
        = some ⟨dbStore c.db key s', c.reply ++ elems.map .bulk⟩ ∧
      elems.length = n ∧ setValid s' ∧ (elems ++ setMembers s').Perm (setMembers S)) ∧
    (∀ n, 0 < n → n ≤ (setMembers S).length → ∃ (elems : List sds) (s' : robj),
      spopCase3 server rnd c key S n
        = some ⟨dbStore c.db key s', c.reply ++ elems.map .bulk⟩ ∧
      (setMembers s').length = n ∧ setValid s' ∧
      (elems ++ setMembers s').Perm (setMembers S)) ∧
    replyAndSet (spopWithCountCommand exampleServer exampleDraws ⟨popDb, []⟩ [98] [50]) [98]
      = some ([.multibulklen 2, .bulk [52], .bulk [49]],
          some (OBJ_ENCODING_HT, [[50], [51], [53], [54]])) ∧
    replyAndSet (spopWithCountCommand exampleServer exampleDraws ⟨popDb, []⟩ [98] [53]) [98]
      = some ([.multibulklen 5, .bulk [49], .bulk [50], .bulk [51], .bulk [53], .bulk [54]],
          some (OBJ_ENCODING_INTSET, [[52]])) := by
  have hks : (c.db key).isSome = true := by rw [hk]; rfl
  refine ⟨?_, fun n hn => spopCase2_spec server rnd c key S n hv hn,
    fun n hn0 hn => spopCase3_spec server rnd c key S n hks hv hn0 hn, by decide, by decide⟩
  rw [spopWithCountCommand_eq server rnd c key countArg l S hparse hl hk hv hpos,
    if_neg (by omega)]
  by_cases hb : l.toNat % 2 ^ 32
      < (((setMembers S).length - l.toNat % 2 ^ 32) * SPOP_MOVE_STRATEGY_MUL) % 2 ^ 64
  · rw [if_pos hb]
    obtain ⟨elems, s', h1, h2, h3, h4⟩ := spopCase2_spec server rnd
      (addReply c (.multibulklen (l.toNat % 2 ^ 32 : Nat))) key S _ hv (Nat.le_of_lt hlt)
    obtain ⟨p1, p2, p3, p4⟩ := perm_append_partition h4 hv.members_nodup
    refine ⟨elems, _, s', h1, by simp [addReply], h2, p1, p2, by simp [dbStore], h3,
      by rw [p4, h2], p3, h4, fun k hkne => by simp [dbStore, hkne, addReply]⟩
  · rw [if_neg hb]
    obtain ⟨elems, s', h1, h2, h3, h4⟩ := spopCase3_spec server rnd
      (addReply c (.multibulklen (l.toNat % 2 ^ 32 : Nat))) key S
      ((setMembers S).length - l.toNat % 2 ^ 32) hks hv (by omega) (by omega)
    obtain ⟨p1, p2, p3, p4⟩ := perm_append_partition h4 hv.members_nodup
    refine ⟨elems, _, s', h1, by simp [addReply], by omega, p1, p2, by simp [dbStore], h3,
      h2, p3, h4, fun k hkne => by simp [dbStore, hkne, addReply]⟩

theorem spopWithCountCommand_partition_witness :
    ∃ (elems : List sds) (c' : client) (s' : robj),
      spopWithCountCommand exampleServer exampleDraws ⟨popDb, []⟩ [97] [50] = some c' ∧
      c'.reply = [] ++ .multibulklen ((2 : Int).toNat % 2 ^ 32 : Nat) :: elems.map .bulk ∧
      elems.length = (2 : Int).toNat % 2 ^ 32 ∧ elems.Nodup ∧
      (∀ v ∈ elems,
        v ∈ setMembers ⟨OBJ_SET, OBJ_ENCODING_INTSET, .intset [1, 2, 3, 4, 5, 6]⟩) ∧
      c'.db [97] = some s' ∧ setValid s' ∧
      (setMembers s').length
        = (setMembers ⟨OBJ_SET, OBJ_ENCODING_INTSET, .intset [1, 2, 3, 4, 5, 6]⟩).length
          - (2 : Int).toNat % 2 ^ 32 ∧
      (∀ v ∈ elems, v ∉ setMembers s') ∧
      (elems ++ setMembers s').Perm
        (setMembers ⟨OBJ_SET, OBJ_ENCODING_INTSET, .intset [1, 2, 3, 4, 5, 6]⟩) ∧
      ∀ k, k ≠ [97] → c'.db k = popDb k :=
  (spopWithCountCommand_partition exampleServer exampleDraws ⟨popDb, []⟩ [97] [50] 2
    ⟨OBJ_SET, OBJ_ENCODING_INTSET, .intset [1, 2, 3, 4, 5, 6]⟩ (by decide) (by decide) rfl
    (popDb_valid [97] _ rfl) (by decide) (by decide)).1

/-- C15, counterexample: the key "c" holds the set {1, 2} and the count
argument is "-3", so the count 3 is at least the size 2.  The reply announces
three elements and sends "2", "1", "2": it is not the members of the set once
each. -/
theorem srandmember_negative_count_repeats :
    (srandmemberWithCountCommand exampleServer exampleServer.setDictType exampleDraws 0
        ⟨popDb, []⟩ [99] [45, 51]).map (·.reply)
      = some [.multibulklen 3, .bulk [50], .bulk [49], .bulk [50]] ∧
    popDb [99] = some ⟨OBJ_SET, OBJ_ENCODING_INTSET, .intset [1, 2]⟩ ∧
    string2ll [45, 51] = some (-3) ∧
    ¬ ∃ (elems : List sds) (c' : client),
      srandmemberWithCountCommand exampleServer exampleServer.setDictType exampleDraws 0
        ⟨popDb, []⟩ [99] [45, 51] = some c' ∧
      c'.reply = [] ++ .multibulklen elems.length :: elems.map .bulk ∧
      elems.Perm (setMembers ⟨OBJ_SET, OBJ_ENCODING_INTSET, .intset [1, 2]⟩) := by
  have hr : (srandmemberWithCountCommand exampleServer exampleServer.setDictType exampleDraws 0
        ⟨popDb, []⟩ [99] [45, 51]).map (·.reply)
      = some [.multibulklen 3, .bulk [50], .bulk [49], .bulk [50]] := by decide
  refine ⟨hr, rfl, by decide, ?_⟩
  rintro ⟨elems, c', h1, h2, h3⟩
  rw [h1, Option.map_some', h2] at hr
  have hlen := h3.length_eq
  injection hr with hr
  rw [List.nil_append] at hr
  injection hr with hr _
  injection hr with hr
  rw [hlen] at hr
  revert hr
  decide

/-- C15, amended: for a non-empty set S stored at the key and a count at
least |S|: when the count argument is non-negative, srandmemberWithCountCommand
returns and its reply is the multi-bulk of all the members of S, each once
(announced with the `int` counter of the union it is computed by), the
keyspace being untouched; when the count argument is negative, it returns
and its reply announces count elements and sends count elements, each of them
a member of S, repetitions allowed, the key still holding the members of S. -/
theorem srandmemberWithCountCommand_count_ge_size (server : redisServer) (T : dictType)
    (rnd : Nat → Nat) (fuel : Nat) (c : client) (key countArg : sds) (l : Int) (S : robj)
    (hparse : string2ll countArg = some l) (hk : c.db key = some S) (hv : setValid S)
    (hne : setMembers S ≠ [])
    (hge : (setMembers S).length ≤ if 0 ≤ l then l.toNat % 2 ^ 32 else (-l).toNat % 2 ^ 64) :
    (0 ≤ l → ∃ elems : List sds,
      srandmemberWithCountCommand server T rnd fuel c key countArg
        = some { c with reply := c.reply ++
            .multibulklen (intWrap elems.length) :: elems.map .bulk } ∧
      elems.Perm (setMembers S) ∧ elems.Nodup) ∧
    (l < 0 → ∃ (elems : List sds) (s' : robj),
      srandmemberWithCountCommand server T rnd fuel c key countArg
        = some ⟨dbStore c.db key s',
            c.reply ++ .multibulklen ((-l).toNat % 2 ^ 64 : Nat) :: elems.map .bulk⟩ ∧
      elems.length = (-l).toNat % 2 ^ 64 ∧ (∀ v ∈ elems, v ∈ setMembers S) ∧ setSame S s') := by
  have hpos : 0 < (setMembers S).length := List.length_pos.2 hne
  have h0 : ¬ ((if 0 ≤ l then l.toNat % 2 ^ 32 else (-l).toNat % 2 ^ 64) = 0) := by omega
  rw [srandmemberWithCountCommand_eq server T rnd fuel c key countArg l S hparse hk hv,
    if_neg h0]
  constructor
  · intro hl
    rw [if_pos hl] at hge
    rw [if_neg (by omega), if_pos hge]
    have hov : operandsValid c.db [key] := by
      intro k hkm o ho
      rw [List.mem_singleton] at hkm
      rw [hkm, hk] at ho
      injection ho with ho
      exact ho ▸ hv
    obtain ⟨elems, h1, h2, h3⟩ := sunion_reply server c [key] hov
    refine ⟨elems, h1, ?_, h2⟩
    rw [List.perm_ext_iff_of_nodup h2 hv.members_nodup]
    intro v
    rw [h3 v]
    simp [dbMembers, hk]
  · intro hl
    rw [if_pos hl]
    exact srandCase1_spec rnd c key S _ hv hne

theorem srandmemberWithCountCommand_count_ge_size_witness :
    ∃ elems : List sds,
      srandmemberWithCountCommand exampleServer exampleServer.setDictType exampleDraws 0
          ⟨popDb, []⟩ [99] [53]
        = some { (⟨popDb, []⟩ : client) with
            reply := [] ++ .multibulklen (intWrap elems.length) :: elems.map .bulk } ∧
      elems.Perm (setMembers ⟨OBJ_SET, OBJ_ENCODING_INTSET, .intset [1, 2]⟩) ∧ elems.Nodup :=
  (srandmemberWithCountCommand_count_ge_size exampleServer exampleServer.setDictType
    exampleDraws 0 ⟨popDb, []⟩ [99] [53] 5 ⟨OBJ_SET, OBJ_ENCODING_INTSET, .intset [1, 2]⟩
    (by decide) rfl (popDb_valid [99] _ rfl) (by decide) (by decide)).1 (by decide)

/-- C16: for a set S stored at the key and a non-negative count argument with
0 < count < |S|, whatever the draws and whichever strategy is taken: whenever
srandmemberWithCountCommand returns, its reply announces count elements and
sends count pairwise-distinct members of S, the key still holds the members of
S and the other keys are untouched.  When count * 3 > |S| (copy all, then
remove random elements) the command always returns and leaves the keyspace as
it was; in the other strategy (draw and insert until count are collected) a
larger bound on the number of draws does not change what is returned.  Two
runs are evaluated, one per strategy. -/
theorem srandmemberWithCountCommand_distinct_sample (server : redisServer) (T : dictType)
    (rnd : Nat → Nat) (fuel : Nat) (c : client) (key countArg : sds) (l : Int) (S : robj)
    (hparse : string2ll countArg = some l) (hl : 0 ≤ l) (hk : c.db key = some S)
    (hv : setValid S) (hpos : 0 < l.toNat % 2 ^ 32)
    (hlt : l.toNat % 2 ^ 32 < (setMembers S).length) :
    (∀ c', srandmemberWithCountCommand server T rnd fuel c key countArg = some c' →
      ∃ (elems : List sds) (s' : robj),
        c'.reply = c.reply ++ .multibulklen (l.toNat % 2 ^ 32 : Nat) :: elems.map .bulk ∧
        elems.length = l.toNat % 2 ^ 32 ∧ elems.Nodup ∧ (∀ v ∈ elems, v ∈ setMembers S) ∧
        c'.db key = some s' ∧ setSame S s' ∧ ∀ k, k ≠ key → c'.db k = c.db k) ∧
    ((setMembers S).length < (l.toNat % 2 ^ 32 * SRANDMEMBER_SUB_STRATEGY_MUL) % 2 ^ 64 →
      ∃ c', srandmemberWithCountCommand server T rnd fuel c key countArg = some c' ∧
        c'.db = c.db) ∧
    (∀ fuel' c', fuel ≤ fuel' →
      srandmemberWithCountCommand server T rnd fuel c key countArg = some c' →
      srandmemberWithCountCommand server T rnd fuel' c key countArg = some c') ∧
    replyAndSet (srandmemberWithCountCommand exampleServer exampleServer.setDictType
        exampleDraws 0 ⟨popDb, []⟩ [98] [53]) [98]
      = some ([.multibulklen 5, .bulk [51], .bulk [49], .bulk [50], .bulk [53], .bulk [54]],
          some (OBJ_ENCODING_HT, [[49], [50], [51], [52], [53], [54]])) ∧
    replyAndSet (srandmemberWithCountCommand exampleServer exampleServer.setDictType
        exampleDraws 2 ⟨popDb, []⟩ [98] [50]) [98]
      = some ([.multibulklen 2, .bulk [52], .bulk [53]],
          some (OBJ_ENCODING_HT, [[49], [50], [51], [52], [53], [54]])) := by
  have hne : setMembers S ≠ [] := by
    intro hc
    rw [hc] at hlt
    exact Nat.not_lt_zero _ hlt
  have h0 : ¬ ((if 0 ≤ l then l.toNat % 2 ^ 32 else (-l).toNat % 2 ^ 64) = 0) := by
    rw [if_pos hl]
    omega
  have hd0 : (dictCreate T).wf := dictCreate_wf T
  have hk0 : dictKeys (dictCreate T) = [] := by rw [dictKeys, dictEntries_dictCreate]; rfl
  have heq : ∀ f, srandmemberWithCountCommand server T rnd f c key countArg =
      if (setMembers S).length < (l.toNat % 2 ^ 32 * SRANDMEMBER_SUB_STRATEGY_MUL) % 2 ^ 64 then
        srandCase3 server rnd c S (dictCreate T) (l.toNat % 2 ^ 32) (setMembers S).length
      else srandCase4 server rnd f c key S (dictCreate T) (l.toNat % 2 ^ 32) := by
    intro f
    rw [srandmemberWithCountCommand_eq server T rnd f c key countArg l S hparse hk hv,
      if_neg h0, if_neg (by omega), if_neg (by omega)]
  obtain ⟨elems3, e1, e2, e3, e4⟩ := srandCase3_spec server rnd c S (dictCreate T)
    (l.toNat % 2 ^ 32) hv hd0 hk0 (Nat.le_of_lt hlt)
  refine ⟨?_, ?_, ?_, by decide, by decide⟩
  · intro c' h
    rw [heq fuel] at h
    by_cases hb : (setMembers S).length
        < (l.toNat % 2 ^ 32 * SRANDMEMBER_SUB_STRATEGY_MUL) % 2 ^ 64
    · rw [if_pos hb, e1] at h
      injection h with h
      subst h
      exact ⟨elems3, S, rfl, e2, e3, e4, hk, setSame.set_refl hv, fun _ _ => rfl⟩
    · rw [if_neg hb] at h
      obtain ⟨elems, s', g1, g2, g3, g4, g5⟩ := srandCase4_spec server rnd fuel c key S
        (dictCreate T) (l.toNat % 2 ^ 32) hv hne hd0 hk0 c' h
      subst g1
      exact ⟨elems, s', rfl, g2, g3, g4, by simp [dbStore], g5,
        fun k hkne => by simp [dbStore, hkne]⟩
  · intro hb
    rw [heq fuel, if_pos hb, e1]
    exact ⟨_, rfl, rfl⟩
  · intro fuel' c' hle h
    rw [heq fuel] at h
    rw [heq fuel']
    by_cases hb : (setMembers S).length
        < (l.toNat % 2 ^ 32 * SRANDMEMBER_SUB_STRATEGY_MUL) % 2 ^ 64
    · rw [if_pos hb] at h ⊢
      exact h
    · rw [if_neg hb] at h ⊢
      rw [srandCase4] at h ⊢
      cases h1 : srandDrawLoop server rnd (l.toNat % 2 ^ 32) fuel 0 (S, dictCreate T, 0) with
      | none => rw [h1] at h; cases h
      | some st =>
        rw [srandDrawLoop_mono_le server rnd _ fuel fuel' 0 _ st hle h1]
        rw [h1] at h
        exact h

theorem srandmemberWithCountCommand_distinct_sample_witness :
    ∃ c', srandmemberWithCountCommand exampleServer exampleServer.setDictType exampleDraws 2
        ⟨popDb, []⟩ [97] [50] = some c' ∧
      ∃ (elems : List sds) (s' : robj),
        c'.reply = [] ++ .multibulklen ((2 : Int).toNat % 2 ^ 32 : Nat) :: elems.map .bulk ∧
        elems.length = (2 : Int).toNat % 2 ^ 32 ∧ elems.Nodup ∧
        (∀ v ∈ elems,
          v ∈ setMembers ⟨OBJ_SET, OBJ_ENCODING_INTSET, .intset [1, 2, 3, 4, 5, 6]⟩) ∧
        c'.db [97] = some s' ∧
        setSame ⟨OBJ_SET, OBJ_ENCODING_INTSET, .intset [1, 2, 3, 4, 5, 6]⟩ s' ∧
        ∀ k, k ≠ [97] → c'.db k = popDb k := by
  have hs : (srandmemberWithCountCommand exampleServer exampleServer.setDictType exampleDraws 2
      ⟨popDb, []⟩ [97] [50]).isSome = true := by decide
  obtain ⟨c', h⟩ := Option.isSome_iff_exists.1 hs
  exact ⟨c', h, (srandmemberWithCountCommand_distinct_sample exampleServer
    exampleServer.setDictType exampleDraws 2 ⟨popDb, []⟩ [97] [50] 2
    ⟨OBJ_SET, OBJ_ENCODING_INTSET, .intset [1, 2, 3, 4, 5, 6]⟩ (by decide) (by decide) rfl
    (popDb_valid [97] _ rfl) (by decide) (by decide)).1 c' h⟩


theorem sdsll2strReverse_eq : ∀ (fuel : Nat) (mid a b : List Nat), mid.length ≤ fuel →
    sdsll2strReverse fuel (a ++ mid ++ b) a.length (a.length + mid.length - 1)
      = a ++ mid.reverse ++ b := by
  intro fuel
  induction fuel with
  | zero =>
    intro mid a b h
    have : mid = [] := List.length_eq_zero.1 (Nat.le_zero.1 h)
    subst this
    rfl
  | succ fuel ih =>
    intro mid a b h
    rw [sdsll2strReverse]
    cases mid with
    | nil =>
      rw [if_neg (by simp)]
      rfl
    | cons x tl =>
      by_cases htl : tl = []
      · subst htl
        rw [if_neg (by simp)]
        rfl
      · obtain ⟨m, y, rfl⟩ : ∃ m y, tl = m ++ [y] :=
          ⟨_, _, (List.dropLast_append_getLast htl).symm⟩
        have hlt : a.length < a.length + (x :: (m ++ [y])).length - 1 := by
          simp only [List.length_cons, List.length_append, List.length_nil]
          omega
        rw [if_pos hlt]
        have hp : a.length + (x :: (m ++ [y])).length - 1 = (a ++ x :: m).length := by
          simp only [List.length_cons, List.length_append, List.length_nil]
          omega
        have e1 : a ++ x :: (m ++ [y]) ++ b = (a ++ x :: m) ++ y :: b := by simp
        have gs : (a ++ x :: (m ++ [y]) ++ b).getD a.length 0 = x := by
          rw [List.append_assoc, List.cons_append, List.getD_eq_getElem?_getD,
            getElem?_append_length]
          rfl
        have gp : (a ++ x :: (m ++ [y]) ++ b).getD (a ++ x :: m).length 0 = y := by
          rw [e1, List.getD_eq_getElem?_getD, getElem?_append_length]
          rfl
        simp only [hp, gs, gp]
        have s1 : (a ++ x :: (m ++ [y]) ++ b).set a.length y = a ++ y :: (m ++ [y]) ++ b := by
          simp [List.set_append_right]
        have s2 : (a ++ y :: (m ++ [y]) ++ b).set (a ++ x :: m).length x
            = (a ++ [y]) ++ m ++ (x :: b) := by
          have e2 : a ++ y :: (m ++ [y]) ++ b = (a ++ y :: m) ++ y :: b := by simp
          have e3 : (a ++ x :: m).length = (a ++ y :: m).length := by simp
          rw [e2, e3, List.set_append_right _ _ (le_refl _)]
          simp
        rw [s1, s2]
        have hlen : (a ++ x :: m).length - 1 = (a ++ [y]).length + m.length - 1 := by
          simp only [List.length_cons, List.length_append, List.length_nil]
          omega
        have hs : a.length + 1 = (a ++ [y]).length := by simp
        rw [hlen, hs, ih m (a ++ [y]) (x :: b)
          (by simp only [List.length_cons, List.length_append, List.length_nil] at h; omega)]
        simp

theorem decStr_length_le (v : Nat) (hv : v < 10 ^ 19) : (decStr v).length ≤ 19 := by
  by_cases h0 : v = 0
  · subst h0
    simp [decStr]
  · have h := Nat.base_pow_length_digits_le 10 v (by norm_num) h0
    have h2 : 10 ^ (Nat.digits 10 v).length < 10 ^ 20 := by omega
    have h3 := (Nat.pow_lt_pow_iff_right (by norm_num : 1 < 10)).1 h2
    simp only [decStr, List.length_reverse, List.length_map]
    omega

theorem decStr_digits (v : Nat) :
    (∀ c ∈ decStr v, 48 ≤ c ∧ c ≤ 57) ∧
    Nat.ofDigits 10 ((decStr v).reverse.map (· - 48)) = v := by
  constructor
  · intro c hc
    simp only [decStr, List.mem_reverse, List.mem_map] at hc
    obtain ⟨d, hd, rfl⟩ := hc
    have := Nat.digits_lt_base (by norm_num : 1 < 10) hd
    omega
  · have : (decStr v).reverse.map (· - 48) = Nat.digits 10 v := by
      simp [decStr, List.map_map, Function.comp_def]
    rw [this, Nat.ofDigits_digits]

theorem sdsll2str_eq_canonical (value : Int) (h1 : LLONG_MIN ≤ value) (h2 : value ≤ LLONG_MAX) :
    sdsll2str value = (canonicalDecimal value, (canonicalDecimal value).length) := by
  have hl : (sdsll2str value).2 = (sdsll2str value).1.length := by
    simp [sdsll2str]
  have h1' : (sdsll2str value).1 = canonicalDecimal value := by
    have : (sdsll2str value).1 = sdsfromlonglong value := rfl
    rw [this]
    unfold canonicalDecimal
    rcases lt_trichotomy value 0 with h | h | h
    · rw [if_pos h, sdsfromlonglong_neg value h h1]
    · subst h
      decide
    · rw [if_neg (by omega), if_neg (by omega), sdsfromlonglong_pos value h h2]
  rw [← h1', ← hl]

theorem sdsll2strBuffer_eq (value : Int) :
    sdsll2strBuffer value = ((sdsll2str value).1 ++ [0], (sdsll2str value).2) := by
  simp only [sdsll2strBuffer, sdsll2str]
  have := sdsll2strReverse_eq
    (if value < 0 then sdsll2strLoop 20 ((if value < 0 then -value else value).toNat % 2 ^ 64)
      ++ [45] else sdsll2strLoop 20 ((if value < 0 then -value else value).toNat % 2 ^ 64)).length
    (if value < 0 then sdsll2strLoop 20 ((if value < 0 then -value else value).toNat % 2 ^ 64)
      ++ [45] else sdsll2strLoop 20 ((if value < 0 then -value else value).toNat % 2 ^ 64))
    [] [0] (le_refl _)
  simp only [List.nil_append, List.length_nil, Nat.zero_add] at this
  rw [this]

theorem canonicalDecimal_length (value : Int) (h1 : LLONG_MIN ≤ value) (h2 : value ≤ LLONG_MAX) :
    1 ≤ (canonicalDecimal value).length ∧ (canonicalDecimal value).length ≤ 20 := by
  unfold canonicalDecimal
  simp only [LLONG_MIN, LLONG_MAX] at h1 h2
  rcases lt_trichotomy value 0 with h | h | h
  · rw [if_pos h]
    have := decStr_length_le (-value).toNat (by omega)
    simp only [List.length_cons]
    omega
  · subst h
    simp
  · rw [if_neg (by omega), if_neg (by omega)]
    have := decStr_length_le value.toNat (by omega)
    obtain ⟨c, cs, hc, _⟩ := decStr_ne value.toNat (by omega)
    rw [hc] at this ⊢
    simp only [List.length_cons] at this ⊢
    omega

/-- C24: for every 64-bit signed integer `value` (for `LLONG_MIN` the negation
is taken modulo 2^64), `sdsll2str` writes into the buffer the canonical decimal
representation of `value` followed by the terminator, and returns the length of
the representation, which is between 1 and 20, so that at most 21 bytes are
written.  The representation is `0`, or an optional `'-'` followed by decimal
digits that start with a digit 1..9 and whose value is the magnitude; it reads
back as `value`.  1234567890 gives "1234567890" with length 10, -1234567890
gives "-1234567890" with length 11, and `LLONG_MIN` twenty bytes. -/
theorem sdsll2str_canonical (value : Int) (h1 : LLONG_MIN ≤ value) (h2 : value ≤ LLONG_MAX) :
    sdsll2strBuffer value = (canonicalDecimal value ++ [0], (canonicalDecimal value).length) ∧
    1 ≤ (sdsll2strBuffer value).2 ∧ (sdsll2strBuffer value).2 ≤ 20 ∧
    (sdsll2strBuffer value).1.length ≤ 21 ∧
    string2ll (canonicalDecimal value) = some value ∧
    (∀ v : Nat, 0 < v → (∀ c ∈ decStr v, 48 ≤ c ∧ c ≤ 57) ∧
      (∃ c cs, decStr v = c :: cs ∧ 49 ≤ c) ∧
      Nat.ofDigits 10 ((decStr v).reverse.map (· - 48)) = v) ∧
    sdsll2strBuffer 1234567890 = ([49, 50, 51, 52, 53, 54, 55, 56, 57, 48, 0], 10) ∧
    sdsll2strBuffer (-1234567890) = ([45, 49, 50, 51, 52, 53, 54, 55, 56, 57, 48, 0], 11) ∧
    sdsll2strBuffer LLONG_MIN
      = ([45, 57, 50, 50, 51, 51, 55, 50, 48, 51, 54, 56, 53, 52, 55, 55, 53, 56, 48, 56, 0],
          20) := by
  have hb : sdsll2strBuffer value
      = (canonicalDecimal value ++ [0], (canonicalDecimal value).length) := by
    rw [sdsll2strBuffer_eq, sdsll2str_eq_canonical value h1 h2]
  obtain ⟨l1, l2⟩ := canonicalDecimal_length value h1 h2
  refine ⟨hb, ?_, ?_, ?_, ?_, ?_, by decide, by decide, by decide⟩
  · rw [hb]; exact l1
  · rw [hb]; exact l2
  · rw [hb]
    simp only [List.length_append, List.length_singleton]
    omega
  · have := string2ll_sdsfromlonglong value h1 h2
    have e : sdsfromlonglong value = canonicalDecimal value := by
      have := sdsll2str_eq_canonical value h1 h2
      simp only [sdsfromlonglong, this]
    rw [← e]
    exact this
  · intro v hv
    obtain ⟨c, cs, hc, hc1, _⟩ := decStr_ne v hv
    exact ⟨(decStr_digits v).1, ⟨c, cs, hc, hc1⟩, (decStr_digits v).2⟩

theorem sdsll2str_canonical_witness :
    sdsll2strBuffer (-42) = (canonicalDecimal (-42) ++ [0], (canonicalDecimal (-42)).length) ∧
    1 ≤ (sdsll2strBuffer (-42)).2 ∧ (sdsll2strBuffer (-42)).2 ≤ 20 :=
  ⟨(sdsll2str_canonical (-42) (by decide) (by decide)).1,
    (sdsll2str_canonical (-42) (by decide) (by decide)).2.1,
    (sdsll2str_canonical (-42) (by decide) (by decide)).2.2.1⟩

theorem strchr_eq (cset : List Nat) (c : Nat) (hc : c ≠ 0) :
    strchr cset c = decide (c ∈ cset) := by
  simp [strchr, hc]

theorem drop_length_takeWhile (p : Nat → Bool) (l : List Nat) :
    l.drop (l.takeWhile p).length = l.dropWhile p := by
  have h : l.drop (l.takeWhile p).length
      = (l.takeWhile p ++ l.dropWhile p).drop (l.takeWhile p).length := by
    rw [List.takeWhile_append_dropWhile]
  rw [h, List.drop_left]

/-- The first loop stops after the longest prefix of bytes of `cset`. -/
theorem trimStartLoop_eq (cset s rest : List Nat) (hs : ∀ c ∈ s, c ≠ 0) :
    ∀ (fuel k : Nat), k ≤ s.length → s.length - k < fuel →
      trimStartLoop (s ++ rest) cset ((s.length : Int) - 1) fuel (k : Int)
        = ((k + ((s.drop k).takeWhile (fun c => decide (c ∈ cset))).length : Nat) : Int) := by
  intro fuel
  induction fuel with
  | zero => intro k _ h; omega
  | succ fuel ih =>
    intro k hk hf
    rw [trimStartLoop]
    by_cases hlt : k < s.length
    · have hd : s.drop k = s[k] :: s.drop (k + 1) := List.drop_eq_getElem_cons hlt
      have hg : (s ++ rest).getD (k : Int).toNat 0 = s[k] := by
        rw [Int.toNat_ofNat, List.getD_eq_getElem?_getD, List.getElem?_append_left hlt,
          List.getElem?_eq_getElem hlt]
        rfl
      have hne : s[k] ≠ 0 := hs _ (List.getElem_mem hlt)
      rw [hg, strchr_eq cset _ hne, hd, List.takeWhile_cons]
      by_cases hp : s[k] ∈ cset
      · have hc : ((k : Int) ≤ (s.length : Int) - 1 ∧ decide (s[k] ∈ cset) = true) :=
          ⟨by omega, by simpa using hp⟩
        rw [if_pos hc]
        have := ih (k + 1) (by omega) (by omega)
        rw [Nat.cast_add, Nat.cast_one] at this
        rw [this]
        simp only [hp, decide_True, if_true, List.length_cons]
        congr 1
        omega
      · have hc : ¬ ((k : Int) ≤ (s.length : Int) - 1 ∧ decide (s[k] ∈ cset) = true) := by
          simp [hp]
        rw [if_neg hc]
        simp [hp]
    · have hc : ¬ ((k : Int) ≤ (s.length : Int) - 1 ∧
          strchr cset ((s ++ rest).getD (k : Int).toNat 0) = true) := by
        intro h
        omega
      rw [if_neg hc]
      have : s.drop k = [] := List.drop_eq_nil_of_le (by omega)
      simp [this]

/-- The second loop stops at the last byte that is not of `cset`, or at `sp`. -/
theorem trimEndLoop_eq (cset pre : List Nat) :
    ∀ (fuel : Nat) (a b : List Nat), a.length ≤ fuel + 1 → (∀ c ∈ a, c ≠ 0) →
      (∃ x tl, a = x :: tl ∧ x ∉ cset) →
      trimEndLoop (pre ++ a ++ b) cset (pre.length : Int) (fuel + 1)
          ((pre.length : Int) + (a.length : Int) - 1)
        = (pre.length : Int) + ((a.rdropWhile (fun c => decide (c ∈ cset))).length : Int) - 1 := by
  intro fuel
  induction fuel with
  | zero =>
    intro a b hlen _ ⟨x, tl, ha, hx⟩
    subst ha
    have : tl = [] := by
      simp only [List.length_cons] at hlen
      exact List.length_eq_zero.1 (by omega)
    subst this
    rw [trimEndLoop]
    have hc : ¬ ((pre.length : Int) + (([x] : List Nat).length : Int) - 1 > (pre.length : Int) ∧
        strchr cset ((pre ++ [x] ++ b).getD
          ((pre.length : Int) + (([x] : List Nat).length : Int) - 1).toNat 0) = true) := by
      intro h
      simp at h
    rw [if_neg hc]
    have : List.rdropWhile (fun c => decide (c ∈ cset)) [x] = [x] := by
      have := List.rdropWhile_concat_neg (fun c => decide (c ∈ cset)) [] x (by simpa using hx)
      simpa using this
    rw [this]
  | succ fuel ih =>
    intro a b hlen hz ⟨x, tl, ha, hx⟩
    rw [trimEndLoop]
    by_cases htl : tl = []
    · subst htl
      subst ha
      have hc : ¬ ((pre.length : Int) + (([x] : List Nat).length : Int) - 1 > (pre.length : Int) ∧
          strchr cset ((pre ++ [x] ++ b).getD
            ((pre.length : Int) + (([x] : List Nat).length : Int) - 1).toNat 0) = true) := by
        intro h
        simp at h
      rw [if_neg hc]
      have : List.rdropWhile (fun c => decide (c ∈ cset)) [x] = [x] := by
        have := List.rdropWhile_concat_neg (fun c => decide (c ∈ cset)) [] x (by simpa using hx)
        simpa using this
      rw [this]
    · obtain ⟨m, y, rfl⟩ : ∃ m y, tl = m ++ [y] :=
        ⟨_, _, (List.dropLast_append_getLast htl).symm⟩
      subst ha
      have hy0 : y ≠ 0 := hz y (by simp)
      have hidx : ((pre.length : Int) + ((x :: (m ++ [y])).length : Int) - 1).toNat
          = (pre ++ x :: m).length := by
        simp only [List.length_cons, List.length_append, List.length_nil]
        omega
      have hg : (pre ++ x :: (m ++ [y]) ++ b).getD (pre ++ x :: m).length 0 = y := by
        have e1 : pre ++ x :: (m ++ [y]) ++ b = (pre ++ x :: m) ++ y :: b := by simp
        rw [e1, List.getD_eq_getElem?_getD, getElem?_append_length]
        rfl
      rw [hidx, hg, strchr_eq cset y hy0]
      by_cases hp : y ∈ cset
      · have hc : ((pre.length : Int) + ((x :: (m ++ [y])).length : Int) - 1 > (pre.length : Int) ∧
            decide (y ∈ cset) = true) := by
          refine ⟨?_, by simpa using hp⟩
          simp only [List.length_cons, List.length_append, List.length_nil]
          omega
        rw [if_pos hc]
        have e2 : pre ++ x :: (m ++ [y]) ++ b = pre ++ (x :: m) ++ (y :: b) := by simp
        have e3 : (pre.length : Int) + ((x :: (m ++ [y])).length : Int) - 1 - 1
            = (pre.length : Int) + ((x :: m).length : Int) - 1 := by
          simp only [List.length_cons, List.length_append, List.length_nil]
          push_cast
          omega
        rw [e2, e3]
        have := ih (x :: m) (y :: b) (by
            simp only [List.length_cons, List.length_append, List.length_nil] at hlen ⊢
            omega)
          (fun c hc => hz c (by
            rcases List.mem_cons.1 hc with h | h
            · exact h ▸ List.mem_cons_self _ _
            · exact List.mem_cons_of_mem _ (List.mem_append_left _ h)))
          ⟨x, m, rfl, hx⟩
        rw [this]
        have : List.rdropWhile (fun c => decide (c ∈ cset)) (x :: (m ++ [y]))
            = List.rdropWhile (fun c => decide (c ∈ cset)) (x :: m) := by
          have := List.rdropWhile_concat_pos (fun c => decide (c ∈ cset)) (x :: m) y
            (by simpa using hp)
          simpa using this
        rw [this]
      · have hc : ¬ ((pre.length : Int) + ((x :: (m ++ [y])).length : Int) - 1
            > (pre.length : Int) ∧ decide (y ∈ cset) = true) := by
          simp [hp]
        rw [if_neg hc]
        have : List.rdropWhile (fun c => decide (c ∈ cset)) (x :: (m ++ [y]))
            = x :: (m ++ [y]) := by
          have := List.rdropWhile_concat_neg (fun c => decide (c ∈ cset)) (x :: m) y
            (by simpa using hp)
          simpa using this
        rw [this]

/-- The two loops of `sdstrim` and `str_trim` on a buffer that starts with a
string `s` without NUL bytes: the bytes kept are the trimmed string. -/
theorem trim_pointers (cset s rest : List Nat) (hs : ∀ c ∈ s, c ≠ 0) :
    trimStartLoop (s ++ rest) cset ((s.length : Int) - 1) (s.length + 1) 0
      = ((s.takeWhile (fun c => decide (c ∈ cset))).length : Int) ∧
    (if trimStartLoop (s ++ rest) cset ((s.length : Int) - 1) (s.length + 1) 0
        > trimEndLoop (s ++ rest) cset
            (trimStartLoop (s ++ rest) cset ((s.length : Int) - 1) (s.length + 1) 0)
            (s.length + 1) ((s.length : Int) - 1)
      then 0
      else (trimEndLoop (s ++ rest) cset
            (trimStartLoop (s ++ rest) cset ((s.length : Int) - 1) (s.length + 1) 0)
            (s.length + 1) ((s.length : Int) - 1)
          - trimStartLoop (s ++ rest) cset ((s.length : Int) - 1) (s.length + 1) 0 + 1).toNat)
      = (trimSpec s cset).length ∧
    (trimSpec s cset).length + (s.takeWhile (fun c => decide (c ∈ cset))).length ≤ s.length ∧
    ((s ++ rest).drop (s.takeWhile (fun c => decide (c ∈ cset))).length).take
        (trimSpec s cset).length = trimSpec s cset := by
  have hsp := trimStartLoop_eq cset s rest hs (s.length + 1) 0 (Nat.zero_le _) (by omega)
  simp only [Nat.cast_zero, List.drop_zero, Nat.zero_add] at hsp
  rw [hsp]
  have hsplit := List.takeWhile_append_dropWhile (fun c => decide (c ∈ cset)) s
  have hlen : s.length = (s.takeWhile (fun c => decide (c ∈ cset))).length
      + (s.dropWhile (fun c => decide (c ∈ cset))).length := by
    conv_lhs => rw [← hsplit, List.length_append]
  have hpre : (trimSpec s cset) <+: s.dropWhile (fun c => decide (c ∈ cset)) :=
    List.rdropWhile_prefix _ _
  have hle := hpre.length_le
  have hdrop : (s ++ rest).drop (s.takeWhile (fun c => decide (c ∈ cset))).length
      = s.dropWhile (fun c => decide (c ∈ cset)) ++ rest := by
    have : s ++ rest = s.takeWhile (fun c => decide (c ∈ cset))
        ++ (s.dropWhile (fun c => decide (c ∈ cset)) ++ rest) := by
      rw [← List.append_assoc, hsplit]
    conv_lhs => rw [this]
    rw [List.drop_left]
  have htake : ((s ++ rest).drop (s.takeWhile (fun c => decide (c ∈ cset))).length).take
      (trimSpec s cset).length = trimSpec s cset := by
    rw [hdrop, List.take_append_of_le_length hle]
    exact (List.prefix_iff_eq_take.1 hpre).symm
  refine ⟨rfl, ?_, by omega, htake⟩
  cases ht : s.dropWhile (fun c => decide (c ∈ cset)) with
  | nil =>
    have hn : (s.takeWhile (fun c => decide (c ∈ cset))).length = s.length := by
      rw [ht, List.length_nil] at hlen
      omega
    rw [hn, trimEndLoop]
    have hc : ¬ ((s.length : Int) - 1 > (s.length : Int) ∧
        strchr cset ((s ++ rest).getD ((s.length : Int) - 1).toNat 0) = true) := by
      intro h
      omega
    rw [if_neg hc]
    have : trimSpec s cset = [] := by
      simp [trimSpec, ht]
    rw [this, if_pos (by omega)]
    rfl
  | cons x tl =>
    have hx : x ∉ cset := by
      have := List.head_dropWhile_not (fun c => decide (c ∈ cset)) s (by rw [ht]; simp)
      simp only [ht, List.head_cons] at this
      simpa using this
    have hz : ∀ c ∈ x :: tl, c ≠ 0 := by
      intro c hc
      apply hs
      rw [← hsplit, ht]
      exact List.mem_append_right _ hc
    have hbuf : s ++ rest = s.takeWhile (fun c => decide (c ∈ cset)) ++ (x :: tl) ++ rest := by
      rw [← ht, hsplit]
    have hend : (s.length : Int) - 1
        = ((s.takeWhile (fun c => decide (c ∈ cset))).length : Int)
          + ((x :: tl).length : Int) - 1 := by
      rw [hlen, ht]
      push_cast
      rfl
    have he := trimEndLoop_eq cset (s.takeWhile (fun c => decide (c ∈ cset))) s.length (x :: tl)
      rest (by rw [hlen, ht]; omega) hz ⟨x, tl, rfl, hx⟩
    rw [← hbuf, ← hend] at he
    rw [he]
    have hr : trimSpec s cset = (x :: tl).rdropWhile (fun c => decide (c ∈ cset)) := by
      simp [trimSpec, ht]
    have hpos : 0 < ((x :: tl).rdropWhile (fun c => decide (c ∈ cset))).length := by
      apply List.length_pos.2
      intro hc
      have := List.rdropWhile_eq_nil_iff.1 hc x (List.mem_cons_self _ _)
      simp [hx] at this
    rw [hr, if_neg (by omega)]
    omega

theorem sdstrim_eq (s cset : List Nat) (hs : ∀ c ∈ s, c ≠ 0) :
    sdstrim s cset = trimSpec s cset := by
  obtain ⟨h1, h2, _, h4⟩ := trim_pointers cset s [] hs
  rw [List.append_nil] at h1 h2 h4
  simp only [sdstrim, sdslen]
  rw [h2, h1, Int.toNat_ofNat]
  exact h4

theorem trimSpec_no_nul (s cset : List Nat) (hs : ∀ c ∈ s, c ≠ 0) :
    ∀ c ∈ trimSpec s cset, c ≠ 0 := by
  intro c hc
  apply hs
  have h1 : trimSpec s cset <+: s.dropWhile (fun c => decide (c ∈ cset)) :=
    List.rdropWhile_prefix _ _
  exact (List.dropWhile_suffix _).subset (h1.subset hc)

theorem cstr_append_nul (t rest : List Nat) (ht : ∀ c ∈ t, c ≠ 0) :
    cstr (t ++ 0 :: rest) = t := by
  rw [cstr, List.takeWhile_append_of_pos (by simpa using ht)]
  simp

theorem set_after_take (X T : List Nat) (n : Nat) (hn : n < X.length) (hT : X.take n = T) :
    X.set n 0 = T ++ 0 :: X.drop (n + 1) := by
  rw [List.set_eq_take_append_cons_drop, if_pos hn, hT]

theorem str_trim_eq (s cset junk : List Nat) (hs : ∀ c ∈ s, c ≠ 0) :
    cstr (str_trim (s ++ 0 :: junk) cset) = trimSpec s cset := by
  obtain ⟨h1, h2, h3, h4⟩ := trim_pointers cset s (0 :: junk) hs
  have hl : strlen (s ++ 0 :: junk) = s.length := by
    have := cstr_append_nul s junk hs
    rw [cstr] at this
    rw [strlen, this]
  have hz := trimSpec_no_nul s cset hs
  simp only [str_trim, hl]
  rw [h2, h1, Int.toNat_ofNat]
  have hlt : (trimSpec s cset).length < (s ++ 0 :: junk).length := by
    simp only [List.length_append, List.length_cons]
    omega
  by_cases h0 : ((s.takeWhile (fun c => decide (c ∈ cset))).length : Int) ≠ 0
  · rw [if_pos h0, h4]
    have hd : 0 < ((s ++ 0 :: junk).drop (trimSpec s cset).length).length := by
      rw [List.length_drop]
      omega
    rw [set_after_take _ (trimSpec s cset) _
      (by rw [List.length_append]; omega) (List.take_left _ _)]
    exact cstr_append_nul _ _ hz
  · rw [if_neg h0]
    have h0' : (s.takeWhile (fun c => decide (c ∈ cset))).length = 0 := by
      have := not_not.1 h0
      exact_mod_cast this
    rw [h0', List.drop_zero] at h4
    rw [set_after_take _ (trimSpec s cset) _ hlt h4]
    exact cstr_append_nul _ _ hz

theorem trimSpec_ends (s cset : List Nat) :
    (∀ x tl, trimSpec s cset = x :: tl → x ∉ cset) ∧
    (∀ hne : trimSpec s cset ≠ [], (trimSpec s cset).getLast hne ∉ cset) := by
  constructor
  · intro x tl h hx
    cases hd : s.dropWhile (fun c => decide (c ∈ cset)) with
    | nil => simp [trimSpec, hd] at h
    | cons y tl' =>
      have hy : y ∉ cset := by
        have := List.head_dropWhile_not (fun c => decide (c ∈ cset)) s (by rw [hd]; simp)
        simp only [hd, List.head_cons] at this
        simpa using this
      have hp : trimSpec s cset <+: y :: tl' := by
        rw [← hd]
        exact List.rdropWhile_prefix _ _
      rw [h] at hp
      obtain ⟨r, hr⟩ := hp
      simp only [List.cons_append, List.cons.injEq] at hr
      exact hy (hr.1 ▸ hx)
  · intro hne
    have := List.rdropWhile_last_not (fun c => decide (c ∈ cset))
      (s.dropWhile (fun c => decide (c ∈ cset))) hne
    simpa [trimSpec] using this

theorem trimSpec_idem (s cset : List Nat) : trimSpec (trimSpec s cset) cset = trimSpec s cset := by
  obtain ⟨h1, h2⟩ := trimSpec_ends s cset
  have hd : (trimSpec s cset).dropWhile (fun c => decide (c ∈ cset)) = trimSpec s cset := by
    cases ht : trimSpec s cset with
    | nil => rfl
    | cons x tl =>
      have := h1 x tl ht
      simp [List.dropWhile_cons, this]
  have hr : (trimSpec s cset).rdropWhile (fun c => decide (c ∈ cset)) = trimSpec s cset := by
    rw [List.rdropWhile_eq_self_iff]
    intro hl
    simpa using h2 hl
  conv_lhs => rw [trimSpec, hd, hr]

theorem trimSpec_decompose (s cset : List Nat) :
    ∃ pre suf, s = pre ++ trimSpec s cset ++ suf ∧ (∀ c ∈ pre, c ∈ cset) ∧
      (∀ c ∈ suf, c ∈ cset) := by
  obtain ⟨suf, hsuf⟩ : trimSpec s cset <+: s.dropWhile (fun c => decide (c ∈ cset)) :=
    List.rdropWhile_prefix _ _
  refine ⟨s.takeWhile (fun c => decide (c ∈ cset)), suf, ?_, ?_, ?_⟩
  · rw [List.append_assoc, hsuf, List.takeWhile_append_dropWhile]
  · intro c hc
    simpa using List.mem_takeWhile_imp hc
  · intro c hc
    by_contra hcn
    have hmem : c ∈ s.dropWhile (fun c => decide (c ∈ cset)) := by
      rw [← hsuf]
      exact List.mem_append_right _ hc
    obtain ⟨l1, l2, hl⟩ := List.append_of_mem hc
    have e : s.dropWhile (fun c => decide (c ∈ cset)) = (trimSpec s cset ++ l1 ++ [c]) ++ l2 := by
      rw [← hsuf, hl]
      simp
    have hlast : (s.dropWhile (fun c => decide (c ∈ cset))).rdropWhile
        (fun c => decide (c ∈ cset)) = trimSpec s cset := rfl
    have hle : (trimSpec s cset ++ l1 ++ [c]).length ≤ (trimSpec s cset).length := by
      have hp : (trimSpec s cset ++ l1 ++ [c]) <+: trimSpec s cset := by
        have hk : ((trimSpec s cset ++ l1 ++ [c]) ++ l2).rdropWhile
            (fun c => decide (c ∈ cset)) = trimSpec s cset := by
          rw [← e]
          exact hlast
        have hsplit : ∀ l2 : List Nat, (trimSpec s cset ++ l1 ++ [c]) <+:
            ((trimSpec s cset ++ l1 ++ [c]) ++ l2).rdropWhile (fun c => decide (c ∈ cset)) := by
          intro l2
          induction l2 using List.reverseRecOn with
          | nil =>
            rw [List.append_nil, List.rdropWhile_concat_neg _ _ _ (by simpa using hcn)]
          | append_singleton l x ih =>
            rw [← List.append_assoc, List.rdropWhile_concat]
            split
            · exact ih
            · exact ⟨l ++ [x], by simp⟩
        have := hsplit l2
        rw [hk] at this
        exact this
      exact hp.length_le
    simp only [List.length_append, List.length_singleton] at hle
    omega

/-- C25: for a string `s` without NUL bytes and a character set `cset`,
`sdstrim` leaves the string without its longest prefix and its longest suffix
of bytes of `cset` (`trimSpec`): `s` is a run of bytes of `cset`, the result,
and a run of bytes of `cset`, and the result neither starts nor ends with a
byte of `cset`; it is empty when every byte is in `cset`; the length field is
the length of the result; `str_trim` on a buffer holding `s` as a C string
leaves the same string; trimming the result again gives the result.  Trimming
"AA...AA.a.aa.aHelloWorld     :::" by "Aa. :" gives "HelloWorld" with both
functions. -/
theorem sdstrim_contract (s cset junk : List Nat) (hs : ∀ c ∈ s, c ≠ 0) :
    sdstrim s cset = trimSpec s cset ∧
    (∃ pre suf, s = pre ++ sdstrim s cset ++ suf ∧ (∀ c ∈ pre, c ∈ cset) ∧
      (∀ c ∈ suf, c ∈ cset)) ∧
    (∀ x tl, sdstrim s cset = x :: tl → x ∉ cset) ∧
    (∀ hne : sdstrim s cset ≠ [], (sdstrim s cset).getLast hne ∉ cset) ∧
    ((∀ c ∈ s, c ∈ cset) → sdstrim s cset = []) ∧
    sdslen (sdstrim s cset) = (trimSpec s cset).length ∧
    cstr (str_trim (s ++ 0 :: junk) cset) = sdstrim s cset ∧
    sdstrim (sdstrim s cset) cset = sdstrim s cset ∧
    sdstrim trimExample [65, 97, 46, 32, 58] = [72, 101, 108, 108, 111, 87, 111, 114, 108, 100] ∧
    cstr (str_trim (trimExample ++ [0]) [65, 97, 46, 32, 58])
      = [72, 101, 108, 108, 111, 87, 111, 114, 108, 100] := by
  have he := sdstrim_eq s cset hs
  have hz := trimSpec_no_nul s cset hs
  refine ⟨he, ?_, ?_, ?_, ?_, by rw [he]; rfl, ?_, ?_, by decide, by decide⟩
  · rw [he]
    exact trimSpec_decompose s cset
  · rw [he]
    exact (trimSpec_ends s cset).1
  · rw [he]
    exact (trimSpec_ends s cset).2
  · intro hall
    rw [he, trimSpec]
    have : s.dropWhile (fun c => decide (c ∈ cset)) = [] :=
      List.dropWhile_eq_nil_iff.2 (by simpa using hall)
    rw [this]
    rfl
  · rw [he]
    exact str_trim_eq s cset junk hs
  · rw [he, sdstrim_eq _ cset hz]
    exact trimSpec_idem s cset

theorem sdstrim_contract_witness :
    sdstrim [32, 104, 105, 32] [32] = trimSpec [32, 104, 105, 32] [32] ∧
    cstr (str_trim ([32, 104, 105, 32] ++ 0 :: [7]) [32]) = sdstrim [32, 104, 105, 32] [32] :=
  ⟨(sdstrim_contract [32, 104, 105, 32] [32] [7] (by decide)).1,
    (sdstrim_contract [32, 104, 105, 32] [32] [7] (by decide)).2.2.2.2.2.2.1⟩

/-- C27, counterexample: the key "a" holds a set of 6 members and the count is
2, so the remainder is 4 and remainder * 5 = 20 is not at most 2; yet the
command does what the draw-and-remove strategy does (it sends the members
drawn, "4" then "1") and not what the new-set strategy does (which sends "5"
and "6", the members left over). -/
theorem spop_direct_with_large_remainder :
    popDb [97] = some ⟨OBJ_SET, OBJ_ENCODING_INTSET, .intset [1, 2, 3, 4, 5, 6]⟩ ∧
    string2ll [50] = some 2 ∧
    ¬ ((6 - 2) * SPOP_MOVE_STRATEGY_MUL ≤ 2) ∧
    replyAndSet (spopWithCountCommand exampleServer exampleDraws ⟨popDb, []⟩ [97] [50]) [97]
      = some ([.multibulklen 2, .bulk [52], .bulk [49]],
          some (OBJ_ENCODING_INTSET, [[50], [51], [53], [54]])) ∧
    replyAndSet (spopCase2 exampleServer exampleDraws (addReply ⟨popDb, []⟩ (.multibulklen 2))
        [97] ⟨OBJ_SET, OBJ_ENCODING_INTSET, .intset [1, 2, 3, 4, 5, 6]⟩ 2) [97]
      = some ([.multibulklen 2, .bulk [52], .bulk [49]],
          some (OBJ_ENCODING_INTSET, [[50], [51], [53], [54]])) ∧
    replyAndSet (spopCase3 exampleServer exampleDraws (addReply ⟨popDb, []⟩ (.multibulklen 2))
        [97] ⟨OBJ_SET, OBJ_ENCODING_INTSET, .intset [1, 2, 3, 4, 5, 6]⟩ 4) [97]
      = some ([.multibulklen 2, .bulk [53], .bulk [54]],
          some (OBJ_ENCODING_HT, [[52], [49], [50], [51]])) ∧
    ¬ (replyAndSet (spopWithCountCommand exampleServer exampleDraws ⟨popDb, []⟩ [97] [50]) [97]
        = replyAndSet (spopCase2 exampleServer exampleDraws
            (addReply ⟨popDb, []⟩ (.multibulklen 2)) [97]
            ⟨OBJ_SET, OBJ_ENCODING_INTSET, .intset [1, 2, 3, 4, 5, 6]⟩ 2) [97]
      ↔ (6 - 2) * SPOP_MOVE_STRATEGY_MUL ≤ 2) := by
  refine ⟨rfl, by decide, by decide, by decide, by decide, by decide, ?_⟩
  intro h
  exact absurd (h.1 (by decide)) (by decide)

/-- C27, amended: for a set S stored at the key and 0 < count < |S|, with
remainder = |S| - count, `spopWithCountCommand` runs the draw-and-remove
strategy (count draws, each removed) exactly when remainder * 5 > count, the
product being taken as `unsigned long`, and otherwise (remainder * 5 ≤ count)
builds a new set of remainder drawn members; the product is exact for every
size below 2^61. -/
theorem spopWithCountCommand_strategy (server : redisServer) (rnd : Nat → Nat) (c : client)
    (key countArg : sds) (l : Int) (S : robj) (hparse : string2ll countArg = some l)
    (hl : 0 ≤ l) (hk : c.db key = some S) (hv : setValid S) (hpos : 0 < l.toNat % 2 ^ 32)
    (hlt : l.toNat % 2 ^ 32 < (setMembers S).length) :
    (l.toNat % 2 ^ 32
        < (((setMembers S).length - l.toNat % 2 ^ 32) * SPOP_MOVE_STRATEGY_MUL) % 2 ^ 64 →
      spopWithCountCommand server rnd c key countArg
        = spopCase2 server rnd (addReply c (.multibulklen (l.toNat % 2 ^ 32 : Nat))) key S
            (l.toNat % 2 ^ 32)) ∧
    ((((setMembers S).length - l.toNat % 2 ^ 32) * SPOP_MOVE_STRATEGY_MUL) % 2 ^ 64
        ≤ l.toNat % 2 ^ 32 →
      spopWithCountCommand server rnd c key countArg
        = spopCase3 server rnd (addReply c (.multibulklen (l.toNat % 2 ^ 32 : Nat))) key S
            ((setMembers S).length - l.toNat % 2 ^ 32)) ∧
    ((setMembers S).length < 2 ^ 61 →
      (((setMembers S).length - l.toNat % 2 ^ 32) * SPOP_MOVE_STRATEGY_MUL) % 2 ^ 64
        = ((setMembers S).length - l.toNat % 2 ^ 32) * 5) := by
  have heq := spopWithCountCommand_eq server rnd c key countArg l S hparse hl hk hv hpos
  rw [if_neg (by omega)] at heq
  refine ⟨fun h => ?_, fun h => ?_, fun h => ?_⟩
  · rw [heq, if_pos h]
  · rw [heq, if_neg (by omega)]
  · simp only [SPOP_MOVE_STRATEGY_MUL]
    omega

theorem spopWithCountCommand_strategy_witness :
    spopWithCountCommand exampleServer exampleDraws ⟨popDb, []⟩ [97] [53]
      = spopCase3 exampleServer exampleDraws
          (addReply ⟨popDb, []⟩ (.multibulklen ((5 : Int).toNat % 2 ^ 32 : Nat))) [97]
          ⟨OBJ_SET, OBJ_ENCODING_INTSET, .intset [1, 2, 3, 4, 5, 6]⟩
          ((setMembers ⟨OBJ_SET, OBJ_ENCODING_INTSET, .intset [1, 2, 3, 4, 5, 6]⟩).length
            - (5 : Int).toNat % 2 ^ 32) :=
  (spopWithCountCommand_strategy exampleServer exampleDraws ⟨popDb, []⟩ [97] [53] 5
    ⟨OBJ_SET, OBJ_ENCODING_INTSET, .intset [1, 2, 3, 4, 5, 6]⟩ (by decide) (by decide) rfl
    (popDb_valid [97] _ rfl) (by decide) (by decide)).2.1 (by decide)

theorem setSizesOrNull_eq (db : redisDb) (sets : List (Option sds)) (hv : setsValid db sets) :
    setSizesOrNull db sets = some (sets.map (fun s =>
      (s, match s with
          | none => 0
          | some k => (dbMembers db k).length))) := by
  induction sets with
  | nil => rfl
  | cons s sets ih =>
    have ih' := ih (fun k hk => hv k (List.mem_cons_of_mem _ hk))
    cases s with
    | none => simp [setSizesOrNull, ih']
    | some key =>
      obtain ⟨o, ho, hov⟩ := hv key (List.mem_cons_self _ _)
      simp [setSizesOrNull, ho, setTypeSize_spec o hov, ih', dbMembers]

theorem setsExisting_cons (s : Option sds) (sets : List (Option sds)) :
    setsExisting (s :: sets) = (if s.isSome then 1 else 0) + setsExisting sets := by
  cases s with
  | none => simp [setsExisting]
  | some k => simp [setsExisting, Nat.add_comm]

theorem setsTotal_cons (db : redisDb) (s : Option sds) (sets : List (Option sds)) :
    setsTotal db (s :: sets)
      = (match s with
          | none => 0
          | some k => (dbMembers db k).length) + setsTotal db sets := by
  cases s with
  | none => simp [setsTotal]
  | some k => simp [setsTotal]

theorem sdiffWork_eq (db : redisDb) (size0 : Nat) (sets : List (Option sds)) :
    sdiffWork size0 (sets.map (fun s =>
      (s, match s with
          | none => 0
          | some k => (dbMembers db k).length)))
      = (((size0 * setsExisting sets : Nat) : Int), ((setsTotal db sets : Nat) : Int)) := by
  induction sets with
  | nil => simp [sdiffWork, setsExisting, setsTotal]
  | cons s sets ih =>
    rw [setsExisting_cons, setsTotal_cons]
    cases s with
    | none =>
      simp only [List.map_cons, sdiffWork, ih]
      simp
    | some key =>
      simp only [List.map_cons, sdiffWork, ih]
      refine Prod.ext ?_ ?_
      · simp only [Option.isSome_some, if_true]
        push_cast
        ring
      · simp only
        push_cast
        ring

/-- The choice of the DIFF algorithm when operand 0 exists. -/
theorem sunionDiffChoice_diff (db : redisDb) (key0 : sds) (rest : List (Option sds))
    (hv : setsValid db (some key0 :: rest)) :
    ∃ algo sets', sunionDiffChoice db SET_OP_DIFF (some key0 :: rest) = some (algo, sets') ∧
      (algo = 1 ∨ algo = 2) ∧
      (algo = 1 ↔ (dbMembers db key0).length * setsExisting (some key0 :: rest) / 2
        ≤ setsTotal db (some key0 :: rest)) ∧
      (algo = 2 → sets' = some key0 :: rest) ∧
      (algo = 1 → ∃ tl, sets' = some key0 :: tl ∧ tl.Perm rest) := by
  unfold sunionDiffChoice
  simp only [if_true]
  rw [setSizesOrNull_eq db _ hv]
  simp only [List.map_cons, List.head?_cons, Option.map_some', Option.getD_some, List.tail_cons]
  have hw := sdiffWork_eq db (dbMembers db key0).length (some key0 :: rest)
  simp only [List.map_cons] at hw
  rw [hw]
  simp only
  by_cases hle : (dbMembers db key0).length * setsExisting (some key0 :: rest) / 2
      ≤ setsTotal db (some key0 :: rest)
  · have hc : (((dbMembers db key0).length * setsExisting (some key0 :: rest) : Nat) : Int) / 2
        ≤ ((setsTotal db (some key0 :: rest) : Nat) : Int) := by omega
    rw [if_pos hc]
    refine ⟨1, _, rfl, Or.inl rfl, ⟨fun _ => hle, fun _ => rfl⟩, fun h => absurd h (by decide),
      fun _ => ⟨_, rfl, ?_⟩⟩
    have := qsort_fst_perm qsortCompareSetsByRevCardinality (rest.map (fun s =>
      (s, match s with
          | none => 0
          | some k => (dbMembers db k).length)))
    simpa [Function.comp_def] using this
  · have hc : ¬ ((((dbMembers db key0).length * setsExisting (some key0 :: rest) : Nat) : Int) / 2
        ≤ ((setsTotal db (some key0 :: rest) : Nat) : Int)) := by omega
    rw [if_neg hc]
    exact ⟨2, _, rfl, Or.inr rfl, ⟨fun h => absurd h (by decide), fun h => absurd h hle⟩,
      fun _ => rfl, fun h => absurd h (by decide)⟩

theorem workDb_valid : setsValid workDb [some [97], some [98], some [99]] := by
  intro k hk
  simp only [List.mem_cons, Option.some.injEq, List.mem_singleton, List.not_mem_nil,
    or_false] at hk
  rcases hk with rfl | rfl | rfl
  · exact ⟨_, rfl, intset_obj_valid _ (by decide) (by decide)⟩
  · exact ⟨_, rfl, intset_obj_valid _ (by decide) (by decide)⟩
  · exact ⟨_, rfl, intset_obj_valid _ (by decide) (by decide)⟩

/-- C28, counterexample: SDIFF of the keys "a", "b", "c" holding 10, 1 and 1
members.  With n = 3 operands the estimate |op0| * (n - 1) / 2 is 10, at most
the sum 12 of the sizes, yet algorithm 2 is selected: the estimate of the code is
10 * 3 / 2 = 15. -/
theorem sdiff_choice_counts_operand_zero :
    (dbMembers workDb [97]).length = 10 ∧ (dbMembers workDb [98]).length = 1 ∧
    (dbMembers workDb [99]).length = 1 ∧
    (sunionDiffChoice workDb SET_OP_DIFF [some [97], some [98], some [99]]).map (·.1) = some 2 ∧
    10 * (3 - 1) / 2 ≤ 10 + 1 + 1 ∧
    ¬ ((sunionDiffChoice workDb SET_OP_DIFF [some [97], some [98], some [99]]).map (·.1) = some 1
      ↔ 10 * (3 - 1) / 2 ≤ 10 + 1 + 1) := by
  refine ⟨by decide, by decide, by decide, by decide, by decide, ?_⟩
  intro h
  exact absurd (h.2 (by decide)) (by decide)

/-- C28, amended: in SDIFF with an existing operand 0, algorithm 1 (for each
element of operand 0, probe the other operands) is selected exactly when
|op0| * m / 2, with m the number of operands that exist, operand 0 included,
and the division rounding down, is at most the sum of the sizes of the
operands that exist; otherwise algorithm 2 (seed with operand 0, then remove)
is selected.  A missing operand counts in neither estimate.  With algorithm 1
the later operands are reordered and operand 0 stays in place, with algorithm
2 the array is left as it is; the computation then runs the algorithm
selected. -/
theorem sdiff_algorithm_selection (server : redisServer) (db : redisDb) (key0 : sds)
    (rest : List (Option sds)) (hv : setsValid db (some key0 :: rest)) :
    (∃ algo sets', sunionDiffChoice db SET_OP_DIFF (some key0 :: rest) = some (algo, sets') ∧
      (algo = 1 ∨ algo = 2) ∧
      (algo = 1 ↔ (dbMembers db key0).length * setsExisting (some key0 :: rest) / 2
        ≤ setsTotal db (some key0 :: rest)) ∧
      (algo = 2 ↔ setsTotal db (some key0 :: rest)
        < (dbMembers db key0).length * setsExisting (some key0 :: rest) / 2) ∧
      (algo = 2 → sets' = some key0 :: rest) ∧
      (algo = 1 → ∃ tl, sets' = some key0 :: tl ∧ tl.Perm rest)) ∧
    (∀ tl st, sunionDiffCompute server SET_OP_DIFF 1 (some key0 :: tl) st
      = sdiffAlgo1 server key0 tl st) ∧
    (∀ st, sunionDiffCompute server SET_OP_DIFF 2 (some key0 :: rest) st
      = sdiffAlgo2 server true (some key0 :: rest) st) ∧
    (∀ tl : List (Option sds), setsExisting (none :: tl) = setsExisting tl ∧
      setsTotal db (none :: tl) = setsTotal db tl ∧
      ∀ k, setsExisting (some k :: tl) = setsExisting tl + 1 ∧
        setsTotal db (some k :: tl) = (dbMembers db k).length + setsTotal db tl) := by
  refine ⟨?_, fun tl st => ?_, fun st => ?_, fun tl => ⟨rfl, rfl, fun k => ⟨rfl, rfl⟩⟩⟩
  · obtain ⟨algo, sets', h1, h2, h3, h4, h5⟩ := sunionDiffChoice_diff db key0 rest hv
    refine ⟨algo, sets', h1, h2, h3, ?_, h4, h5⟩
    rcases h2 with h | h
    · subst h
      exact ⟨fun hc => absurd hc (by decide), fun hc => absurd (h3.1 rfl) (by omega)⟩
    · subst h
      refine ⟨fun _ => ?_, fun _ => rfl⟩
      by_contra hc
      exact absurd (h3.2 (by omega)) (by decide)
  · simp [sunionDiffCompute, SET_OP_DIFF, SET_OP_UNION]
  · simp [sunionDiffCompute, SET_OP_DIFF, SET_OP_UNION]

theorem sdiff_algorithm_selection_witness :
    ∃ algo sets', sunionDiffChoice workDb SET_OP_DIFF [some [97], some [98], some [99]]
        = some (algo, sets') ∧
      (algo = 1 ∨ algo = 2) ∧
      (algo = 1 ↔ (dbMembers workDb [97]).length
          * setsExisting [some [97], some [98], some [99]] / 2
        ≤ setsTotal workDb [some [97], some [98], some [99]]) ∧
      (algo = 2 ↔ setsTotal workDb [some [97], some [98], some [99]]
        < (dbMembers workDb [97]).length * setsExisting [some [97], some [98], some [99]] / 2) := by
  obtain ⟨algo, sets', h1, h2, h3, h4, _⟩ := (sdiff_algorithm_selection defaultServer workDb [97]
    [some [98], some [99]] workDb_valid).1
  exact ⟨algo, sets', h1, h2, h3, h4⟩

/-- C29, evaluated: a set of 2^31 + 1 members compared with a set of one
member.  The difference 2^31 of the sizes, returned as `int`, is -2^31: the
comparison function says "smaller" of the larger set, and "equal" when the
sizes differ by 2^32; the reverse comparison says of a set of 2^31 members that
it is smaller than a missing one.  For sizes below 2^31 the sign of both
functions is that of the comparison of the sizes. -/
theorem qsortCompareSetsByCardinality_truncates :
    qsortCompareSetsByCardinality (2 ^ 31 + 1) 1 = -(2 ^ 31) ∧
    qsortCompareSetsByCardinality (2 ^ 32 + 1) 1 = 0 ∧
    qsortCompareSetsByRevCardinality 0 (2 ^ 31) = -(2 ^ 31) ∧
    (∀ s1 s2 : Nat, s1 < 2 ^ 31 → s2 < 2 ^ 31 →
      (qsortCompareSetsByCardinality s1 s2 < 0 ↔ s1 < s2) ∧
      (qsortCompareSetsByCardinality s1 s2 = 0 ↔ s1 = s2) ∧
      (0 < qsortCompareSetsByCardinality s1 s2 ↔ s2 < s1) ∧
      (qsortCompareSetsByRevCardinality s1 s2 < 0 ↔ s2 < s1) ∧
      (qsortCompareSetsByRevCardinality s1 s2 = 0 ↔ s1 = s2) ∧
      (0 < qsortCompareSetsByRevCardinality s1 s2 ↔ s1 < s2)) := by
  refine ⟨by decide, by decide, by decide, ?_⟩
  intro s1 s2 h1 h2
  simp only [qsortCompareSetsByCardinality, qsortCompareSetsByRevCardinality, ulongToInt]
  have e1 : s2 % 2 ^ 64 = s2 := Nat.mod_eq_of_lt (by omega)
  have e2 : s1 % 2 ^ 64 = s1 := Nat.mod_eq_of_lt (by omega)
  rw [e1, e2]
  refine ⟨?_, ?_, ?_, ?_, ?_, ?_⟩ <;> (split <;> omega)

theorem sunionDiffLookup_wrongtype (dstkey : Option sds) (c : client) (setkeys : List sds)
    (h : ∃ k ∈ setkeys, ∃ o, c.db k = some o ∧ o.type ≠ OBJ_SET) (acc : List (Option sds)) :
    sunionDiffLookup dstkey setkeys c acc = .inl (addReply c .wrongtypeerr) := by
  induction setkeys generalizing acc with
  | nil => simp at h
  | cons key keys ih =>
    rw [sunionDiffLookup]
    have hl : (if dstkey.isSome then lookupKeyWrite c.db key else lookupKeyRead c.db key)
        = c.db key := by
      split <;> rfl
    rw [hl]
    obtain ⟨k, hk, o, ho, hty⟩ := h
    cases hkey : c.db key with
    | none =>
      simp only
      apply ih
      rcases List.mem_cons.1 hk with rfl | hk'
      · rw [hkey] at ho
        cases ho
      · exact ⟨k, hk', o, ho, hty⟩
    | some o' =>
      simp only
      by_cases ht : o'.type ≠ OBJ_SET
      · simp [checkType, ht]
      · have ht' : o'.type = OBJ_SET := not_not.1 ht
        simp only [checkType, ht, if_false, Bool.false_eq_true]
        apply ih
        rcases List.mem_cons.1 hk with rfl | hk'
        · rw [hkey] at ho
          injection ho with ho
          exact absurd (ho ▸ ht') hty
        · exact ⟨k, hk', o, ho, hty⟩

/-- C22: if one of the operand keys of `sunionDiffGenericCommand` holds a
value that is not a set, then, for every operation (union or difference),
with or without a destination key and wherever the key stands among the
operands, the command returns after the lookup loop: the wrong-type error is
appended to the reply and the keyspace, the destination key included, is the
one before the command. -/
theorem sunionDiffGenericCommand_wrongtype (server : redisServer) (c : client)
    (setkeys : List sds) (dstkey : Option sds) (op : Nat)
    (h : ∃ k ∈ setkeys, ∃ o, c.db k = some o ∧ o.type ≠ OBJ_SET) :
    ∃ c', sunionDiffGenericCommand server c setkeys dstkey op = some c' ∧
      c'.reply = c.reply ++ [.wrongtypeerr] ∧ c'.db = c.db := by
  refine ⟨addReply c .wrongtypeerr, ?_, rfl, rfl⟩
  unfold sunionDiffGenericCommand
  rw [sunionDiffLookup_wrongtype dstkey c setkeys h []]

theorem sunionDiffGenericCommand_wrongtype_witness :
    ∃ c', sunionDiffGenericCommand exampleServer ⟨mixedDb, []⟩ [[109], [115], [104]]
        (some [100]) SET_OP_DIFF = some c' ∧
      c'.reply = [] ++ [.wrongtypeerr] ∧ c'.db = mixedDb :=
  sunionDiffGenericCommand_wrongtype exampleServer ⟨mixedDb, []⟩ [[109], [115], [104]]
    (some [100]) SET_OP_DIFF ⟨[104], by decide, exampleHash, rfl, by decide⟩

/-- C23, evaluated: the key "d" holds the set {1, 2, 3}, the key "h" a hash
and the key "m" nothing.  SINTERSTORE d m h replies 0 and deletes "d": the
missing key returns before the type of "h" is checked.  SINTERSTORE d h m
replies the wrong-type error and keeps "d", as SUNIONSTORE d m h does. -/
theorem sinterstore_missing_before_wrongtype :
    replyAndKey (sinterGenericCommand exampleServer ⟨mixedDb, []⟩ [[109], [104]] (some [100]))
        [100]
      = some ([.czero], none) ∧
    replyAndKey (some (⟨mixedDb, []⟩ : client)) [100]
      = some ([], some (OBJ_SET, [[49], [50], [51]])) ∧
    mixedDb [109] = none ∧ (mixedDb [104]).map (·.type) = some OBJ_HASH ∧
    replyAndKey (sinterGenericCommand exampleServer ⟨mixedDb, []⟩ [[104], [109]] (some [100]))
        [100]
      = some ([.wrongtypeerr], some (OBJ_SET, [[49], [50], [51]])) ∧
    replyAndKey (sunionDiffGenericCommand exampleServer ⟨mixedDb, []⟩ [[109], [104]]
        (some [100]) SET_OP_UNION) [100]
      = some ([.wrongtypeerr], some (OBJ_SET, [[49], [50], [51]])) := by
  refine ⟨by decide, by decide, rfl, by decide, by decide, by decide⟩

/-- A sequence of calls on a valid hash succeeds, leaves a valid hash and
builds the map of the model. -/
theorem hashTypeRun_spec (server : redisServer) (calls : List hashCall) :
    ∀ (o : robj) (m : List (sds × sds)), hashValid o → (hashPairs o).Perm m →
      ∃ o', hashTypeRun server o calls = some o' ∧ hashValid o' ∧ o'.type = o.type ∧
        (hashPairs o').Perm (hashModelRun m calls) := by
  induction calls with
  | nil => exact fun o m hv hp => ⟨o, rfl, hv, rfl, hp⟩
  | cons call calls ih =>
    intro o m hv hp
    cases call with
    | set field value flags =>
      obtain ⟨o1, h1, h2, h3, _⟩ := hashTypeSet_spec server o hv field value flags
      obtain ⟨o', g1, g2, g3, g4⟩ := ih o1 ((field, value) :: m.filter
        (fun p => decide (p.1 ≠ field))) h2.valid (h2.perm.trans ((hp.filter _).cons _))
      exact ⟨o', by simp only [hashTypeRun, h1, g1], g2, g3.trans h3, g4⟩
    | delete field =>
      obtain ⟨o1, h1, h2, h3, _⟩ := hashTypeDelete_spec server o hv field
      obtain ⟨o', g1, g2, g3, g4⟩ := ih o1 (m.filter (fun p => decide (p.1 ≠ field))) h2.valid
        (h2.perm.trans (hp.filter _))
      exact ⟨o', by simp only [hashTypeRun, h1, g1], g2, g3.trans h3, g4⟩

theorem hashTypeRun_reachable (server : redisServer) (calls : List hashCall) :
    ∃ o, hashTypeRun server createHashObject calls = some o ∧ hashValid o ∧
      o.type = OBJ_HASH ∧ (hashPairs o).Perm (hashModelRun [] calls) :=
  hashTypeRun_spec server calls createHashObject [] createHashObject_valid (List.Perm.refl _)

theorem zlPairs_flatten (zl : List zlentry) (h : zl.length % 2 = 0) :
    (zlPairs zl).flatMap (fun p => [p.1, p.2]) = zl := by
  revert h
  apply even_list_induction (fun zl => (zlPairs zl).flatMap (fun p => [p.1, p.2]) = zl)
  · rfl
  · intro a b l _ ih
    simp [zlPairs, ih]

/-- C21: every sequence of `hashTypeSet` and `hashTypeDelete` calls from the
empty hash succeeds and leaves a hash of type hash in one of the two
encodings, whose (field, value) pairs are those of the map the calls build,
with pairwise distinct fields.  If it is ziplist encoded, the ziplist has an
even number of entries, is the sequence of its adjacent (field, value) pairs,
and `hashTypeLength`, the number of entries halved, is the number of fields.
If it is hash table encoded, `hashTypeLength` is `ht[0].used + ht[1].used`,
the number of entries of the dictionary, which is the number of fields. -/
theorem hashTypeLength_counts_fields (server : redisServer) (calls : List hashCall) :
    ∃ o, hashTypeRun server createHashObject calls = some o ∧
      (hashPairs o).Perm (hashModelRun [] calls) ∧
      ((hashPairs o).map (·.1)).Nodup ∧
      hashTypeLength o = some ((hashPairs o).map (·.1)).length ∧
      (o.encoding = OBJ_ENCODING_ZIPLIST ∨ o.encoding = OBJ_ENCODING_HT) ∧
      (o.encoding = OBJ_ENCODING_ZIPLIST → ∃ zl, o.ptr = .ziplist zl ∧
        zl.length % 2 = 0 ∧ (zlPairs zl).flatMap (fun p => [p.1, p.2]) = zl ∧
        ((zlPairs zl).map (·.1.bytes)).Nodup ∧
        hashTypeLength o = some (zl.length / 2) ∧
        zl.length / 2 = ((hashPairs o).map (·.1)).length) ∧
      (o.encoding = OBJ_ENCODING_HT → ∃ d, o.ptr = .dict d ∧
        hashTypeLength o = some (d.ht0.used + d.ht1.used) ∧
        d.ht0.used + d.ht1.used = (dictEntries d).length ∧
        (dictEntries d).length = ((hashPairs o).map (·.1)).length ∧
        (dictKeys d).Nodup) := by
  obtain ⟨o, h1, hv, _, hp⟩ := hashTypeRun_reachable server calls
  have hlen := hashTypeLength_spec o hv
  refine ⟨o, h1, hp, hv.nodup, by rw [hlen, List.length_map], hv.encoding, ?_, ?_⟩
  · intro henc
    obtain ⟨zl, hp, hl, _, hnd⟩ := hashValid_ziplist hv henc
    refine ⟨zl, hp, hl, zlPairs_flatten zl hl, hnd, ?_, ?_⟩
    · simp [hashTypeLength, henc, hp, ziplistLen]
    · simp [hashPairs, hp, zlPairs_length zl hl]
  · intro henc
    obtain ⟨d, hp, hw, _⟩ := hashValid_dict hv henc
    have hne : OBJ_ENCODING_HT ≠ OBJ_ENCODING_ZIPLIST := by decide
    refine ⟨d, hp, ?_, ?_, ?_, hw.nodup⟩
    · simp [hashTypeLength, henc, hne, hp, dictSize]
    · have := hw.size_eq
      simpa [dictSize] using this
    · simp [hashPairs, hp]

theorem genericHgetallBody_eq (flags : Nat) (hi : hashTypeIterator) (f v : sds)
    (hk : ∀ c, addHashIteratorCursorToReply c hi OBJ_HASH_KEY = some (addReply c (.bulk f)))
    (hv : ∀ c, addHashIteratorCursorToReply c hi OBJ_HASH_VALUE = some (addReply c (.bulk v)))
    (c : client) (cnt : Nat) :
    genericHgetallBody flags (c, cnt) hi
      = some (⟨c.db, c.reply ++ hgetallItems flags (f, v)⟩, cnt + hgetallMultiplier flags) := by
  simp only [genericHgetallBody, hgetallItems, hgetallMultiplier]
  by_cases h1 : flags &&& OBJ_HASH_KEY ≠ 0 <;> by_cases h2 : flags &&& OBJ_HASH_VALUE ≠ 0 <;>
    simp [h1, h2, hk, hv, addReply, Nat.add_assoc]

theorem hiList_cursor (o : robj) (zl : ziplist) (hp : o.ptr = .ziplist zl)
    (pre : List zlentry) (a b : zlentry) (rest : List zlentry) (hzl : zl = pre ++ a :: b :: rest) :
    (∀ c, addHashIteratorCursorToReply c
        ⟨o, OBJ_ENCODING_ZIPLIST, some pre.length, some (pre.length + 1), none, none⟩ OBJ_HASH_KEY
      = some (addReply c (.bulk a.bytes))) ∧
    (∀ c, addHashIteratorCursorToReply c
        ⟨o, OBJ_ENCODING_ZIPLIST, some pre.length, some (pre.length + 1), none, none⟩
        OBJ_HASH_VALUE
      = some (addReply c (.bulk b.bytes))) ∧
    hashTypeCurrentObjectNewSds
        ⟨o, OBJ_ENCODING_ZIPLIST, some pre.length, some (pre.length + 1), none, none⟩ OBJ_HASH_KEY
      = some a.bytes ∧
    hashTypeCurrentObjectNewSds
        ⟨o, OBJ_ENCODING_ZIPLIST, some pre.length, some (pre.length + 1), none, none⟩
        OBJ_HASH_VALUE
      = some b.bytes := by
  have hk : zl[pre.length]? = some a := by
    rw [hzl]; exact getElem?_append_length pre a (b :: rest)
  have hvv : zl[pre.length + 1]? = some b := by
    rw [hzl]; exact getElem?_append_length_succ pre a b rest
  refine ⟨fun c => ?_, fun c => ?_, ?_, ?_⟩
  · simp only [addHashIteratorCursorToReply, hashTypeCurrentFromZiplist, hp, if_true, ne_eq,
      not_true_eq_false, if_false, OBJ_HASH_KEY, ziplistGet, Option.bind, hk]
    cases a <;> simp [zlentry.bytes]
  · simp only [addHashIteratorCursorToReply, hashTypeCurrentFromZiplist, hp, if_true, ne_eq,
      not_true_eq_false, if_false, OBJ_HASH_KEY, OBJ_HASH_VALUE, ziplistGet, Option.bind, hvv]
    cases b <;> simp [zlentry.bytes]
  · simp only [hashTypeCurrentObjectNewSds, hashTypeCurrentObject, hashTypeCurrentFromZiplist, hp,
      if_true, ne_eq, not_true_eq_false, if_false, OBJ_HASH_KEY, ziplistGet, Option.bind, hk]
    cases a <;> simp [zlentry.bytes]
  · simp only [hashTypeCurrentObjectNewSds, hashTypeCurrentObject, hashTypeCurrentFromZiplist, hp,
      if_true, ne_eq, not_true_eq_false, if_false, OBJ_HASH_KEY, OBJ_HASH_VALUE, ziplistGet,
      Option.bind, hvv]
    cases b <;> simp [zlentry.bytes]

/-- The loop of `genericHgetallCommand` over the positions of a ziplist. -/
theorem hgetall_fold_zl (flags : Nat) (o : robj) (zl : ziplist) (hp : o.ptr = .ziplist zl)
    (rest : List zlentry) (hr : rest.length % 2 = 0) :
    ∀ (pre : List zlentry) (c : client) (cnt : Nat), zl = pre ++ rest →
      foldOpt (genericHgetallBody flags) (hiList o pre.length rest) (c, cnt)
        = some (⟨c.db, c.reply ++ (zlPairs rest).flatMap
            (fun p => hgetallItems flags (p.1.bytes, p.2.bytes))⟩,
          cnt + (zlPairs rest).length * hgetallMultiplier flags) ∧
      (hiList o pre.length rest).map (fun h =>
          (hashTypeCurrentObjectNewSds h OBJ_HASH_KEY,
            hashTypeCurrentObjectNewSds h OBJ_HASH_VALUE))
        = (zlPairs rest).map (fun p => (some p.1.bytes, some p.2.bytes)) := by
  revert hr
  apply even_list_induction (fun rest => ∀ (pre : List zlentry) (c : client) (cnt : Nat),
    zl = pre ++ rest →
      foldOpt (genericHgetallBody flags) (hiList o pre.length rest) (c, cnt)
        = some (⟨c.db, c.reply ++ (zlPairs rest).flatMap
            (fun p => hgetallItems flags (p.1.bytes, p.2.bytes))⟩,
          cnt + (zlPairs rest).length * hgetallMultiplier flags) ∧
      (hiList o pre.length rest).map (fun h =>
          (hashTypeCurrentObjectNewSds h OBJ_HASH_KEY,
            hashTypeCurrentObjectNewSds h OBJ_HASH_VALUE))
        = (zlPairs rest).map (fun p => (some p.1.bytes, some p.2.bytes)))
  · intro pre c cnt _
    simp [hiList, zlPairs, foldOpt]
  · intro a b rest _ ih pre c cnt hzl
    obtain ⟨k1, k2, k3, k4⟩ := hiList_cursor o zl hp pre a b rest hzl
    obtain ⟨i1, i2⟩ := ih (pre ++ [a, b])
      ⟨c.db, c.reply ++ hgetallItems flags (a.bytes, b.bytes)⟩ (cnt + hgetallMultiplier flags)
      (by simp [hzl])
    have hl : (pre ++ [a, b]).length = pre.length + 2 := by simp
    rw [hl] at i1 i2
    constructor
    · simp only [hiList, zlPairs, foldOpt, genericHgetallBody_eq flags _ _ _ k1 k2, i1]
      simp only [List.flatMap_cons, List.append_assoc, List.length_cons]
      congr 2
      ring
    · simp only [hiList, zlPairs, List.map_cons, k3, k4, i2]

theorem hashTypeNextStep_yields_ht (o : robj) (l : List dictEntry) (di : dictIterator)
    (h : Yields dictNext di l) :
    ∀ de0, ∃ his, Yields hashTypeNextStep ⟨o, OBJ_ENCODING_HT, none, none, some di, de0⟩ his ∧
      his.map (·.de) = l.map some ∧ ∀ x ∈ his, x.encoding = OBJ_ENCODING_HT := by
  have hne : OBJ_ENCODING_HT ≠ OBJ_ENCODING_ZIPLIST := by decide
  induction h with
  | done it it' hn =>
    intro de0
    refine ⟨[], Yields.done _ ⟨o, OBJ_ENCODING_HT, none, none, some it', none⟩ ?_, rfl, by simp⟩
    simp [hashTypeNextStep, hashTypeNext, hne, hn, C_ERR]
  | step it it' x xs hn _ ih =>
    intro de0
    obtain ⟨his, h1, h2, h3⟩ := ih (some x)
    refine ⟨⟨o, OBJ_ENCODING_HT, none, none, some it', some x⟩ :: his,
      Yields.step _ ⟨o, OBJ_ENCODING_HT, none, none, some it', some x⟩ _ _ ?_ h1, ?_, ?_⟩
    · simp [hashTypeNextStep, hashTypeNext, hne, hn, C_OK, C_ERR]
    · simp [h2]
    · intro y hy
      rcases List.mem_cons.1 hy with rfl | hy
      · rfl
      · exact h3 y hy

theorem ht_cursor (hi : hashTypeIterator) (e : dictEntry) (v : sds)
    (henc : hi.encoding = OBJ_ENCODING_HT) (hde : hi.de = some e) (hv : e.val = some v) :
    (∀ c, addHashIteratorCursorToReply c hi OBJ_HASH_KEY = some (addReply c (.bulk e.key))) ∧
    (∀ c, addHashIteratorCursorToReply c hi OBJ_HASH_VALUE = some (addReply c (.bulk v))) ∧
    hashTypeCurrentObjectNewSds hi OBJ_HASH_KEY = some e.key ∧
    hashTypeCurrentObjectNewSds hi OBJ_HASH_VALUE = some v := by
  have hne : OBJ_ENCODING_HT ≠ OBJ_ENCODING_ZIPLIST := by decide
  refine ⟨fun c => ?_, fun c => ?_, ?_, ?_⟩
  · simp [addHashIteratorCursorToReply, hashTypeCurrentFromHashTable, henc, hne, hde,
      OBJ_HASH_KEY]
  · simp [addHashIteratorCursorToReply, hashTypeCurrentFromHashTable, henc, hne, hde,
      OBJ_HASH_KEY, OBJ_HASH_VALUE, hv]
  · simp [hashTypeCurrentObjectNewSds, hashTypeCurrentObject, hashTypeCurrentFromHashTable, henc,
      hne, hde, OBJ_HASH_KEY]
  · simp [hashTypeCurrentObjectNewSds, hashTypeCurrentObject, hashTypeCurrentFromHashTable, henc,
      hne, hde, OBJ_HASH_KEY, OBJ_HASH_VALUE, hv]

/-- The loop of `genericHgetallCommand` over the entries of a dictionary. -/
theorem hgetall_fold_ht (flags : Nat) :
    ∀ (l : List dictEntry) (his : List hashTypeIterator) (c : client) (cnt : Nat),
      his.map (·.de) = l.map some → (∀ x ∈ his, x.encoding = OBJ_ENCODING_HT) →
      (∀ e ∈ l, e.val ≠ none) →
      foldOpt (genericHgetallBody flags) his (c, cnt)
        = some (⟨c.db, c.reply ++ l.flatMap
            (fun e => hgetallItems flags (e.key, e.val.getD []))⟩,
          cnt + l.length * hgetallMultiplier flags) ∧
      his.map (fun h =>
          (hashTypeCurrentObjectNewSds h OBJ_HASH_KEY,
            hashTypeCurrentObjectNewSds h OBJ_HASH_VALUE))
        = l.map (fun e => (some e.key, some (e.val.getD []))) := by
  intro l
  induction l with
  | nil =>
    intro his c cnt hm _ _
    have : his = [] := by simpa using hm
    subst this
    simp [foldOpt]
  | cons e l ih =>
    intro his c cnt hm henc hval
    cases his with
    | nil => simp at hm
    | cons hi his =>
      simp only [List.map_cons, List.cons.injEq] at hm
      obtain ⟨v, hv⟩ := Option.ne_none_iff_exists'.1 (hval e (List.mem_cons_self _ _))
      obtain ⟨k1, k2, k3, k4⟩ := ht_cursor hi e v (henc hi (List.mem_cons_self _ _)) hm.1 hv
      obtain ⟨i1, i2⟩ := ih his ⟨c.db, c.reply ++ hgetallItems flags (e.key, v)⟩
        (cnt + hgetallMultiplier flags) hm.2 (fun x hx => henc x (List.mem_cons_of_mem _ hx))
        (fun x hx => hval x (List.mem_cons_of_mem _ hx))
      constructor
      · simp only [foldOpt, genericHgetallBody_eq flags _ _ _ k1 k2, i1]
        simp only [List.flatMap_cons, List.append_assoc, List.length_cons, hv, Option.getD_some]
        congr 2
        ring
      · simp only [List.map_cons, k3, k4, i2, hv, Option.getD_some]

/-- The iteration of a valid hash: the iterator yields one position per pair,
in the order of `hashPairs`, with the field and the value of the pair. -/
theorem hashType_iteration (flags : Nat) (o : robj) (hv : hashValid o) (c : client) (cnt : Nat) :
    ∃ hi0 his, hashTypeInitIterator o = some hi0 ∧ Yields hashTypeNextStep hi0 his ∧
      his.length = (hashPairs o).length ∧
      his.map (fun h =>
          (hashTypeCurrentObjectNewSds h OBJ_HASH_KEY,
            hashTypeCurrentObjectNewSds h OBJ_HASH_VALUE))
        = (hashPairs o).map (fun p => (some p.1, some p.2)) ∧
      foldOpt (genericHgetallBody flags) his (c, cnt)
        = some (⟨c.db, c.reply ++ (hashPairs o).flatMap (hgetallItems flags)⟩,
          cnt + (hashPairs o).length * hgetallMultiplier flags) := by
  have hne : OBJ_ENCODING_HT ≠ OBJ_ENCODING_ZIPLIST := by decide
  rcases hv.encoding with henc | henc
  · obtain ⟨zl, hp, hlen, _, _⟩ := hashValid_ziplist hv henc
    have hy := hiList_yields o zl hp zl hlen []
      ⟨o, OBJ_ENCODING_ZIPLIST, none, none, none, none⟩ rfl
      ⟨rfl, rfl, rfl, rfl, Or.inl ⟨rfl, rfl, rfl⟩⟩
    obtain ⟨f1, f2⟩ := hgetall_fold_zl flags o zl hp zl hlen [] c cnt rfl
    simp only [List.length_nil] at hy f1 f2
    refine ⟨_, hiList o 0 zl, ?_, hy, ?_, ?_, ?_⟩
    · simp [hashTypeInitIterator, henc]
    · rw [hiList_length o zl hlen 0]
      simp [hashPairs, hp, zlPairs_length zl hlen]
    · rw [f2]
      simp [hashPairs, hp, List.map_map, Function.comp_def]
    · rw [f1]
      simp [hashPairs, hp, List.flatMap_map, List.length_map]
  · obtain ⟨d, hp, hw, hvals⟩ := hashValid_dict hv henc
    have hy := dictNext_yields _ _ (dictGetIterator_ok d hw) (dictGetIterator_rest d hw)
    obtain ⟨his, h1, h2, h3⟩ := hashTypeNextStep_yields_ht o _ _ hy none
    obtain ⟨f1, f2⟩ := hgetall_fold_ht flags (dictEntries d) his c cnt h2 h3 hvals
    refine ⟨_, his, ?_, h1, ?_, ?_, ?_⟩
    · simp [hashTypeInitIterator, henc, hne, hp]
    · have := congrArg List.length h2
      simpa [hashPairs, hp] using this
    · rw [f2]
      simp [hashPairs, hp, List.map_map, Function.comp_def]
    · rw [f1]
      simp [hashPairs, hp, List.flatMap_map, List.length_map]

/-- `genericHgetallCommand` on a key holding a valid hash. -/
theorem genericHgetallCommand_spec (c : client) (key : sds) (flags : Nat) (o : robj)
    (hk : c.db key = some o) (hv : hashValid o) (hty : o.type = OBJ_HASH) :
    genericHgetallCommand c key flags
      = some ⟨c.db, c.reply ++ .multibulklen
          (ulongToInt ((hashPairs o).length * hgetallMultiplier flags))
          :: (hashPairs o).flatMap (hgetallItems flags)⟩ := by
  obtain ⟨hi0, his, h1, h2, h3, _, h5⟩ := hashType_iteration flags o hv
    (addReply c (.multibulklen (ulongToInt ((hashPairs o).length * hgetallMultiplier flags)))) 0
  have hct : (checkType c o OBJ_HASH).1 = false := by simp [checkType, hty]
  simp only [genericHgetallCommand, lookupKeyReadOrReply, lookupKeyRead, hk, hct,
    Bool.false_eq_true, if_false, hashTypeLength_spec o hv, h1]
  have hm : ((if flags &&& OBJ_HASH_KEY ≠ 0 then 1 else 0)
      + (if flags &&& OBJ_HASH_VALUE ≠ 0 then 1 else 0)) = hgetallMultiplier flags := rfl
  rw [hm, whileNext_eq_foldOpt _ _ hi0 his h2 _ _ (by rw [h3]; exact Nat.lt_succ_self _), h5]
  simp [addReply]

/-- C30: for a hash `o` reached from the empty hash by a sequence of
`hashTypeSet` and `hashTypeDelete` calls, in either encoding: the iteration
with `hashTypeInitIterator` and `hashTypeNext` returns at every step (no
assertion of `hashTypeNext` fails), yields exactly `hashTypeLength(o)`
positions and then `C_ERR`, and the fields and values read at these positions
are the pairs of the hash, each field once with its current value.  With `o`
stored at a key, `genericHgetallCommand` returns for every `flags` (so for
`OBJ_HASH_KEY`, `OBJ_HASH_VALUE` and both): the assertion `count == length`
holds, and the reply is the announced length followed by the fields, the
values, or both, of the pairs.  Two runs are evaluated, one per encoding. -/
theorem hashTypeNext_yields_all (server : redisServer) (calls : List hashCall) :
    ∃ o, hashTypeRun server createHashObject calls = some o ∧
      (hashPairs o).Perm (hashModelRun [] calls) ∧ ((hashPairs o).map (·.1)).Nodup ∧
      (∃ hi0 his, hashTypeInitIterator o = some hi0 ∧ Yields hashTypeNextStep hi0 his ∧
        hashTypeLength o = some his.length ∧
        his.map (fun h =>
            (hashTypeCurrentObjectNewSds h OBJ_HASH_KEY,
              hashTypeCurrentObjectNewSds h OBJ_HASH_VALUE))
          = (hashPairs o).map (fun p => (some p.1, some p.2))) ∧
      (∀ (c : client) (key : sds) (flags : Nat), c.db key = some o →
        genericHgetallCommand c key flags
          = some ⟨c.db, c.reply ++ .multibulklen
              (ulongToInt ((hashPairs o).length * hgetallMultiplier flags))
              :: (hashPairs o).flatMap (hgetallItems flags)⟩) ∧
      hgetallMultiplier OBJ_HASH_KEY = 1 ∧ hgetallMultiplier OBJ_HASH_VALUE = 1 ∧
      hgetallMultiplier (OBJ_HASH_KEY + OBJ_HASH_VALUE) = 2 ∧
      (genericHgetallCommand ⟨hashDb, []⟩ [104] 3).map (·.reply)
        = some [.multibulklen 4, .bulk [97], .bulk [49, 50], .bulk [98], .bulk [120]] ∧
      (genericHgetallCommand ⟨hashDb, []⟩ [116] 2).map (·.reply)
        = some [.multibulklen 2, .bulk [49, 50], .bulk [120]] := by
  obtain ⟨o, h1, hv, hty, hp⟩ := hashTypeRun_reachable server calls
  obtain ⟨hi0, his, i1, i2, i3, i4, _⟩ := hashType_iteration 0 o hv ⟨fun _ => none, []⟩ 0
  refine ⟨o, h1, hp, hv.nodup, ⟨hi0, his, i1, i2, ?_, i4⟩, ?_, by decide, by decide, by decide,
    by decide, by decide⟩
  · rw [hashTypeLength_spec o hv, i3]
  · intro c key flags hk
    exact genericHgetallCommand_spec c key flags o hk hv hty

theorem dict.reorg.keys_perm {d d' : dict} (h : dict.reorg d d') :
    (dictKeys d').Perm (dictKeys d) := h.perm.map _

/-- A sequence of operations keeps the dictionary well formed and leaves the
keys of the model. -/
theorem dictRun_spec (cr : Bool) (calls : List dictCall) :
    ∀ (d : dict) (m : List sds), d.wf → (dictKeys d).Perm m →
      (dictRun cr d calls).wf ∧ (dictKeys (dictRun cr d calls)).Perm (dictModelRun m calls) := by
  induction calls with
  | nil => exact fun d m hw hp => ⟨hw, hp⟩
  | cons call calls ih =>
    intro d m hw hp
    cases call with
    | add key val =>
      obtain ⟨a1, a2⟩ := dictAdd_spec cr d key val hw
      simp only [dictRun, dictModelRun]
      by_cases hin : key ∈ dictKeys d
      · rw [if_pos (hp.mem_iff.1 hin)]
        exact ih _ m (a1 hin).2.wf ((a1 hin).2.keys_perm.trans hp)
      · rw [if_neg (fun hc => hin (hp.mem_iff.2 hc))]
        exact ih _ (key :: m) (a2 hin).2.wf ((dictKeys_put (a2 hin).2 hin).trans (hp.cons key))
    | delete key =>
      obtain ⟨a1, _, _⟩ := dictDelete_spec d key hw
      simp only [dictRun, dictModelRun]
      exact ih _ _ a1.wf ((dictKeys_del a1).trans (hp.filter _))
    | find key =>
      obtain ⟨a1, _, _⟩ := dictFind_spec d key hw
      simp only [dictRun, dictModelRun]
      exact ih _ m a1.wf (a1.keys_perm.trans hp)
    | rehash n =>
      have a1 := dictRehash_reorg d n hw
      simp only [dictRun, dictModelRun]
      exact ih _ m a1.wf (a1.keys_perm.trans hp)

/-- A key is found exactly when it is a key of the dictionary. -/
theorem dictFind_isSome (d : dict) (key : sds) (h : d.wf) :
    (dictFind d key).1.isSome = true ↔ key ∈ dictKeys d := by
  obtain ⟨h1, h2, h3⟩ := dictFind_spec d key h
  constructor
  · intro hs
    obtain ⟨de, hde⟩ := Option.isSome_iff_exists.1 hs
    obtain ⟨⟨e, _, he, hm⟩, _⟩ := h3 de hde
    exact (h1.mem_keys key).1 ((mem_dictKeys key).2 ⟨e, hm, he⟩)
  · intro hin
    cases hf : (dictFind d key).1 with
    | none => exact absurd hin (h2 hf)
    | some de => rfl

/-- When `dictRehash` reports that nothing is left, the cursor is idle and
every entry is in `ht[0]`. -/
theorem dictRehash_complete (d : dict) (n : Nat) (h : d.wf) (h0 : (dictRehash d n).1 = 0) :
    (dictRehash d n).2.rehashidx = -1 ∧ (dictRehash d n).2.ht1 = dicthtReset ∧
    dictEntries (dictRehash d n).2 = (dictRehash d n).2.ht0.table.flatten ∧
    (dictRehash d n).2.ht0.used = dictSize d := by
  have hre := dictRehash_reorg d n h
  have hidle : (dictRehash d n).2.rehashidx = -1 := by
    unfold dictRehash at h0 ⊢
    by_cases hr : dictIsRehashing d = true
    · simp only [hr, not_true_eq_false, if_false] at h0 ⊢
      rcases hl : dictRehashLoop n (n * 10) d with ⟨d', b⟩
      rw [hl] at h0
      cases b with
      | true => simp at h0
      | false =>
        simp only at h0 ⊢
        by_cases hu : d'.ht0.used = 0
        · simp only [hu, if_true]
        · simp only [hu, if_false] at h0
          simp at h0
    · simp only [hr, not_false_eq_true, if_true]
      have : dictIsRehashing d = false := by simpa using hr
      exact (dictIsRehashing_eq_false d).1 this
  have h1 := hre.wf.idle hidle
  refine ⟨hidle, h1, ?_, ?_⟩
  · simp [dictEntries, h1, dicthtReset]
  · have := hre.size_same h
    rw [← this, dictSize, h1]
    simp [dicthtReset]

theorem dict.rehashInv.cursor_lt {d0 d : dict} (h : dict.rehashInv d0 d) (hu : d.ht0.used ≠ 0) :
    d.rehashidx < d.ht0.size := by
  have hne : d.ht0.table.flatten ≠ [] := by
    intro hc
    apply hu
    rw [h.wf0.used_eq, hc]
    rfl
  obtain ⟨e, he⟩ := List.exists_mem_of_ne_nil _ hne
  obtain ⟨i, hi, hm⟩ := exists_getD_of_mem_flatten _ e he
  rw [h.wf0.length_eq] at hi
  by_contra hcon
  have := h.below i (by omega)
  rw [dictht.bucket] at this
  rw [this] at hm
  cases hm

theorem dictRehashSkip_idx (ev : Nat) (d : dict) :
    d.rehashidx ≤ (dictRehashSkip ev d).1.rehashidx ∧
    (dictRehashSkip ev d).1.ht0 = d.ht0 ∧
    ((dictRehashSkip ev d).2 = none → 0 < ev → d.rehashidx < (dictRehashSkip ev d).1.rehashidx) := by
  induction ev generalizing d with
  | zero =>
    refine ⟨le_refl _, rfl, ?_⟩
    intro _ h
    exact absurd h (by omega)
  | succ ev ih =>
    rw [dictRehashSkip]
    by_cases hb : d.ht0.bucket d.rehashidx.toNat ≠ []
    · rw [if_pos hb]
      refine ⟨le_refl _, rfl, ?_⟩
      intro hc
      cases hc
    · rw [if_neg hb]
      by_cases hev : ev = 0
      · simp only [hev, if_true]
        refine ⟨by omega, trivial, ?_⟩
        intro _ _
        omega
      · simp only [hev, if_false]
        obtain ⟨i1, i2, _⟩ := ih { d with rehashidx := d.rehashidx + 1 }
        simp only at i1 i2
        refine ⟨by omega, i2, ?_⟩
        intro _ _
        omega

theorem dictRehashSkip_some (ev : Nat) (d : dict) (ev' : Nat)
    (h : (dictRehashSkip ev d).2 = some ev') : 0 < ev' := by
  induction ev generalizing d with
  | zero => simp [dictRehashSkip] at h
  | succ ev ih =>
    rw [dictRehashSkip] at h
    by_cases hb : d.ht0.bucket d.rehashidx.toNat ≠ []
    · rw [if_pos hb] at h
      injection h with h
      omega
    · rw [if_neg hb] at h
      by_cases hev : ev = 0
      · simp only [hev, if_true] at h
        cases h
      · simp only [hev, if_false] at h
        exact ih _ h

theorem dictRehashLoop_idx (n : Nat) :
    ∀ (ev : Nat) (d : dict), 0 < ev →
      d.rehashidx ≤ (dictRehashLoop n ev d).1.rehashidx ∧
      (dictRehashLoop n ev d).1.ht0.size = d.ht0.size ∧
      ((dictRehashLoop n ev d).2 = true → (dictRehashLoop n ev d).1.ht0.used ≠ 0) ∧
      (0 < n → d.ht0.used ≠ 0 → d.rehashidx < (dictRehashLoop n ev d).1.rehashidx) := by
  induction n with
  | zero =>
    intro ev d _
    simp only [dictRehashLoop]
    refine ⟨le_refl _, trivial, ?_, ?_⟩
    · intro hc
      cases hc
    · intro hc
      exact absurd hc (by omega)
  | succ n ih =>
    intro ev d hev
    rw [dictRehashLoop]
    by_cases hu : d.ht0.used = 0
    · simp only [hu, if_true]
      refine ⟨le_refl _, trivial, ?_, ?_⟩
      · intro hc
        cases hc
      · intro _ hc
        exact absurd rfl hc
    · simp only [hu, if_false]
      obtain ⟨s1, s2, s3⟩ := dictRehashSkip_idx ev d
      have s4 := dictRehashSkip_some ev d
      rcases hr : dictRehashSkip ev d with ⟨d', o⟩
      rw [hr] at s1 s2 s3 s4
      simp only at s1 s2 s3 s4
      cases o with
      | none =>
        simp only
        refine ⟨s1, by rw [s2], ?_, ?_⟩
        · intro _
          rw [s2]
          exact hu
        · intro _ _
          exact s3 rfl hev
      | some ev' =>
        simp only
        obtain ⟨i1, i2, i3, _⟩ := ih ev' { d' with
          ht1 := dictRehashChain d'.type.hashFunction (d'.ht0.bucket d'.rehashidx.toNat) d'.ht1
          ht0 := { d'.ht0 with table := d'.ht0.table.set d'.rehashidx.toNat [],
                               used := d'.ht0.used - (d'.ht0.bucket d'.rehashidx.toNat).length }
          rehashidx := d'.rehashidx + 1 } (s4 ev' rfl)
        simp only at i1 i2
        refine ⟨by omega, by rw [i2, s2], i3, ?_⟩
        intro _ _
        omega

/-- A call `dictRehash(d,n)` with `n ≥ 1` that does not complete the rehash
moves the cursor forward, and the cursor stays below the size of `ht[0]`. -/
theorem dictRehash_progress (d : dict) (n : Nat) (h : d.wf) (hn : 0 < n)
    (h1 : (dictRehash d n).1 ≠ 0) :
    d.rehashidx ≠ -1 ∧ (dictRehash d n).2.rehashidx ≠ -1 ∧
    (dictRehash d n).2.ht0.size = d.ht0.size ∧
    d.rehashidx < (dictRehash d n).2.rehashidx ∧
    (dictRehash d n).2.rehashidx < (d.ht0.size : Int) := by
  unfold dictRehash at h1 ⊢
  by_cases hr : dictIsRehashing d = true
  · have hidx := (dictIsRehashing_eq_true d).1 hr
    simp only [hr, not_true_eq_false, if_false] at h1 ⊢
    have hinv := dictRehashLoop_spec d n (n * 10) d (h.rehashInv hidx)
    obtain ⟨l1, l2, l3, l4⟩ := dictRehashLoop_idx n (n * 10) d (by omega)
    have hge := h.idx_ge
    rcases hl : dictRehashLoop n (n * 10) d with ⟨d', b⟩
    rw [hl] at h1 hinv l1 l2 l3 l4
    simp only at hinv l1 l2 l3 l4
    have hu0 : d.ht0.used ≠ 0 := by
      intro hc
      have : dictRehashLoop n (n * 10) d = (d, false) := by
        cases n with
        | zero => omega
        | succ n => rw [dictRehashLoop, if_pos hc]
      rw [this] at hl
      injection hl with e1 e2
      subst e1 e2
      simp [hc] at h1
    cases b with
    | true =>
      simp only
      have := hinv.cursor_lt (l3 rfl)
      exact ⟨hidx, by omega, l2, l4 hn hu0, by rw [← l2]; exact this⟩
    | false =>
      simp only at h1 ⊢
      by_cases hu : d'.ht0.used = 0
      · simp [hu] at h1
      · simp only [hu, if_false]
        have := hinv.cursor_lt hu
        exact ⟨hidx, by omega, l2, l4 hn hu0, by rw [← l2]; exact this⟩
  · simp only [hr, not_false_eq_true, if_true] at h1
    exact absurd rfl h1

/-- Calls of `dictRehash` with positive step sizes complete the rehash: more
calls than `ht[0]` has buckets suffice, however the steps are sized. -/
theorem dictRehash_terminates (cr : Bool) (ns : List Nat) :
    ∀ (d : dict), d.wf → (∀ n ∈ ns, 0 < n) →
      (d.rehashidx ≠ -1 → d.ht0.size - d.rehashidx.toNat < ns.length) →
      (dictRun cr d (ns.map .rehash)).rehashidx = -1 := by
  induction ns with
  | nil =>
    intro d _ _ hm
    by_contra hc
    exact absurd (hm hc) (by simp)
  | cons n ns ih =>
    intro d hw hpos hm
    simp only [List.map_cons, dictRun]
    have hre := dictRehash_reorg d n hw
    apply ih _ hre.wf (fun k hk => hpos k (List.mem_cons_of_mem _ hk))
    intro hc
    by_cases h0 : (dictRehash d n).1 = 0
    · exact absurd (dictRehash_complete d n hw h0).1 hc
    · obtain ⟨p1, _, p3, p4, p5⟩ := dictRehash_progress d n hw
        (hpos n (List.mem_cons_self _ _)) h0
      have := hm p1
      have hge := hw.idx_ge
      simp only [List.length_cons] at this
      rw [p3]
      omega

theorem dictRehash_ret (d : dict) (n : Nat) :
    (dictRehash d n).1 = 0 ∨ (dictRehash d n).1 = 1 := by
  unfold dictRehash
  split
  · exact Or.inl rfl
  · rcases dictRehashLoop n (n * 10) d with ⟨d', b⟩
    cases b with
    | true => exact Or.inr rfl
    | false =>
      simp only
      split
      · exact Or.inl rfl
      · exact Or.inr rfl

/-- C26: for the dictionary reached from the empty one by any sequence of
insertions, deletions, lookups and calls `dictRehash(d,n)` (so at every
intermediate step of a rehash split in any way), and any further call
`dictRehash(d,n)`: the dictionary is well formed and holds exactly the keys
inserted and not deleted; the step leaves `dictSize`, which is
`ht[0].used + ht[1].used` and the number of these keys, as it is; `dictFind`
finds a key, before and after the step, exactly when it was inserted and not
deleted; the step returns 0 or 1, and when it returns 0 the rehash is
complete: `rehashidx` is -1, `ht[1]` is reset and every entry is in `ht[0]`.
A step with `n ≥ 1` that returns 1 moves the cursor forward below the size of
`ht[0]`, so that more calls than `ht[0]` has buckets complete the rehash
however the steps are sized.  A run is evaluated: five insertions start a
rehash, which a deletion and two steps complete. -/
theorem dictRehash_preserves_entries (type : dictType) (cr : Bool) (calls : List dictCall)
    (n : Nat) :
    (dictRun cr (dictCreate type) calls).wf ∧
    (dictKeys (dictRun cr (dictCreate type) calls)).Perm (dictModelRun [] calls) ∧
    dictSize (dictRun cr (dictCreate type) calls) = (dictModelRun [] calls).length ∧
    dictSize (dictRehash (dictRun cr (dictCreate type) calls) n).2
      = dictSize (dictRun cr (dictCreate type) calls) ∧
    (∀ key, (dictFind (dictRun cr (dictCreate type) calls) key).1.isSome = true
      ↔ key ∈ dictModelRun [] calls) ∧
    (∀ key, (dictFind (dictRehash (dictRun cr (dictCreate type) calls) n).2 key).1.isSome = true
      ↔ key ∈ dictModelRun [] calls) ∧
    ((dictRehash (dictRun cr (dictCreate type) calls) n).1 = 0 ∨
      (dictRehash (dictRun cr (dictCreate type) calls) n).1 = 1) ∧
    ((dictRehash (dictRun cr (dictCreate type) calls) n).1 = 0 →
      (dictRehash (dictRun cr (dictCreate type) calls) n).2.rehashidx = -1 ∧
      (dictRehash (dictRun cr (dictCreate type) calls) n).2.ht1 = dicthtReset ∧
      dictEntries (dictRehash (dictRun cr (dictCreate type) calls) n).2
        = (dictRehash (dictRun cr (dictCreate type) calls) n).2.ht0.table.flatten ∧
      (dictRehash (dictRun cr (dictCreate type) calls) n).2.ht0.used
        = dictSize (dictRun cr (dictCreate type) calls)) ∧
    (0 < n → (dictRehash (dictRun cr (dictCreate type) calls) n).1 ≠ 0 →
      (dictRun cr (dictCreate type) calls).rehashidx
        < (dictRehash (dictRun cr (dictCreate type) calls) n).2.rehashidx ∧
      (dictRehash (dictRun cr (dictCreate type) calls) n).2.rehashidx
        < ((dictRun cr (dictCreate type) calls).ht0.size : Int)) ∧
    (∀ ns : List Nat, (∀ k ∈ ns, 0 < k) →
      (dictRun cr (dictCreate type) calls).ht0.size < ns.length →
      (dictRun cr (dictRun cr (dictCreate type) calls) (ns.map .rehash)).rehashidx = -1) ∧
    dictView (dictRun true (dictCreate ⟨fun k => k.sum⟩)
        [.add [1] none, .add [2] none, .add [3] none, .add [4] none, .add [5] none])
        [[1], [2], [3], [4], [5], [6]]
      = (0, 4, 1, [true, true, true, true, true, false]) ∧
    dictView (dictRun true (dictCreate ⟨fun k => k.sum⟩)
        [.add [1] none, .add [2] none, .add [3] none, .add [4] none, .add [5] none, .rehash 1])
        [[1], [2], [3], [4], [5], [6]]
      = (1, 3, 2, [true, true, true, true, true, false]) ∧
    dictView (dictRun true (dictCreate ⟨fun k => k.sum⟩)
        [.add [1] none, .add [2] none, .add [3] none, .add [4] none, .add [5] none, .rehash 1,
          .delete [2], .rehash 1])
        [[1], [2], [3], [4], [5], [6]]
      = (-1, 4, 0, [true, false, true, true, true, false]) := by
  obtain ⟨hw, hp⟩ := dictRun_spec cr calls (dictCreate type) [] (dictCreate_wf type)
    (by rw [dictKeys, dictEntries_dictCreate]; exact List.Perm.refl _)
  have hre := dictRehash_reorg (dictRun cr (dictCreate type) calls) n hw
  refine ⟨hw, hp, ?_, hre.size_same hw, ?_, ?_, dictRehash_ret _ _,
    dictRehash_complete _ n hw, ?_, ?_, by decide, by decide, by decide⟩
  · rw [hw.size_eq, ← hp.length_eq, dictKeys, List.length_map]
  · intro key
    rw [dictFind_isSome _ key hw, hp.mem_iff]
  · intro key
    rw [dictFind_isSome _ key hre.wf, hre.mem_keys, hp.mem_iff]
  · intro hn h1
    obtain ⟨_, _, _, p4, p5⟩ := dictRehash_progress _ n hw hn h1
    exact ⟨p4, p5⟩
  · intro ns hpos hlen
    apply dictRehash_terminates cr ns _ hw hpos
    intro _
    omega


/-! ## The cost model of SDIFF with at most two existing operands -/

theorem sdiffEstimate_le_total (db : redisDb) (key0 : sds) (rest : List (Option sds))
    (hk : setsExisting (some key0 :: rest) ≤ 2) :
    (dbMembers db key0).length * setsExisting (some key0 :: rest) / 2
      ≤ setsTotal db (some key0 :: rest) := by
  rw [setsExisting_cons, setsTotal_cons] at *
  simp only [Option.isSome_some, if_true] at *
  have h : setsExisting rest = 0 ∨ setsExisting rest = 1 := by omega
  rcases h with h | h
  · rw [h]
    omega
  · rw [h]
    omega

theorem setsExisting_le_length (sets : List (Option sds)) : setsExisting sets ≤ sets.length := by
  unfold setsExisting
  exact List.length_filterMap_le _ _

/-- C38: in SDIFF with an existing operand 0 and at most two existing operands
in all (k ≤ 2, operand 0 included), the estimate floor(k * |op0| / 2) of
algorithm 1 is at most the sum of the sizes of the existing operands, and
sunionDiffChoice selects algorithm 1; this covers every SDIFF of two keys.
Whenever algorithm 2 is selected at least three operands exist. -/
theorem sdiff_two_operands_use_algorithm_one (db : redisDb) (key0 : sds)
    (rest : List (Option sds)) (hv : setsValid db (some key0 :: rest)) :
    (setsExisting (some key0 :: rest) ≤ 2 →
      (dbMembers db key0).length * setsExisting (some key0 :: rest) / 2
          ≤ setsTotal db (some key0 :: rest) ∧
      ∃ sets', sunionDiffChoice db SET_OP_DIFF (some key0 :: rest) = some (1, sets')) ∧
    (rest.length ≤ 1 →
      ∃ sets', sunionDiffChoice db SET_OP_DIFF (some key0 :: rest) = some (1, sets')) ∧
    (∀ sets', sunionDiffChoice db SET_OP_DIFF (some key0 :: rest) = some (2, sets') →
      3 ≤ setsExisting (some key0 :: rest)) := by
  obtain ⟨algo, sets', h1, h2, h3, _, _⟩ := sunionDiffChoice_diff db key0 rest hv
  have hone : setsExisting (some key0 :: rest) ≤ 2 →
      ∃ sets', sunionDiffChoice db SET_OP_DIFF (some key0 :: rest) = some (1, sets') := by
    intro hk
    have ha : algo = 1 := h3.2 (sdiffEstimate_le_total db key0 rest hk)
    exact ⟨sets', by rw [h1, ha]⟩
  refine ⟨fun hk => ⟨sdiffEstimate_le_total db key0 rest hk, hone hk⟩, fun hl => ?_,
    fun s2 hs2 => ?_⟩
  · apply hone
    have := setsExisting_le_length (some key0 :: rest)
    simp only [List.length_cons] at this
    omega
  · by_contra hc
    obtain ⟨s1, hs1⟩ := hone (by omega)
    rw [hs1] at hs2
    injection hs2 with hs2
    injection hs2 with hs2
    exact absurd hs2 (by decide)

theorem sdiff_two_operands_use_algorithm_one_witness :
    (setsExisting [some [97], some [98]] ≤ 2 →
      (dbMembers workDb [97]).length * setsExisting [some [97], some [98]] / 2
          ≤ setsTotal workDb [some [97], some [98]] ∧
      ∃ sets', sunionDiffChoice workDb SET_OP_DIFF [some [97], some [98]] = some (1, sets')) ∧
    ([some [98]].length ≤ 1 →
      ∃ sets', sunionDiffChoice workDb SET_OP_DIFF [some [97], some [98]] = some (1, sets')) ∧
    (∀ sets', sunionDiffChoice workDb SET_OP_DIFF [some [97], some [98]] = some (2, sets') →
      3 ≤ setsExisting [some [97], some [98]]) :=
  sdiff_two_operands_use_algorithm_one workDb [97] [some [98]]
    (fun k hk => workDb_valid k (by
      simp only [List.mem_cons, List.mem_singleton, List.not_mem_nil, or_false] at hk ⊢
      rcases hk with h | h
      · exact Or.inl h
      · exact Or.inr (Or.inl h)))

/-! ## The count argument of SPOP and SRANDMEMBER -/

theorem spopWithCountCommand_low_bits (server : redisServer) (rnd : Nat → Nat) (c : client)
    (key a b : sds) (l l' : Int) (ha : string2ll a = some l) (hb : string2ll b = some l')
    (hl : 0 ≤ l) (hl' : 0 ≤ l') (h : l.toNat % 2 ^ 32 = l'.toNat % 2 ^ 32) :
    spopWithCountCommand server rnd c key a = spopWithCountCommand server rnd c key b := by
  simp only [spopWithCountCommand, getLongFromObjectOrReply, ha, hb, hl, hl', if_true, h]

/-- C39: SPOP of the key "c", which holds the set {1, 2}, with the count
argument 4294967296 = 2^32.  The argument is a valid non-negative long with
l ≥ |S| and l > 0, but the count used is (unsigned) l = 0: the reply is the
empty multi bulk and both members stay in the set, where SPOP with the count 2
sends and deletes the whole set.  With 2^32 + 1 the count used is 1, and
SRANDMEMBER drops the high bits in the same way. -/
theorem spop_count_keeps_low_32_bits :
    string2ll countTwoPow32 = some 4294967296 ∧
    (dbMembers popDb [99]).length = 2 ∧
    replyAndSet (spopWithCountCommand exampleServer exampleDraws ⟨popDb, []⟩ [99] countTwoPow32)
        [99]
      = some ([.emptymultibulk], some (OBJ_ENCODING_INTSET, [[49], [50]])) ∧
    replyAndSet (spopWithCountCommand exampleServer exampleDraws ⟨popDb, []⟩ [99] [50]) [99]
      = some ([.multibulklen 2, .bulk [49], .bulk [50]], none) ∧
    replyAndSet (spopWithCountCommand exampleServer exampleDraws ⟨popDb, []⟩ [99]
        countTwoPow32Succ) [99]
      = some ([.multibulklen 1, .bulk [50]], some (OBJ_ENCODING_INTSET, [[49]])) ∧
    replyAndSet (srandmemberWithCountCommand exampleServer exampleServer.setDictType
        exampleDraws 100 ⟨popDb, []⟩ [99] countTwoPow32) [99]
      = some ([.emptymultibulk], some (OBJ_ENCODING_INTSET, [[49], [50]])) ∧
    ¬ ((4294967296 : Int) ≥ ((dbMembers popDb [99]).length : Int) ∧ (4294967296 : Int) > 0 →
        (spopWithCountCommand exampleServer exampleDraws ⟨popDb, []⟩ [99] countTwoPow32).map
          (fun c => (c.db [99]).isNone) = some true) := by
  refine ⟨by decide, by decide, by decide, by decide, by decide, by decide, ?_⟩
  intro h
  exact absurd (h ⟨by decide, by decide⟩) (by decide)

/-! ## The assertions on `dictAdd` during the promotion of a set -/

theorem setConvert_prefix_ok (server : redisServer) (is pre post : List Int) (n : Int)
    (hs : is.Pairwise (· < ·)) (hr : ∀ v ∈ is, LLONG_MIN ≤ v ∧ v ≤ LLONG_MAX)
    (he : is = pre ++ n :: post) :
    ∃ d, foldOpt (setTypeConvertBody server)
        (pre.map (fun n => (OBJ_ENCODING_INTSET, (none : Option sds), n)))
        (dictExpand (dictCreate server.setDictType) (intsetLen is)).2 = some d ∧
      (dictAdd server.dict_can_resize d (sdsfromlonglong n) none).1 = DICT_OK := by
  have hd0 := dictExpand_reorg (dictCreate server.setDictType) (intsetLen is) (dictCreate_wf _)
  have he0 : dictEntries (dictExpand (dictCreate server.setDictType) (intsetLen is)).2 = [] := by
    have := hd0.perm
    rw [dictEntries_dictCreate] at this
    exact List.Perm.eq_nil this
  have hnd := intset_members_nodup is hs hr
  rw [he, List.map_append, List.map_cons] at hnd
  obtain ⟨d, h1, h2, h3⟩ := setConvert_fold server pre (List.nodup_append.1 hnd).1 _ hd0.wf he0
  refine ⟨d, h1, ((dictAdd_spec server.dict_can_resize d (sdsfromlonglong n) none h2).2 ?_).1⟩
  rw [h3.mem_iff]
  intro hc
  exact (List.nodup_append.1 hnd).2.2 hc (List.mem_cons_self _ _)

theorem not_representable_ne_decimal (value : sds) (h : isSdsRepresentableAsLongLong value = none)
    (v : Int) (h1 : LLONG_MIN ≤ v) (h2 : v ≤ LLONG_MAX) : value ≠ sdsfromlonglong v := by
  intro hc
  rw [hc, isSdsRepresentableAsLongLong, string2ll_sdsfromlonglong v h1 h2] at h
  cases h

/-- C37: for a valid intset encoded set (strictly ascending 64-bit integers),
every dictAdd of the loop of setTypeConvert returns DICT_OK, so the assertion
holds at every element and setTypeConvert returns the hash table encoded set
with the same members; and for a value that isSdsRepresentableAsLongLong
rejects, the dictAdd that follows the conversion in setTypeAdd returns DICT_OK
and setTypeAdd returns 1.  The two reasons hold: the decimal rendering is
injective on the 64-bit integers, and a rejected value is the rendering of no
64-bit integer. -/
theorem setType_promotion_dictAdd_ok (server : redisServer) (o : robj) (hv : setValid o)
    (henc : o.encoding = OBJ_ENCODING_INTSET) :
    (∃ is, o.ptr = .intset is ∧
      ∀ pre n post, is = pre ++ n :: post →
        ∃ d, foldOpt (setTypeConvertBody server)
            (pre.map (fun n => (OBJ_ENCODING_INTSET, (none : Option sds), n)))
            (dictExpand (dictCreate server.setDictType) (intsetLen is)).2 = some d ∧
          (dictAdd server.dict_can_resize d (sdsfromlonglong n) none).1 = DICT_OK) ∧
    (∃ o', setTypeConvert server o OBJ_ENCODING_HT = some o' ∧
      o'.encoding = OBJ_ENCODING_HT ∧ (setMembers o').Perm (setMembers o)) ∧
    (∀ value, isSdsRepresentableAsLongLong value = none →
      (∃ o1 d, setTypeConvert server o OBJ_ENCODING_HT = some o1 ∧ o1.ptr = .dict d ∧
        (dictAdd server.dict_can_resize d value none).1 = DICT_OK) ∧
      ∃ o', setTypeAdd server o value = some (1, o') ∧ o'.encoding = OBJ_ENCODING_HT ∧
        (setMembers o').Perm (value :: setMembers o)) ∧
    (∀ a b : Int, LLONG_MIN ≤ a → a ≤ LLONG_MAX → LLONG_MIN ≤ b → b ≤ LLONG_MAX →
      sdsfromlonglong a = sdsfromlonglong b → a = b) ∧
    (∀ (value : sds) (v : Int), isSdsRepresentableAsLongLong value = none →
      LLONG_MIN ≤ v → v ≤ LLONG_MAX → value ≠ sdsfromlonglong v) := by
  obtain ⟨is, hp, hs, hr⟩ := setValid_intset hv henc
  obtain ⟨o1, c1, c2, c3⟩ := setTypeConvert_spec server o hv henc
  refine ⟨⟨is, hp, fun pre n post he => setConvert_prefix_ok server is pre post n hs hr he⟩,
    ⟨o1, c1, c2, c3.perm⟩, fun value hval => ?_,
    fun a b ha1 ha2 hb1 hb2 h => sdsfromlonglong_injective a b ha1 ha2 hb1 hb2 h,
    fun value v h h1 h2 => not_representable_ne_decimal value h v h1 h2⟩
  have hnin : value ∉ setMembers o := by
    have hm : setMembers o = is.map sdsfromlonglong := by simp [setMembers, hp]
    rw [hm, mem_intset_members is hr value]
    rintro ⟨n, hn, _⟩
    rw [isSdsRepresentableAsLongLong, hn] at hval
    cases hval
  constructor
  · obtain ⟨d, hd, hw⟩ := setValid_dict c3.valid c2
    refine ⟨o1, d, c1, hd, ((dictAdd_spec server.dict_can_resize d value none hw).2 ?_).1⟩
    intro hc
    apply hnin
    rw [← c3.perm.mem_iff]
    simpa [setMembers, hd] using hc
  · obtain ⟨o', a1, a2, _, a4⟩ := setTypeAdd_spec server o hv value
    rw [if_neg hnin] at a1
    refine ⟨o', a1, ?_, ?_⟩
    · rw [a4 henc, if_pos (Or.inl (by rwa [isSdsRepresentableAsLongLong] at hval))]
    · have := a2.2
      rwa [if_neg hnin] at this

theorem setType_promotion_dictAdd_ok_witness :
    (∃ is, exampleSet.ptr = .intset is ∧
      ∀ pre n post, is = pre ++ n :: post →
        ∃ d, foldOpt (setTypeConvertBody exampleServer)
            (pre.map (fun n => (OBJ_ENCODING_INTSET, (none : Option sds), n)))
            (dictExpand (dictCreate exampleServer.setDictType) (intsetLen is)).2 = some d ∧
          (dictAdd exampleServer.dict_can_resize d (sdsfromlonglong n) none).1 = DICT_OK) ∧
    (∃ o', setTypeConvert exampleServer exampleSet OBJ_ENCODING_HT = some o' ∧
      o'.encoding = OBJ_ENCODING_HT ∧ (setMembers o').Perm (setMembers exampleSet)) ∧
    (∀ value, isSdsRepresentableAsLongLong value = none →
      (∃ o1 d, setTypeConvert exampleServer exampleSet OBJ_ENCODING_HT = some o1 ∧
        o1.ptr = .dict d ∧ (dictAdd exampleServer.dict_can_resize d value none).1 = DICT_OK) ∧
      ∃ o', setTypeAdd exampleServer exampleSet value = some (1, o') ∧
        o'.encoding = OBJ_ENCODING_HT ∧ (setMembers o').Perm (value :: setMembers exampleSet)) ∧
    (∀ a b : Int, LLONG_MIN ≤ a → a ≤ LLONG_MAX → LLONG_MIN ≤ b → b ≤ LLONG_MAX →
      sdsfromlonglong a = sdsfromlonglong b → a = b) ∧
    (∀ (value : sds) (v : Int), isSdsRepresentableAsLongLong value = none →
      LLONG_MIN ≤ v → v ≤ LLONG_MAX → value ≠ sdsfromlonglong v) :=
  setType_promotion_dictAdd_ok exampleServer exampleSet exampleSet_valid rfl

/-! ## The announced length of SUNION, SDIFF and SINTER -/

theorem sdiffCompute_missing_first (server : redisServer) (algo : Nat)
    (rest : List (Option sds)) (st0 : sunionDiffState) :
    sunionDiffCompute server SET_OP_DIFF algo (none :: rest) st0 = some st0 := by
  simp [sunionDiffCompute, SET_OP_DIFF, SET_OP_UNION]

theorem flatMap_singleton_eq_map {α β : Type} (f : α → β) (l : List α) :
    (l.flatMap fun x => [f x]) = l.map f := by
  induction l with
  | nil => rfl
  | cons x l ih => simp [List.flatMap_cons, ih]

theorem intRange_eq (a : Int) (n : Nat) :
    intRange a n = (List.range n).map (fun i : Nat => a + (i : Int)) := by
  unfold intRange
  simp [List.map_flatMap, Function.comp_def, flatMap_singleton_eq_map]

theorem mem_intRange (a v : Int) (n : Nat) : v ∈ intRange a n ↔ a ≤ v ∧ v < a + n := by
  rw [intRange_eq, List.mem_map]
  constructor
  · rintro ⟨i, hi, rfl⟩
    have := List.mem_range.1 hi
    omega
  · rintro ⟨h1, h2⟩
    refine ⟨(v - a).toNat, List.mem_range.2 (by omega), by omega⟩

theorem intRange_length (a : Int) (n : Nat) : (intRange a n).length = n := by
  rw [intRange_eq, List.length_map, List.length_range]

theorem intRange_pairwise (a : Int) (n : Nat) : (intRange a n).Pairwise (· < ·) := by
  rw [intRange_eq]
  exact (List.pairwise_lt_range n).map _ (fun i j h => by omega)

/-- The set of the integers 0 .. n - 1 exists for n up to 2^63: it is a valid
hash table encoded set of n members, the decimal strings of these integers. -/
theorem rangeSet_spec (n : Nat) (hn : n ≤ 9223372036854775808) :
    ∃ A, rangeSet n = some A ∧ setValid A ∧ A.encoding = OBJ_ENCODING_HT ∧
      (setMembers A).length = n ∧
      ∀ v, v ∈ setMembers A ↔ ∃ i : Int, 0 ≤ i ∧ i < n ∧ v = sdsfromlonglong i := by
  have hmin : LLONG_MIN ≤ 0 := by decide
  have hmax : LLONG_MAX = 9223372036854775807 := by decide
  have hv : setValid ⟨OBJ_SET, OBJ_ENCODING_INTSET, .intset (intRange 0 n)⟩ :=
    intset_obj_valid _ (intRange_pairwise 0 n) (fun v hv => by
      have := (mem_intRange 0 v n).1 hv
      rw [hmax]
      omega)
  obtain ⟨A, h1, h2, h3⟩ := setTypeConvert_spec exampleServer _ hv rfl
  refine ⟨A, by unfold rangeSet; exact h1, h3.valid, h2, ?_, fun v => ?_⟩
  · rw [h3.perm.length_eq]
    show ((intRange 0 n).map sdsfromlonglong).length = n
    rw [List.length_map, intRange_length]
  · rw [h3.perm.mem_iff]
    show v ∈ (intRange 0 n).map sdsfromlonglong ↔ _
    rw [List.mem_map]
    constructor
    · rintro ⟨i, hi, rfl⟩
      have := (mem_intRange 0 i n).1 hi
      exact ⟨i, by omega, by omega, rfl⟩
    · rintro ⟨i, h0, h1, rfl⟩
      exact ⟨i, (mem_intRange 0 i n).2 (by omega), rfl⟩

/-- SUNION of one key: the reply announces the size of the set as an `int`
and sends the members. -/
theorem sunion_reply_single (server : redisServer) (c : client) (key : sds) (A : robj)
    (hk : c.db key = some A) (hA : setValid A) :
    ∃ (st : sunionDiffState) (elems : List sds),
      sunionDiffGenericCommand server c [key] none SET_OP_UNION = sunionDiffOutput c none st ∧
      setTypeSize st.dstset = some (setMembers A).length ∧
      st.cardinality = intWrap (setMembers A).length ∧
      sunionDiffOutput c none st = some ⟨c.db, c.reply ++
        .multibulklen (intWrap (setMembers A).length) :: elems.map .bulk⟩ ∧
      elems.Perm (setMembers A) := by
  have hov : operandsValid c.db [key] := by
    intro k hkm o ho
    rw [List.mem_singleton] at hkm
    rw [hkm, hk] at ho
    injection ho with ho
    exact ho ▸ hA
  obtain ⟨st, h1, h2, h3, h4, h5⟩ := sunionDiffGenericCommand_union server c [key] none hov
  have hp : (setMembers st.dstset).Perm (setMembers A) := by
    rw [List.perm_ext_iff_of_nodup h3.members_nodup hA.members_nodup]
    intro v
    rw [h4 v]
    simp [dbMembers, hk]
  refine ⟨st, setMembers st.dstset, h1, ?_, ?_, ?_, hp⟩
  · rw [setTypeSize_spec _ h3, hp.length_eq]
  · rw [h5, hp.length_eq]
  · rw [sunionDiffOutput_reply c st h3 h5, hp.length_eq, h2]

/-- C35, evaluated: the counter `cardinality` is an `int`.  For operand keys
whose values, where they exist, are valid sets, the states in which the union,
DIFF algorithm 1 and DIFF algorithm 2 end, the state of a DIFF whose operand 0
is missing and the state the SDIFF command outputs all have the counter equal
to setTypeSize(dstset) taken modulo 2^32 as a signed number: equal to the size
below 2^31 members, different from it from 2^31 members on.  SINTER, whose
counter is an `unsigned long`, fills the deferred length with the number of
elements it sent.  At the failing input, a hash table encoded set of 2^31
members, SUNION of the key ends with setTypeSize(dstset) = 2147483648 and the
counter -2147483648, and announces -2147483648 before the 2147483648 elements
it sends: the announced length is not the number of elements replied. -/
theorem sunion_counter_wraps_at_two_pow_31 :
    (∀ (server : redisServer) (c : client) (key0 : sds) (tail : List sds),
      operandsValid c.db (key0 :: tail) →
      (∀ dstkey, ∃ st n, sunionDiffGenericCommand server c (key0 :: tail) dstkey SET_OP_UNION
          = sunionDiffOutput c dstkey st ∧
        setTypeSize st.dstset = some n ∧ st.cardinality = intWrap n) ∧
      (∀ o0, c.db key0 = some o0 →
        (∃ st n, sdiffAlgo1 server key0
            (tail.map (fun k => if (c.db k).isSome then some k else none))
            ⟨c.db, createIntsetObject, 0⟩ = some st ∧
          setTypeSize st.dstset = some n ∧ st.cardinality = intWrap n) ∧
        (∃ st n, sdiffAlgo2 server true
            (some key0 :: tail.map (fun k => if (c.db k).isSome then some k else none))
            ⟨c.db, createIntsetObject, 0⟩ = some st ∧
          setTypeSize st.dstset = some n ∧ st.cardinality = intWrap n)) ∧
      (∀ algo rest, ∃ st n, sunionDiffCompute server SET_OP_DIFF algo (none :: rest)
          ⟨c.db, createIntsetObject, 0⟩ = some st ∧
        setTypeSize st.dstset = some n ∧ st.cardinality = intWrap n) ∧
      (∀ dstkey, ∃ st n, sunionDiffGenericCommand server c (key0 :: tail) dstkey SET_OP_DIFF
          = sunionDiffOutput c dstkey st ∧
        setTypeSize st.dstset = some n ∧ st.cardinality = intWrap n) ∧
      (∃ (elems : List sds) (c' : client),
        sunionDiffGenericCommand server c (key0 :: tail) none SET_OP_UNION = some c' ∧
        c'.reply = c.reply ++ .multibulklen (intWrap elems.length) :: elems.map .bulk) ∧
      (∃ (elems : List sds) (c' : client),
        sunionDiffGenericCommand server c (key0 :: tail) none SET_OP_DIFF = some c' ∧
        c'.reply = c.reply ++ .multibulklen (intWrap elems.length) :: elems.map .bulk) ∧
      (operandsExist c.db (key0 :: tail) →
        ∃ (elems : List sds) (c' : client),
          sinterGenericCommand server c (key0 :: tail) none = some c' ∧
          c'.reply = c.reply ++ .multibulklen elems.length :: elems.map .bulk) ∧
      ((∃ k ∈ key0 :: tail, c.db k = none) →
        sinterGenericCommand server c (key0 :: tail) none
          = some (addReply c .emptymultibulk))) ∧
    (∀ n : Nat, (n < 2147483648 → intWrap n = n) ∧ (2147483648 ≤ n → intWrap n ≠ n)) ∧
    (∃ A, countDb [97] = some A ∧ setValid A ∧ A.encoding = OBJ_ENCODING_HT ∧
      setTypeSize A = some 2147483648) ∧
    (∃ (st : sunionDiffState) (elems : List sds),
      sunionDiffGenericCommand exampleServer ⟨countDb, []⟩ [[97]] none SET_OP_UNION
        = sunionDiffOutput ⟨countDb, []⟩ none st ∧
      setTypeSize st.dstset = some 2147483648 ∧ st.cardinality = -2147483648 ∧
      sunionDiffOutput ⟨countDb, []⟩ none st
        = some ⟨countDb, .multibulklen (-2147483648) :: elems.map .bulk⟩ ∧
      elems.length = 2147483648) ∧
    ¬ ∃ (elems : List sds) (c' : client),
      sunionDiffGenericCommand exampleServer ⟨countDb, []⟩ [[97]] none SET_OP_UNION = some c' ∧
      c'.reply = [] ++ .multibulklen elems.length :: elems.map .bulk := by
  obtain ⟨A, hA1, hA2, hA3, hA4, _⟩ := rangeSet_spec 2147483648 (by omega)
  have hk : (⟨countDb, []⟩ : client).db [97] = some A := by
    show countDb [97] = some A
    unfold countDb
    rw [if_pos rfl]
    exact hA1
  have hw : intWrap ((2147483648 : Nat) : Int) = -2147483648 := by
    unfold intWrap
    omega
  obtain ⟨st, elems, e1, e2, e3, e4, e5⟩ :=
    sunion_reply_single exampleServer ⟨countDb, []⟩ [97] A hk hA2
  rw [hA4] at e2 e3 e4
  rw [hw] at e3 e4
  have hlen : elems.length = 2147483648 := by rw [e5.length_eq, hA4]
  refine ⟨?_, fun n => ⟨intWrap_of_lt n, intWrap_ne_of_ge n⟩,
    ⟨A, hk, hA2, hA3, by rw [setTypeSize_spec A hA2, hA4]⟩,
    ⟨st, elems, e1, e2, e3, e4, hlen⟩, ?_⟩
  · intro server c key0 tail hv
    have hv' : operandsValid c.db tail := fun k hk => hv k (List.mem_cons_of_mem _ hk)
    have hsv := lookup_setsValid c.db tail hv'
    refine ⟨fun dstkey => ?_, fun o0 h0 => ⟨?_, ?_⟩, fun algo rest => ?_, fun dstkey => ?_, ?_,
      ?_, fun he => ?_, fun hm => ?_⟩
    · obtain ⟨st, h1, _, h3, _, h5⟩ :=
        sunionDiffGenericCommand_union server c (key0 :: tail) dstkey hv
      exact ⟨st, _, h1, setTypeSize_spec _ h3, h5⟩
    · have hv0 := hv key0 (List.mem_cons_self _ _) o0 h0
      obtain ⟨st1, a1, _, a3, a4, _⟩ := sdiffAlgo1_spec server
        ((tail.map (fun k => if (c.db k).isSome then some k else none)).filterMap id) c.db key0
        (tail.map (fun k => if (c.db k).isSome then some k else none)) o0
        h0 hv0 (fun k hk _ => List.mem_filterMap.2 ⟨some k, hk, rfl⟩)
        (fun k hk => by
          obtain ⟨a, ha, e⟩ := List.mem_filterMap.1 hk
          simp only [id] at e
          subst e
          exact hsv k ha)
      exact ⟨st1, _, a1, setTypeSize_spec _ a3, a4⟩
    · have hv0 := hv key0 (List.mem_cons_self _ _) o0 h0
      obtain ⟨st2, b1, _, b3, b4, _⟩ := sdiffAlgo2_spec server c.db key0
        (tail.map (fun k => if (c.db k).isSome then some k else none)) o0 h0 hv0 hsv
      exact ⟨st2, _, b1, setTypeSize_spec _ b3, b4⟩
    · exact ⟨_, 0, sdiffCompute_missing_first server algo rest _, rfl, intWrap_zero.symm⟩
    · obtain ⟨st, h1, _, _, h3, h4, _⟩ := sdiffCompute_spec server c key0 tail dstkey hv
      exact ⟨st, _, h1, setTypeSize_spec _ h3, h4⟩
    · obtain ⟨elems, h1, _⟩ := sunion_reply server c (key0 :: tail) hv
      exact ⟨elems, _, h1, rfl⟩
    · obtain ⟨elems, c', h1, h2, _⟩ := sdiff_reply server c key0 tail hv
      exact ⟨elems, c', h1, h2⟩
    · obtain ⟨elems, c', h1, h2, _⟩ := sinter_reply server c (key0 :: tail) (by simp) hv he
      exact ⟨elems, c', h1, h2⟩
    · rw [sinterGenericCommand_missing server c (key0 :: tail) none hv hm]
      rfl
  · rintro ⟨elems', c', g1, g2⟩
    rw [e1, e4] at g1
    injection g1 with g1
    rw [← g1] at g2
    simp only [List.nil_append] at g2
    injection g2 with g2 _
    injection g2 with g2
    omega

/-! ## The two algorithms of the difference and the counter -/

theorem spopRemoveLoop_state (server : redisServer) (rnd : Nat → Nat) (c : client) (S : robj)
    (n : Nat) (hv : setValid S) (hle : n ≤ (setMembers S).length) :
    ∃ c' s', randLoop (spopRemoveBody server) rnd n 0 (c, S) = some (c', s') ∧ setValid s' ∧
      (setMembers s').length = (setMembers S).length - n := by
  obtain ⟨st, h1, h2, h3⟩ := randLoop_inv (spopRemoveBody server) rnd n 0 (c, S)
    (fun k st => setValid st.2 ∧ (setMembers st.2).length + k = (setMembers S).length)
    (fun k st hk hI => by
      obtain ⟨e1, e2⟩ := hI
      obtain ⟨c1, s1⟩ := st
      simp only at e1 e2
      have hne : setMembers s1 ≠ [] := by
        intro hc
        rw [hc] at e2
        simp only [List.length_nil] at e2
        omega
      obtain ⟨v, s', g1, g2, g3, g4⟩ := spopRemoveBody_spec server c1 s1 (rnd (0 + k)) e1 hne
      refine ⟨_, g1, g3, ?_⟩
      have hp := (perm_cons_filter_ne (setMembers s1) e1.members_nodup v g2).length_eq
      have hq := g4.length_eq
      simp only [List.length_cons] at hp
      simp only
      omega)
    ⟨hv, rfl⟩
  obtain ⟨c', s'⟩ := st
  exact ⟨c', s', h1, h2, by simp only at h3; omega⟩

theorem spopKeepLoop_state (server : redisServer) (rnd : Nat → Nat) (S : robj)
    (n : Nat) (hv : setValid S) (hle : n ≤ (setMembers S).length) :
    ∃ s' nw, randLoop (spopKeepBody server) rnd n 0 (S, none) = some (s', nw) ∧ setValid s' ∧
      (setMembers s').length = (setMembers S).length - n ∧ (0 < n → nw.isSome = true) := by
  obtain ⟨st, h1, h2, _, h3, h4⟩ := randLoop_inv (spopKeepBody server) rnd n 0
    (S, none) (fun k st => setValid st.1 ∧
      (∀ n, st.2 = some n → setValid n) ∧
      (((st.2.map setMembers).getD []).length = k ∧ (0 < k → st.2.isSome = true)) ∧
      (((st.2.map setMembers).getD []) ++ setMembers st.1).Perm (setMembers S))
    (fun k st hk hI => by
      obtain ⟨e1, e2, e3, e4⟩ := hI
      obtain ⟨s1, n1⟩ := st
      simp only at e1 e2 e3 e4
      have hne : setMembers s1 ≠ [] := by
        intro hc
        have := e4.length_eq
        rw [hc, List.append_nil] at this
        omega
      have hnd : (((n1.map setMembers).getD []) ++ setMembers s1).Nodup :=
        e4.nodup_iff.2 hv.members_nodup
      obtain ⟨v, s', n', g1, g2, g3, g4, g5, g6⟩ := spopKeepBody_spec server s1 n1 (rnd (0 + k))
        e1 hne (fun n hn => ⟨e2 n hn, fun w hw hc => by
          rw [hn] at hnd
          exact (List.nodup_append.1 hnd).2.2 hc hw⟩)
      refine ⟨_, g1, g3, fun n hn => by injection hn with hn; exact hn ▸ g4,
        ⟨by simp [g6.length_eq, e3.1], fun _ => rfl⟩, ?_⟩
      simp only [Option.map_some', Option.getD_some]
      have hp := perm_cons_filter_ne (setMembers s1) e1.members_nodup v g2
      refine List.Perm.trans ?_ e4
      refine (List.Perm.append g6 g5).trans ?_
      rw [List.cons_append]
      exact List.perm_middle.symm.trans (List.Perm.append_left _ hp.symm))
    ⟨hv, (fun n hn => by cases hn), ⟨rfl, (fun h => absurd h (by omega))⟩, (by simp)⟩
  obtain ⟨s1, n1⟩ := st
  simp only at h2 h3 h4
  refine ⟨s1, n1, h1, h2, ?_, h3.2⟩
  have := h4.length_eq
  rw [List.length_append, h3.1] at this
  omega

/-- C36: SPOP with a count on a valid set S stored at the key, 0 < count < |S|,
for every sequence of draws.  Draw-and-remove loop: before the iteration of
index i < count the loop has reached a set of |S| - i > 0 members, and
setTypeRandomElement on it returns one of its current members.  Build-a-new-set
loop: before the iteration of index i < |S| - count the old set has |S| - i > 0
members, setTypeRandomElement returns one of them and newset is set from the
second iteration on; after the loop newset is not NULL and dbOverwrite finds
the key.  Both branches return. -/
theorem spop_draws_on_nonempty_set (server : redisServer) (rnd : Nat → Nat) (c : client)
    (key : sds) (S : robj) (count : Nat) (hk : c.db key = some S) (hv : setValid S)
    (hpos : 0 < count) (hlt : count < (setMembers S).length) :
    (∀ i, i < count → ∃ (ci : client) (si : robj) (x : Nat × Option sds × Int) (o' : robj),
      randLoop (spopRemoveBody server) rnd i 0 (c, S) = some (ci, si) ∧
      setTypeSize si = some ((setMembers S).length - i) ∧ 0 < (setMembers S).length - i ∧
      setTypeRandomElement si (rnd i) = some (x.1, x.2.1, x.2.2, o') ∧
      setElemBytes x ∈ setMembers si) ∧
    (∀ i, i < (setMembers S).length - count →
      ∃ (si : robj) (newset : Option robj) (x : Nat × Option sds × Int) (o' : robj),
      randLoop (spopKeepBody server) rnd i 0 (S, none) = some (si, newset) ∧
      setTypeSize si = some ((setMembers S).length - i) ∧ 0 < (setMembers S).length - i ∧
      setTypeRandomElement si (rnd i) = some (x.1, x.2.1, x.2.2, o') ∧
      setElemBytes x ∈ setMembers si ∧ (0 < i → newset.isSome = true)) ∧
    (∃ (s' newset : robj),
      randLoop (spopKeepBody server) rnd ((setMembers S).length - count) 0 (S, none)
        = some (s', some newset) ∧
      (dbOverwrite c.db key newset).isSome = true) ∧
    (∃ c', spopCase2 server rnd c key S count = some c') ∧
    (∃ c', spopCase3 server rnd c key S ((setMembers S).length - count) = some c') := by
  refine ⟨fun i hi => ?_, fun i hi => ?_, ?_, ?_, ?_⟩
  · obtain ⟨ci, si, h1, h2, h3⟩ := spopRemoveLoop_state server rnd c S i hv (by omega)
    have hne : setMembers si ≠ [] := by
      intro hc
      rw [hc] at h3
      simp only [List.length_nil] at h3
      omega
    obtain ⟨x, o', g1, _, _, g4, _⟩ := setTypeRandomElement_spec si h2 hne (rnd i)
    exact ⟨ci, si, x, o', h1, by rw [setTypeSize_spec si h2, h3], by omega, g1, g4⟩
  · obtain ⟨si, nw, h1, h2, h3, h4⟩ := spopKeepLoop_state server rnd S i hv (by omega)
    have hne : setMembers si ≠ [] := by
      intro hc
      rw [hc] at h3
      simp only [List.length_nil] at h3
      omega
    obtain ⟨x, o', g1, _, _, g4, _⟩ := setTypeRandomElement_spec si h2 hne (rnd i)
    exact ⟨si, nw, x, o', h1, by rw [setTypeSize_spec si h2, h3], by omega, g1, g4, h4⟩
  · obtain ⟨s', nw, h1, _, _, h4⟩ := spopKeepLoop_state server rnd S
      ((setMembers S).length - count) hv (by omega)
    obtain ⟨newset, hn⟩ := Option.isSome_iff_exists.1 (h4 (by omega))
    subst hn
    exact ⟨s', newset, h1, by simp [dbOverwrite, hk]⟩
  · obtain ⟨elems, s', h1, _⟩ := spopCase2_spec server rnd c key S count hv (by omega)
    exact ⟨_, h1⟩
  · obtain ⟨elems, s', h1, _⟩ := spopCase3_spec server rnd c key S
      ((setMembers S).length - count) (by simp [hk]) hv (by omega) (by omega)
    exact ⟨_, h1⟩

theorem spop_draws_on_nonempty_set_witness :
    popDb [97] = some ⟨OBJ_SET, OBJ_ENCODING_INTSET, .intset [1, 2, 3, 4, 5, 6]⟩ ∧
    ∃ (s' newset : robj),
      randLoop (spopKeepBody exampleServer) exampleDraws
          ((setMembers ⟨OBJ_SET, OBJ_ENCODING_INTSET, .intset [1, 2, 3, 4, 5, 6]⟩).length - 4) 0
          (⟨OBJ_SET, OBJ_ENCODING_INTSET, .intset [1, 2, 3, 4, 5, 6]⟩, none)
        = some (s', some newset) ∧
      (dbOverwrite popDb [97] newset).isSome = true :=
  ⟨rfl, (spop_draws_on_nonempty_set exampleServer exampleDraws ⟨popDb, []⟩ [97]
    ⟨OBJ_SET, OBJ_ENCODING_INTSET, .intset [1, 2, 3, 4, 5, 6]⟩ 4 rfl
    (intset_obj_valid _ (by decide) (by decide)) (by decide) (by decide)).2.2.1⟩

/-! ## HINCRBY -/

theorem llResult_of_range (x : Int) (h1 : LLONG_MIN ≤ x) (h2 : x ≤ LLONG_MAX) :
    llResult x = some x := by
  simp [llResult, h1, h2]

/-- The overflow test of HINCRBY evaluates no subtraction that overflows and
tells whether the sum leaves the range of `long long`. -/
theorem hincrbyOverflow_spec (incr old : Int) (hi1 : LLONG_MIN ≤ incr) (hi2 : incr ≤ LLONG_MAX)
    (ho1 : LLONG_MIN ≤ old) (ho2 : old ≤ LLONG_MAX) :
    hincrbyOverflow incr old
      = some (decide (¬ (LLONG_MIN ≤ old + incr ∧ old + incr ≤ LLONG_MAX))) := by
  unfold hincrbyOverflow llResult
  simp only [LLONG_MIN, LLONG_MAX] at *
  by_cases hneg : incr < 0 ∧ old < 0
  · rw [if_pos hneg]
    have hr : -(2 : Int) ^ 63 ≤ -2 ^ 63 - old ∧ -2 ^ 63 - old ≤ 2 ^ 63 - 1 := by omega
    rw [if_pos hr]
    simp only [Option.map_some']
    by_cases hlt : incr < -2 ^ 63 - old
    · simp only [hlt, decide_True]
      congr 1
      symm
      rw [decide_eq_true_iff]
      omega
    · simp only [hlt, decide_False]
      rw [if_neg (by omega)]
      congr 1
      symm
      rw [decide_eq_false_iff_not]
      omega
  · rw [if_neg hneg]
    simp only
    by_cases hpos : incr > 0 ∧ old > 0
    · rw [if_pos hpos]
      have hr : -(2 : Int) ^ 63 ≤ 2 ^ 63 - 1 - old ∧ 2 ^ 63 - 1 - old ≤ 2 ^ 63 - 1 := by omega
      rw [if_pos hr]
      simp only [Option.map_some']
      congr 1
      by_cases hgt : incr > 2 ^ 63 - 1 - old
      · rw [decide_eq_true hgt]
        symm
        rw [decide_eq_true_iff]
        omega
      · rw [decide_eq_false hgt]
        symm
        rw [decide_eq_false_iff_not]
        omega
    · rw [if_neg hpos]
      congr 1
      symm
      rw [decide_eq_false_iff_not]
      omega

theorem hashTypeGetValue_entry (o : robj) (hv : hashValid o) (field : sds) (r : Int)
    (x : zlentry) (o1 : robj) (h : hashTypeGetValue o field = some (r, some x, o1)) :
    x.valid ∧ (o.encoding = OBJ_ENCODING_ZIPLIST → o1 = o) := by
  have hne : OBJ_ENCODING_HT ≠ OBJ_ENCODING_ZIPLIST := by decide
  rcases hv.encoding with henc | henc
  · obtain ⟨zl, hp, _, hval, _⟩ := hashValid_ziplist hv henc
    simp only [hashTypeGetValue, henc, if_true, hashTypeGetFromZiplist, ne_eq, not_true_eq_false,
      if_false, hp] at h
    split at h
    · cases h
    · rename_i v hget
      injection h with h
      injection h with _ h
      injection h with h1 h2
      injection h1 with h1
      subst h1
      refine ⟨?_, fun _ => h2.symm⟩
      split at hget
      · split at hget
        · cases hget
        · split at hget
          · cases hget
          · rename_i vv hvv
            injection hget with hget
            injection hget with hget
            subst hget
            exact hval _ (List.getElem?_mem hvv)
      · cases hget
    · injection h with h
      injection h with _ h
      injection h with h _
      cases h
  · obtain ⟨s, hs⟩ : ∃ s, x = .str s := by
      rcases hashTypeGetValue_shape o field r (some x) o1 h with ⟨_, y, hy, hstr⟩ | ⟨_, hc⟩
      · injection hy with hy
        subst hy
        exact hstr henc
      · cases hc
    subst hs
    exact ⟨trivial, fun hc => absurd (henc.symm.trans hc) hne⟩

theorem hashTypeGetValue_none_same (o : robj) (field : sds) (r : Int)
    (v : Option zlentry) (o1 : robj) (h : hashTypeGetValue o field = some (r, v, o1))
    (henc : o.encoding = OBJ_ENCODING_ZIPLIST) : o1 = o := by
  simp only [hashTypeGetValue, henc, if_true] at h
  split at h
  · cases h
  · injection h with h
    injection h with _ h
    injection h with _ h
    exact h.symm
  · injection h with h
    injection h with _ h
    injection h with _ h
    exact h.symm

/-- The old value HINCRBY reads: the value of the field as a number, 0 for a
missing field, the error for a value that is no number. -/
theorem hincrbyOldValue_spec (o : robj) (hv : hashValid o) (field : sds) (r : Int)
    (v : Option zlentry) (o1 : robj) (h : hashTypeGetValue o field = some (r, v, o1)) :
    hincrbyOldValue r v = some (match pairsLookup (hashPairs o) field with
      | none => some 0
      | some s => string2ll s) := by
  have hb := hashTypeGetBytes_spec o hv field
  simp only [hashTypeGetBytes, h] at hb
  rcases hashTypeGetValue_shape o field r v o1 h with ⟨hr, x, hx, _⟩ | ⟨hr, hx⟩
  · subst hx
    rw [if_pos hr] at hb
    injection hb with hb
    rw [← hb]
    simp only [Option.map_some']
    have hval := (hashTypeGetValue_entry o hv field r x o1 h).1
    cases x with
    | str s => simp [hincrbyOldValue, hr, zlentry.bytes]
    | int vll =>
      simp only [hincrbyOldValue, hr, if_true, zlentry.bytes]
      rw [string2ll_sdsfromlonglong vll hval.1 hval.2]
  · subst hx
    have hne : ¬ (r = C_OK) := by rw [hr]; decide
    rw [if_neg hne] at hb
    injection hb with hb
    rw [← hb]
    simp [hincrbyOldValue, hne]

theorem hashIsPut.of_same {o o1 o2 : robj} {f v : sds} (h1 : hashSame o o1)
    (h2 : hashIsPut o1 o2 f v) : hashIsPut o o2 f v :=
  ⟨h2.valid, h2.perm.trans ((h1.perm.filter _).cons _)⟩

theorem hincrbyRead_range (o : robj) (field : sds) (old : Int)
    (h : hincrbyRead o field = some old) : LLONG_MIN ≤ old ∧ old ≤ LLONG_MAX := by
  unfold hincrbyRead at h
  split at h
  · injection h with h
    subst h
    decide
  · exact ((string2ll_iff _ _).1 h).2

/-- The part of HINCRBY after the lookup, on a valid hash. -/
theorem hincrbyApply_spec (server : redisServer) (c : client) (key field : sds) (incr : Int)
    (o : robj) (hi1 : LLONG_MIN ≤ incr) (hi2 : incr ≤ LLONG_MAX) (hv : hashValid o) :
    ∃ o1, hashSame o o1 ∧ o1.type = o.type ∧ o1.encoding = o.encoding ∧
      (o.encoding = OBJ_ENCODING_ZIPLIST → o1 = o) ∧
      (hincrbyRead o field = none →
        field ∈ (hashPairs o).map (·.1) ∧
        hincrbyApply server c key field incr o = some (addReply { c with db := dbStore c.db key o1 }
          (.error "hash value is not an integer"))) ∧
      (∀ old, hincrbyRead o field = some old →
        ¬ (LLONG_MIN ≤ old + incr ∧ old + incr ≤ LLONG_MAX) →
        field ∈ (hashPairs o).map (·.1) ∧
        hincrbyApply server c key field incr o = some (addReply { c with db := dbStore c.db key o1 }
          (.error "increment or decrement would overflow"))) ∧
      (∀ old, hincrbyRead o field = some old →
        LLONG_MIN ≤ old + incr ∧ old + incr ≤ LLONG_MAX →
        ∃ o2, hincrbyApply server c key field incr o
            = some (addReply { c with db := dbStore (dbStore c.db key o1) key o2 }
                (.longlong (old + incr))) ∧
          hashIsPut o o2 field (sdsfromlonglong (old + incr)) ∧ o2.type = o.type) := by
  obtain ⟨r, v, o1, h1, h2, h3, h4, _⟩ := hashTypeGetValue_spec o hv field
  have hold := hincrbyOldValue_spec o hv field r v o1 h1
  refine ⟨o1, h2, h4, h3, fun henc => hashTypeGetValue_none_same o field r v o1 h1 henc, ?_, ?_, ?_⟩
  · intro hread
    have hr : hincrbyOldValue r v = some none := by rw [hold]; exact congrArg some hread
    refine ⟨?_, by simp only [hincrbyApply, h1, hr]⟩
    by_contra hc
    unfold hincrbyRead at hread
    rw [(pairsLookup_eq_none _ _).2 hc] at hread
    cases hread
  · intro old hread hout
    have hr : hincrbyOldValue r v = some (some old) := by rw [hold]; exact congrArg some hread
    obtain ⟨ho1, ho2⟩ := hincrbyRead_range o field old hread
    have hov := hincrbyOverflow_spec incr old hi1 hi2 ho1 ho2
    rw [decide_eq_true hout] at hov
    refine ⟨?_, by simp only [hincrbyApply, h1, hr, hov]⟩
    by_contra hc
    unfold hincrbyRead at hread
    rw [(pairsLookup_eq_none _ _).2 hc] at hread
    injection hread with hread
    subst hread
    apply hout
    simp only [zero_add]
    exact ⟨hi1, hi2⟩
  · intro old hread hin
    have hr : hincrbyOldValue r v = some (some old) := by rw [hold]; exact congrArg some hread
    obtain ⟨ho1, ho2⟩ := hincrbyRead_range o field old hread
    have hov := hincrbyOverflow_spec incr old hi1 hi2 ho1 ho2
    rw [decide_eq_false (not_not.2 hin)] at hov
    obtain ⟨o2, g1, g2, g3, _⟩ := hashTypeSet_spec server o1 h2.valid field
      (sdsfromlonglong (old + incr)) HASH_SET_TAKE_VALUE
    refine ⟨o2, ?_, hashIsPut.of_same h2 g2, g3.trans h4⟩
    simp only [hincrbyApply, h1, hr, hov, llResult_of_range _ hin.1 hin.2, g1]

theorem hashTypeLookupWriteOrCreate_hash (c : client) (key : sds) (o : robj)
    (hk : c.db key = some o) (hty : o.type = OBJ_HASH) :
    hashTypeLookupWriteOrCreate c key = some (some o, c) := by
  simp [hashTypeLookupWriteOrCreate, lookupKeyWrite, hk, hty]

theorem hashTypeLookupWriteOrCreate_missing (c : client) (key : sds) (hk : c.db key = none) :
    hashTypeLookupWriteOrCreate c key
      = some (some createHashObject, { c with db := dbStore c.db key createHashObject }) := by
  simp [hashTypeLookupWriteOrCreate, lookupKeyWrite, hk, dbAdd]

theorem hashTypeLookupWriteOrCreate_wrongtype (c : client) (key : sds) (o : robj)
    (hk : c.db key = some o) (hty : o.type ≠ OBJ_HASH) :
    hashTypeLookupWriteOrCreate c key = some (none, addReply c .wrongtypeerr) := by
  simp [hashTypeLookupWriteOrCreate, lookupKeyWrite, hk, hty]

theorem dbStore_same (db : redisDb) (key : sds) (o : robj) : dbStore db key o key = some o := by
  simp [dbStore]

theorem dbStore_other (db : redisDb) (key k : sds) (o : robj) (h : k ≠ key) :
    dbStore db key o k = db k := by
  simp [dbStore, h]

/-- HINCRBY on a key that is missing or holds a valid hash, with an increment
that parses: the object `o` is the hash looked up or created. -/
theorem hincrbyCommand_eq (server : redisServer) (c : client) (key field incrArg : sds)
    (incr : Int) (hparse : string2ll incrArg = some incr)
    (hkey : ∀ o, c.db key = some o → o.type = OBJ_HASH) :
    hincrbyCommand server c key field incrArg
      = hincrbyApply server
          (if (c.db key).isSome then c else { c with db := dbStore c.db key createHashObject })
          key field incr ((c.db key).getD createHashObject) := by
  unfold hincrbyCommand
  simp only [getLongLongFromObjectOrReply, hparse]
  cases hk : c.db key with
  | none => simp [hashTypeLookupWriteOrCreate_missing c key hk]
  | some o => simp [hashTypeLookupWriteOrCreate_hash c key o hk (hkey o hk)]

/-- C32: HINCRBY with an increment that parses, on a key that is missing or
holds a valid hash whose field, when present, holds a 64-bit integer; old is
that integer, 0 when the key or the field is missing.  The command returns;
the overflow test of the code evaluates no overflowing subtraction and is true
exactly when old + incr lies outside [LLONG_MIN, LLONG_MAX], in which case the
reply is the error "increment or decrement would overflow"; otherwise the
reply is the integer old + incr, without wraparound, and the hash at the key
holds the decimal string of old + incr at the field, its other fields being
unchanged. -/
theorem hincrbyCommand_overflow_exact (server : redisServer) (c : client)
    (key field incrArg : sds) (incr old : Int) (hparse : string2ll incrArg = some incr)
    (hkey : ∀ o, c.db key = some o → o.type = OBJ_HASH ∧ hashValid o)
    (hstart : hincrbyStart c.db key field = some old) :
    hincrbyOverflow incr old
      = some (decide (¬ (LLONG_MIN ≤ old + incr ∧ old + incr ≤ LLONG_MAX))) ∧
    llResult (old + incr)
      = (if LLONG_MIN ≤ old + incr ∧ old + incr ≤ LLONG_MAX then some (old + incr) else none) ∧
    ∃ c', hincrbyCommand server c key field incrArg = some c' ∧
      (c'.reply = c.reply ++ [.error "increment or decrement would overflow"] ↔
        ¬ (LLONG_MIN ≤ old + incr ∧ old + incr ≤ LLONG_MAX)) ∧
      (LLONG_MIN ≤ old + incr ∧ old + incr ≤ LLONG_MAX →
        c'.reply = c.reply ++ [.longlong (old + incr)] ∧
        (∀ k, k ≠ key → c'.db k = c.db k) ∧
        ∃ o', c'.db key = some o' ∧ hashValid o' ∧ o'.type = OBJ_HASH ∧
          hashTypeGetBytes o' field = some (some (sdsfromlonglong (old + incr))) ∧
          (hashPairs o').Perm ((field, sdsfromlonglong (old + incr)) ::
            (dbPairs c.db key).filter (fun p => decide (p.1 ≠ field)))) := by
  obtain ⟨hi1, hi2⟩ := ((string2ll_iff _ _).1 hparse).2
  have hcmd := hincrbyCommand_eq server c key field incrArg incr hparse
    (fun o ho => (hkey o ho).1)
  have hvo : hashValid ((c.db key).getD createHashObject) ∧
      ((c.db key).getD createHashObject).type = OBJ_HASH ∧
      hincrbyRead ((c.db key).getD createHashObject) field = some old ∧
      hashPairs ((c.db key).getD createHashObject) = dbPairs c.db key := by
    unfold hincrbyStart at hstart
    unfold dbPairs
    cases hk : c.db key with
    | none =>
      rw [hk] at hstart
      injection hstart with hstart
      subst hstart
      exact ⟨createHashObject_valid, rfl, rfl, rfl⟩
    | some o =>
      rw [hk] at hstart
      exact ⟨(hkey o hk).2, (hkey o hk).1, hstart, rfl⟩
  obtain ⟨hv, hty, hread, hpairs⟩ := hvo
  obtain ⟨ho1, ho2⟩ := hincrbyRead_range _ field old hread
  have hc0 : (if (c.db key).isSome then c
      else { c with db := dbStore c.db key createHashObject }).reply = c.reply ∧
      ∀ k, k ≠ key → (if (c.db key).isSome then c
        else { c with db := dbStore c.db key createHashObject }).db k = c.db k := by
    split
    · exact ⟨rfl, fun _ _ => rfl⟩
    · exact ⟨rfl, fun k hk => dbStore_other _ _ _ _ hk⟩
  generalize (if (c.db key).isSome then c else { c with db := dbStore c.db key createHashObject })
    = c0 at hcmd hc0
  obtain ⟨hc0r, hc0d⟩ := hc0
  obtain ⟨o1, _, _, _, _, _, hover, hok⟩ := hincrbyApply_spec server c0 key field incr
    ((c.db key).getD createHashObject) hi1 hi2 hv
  refine ⟨hincrbyOverflow_spec incr old hi1 hi2 ho1 ho2, by simp [llResult], ?_⟩
  by_cases hin : LLONG_MIN ≤ old + incr ∧ old + incr ≤ LLONG_MAX
  · obtain ⟨o2, g1, g2, g3⟩ := hok old hread hin
    refine ⟨_, hcmd.trans g1, ?_, fun _ => ⟨?_, ?_, o2, ?_, g2.valid, g3.trans hty, g2.get_self, ?_⟩⟩
    · constructor
      · intro hc
        simp only [addReply, hc0r, List.append_cancel_left_eq, List.cons.injEq, and_true] at hc
        cases hc
      · intro hc
        exact absurd hin hc
    · simp [addReply, hc0r]
    · intro k hk
      simp only [addReply, dbStore_other _ _ _ _ hk]
      exact hc0d k hk
    · simp [addReply, dbStore]
    · rw [← hpairs]
      exact g2.perm
  · obtain ⟨_, g1⟩ := hover old hread hin
    refine ⟨_, hcmd.trans g1, ?_, fun hc => absurd hc hin⟩
    constructor
    · intro _
      exact hin
    · intro _
      simp [addReply, hc0r]

theorem hincrbyCommand_overflow_exact_witness :
    string2ll [53] = some 5 ∧ hincrbyStart hashDb [104] [97] = some 12 ∧
    hincrbyOverflow 5 12 = some (decide (¬ (LLONG_MIN ≤ 12 + 5 ∧ 12 + 5 ≤ LLONG_MAX))) :=
  ⟨by decide, by decide,
    (hincrbyCommand_overflow_exact exampleServer ⟨hashDb, []⟩ [104] [97] [53] 5 12 (by decide)
      (fun o ho => by
        have h : o = exampleHash := by
          simp only [hashDb, if_true] at ho
          injection ho with ho
          exact ho.symm
        subst h
        exact ⟨rfl, exampleHash_valid⟩)
      (by decide)).1⟩

/-- C33: HINCRBY on a keyspace whose hash at the key, if any, is valid.  The
command returns with one more reply item.  When that item is an error
(increment not an integer, wrong type, stored value not an integer, or
overflow), every other key holds what it held, a missing key is still
missing, and a value at the key has kept its type, its encoding and its
(field, value) pairs (a ziplist encoded hash and a value of another type are
unchanged; a hash table may have done a rehash step).  The two errors raised
after hashTypeLookupWriteOrCreate occur only when the key held a hash with the
field.  A reply that is no error is an integer.  In the example the field "n"
holds LLONG_MAX: HINCRBY by 1 replies the overflow error and leaves the hash
as it was, HINCRBY of the field "s" replies that the value is no integer, and
HINCRBY of a missing key by "x" creates no key. -/
theorem hincrbyCommand_error_keeps_keyspace (server : redisServer) (c : client)
    (key field incrArg : sds)
    (hkey : ∀ o, c.db key = some o → o.type = OBJ_HASH → hashValid o) :
    (∃ c' r, hincrbyCommand server c key field incrArg = some c' ∧ c'.reply = c.reply ++ [r] ∧
      (r.isError = true →
        (∀ k, k ≠ key → c'.db k = c.db k) ∧
        (c.db key = none → c'.db key = none) ∧
        (∀ o, c.db key = some o →
          ∃ o', c'.db key = some o' ∧ o'.type = o.type ∧ o'.encoding = o.encoding ∧
            (hashPairs o').Perm (hashPairs o) ∧
            (o.type ≠ OBJ_HASH ∨ o.encoding = OBJ_ENCODING_ZIPLIST → o' = o) ∧
            (o.type = OBJ_HASH → hashValid o')) ∧
        (r = .error "hash value is not an integer" ∨
            r = .error "increment or decrement would overflow" →
          ∃ o, c.db key = some o ∧ o.type = OBJ_HASH ∧ field ∈ (hashPairs o).map (·.1))) ∧
      (r.isError = false → ∃ v, r = .longlong v)) ∧
    replyAndHash (hincrbyCommand exampleServer ⟨limitDb, []⟩ [104] [110] [49]) [104]
      = some ([.error "increment or decrement would overflow"],
          some OBJ_ENCODING_ZIPLIST, [([110], sdsfromlonglong LLONG_MAX), ([115], [120])]) ∧
    replyAndHash (hincrbyCommand exampleServer ⟨limitDb, []⟩ [104] [115] [49]) [104]
      = some ([.error "hash value is not an integer"],
          some OBJ_ENCODING_ZIPLIST, [([110], sdsfromlonglong LLONG_MAX), ([115], [120])]) ∧
    replyAndHash (hincrbyCommand exampleServer ⟨limitDb, []⟩ [107] [110] [120]) [107]
      = some ([.notintegererr], none, []) ∧
    replyAndHash (hincrbyCommand exampleServer ⟨limitDb, []⟩ [107] [110] [49]) [107]
      = some ([.longlong 1], some OBJ_ENCODING_ZIPLIST, [([110], [49])]) := by
  refine ⟨?_, by decide, by decide, by decide, by decide⟩
  cases hparse : string2ll incrArg with
  | none =>
    refine ⟨addReply c .notintegererr, .notintegererr, ?_, rfl, fun _ => ⟨fun _ _ => rfl,
      fun h => h, fun o ho => ⟨o, ho, rfl, rfl, List.Perm.refl _, fun _ => rfl, fun hty => hkey o ho hty⟩,
      ?_⟩, fun h => by cases h⟩
    · simp [hincrbyCommand, getLongLongFromObjectOrReply, hparse]
    · rintro (h | h) <;> cases h
  | some incr =>
    obtain ⟨hi1, hi2⟩ := ((string2ll_iff _ _).1 hparse).2
    by_cases hwrong : ∃ o, c.db key = some o ∧ o.type ≠ OBJ_HASH
    · obtain ⟨o, ho, hty⟩ := hwrong
      refine ⟨addReply c .wrongtypeerr, .wrongtypeerr, ?_, rfl, fun _ => ⟨fun _ _ => rfl,
        fun h => h, fun o' ho' => ⟨o', ho', rfl, rfl, List.Perm.refl _, fun _ => rfl,
          fun hty' => hkey o' ho' hty'⟩, ?_⟩, fun h => by cases h⟩
      · simp [hincrbyCommand, getLongLongFromObjectOrReply, hparse,
          hashTypeLookupWriteOrCreate_wrongtype c key o ho hty]
      · rintro (h | h) <;> cases h
    · have hty : ∀ o, c.db key = some o → o.type = OBJ_HASH := by
        intro o ho
        by_contra hc
        exact hwrong ⟨o, ho, hc⟩
      have hcmd := hincrbyCommand_eq server c key field incrArg incr hparse hty
      have hv : hashValid ((c.db key).getD createHashObject) := by
        cases hk : c.db key with
        | none => exact createHashObject_valid
        | some o => exact hkey o hk (hty o hk)
      have hc0 : (if (c.db key).isSome then c
          else { c with db := dbStore c.db key createHashObject }).reply = c.reply ∧
          ∀ k, k ≠ key → (if (c.db key).isSome then c
            else { c with db := dbStore c.db key createHashObject }).db k = c.db k := by
        split
        · exact ⟨rfl, fun _ _ => rfl⟩
        · exact ⟨rfl, fun k hk => dbStore_other _ _ _ _ hk⟩
      generalize (if (c.db key).isSome then c
        else { c with db := dbStore c.db key createHashObject }) = c0 at hcmd hc0
      obtain ⟨hc0r, hc0d⟩ := hc0
      obtain ⟨o1, s1, s2, s3, s4, hnot, hover, hok⟩ := hincrbyApply_spec server c0 key field incr
        ((c.db key).getD createHashObject) hi1 hi2 hv
      have hfield : field ∈ (hashPairs ((c.db key).getD createHashObject)).map (·.1) →
          ∃ o, c.db key = some o ∧ o.type = OBJ_HASH ∧ field ∈ (hashPairs o).map (·.1) := by
        intro hf
        cases hk : c.db key with
        | none =>
          rw [hk] at hf
          simp [createHashObject, hashPairs, zlPairs] at hf
        | some o =>
          rw [hk] at hf
          exact ⟨o, rfl, hty o hk, hf⟩
      have herr : ∀ e : replyItem,
          field ∈ (hashPairs ((c.db key).getD createHashObject)).map (·.1) →
          hincrbyApply server c0 key field incr ((c.db key).getD createHashObject)
            = some (addReply { c0 with db := dbStore c0.db key o1 } e) →
          ∃ c' r, hincrbyCommand server c key field incrArg = some c' ∧
            c'.reply = c.reply ++ [r] ∧ r = e ∧
            (∀ k, k ≠ key → c'.db k = c.db k) ∧
            (c.db key = none → c'.db key = none) ∧
            (∀ o, c.db key = some o →
              ∃ o', c'.db key = some o' ∧ o'.type = o.type ∧ o'.encoding = o.encoding ∧
                (hashPairs o').Perm (hashPairs o) ∧
                (o.type ≠ OBJ_HASH ∨ o.encoding = OBJ_ENCODING_ZIPLIST → o' = o) ∧
                (o.type = OBJ_HASH → hashValid o')) ∧
            ∃ o, c.db key = some o ∧ o.type = OBJ_HASH ∧ field ∈ (hashPairs o).map (·.1) := by
        intro e hf happ
        obtain ⟨o, ho, hoty, hof⟩ := hfield hf
        refine ⟨_, e, hcmd.trans happ, by simp [addReply, hc0r], rfl, ?_, ?_, ?_, o, ho, hoty, hof⟩
        · intro k hk
          simp only [addReply, dbStore_other _ _ _ _ hk]
          exact hc0d k hk
        · intro hn
          rw [hn] at ho
          cases ho
        · intro o' ho'
          rw [ho] at ho'
          injection ho' with ho'
          subst ho'
          rw [ho] at s1 s2 s3 s4
          simp only [Option.getD_some] at s1 s2 s3 s4
          refine ⟨o1, by simp [addReply, dbStore], s2, s3, s1.perm, ?_, fun _ => s1.valid⟩
          rintro (h | h)
          · exact absurd hoty h
          · exact s4 h
      cases hread : hincrbyRead ((c.db key).getD createHashObject) field with
      | none =>
        obtain ⟨hf, happ⟩ := hnot hread
        obtain ⟨c', r, a1, a2, a3, a4, a5, a6, a7⟩ := herr _ hf happ
        exact ⟨c', r, a1, a2, fun _ => ⟨a4, a5, a6, fun _ => a7⟩, fun h => by
          rw [a3] at h
          cases h⟩
      | some old =>
        by_cases hin : LLONG_MIN ≤ old + incr ∧ old + incr ≤ LLONG_MAX
        · obtain ⟨o2, g1, _, _⟩ := hok old hread hin
          exact ⟨_, .longlong (old + incr), hcmd.trans g1, by simp [addReply, hc0r],
            (fun h => by cases h), (fun _ => ⟨_, rfl⟩)⟩
        · obtain ⟨hf, happ⟩ := hover old hread hin
          obtain ⟨c', r, a1, a2, a3, a4, a5, a6, a7⟩ := herr _ hf happ
          exact ⟨c', r, a1, a2, fun _ => ⟨a4, a5, a6, fun _ => a7⟩, fun h => by
            rw [a3] at h
            cases h⟩

theorem limitHash_valid : hashValid limitHash := by
  refine ⟨rfl, by decide, ?_, by decide⟩
  intro e he
  simp only [List.mem_cons, List.mem_singleton, List.not_mem_nil, or_false] at he
  rcases he with rfl | rfl | rfl | rfl
  · trivial
  · exact ⟨by decide, by decide⟩
  · trivial
  · trivial

theorem hincrbyCommand_error_keeps_keyspace_witness :
    ∃ c' r, hincrbyCommand exampleServer ⟨limitDb, []⟩ [104] [110] [49] = some c' ∧
      c'.reply = [] ++ [r] ∧
      (r.isError = true →
        (∀ k, k ≠ [104] → c'.db k = limitDb k) ∧
        (limitDb [104] = none → c'.db [104] = none) ∧
        (∀ o, limitDb [104] = some o →
          ∃ o', c'.db [104] = some o' ∧ o'.type = o.type ∧ o'.encoding = o.encoding ∧
            (hashPairs o').Perm (hashPairs o) ∧
            (o.type ≠ OBJ_HASH ∨ o.encoding = OBJ_ENCODING_ZIPLIST → o' = o) ∧
            (o.type = OBJ_HASH → hashValid o')) ∧
        (r = .error "hash value is not an integer" ∨
            r = .error "increment or decrement would overflow" →
          ∃ o, limitDb [104] = some o ∧ o.type = OBJ_HASH ∧
            [110] ∈ (hashPairs o).map (·.1))) ∧
      (r.isError = false → ∃ v, r = .longlong v) :=
  (hincrbyCommand_error_keeps_keyspace exampleServer ⟨limitDb, []⟩ [104] [110] [49]
    (fun o ho _ => by
      have h : o = limitHash := by
        simp only [limitDb, if_true] at ho
        injection ho with ho
        exact ho.symm
      subst h
      exact limitHash_valid)).1

/-! ## HDEL, SREM, SPOP and SMOVE leave no empty container -/

theorem pairs_filter_not_mem_cons (a : sds) (l : List sds) (m : List (sds × sds)) :
    (m.filter (fun p => decide (p.1 ≠ a))).filter (fun p => decide (p.1 ∉ l))
      = m.filter (fun p => decide (p.1 ∉ a :: l)) := by
  rw [List.filter_filter]
  congr 1
  funext p
  simp only [List.mem_cons, not_or, Bool.decide_and, ne_eq]
  exact Bool.and_comm _ _

theorem members_filter_not_mem_cons (a : sds) (l : List sds) (m : List sds) :
    (m.filter (fun v => decide (v ≠ a))).filter (fun v => decide (v ∉ l))
      = m.filter (fun v => decide (v ∉ a :: l)) := by
  rw [List.filter_filter]
  congr 1
  funext p
  simp only [List.mem_cons, not_or, Bool.decide_and, ne_eq]
  exact Bool.and_comm _ _

theorem hdelLoop_spec (server : redisServer) (fields : List sds) :
    ∀ (o : robj) (deleted : Int), hashValid o → hashPairs o ≠ [] →
      ∃ o' deleted' removed, hdelLoop server fields (o, deleted, false)
          = some (o', deleted', removed) ∧
        hashValid o' ∧ o'.type = o.type ∧
        (hashPairs o').Perm ((hashPairs o).filter (fun p => decide (p.1 ∉ fields))) ∧
        (removed = true ↔ hashPairs o' = []) := by
  induction fields with
  | nil =>
    intro o deleted hv hne
    refine ⟨o, deleted, false, rfl, hv, rfl, ?_, ?_⟩
    · simp
    · simp [hne]
  | cons field fields ih =>
    intro o deleted hv hne
    obtain ⟨o1, h1, h2, h3, _⟩ := hashTypeDelete_spec server o hv field
    have hlen := hashTypeLength_spec o1 h2.valid
    by_cases hin : field ∈ (hashPairs o).map (·.1)
    · rw [if_pos hin] at h1
      by_cases hz : (hashPairs o1).length = 0
      · have hnil : hashPairs o1 = [] := List.length_eq_zero.1 hz
        refine ⟨o1, deleted + 1, true, ?_, h2.valid, h3, ?_, by simp [hnil]⟩
        · simp [hdelLoop, h1, hlen, hz]
        · rw [hnil]
          have hf : (hashPairs o).filter (fun p => decide (p.1 ≠ field)) = [] := by
            have := h2.perm
            rw [hnil] at this
            exact this.symm.eq_nil
          rw [← pairs_filter_not_mem_cons field fields (hashPairs o), hf]
          simp
      · obtain ⟨o', d', rem, g1, g2, g3, g4, g5⟩ := ih o1 (deleted + 1) h2.valid
          (fun hc => hz (by rw [hc]; rfl))
        refine ⟨o', d', rem, ?_, g2, g3.trans h3, ?_, g5⟩
        · simp [hdelLoop, h1, hlen, hz, g1]
        · rw [← pairs_filter_not_mem_cons field fields (hashPairs o)]
          exact g4.trans (h2.perm.filter _)
    · rw [if_neg hin] at h1
      have hsame : (hashPairs o1).Perm (hashPairs o) := by
        have := h2.perm
        rwa [pairs_filter_eq_self _ _ hin] at this
      obtain ⟨o', d', rem, g1, g2, g3, g4, g5⟩ := ih o1 deleted h2.valid
        (fun hc => hne (by rw [hc] at hsame; exact hsame.symm.eq_nil))
      refine ⟨o', d', rem, ?_, g2, g3.trans h3, ?_, g5⟩
      · simp [hdelLoop, h1, g1]
      · rw [← pairs_filter_not_mem_cons field fields (hashPairs o),
          pairs_filter_eq_self _ _ hin]
        exact g4.trans (hsame.filter _)

/-- HDEL on a key holding a valid non-empty hash: the key holds the pairs
whose field is not among the arguments, and is deleted when there is none. -/
theorem hdelCommand_spec (server : redisServer) (c : client) (key : sds) (fields : List sds)
    (o : robj) (hk : c.db key = some o) (hty : o.type = OBJ_HASH) (hv : hashValid o)
    (hne : hashPairs o ≠ []) :
    ∃ c', hdelCommand server c key fields = some c' ∧ (∀ k, k ≠ key → c'.db k = c.db k) ∧
      keyHoldsHash c'.db key ((hashPairs o).filter (fun p => decide (p.1 ∉ fields))) := by
  obtain ⟨o', d', rem, g1, g2, g3, g4, g5⟩ := hdelLoop_spec server fields o 0 hv hne
  refine ⟨addReply ⟨(if rem = true then (dbDelete (dbStore c.db key o') key).2
    else dbStore c.db key o'), c.reply⟩ (.longlong d'), ?_, ?_, ?_, ?_⟩
  · simp only [hdelCommand, lookupKeyWriteOrReply, lookupKeyWrite, hk, checkType, hty,
      ne_eq, not_true_eq_false, if_false, g1]
    rfl
  · intro k hkne
    simp only [addReply]
    split
    · simp [dbDelete, dbStore, hkne]
    · simp [dbStore, hkne]
  · intro hR
    have hnil : hashPairs o' = [] := by
      rw [hR] at g4
      exact g4.eq_nil
    simp only [addReply]
    rw [if_pos (g5.2 hnil)]
    simp [dbDelete]
  · intro hR
    have hnn : ¬ (rem = true) := by
      intro hc
      rw [g5.1 hc] at g4
      exact hR g4.symm.eq_nil
    simp only [addReply]
    rw [if_neg hnn]
    exact ⟨o', by simp [dbStore], g3.trans hty, g2, g4⟩

theorem members_filter_eq_self (l : List sds) (v : sds) (h : v ∉ l) :
    l.filter (fun x => decide (x ≠ v)) = l := by
  apply List.filter_eq_self.2
  intro x hx
  simp only [ne_eq, decide_not, Bool.not_eq_true', decide_eq_false_iff_not]
  intro hc
  exact h (hc ▸ hx)

theorem sremLoop_spec (server : redisServer) (eles : List sds) :
    ∀ (o : robj) (deleted : Int), setValid o → setMembers o ≠ [] →
      ∃ o' deleted' removed, sremLoop server eles (o, deleted, false)
          = some (o', deleted', removed) ∧
        setValid o' ∧
        (setMembers o').Perm ((setMembers o).filter (fun v => decide (v ∉ eles))) ∧
        (removed = true ↔ setMembers o' = []) := by
  induction eles with
  | nil =>
    intro o deleted hv hne
    refine ⟨o, deleted, false, rfl, hv, ?_, ?_⟩
    · simp
    · simp [hne]
  | cons ele eles ih =>
    intro o deleted hv hne
    obtain ⟨o1, h1, h2, h3, _⟩ := setTypeRemove_spec server o hv ele
    have hlen := setTypeSize_spec o1 h2
    by_cases hin : ele ∈ setMembers o
    · rw [if_pos hin] at h1
      by_cases hz : (setMembers o1).length = 0
      · have hnil : setMembers o1 = [] := List.length_eq_zero.1 hz
        refine ⟨o1, deleted + 1, true, ?_, h2, ?_, by simp [hnil]⟩
        · simp [sremLoop, h1, hlen, hz]
        · rw [hnil]
          have hf : (setMembers o).filter (fun v => decide (v ≠ ele)) = [] := by
            have := h3
            rw [hnil] at this
            exact this.symm.eq_nil
          rw [← members_filter_not_mem_cons ele eles (setMembers o), hf]
          simp
      · obtain ⟨o', d', rem, g1, g2, g4, g5⟩ := ih o1 (deleted + 1) h2
          (fun hc => hz (by rw [hc]; rfl))
        refine ⟨o', d', rem, ?_, g2, ?_, g5⟩
        · simp [sremLoop, h1, hlen, hz, g1]
        · rw [← members_filter_not_mem_cons ele eles (setMembers o)]
          exact g4.trans (h3.filter _)
    · rw [if_neg hin] at h1
      have hsame : (setMembers o1).Perm (setMembers o) := by
        have := h3
        rwa [members_filter_eq_self _ _ hin] at this
      obtain ⟨o', d', rem, g1, g2, g4, g5⟩ := ih o1 deleted h2
        (fun hc => hne (by rw [hc] at hsame; exact hsame.symm.eq_nil))
      refine ⟨o', d', rem, ?_, g2, ?_, g5⟩
      · simp [sremLoop, h1, g1]
      · rw [← members_filter_not_mem_cons ele eles (setMembers o),
          members_filter_eq_self _ _ hin]
        exact g4.trans (hsame.filter _)

/-- SREM on a key holding a valid non-empty set: the key holds the members
that are not among the arguments, and is deleted when there is none. -/
theorem sremCommand_spec (server : redisServer) (c : client) (key : sds) (eles : List sds)
    (o : robj) (hk : c.db key = some o) (hv : setValid o) (hne : setMembers o ≠ []) :
    ∃ c', sremCommand server c key eles = some c' ∧ (∀ k, k ≠ key → c'.db k = c.db k) ∧
      keyHoldsSet c'.db key ((setMembers o).filter (fun v => decide (v ∉ eles))) := by
  obtain ⟨o', d', rem, g1, g2, g4, g5⟩ := sremLoop_spec server eles o 0 hv hne
  refine ⟨addReply ⟨(if rem = true then (dbDelete (dbStore c.db key o') key).2
    else dbStore c.db key o'), c.reply⟩ (.longlong d'), ?_, ?_, ?_, ?_⟩
  · simp only [sremCommand, lookupKeyWriteOrReply, lookupKeyWrite, hk, checkType_set c o hv,
      Bool.false_eq_true, if_false, g1]
  · intro k hkne
    simp only [addReply]
    split
    · simp [dbDelete, dbStore, hkne]
    · simp [dbStore, hkne]
  · intro hR
    have hnil : setMembers o' = [] := by
      rw [hR] at g4
      exact g4.eq_nil
    simp only [addReply]
    rw [if_pos (g5.2 hnil)]
    simp [dbDelete]
  · intro hR
    have hnn : ¬ (rem = true) := by
      intro hc
      rw [g5.1 hc] at g4
      exact hR g4.symm.eq_nil
    simp only [addReply]
    rw [if_neg hnn]
    exact ⟨o', by simp [dbStore], g2, g4⟩

theorem spopRemoveBody_eq (server : redisServer) (c : client) (s : robj) (r : Nat) :
    spopRemoveBody server (c, s) r
      = (spopRemoveRandom server s r).map (fun p => (addReply c (.bulk p.1), p.2)) := by
  unfold spopRemoveBody spopRemoveRandom
  cases setTypeRandomElement s r with
  | none => rfl
  | some x =>
    obtain ⟨encoding, sdsele, llele, set⟩ := x
    simp only
    split
    · cases set.ptr <;> rfl
    · cases sdsele with
      | none => rfl
      | some ele =>
        simp only
        cases setTypeRemove server set ele with
        | none => rfl
        | some p => rfl

theorem spopRemoveRandom_spec (server : redisServer) (s : robj) (r : Nat)
    (hv : setValid s) (hne : setMembers s ≠ []) :
    ∃ v s', spopRemoveRandom server s r = some (v, s') ∧ v ∈ setMembers s ∧ setValid s' ∧
      (setMembers s').Perm ((setMembers s).filter (fun x => decide (x ≠ v))) := by
  obtain ⟨v, s', g1, g2, g3, g4⟩ := spopRemoveBody_spec server ⟨fun _ => none, []⟩ s r hv hne
  rw [spopRemoveBody_eq] at g1
  cases hr : spopRemoveRandom server s r with
  | none =>
    rw [hr] at g1
    cases g1
  | some p =>
    rw [hr] at g1
    simp only [Option.map_some', Option.some.injEq, Prod.mk.injEq] at g1
    obtain ⟨q1, q2⟩ := g1
    have hp1 : p.1 = v := by
      simp only [addReply, List.nil_append] at q1
      injection q1 with _ q1
      injection q1 with q1
      injection q1 with q1
    refine ⟨v, s', ?_, g2, g3, g4⟩
    rw [← hp1, ← q2]

/-- SPOP without count on a key holding a valid non-empty set: one member is
sent and removed; the key is deleted when it was the last one. -/
theorem spopCommand_spec (server : redisServer) (rnd : Nat → Nat) (c : client) (key : sds)
    (o : robj) (hk : c.db key = some o) (hv : setValid o) (hne : setMembers o ≠ []) :
    ∃ c' v, spopCommand server rnd c key [] = some c' ∧ v ∈ setMembers o ∧
      c'.reply = c.reply ++ [.bulk v] ∧ (∀ k, k ≠ key → c'.db k = c.db k) ∧
      keyHoldsSet c'.db key ((setMembers o).filter (fun x => decide (x ≠ v))) := by
  obtain ⟨v, s', g1, g2, g3, g4⟩ := spopRemoveRandom_spec server o (rnd 0) hv hne
  refine ⟨addReply ⟨(if (setMembers s').length = 0 then (dbDelete (dbStore c.db key s') key).2
    else dbStore c.db key s'), c.reply⟩ (.bulk v), v, ?_, g2, rfl, ?_, ?_, ?_⟩
  · simp only [spopCommand, lookupKeyWriteOrReply, lookupKeyWrite, hk, checkType_set c o hv,
      Bool.false_eq_true, if_false, g1, setTypeSize_spec s' g3]
  · intro k hkne
    simp only [addReply]
    split
    · simp [dbDelete, dbStore, hkne]
    · simp [dbStore, hkne]
  · intro hR
    have hnil : setMembers s' = [] := by
      rw [hR] at g4
      exact g4.eq_nil
    simp only [addReply]
    rw [if_pos (by rw [hnil]; rfl)]
    simp [dbDelete]
  · intro hR
    have hnn : ¬ ((setMembers s').length = 0) := by
      intro hc
      rw [List.length_eq_zero.1 hc] at g4
      exact hR g4.symm.eq_nil
    simp only [addReply]
    rw [if_neg hnn]
    exact ⟨s', by simp [dbStore], g3, g4⟩

theorem smoveAdd_spec (server : redisServer) (c : client) (src dst ele : sds) (S1 : robj)
    (dstset : Option robj) (hsd : src ≠ dst) (hv1 : setValid S1)
    (hdb : c.db dst = dstset) (hd : ∀ D, dstset = some D → setValid D) :
    ∃ c' D', smoveAdd server c src dst ele S1 dstset = some c' ∧
      c'.db dst = some D' ∧ setValid D' ∧ ele ∈ setMembers D' ∧
      c'.db src = (if (setMembers S1).length = 0 then none else some S1) ∧
      (∀ k, k ≠ src → k ≠ dst → c'.db k = c.db k) := by
  have hds : dst ≠ src := Ne.symm hsd
  have hsrc : (if (setMembers S1).length = 0 then (dbDelete (dbStore c.db src S1) src).2
      else dbStore c.db src S1) src = (if (setMembers S1).length = 0 then none else some S1) := by
    split
    · simp [dbDelete]
    · simp [dbStore]
  have hoth : ∀ k, k ≠ src → (if (setMembers S1).length = 0
      then (dbDelete (dbStore c.db src S1) src).2 else dbStore c.db src S1) k = c.db k := by
    intro k hk
    split
    · simp [dbDelete, dbStore, hk]
    · simp [dbStore, hk]
  have hsz := setTypeSize_spec S1 hv1
  unfold smoveAdd
  rw [hsz]
  simp only
  generalize (if (setMembers S1).length = 0 then (dbDelete (dbStore c.db src S1) src).2
      else dbStore c.db src S1) = db1 at hsrc hoth
  cases dstset with
  | none =>
    obtain ⟨hcv, _⟩ := setTypeCreate_valid server ele
    obtain ⟨D', a1, a2, _⟩ := setTypeAdd_spec server (setTypeCreate server ele) hcv ele
    have hnone : db1 dst = none := by rw [hoth dst hds, hdb]
    refine ⟨addReply ⟨dbStore (dbStore db1 dst (setTypeCreate server ele)) dst D', c.reply⟩
      .cone, D', ?_, ?_, a2.1, (a2.mem_added_iff ele).2 (Or.inl rfl), ?_, ?_⟩
    · simp only [dbAdd, hnone, Option.isSome_none, Bool.false_eq_true, if_false,
        Option.map_some', a1]
    · simp only [addReply, dbStore_same]
    · simp only [addReply, dbStore_other _ _ _ _ hsd]
      exact hsrc
    · intro k hk1 hk2
      simp only [addReply, dbStore_other _ _ _ _ hk2]
      exact hoth k hk1
  | some D =>
    obtain ⟨D', a1, a2, _⟩ := setTypeAdd_spec server D (hd D rfl) ele
    refine ⟨addReply ⟨dbStore db1 dst D', c.reply⟩ .cone, D', ?_, ?_, a2.1,
      (a2.mem_added_iff ele).2 (Or.inl rfl), ?_, ?_⟩
    · simp only [a1]
    · simp only [addReply, dbStore_same]
    · simp only [addReply, dbStore_other _ _ _ _ hsd]
      exact hsrc
    · intro k hk1 hk2
      simp only [addReply, dbStore_other _ _ _ _ hk2]
      exact hoth k hk1

/-- SMOVE between two different keys, the source holding a valid non-empty
set: the source key holds the members other than the element and is deleted
when there is none; when the element was a member the destination holds it. -/
theorem smoveCommand_spec (server : redisServer) (c : client) (src dst ele : sds) (S : robj)
    (hsd : src ≠ dst) (hk : c.db src = some S) (hv : setValid S) (hnS : setMembers S ≠ [])
    (hd : ∀ D, c.db dst = some D → setValid D) :
    ∃ c', smoveCommand server c src dst ele = some c' ∧
      keyHoldsSet c'.db src ((setMembers S).filter (fun x => decide (x ≠ ele))) ∧
      (ele ∈ setMembers S → ∃ D', c'.db dst = some D' ∧ setValid D' ∧ ele ∈ setMembers D') ∧
      (ele ∉ setMembers S → c'.db dst = c.db dst) ∧
      (∀ k, k ≠ src → k ≠ dst → c'.db k = c.db k) := by
  obtain ⟨S1, h1, h2, h3, _⟩ := setTypeRemove_spec server S hv ele
  have hcmd : smoveCommand server c src dst ele
      = smoveMove server c src dst ele S (c.db dst) := by
    simp only [smoveCommand, lookupKeyWrite, hk, checkType_set c S hv, Bool.false_eq_true,
      if_false]
    cases hD : c.db dst with
    | none => rfl
    | some D => simp only [checkType_set c D (hd D hD), Bool.false_eq_true, if_false]
  by_cases hin : ele ∈ setMembers S
  · rw [if_pos hin] at h1
    obtain ⟨c', D', b1, b2, b3, b4, b5, b6⟩ := smoveAdd_spec server c src dst ele S1 (c.db dst)
      hsd h2 rfl hd
    refine ⟨c', ?_, ⟨?_, ?_⟩, fun _ => ⟨D', b2, b3, b4⟩, fun h => absurd hin h, b6⟩
    · rw [hcmd]
      simp only [smoveMove, if_neg hsd, h1]
      exact b1
    · intro hR
      rw [hR] at h3
      rw [b5, if_pos (by rw [h3.eq_nil]; rfl)]
    · intro hR
      have hnz : ¬ ((setMembers S1).length = 0) := by
        intro hc
        rw [List.length_eq_zero.1 hc] at h3
        exact hR h3.symm.eq_nil
      rw [b5, if_neg hnz]
      exact ⟨S1, rfl, h2, h3⟩
  · rw [if_neg hin] at h1
    refine ⟨addReply ⟨dbStore c.db src S1, c.reply⟩ .czero, ?_, ⟨?_, ?_⟩, fun h => absurd h hin,
      fun _ => ?_, fun k hk1 _ => ?_⟩
    · rw [hcmd]
      simp only [smoveMove, if_neg hsd, h1, if_true]
    · intro hR
      rw [members_filter_eq_self _ _ hin] at hR
      exact absurd hR hnS
    · intro _
      exact ⟨S1, by simp [addReply, dbStore], h2, h3⟩
    · simp [addReply, dbStore, Ne.symm hsd]
    · simp [addReply, dbStore, hk1]

/-- SPOP with a count on a key holding a valid non-empty set: the key holds
the members that were not popped, and is deleted when all were. -/
theorem spopWithCountCommand_keeps (server : redisServer) (rnd : Nat → Nat) (c : client)
    (key countArg : sds) (l : Int) (S : robj) (hparse : string2ll countArg = some l)
    (hl : 0 ≤ l) (hk : c.db key = some S) (hv : setValid S) (hne : setMembers S ≠ []) :
    ∃ c' R, spopWithCountCommand server rnd c key countArg = some c' ∧
      keyHoldsSet c'.db key R ∧ R.length = (setMembers S).length - l.toNat % 2 ^ 32 ∧
      ∀ v ∈ R, v ∈ setMembers S := by
  by_cases h0 : l.toNat % 2 ^ 32 = 0
  · refine ⟨addReply c .emptymultibulk, setMembers S, ?_, ⟨fun h => absurd h hne,
      fun _ => ⟨S, hk, hv, List.Perm.refl _⟩⟩, by rw [h0]; rfl, fun v hv => hv⟩
    simp only [spopWithCountCommand, getLongFromObjectOrReply, hparse, hl, if_true,
      lookupKeyReadOrReply, lookupKeyRead, hk, checkType_set c S hv, Bool.false_eq_true, if_false,
      h0]
  · have hpos : 0 < l.toNat % 2 ^ 32 := Nat.pos_of_ne_zero h0
    rw [spopWithCountCommand_eq server rnd c key countArg l S hparse hl hk hv hpos]
    by_cases hge : (setMembers S).length ≤ l.toNat % 2 ^ 32
    · rw [if_pos hge]
      obtain ⟨elems, h1, _⟩ := spopCase1_spec server c key S hk hv
      refine ⟨_, [], h1, ⟨fun _ => by simp [dbDelete], fun h => absurd rfl h⟩, ?_,
        fun v hv => by cases hv⟩
      simp only [List.length_nil]
      omega
    · rw [if_neg hge]
      split
      · obtain ⟨elems, s', h1, h2, h3, h4⟩ := spopCase2_spec server rnd
          (addReply c (.multibulklen (l.toNat % 2 ^ 32 : Nat))) key S (l.toNat % 2 ^ 32) hv
          (by omega)
        have hlen : (setMembers s').length = (setMembers S).length - l.toNat % 2 ^ 32 := by
          have := h4.length_eq
          rw [List.length_append, h2] at this
          omega
        refine ⟨_, setMembers s', h1, ⟨fun h => ?_, fun _ => ⟨s', by simp [addReply, dbStore],
          h3, List.Perm.refl _⟩⟩, hlen, fun v hv => h4.subset (List.mem_append_right _ hv)⟩
        rw [h] at hlen
        simp only [List.length_nil] at hlen
        omega
      · obtain ⟨elems, s', h1, h2, h3, h4⟩ := spopCase3_spec server rnd
          (addReply c (.multibulklen (l.toNat % 2 ^ 32 : Nat))) key S
          ((setMembers S).length - l.toNat % 2 ^ 32) (by simp [addReply, hk]) hv (by omega)
          (by omega)
        refine ⟨_, setMembers s', h1, ⟨fun h => ?_, fun _ => ⟨s', by simp [addReply, dbStore],
          h3, List.Perm.refl _⟩⟩, h2, fun v hv => h4.subset (List.mem_append_right _ hv)⟩
        rw [h] at h2
        simp only [List.length_nil] at h2
        omega

theorem not_empty_of_members (db : redisDb) (key : sds)
    (h : dbMembers db key = [] → db key = none) :
    ∀ o, db key = some o → setMembers o ≠ [] := by
  intro o ho hc
  have := h (by simp [dbMembers, ho, hc])
  rw [ho] at this
  cases this

/-- C34: in a keyspace where the key skey holds a valid non-empty set S and
the key hkey a valid non-empty hash H.  HDEL, SREM, SPOP, SPOP with a count
and SMOVE (source key) return, and afterwards the key holds exactly the
elements that were not removed, as a valid non-empty hash or set, and is
deleted when no element is left.  SINTERSTORE, SUNIONSTORE and SDIFFSTORE on
operands that are valid sets where they exist return, and a value they leave
at the destination key is a non-empty set: an empty result deletes the
destination.  In the examples HDEL of the two fields of a hash, SREM of the
two members of a set remove the key, SPOP and SMOVE of one of two members
leave the other. -/
theorem commands_leave_no_empty_container (server : redisServer) (rnd : Nat → Nat) (c : client)
    (skey hkey : sds) (S H : robj) (hS : c.db skey = some S) (hvS : setValid S)
    (hnS : setMembers S ≠ []) (hH : c.db hkey = some H) (htH : H.type = OBJ_HASH)
    (hvH : hashValid H) (hnH : hashPairs H ≠ []) :
    (∀ fields, ∃ c', hdelCommand server c hkey fields = some c' ∧
      keyHoldsHash c'.db hkey ((hashPairs H).filter (fun p => decide (p.1 ∉ fields)))) ∧
    (∀ eles, ∃ c', sremCommand server c skey eles = some c' ∧
      keyHoldsSet c'.db skey ((setMembers S).filter (fun v => decide (v ∉ eles)))) ∧
    (∃ c' v, spopCommand server rnd c skey [] = some c' ∧ v ∈ setMembers S ∧
      keyHoldsSet c'.db skey ((setMembers S).filter (fun x => decide (x ≠ v)))) ∧
    (∀ countArg l, string2ll countArg = some l → 0 ≤ l →
      ∃ c' R, spopWithCountCommand server rnd c skey countArg = some c' ∧
        spopCommand server rnd c skey [countArg] = some c' ∧
        keyHoldsSet c'.db skey R ∧ R.length = (setMembers S).length - l.toNat % 2 ^ 32 ∧
        ∀ v ∈ R, v ∈ setMembers S) ∧
    (∀ dst ele, skey ≠ dst → (∀ D, c.db dst = some D → setValid D) →
      ∃ c', smoveCommand server c skey dst ele = some c' ∧
        keyHoldsSet c'.db skey ((setMembers S).filter (fun x => decide (x ≠ ele))) ∧
        (ele ∈ setMembers S →
          ∃ D', c'.db dst = some D' ∧ setValid D' ∧ ele ∈ setMembers D')) ∧
    (∀ key0 tail dstkey, operandsValid c.db (key0 :: tail) →
      (∃ c', sinterGenericCommand server c (key0 :: tail) (some dstkey) = some c' ∧
        ((dbMembers c'.db dstkey = [] → c'.db dstkey = none) ∧
          ∀ o, c'.db dstkey = some o → setMembers o ≠ [])) ∧
      (∃ c', sunionDiffGenericCommand server c (key0 :: tail) (some dstkey) SET_OP_UNION
          = some c' ∧
        ((dbMembers c'.db dstkey = [] → c'.db dstkey = none) ∧
          ∀ o, c'.db dstkey = some o → setMembers o ≠ [])) ∧
      (∃ c', sunionDiffGenericCommand server c (key0 :: tail) (some dstkey) SET_OP_DIFF
          = some c' ∧
        ((dbMembers c'.db dstkey = [] → c'.db dstkey = none) ∧
          ∀ o, c'.db dstkey = some o → setMembers o ≠ []))) ∧
    replyAndHash (hdelCommand exampleServer ⟨mixedDb, []⟩ [104] [[97], [98]]) [104]
      = some ([.longlong 2], none, []) ∧
    replyAndSet (sremCommand exampleServer ⟨popDb, []⟩ [99] [[49], [50], [51]]) [99]
      = some ([.longlong 2], none) ∧
    replyAndSet (spopCommand exampleServer exampleDraws ⟨popDb, []⟩ [99] []) [99]
      = some ([.bulk [50]], some (OBJ_ENCODING_INTSET, [[49]])) ∧
    replyAndSet (smoveCommand exampleServer ⟨popDb, []⟩ [99] [120] [49]) [99]
      = some ([.cone], some (OBJ_ENCODING_INTSET, [[50]])) := by
  refine ⟨fun fields => ?_, fun eles => ?_, ?_, fun countArg l hparse hl => ?_,
    fun dst ele hsd hd => ?_, fun key0 tail dstkey hov => ⟨?_, ?_, ?_⟩, by decide, by decide,
    by decide, by decide⟩
  · obtain ⟨c', h1, _, h3⟩ := hdelCommand_spec server c hkey fields H hH htH hvH hnH
    exact ⟨c', h1, h3⟩
  · obtain ⟨c', h1, _, h3⟩ := sremCommand_spec server c skey eles S hS hvS hnS
    exact ⟨c', h1, h3⟩
  · obtain ⟨c', v, h1, h2, _, _, h5⟩ := spopCommand_spec server rnd c skey S hS hvS hnS
    exact ⟨c', v, h1, h2, h5⟩
  · obtain ⟨c', R, h1, h2, h3, h4⟩ :=
      spopWithCountCommand_keeps server rnd c skey countArg l S hparse hl hS hvS hnS
    exact ⟨c', R, h1, h1, h2, h3, h4⟩
  · obtain ⟨c', h1, h2, h3, _⟩ := smoveCommand_spec server c skey dst ele S hsd hS hvS hnS hd
    exact ⟨c', h1, h2, h3⟩
  · by_cases hm : ∃ k ∈ key0 :: tail, c.db k = none
    · refine ⟨_, sinterGenericCommand_missing server c (key0 :: tail) (some dstkey) hov hm, ?_⟩
      have hnone : (sinterMissing c (some dstkey)).db dstkey = none := by
        simp [sinterMissing, addReply, dbDelete]
      exact ⟨fun _ => hnone, fun o ho => by rw [hnone] at ho; cases ho⟩
    · have he : operandsExist c.db (key0 :: tail) := by
        intro k hk
        cases hc : c.db k with
        | none => exact absurd ⟨k, hk, hc⟩ hm
        | some o => rfl
      obtain ⟨c', h1, _, _, _, h5, _⟩ := sinter_store server c (key0 :: tail) dstkey (by simp)
        hov he
      exact ⟨c', h1, h5, not_empty_of_members _ _ h5⟩
  · obtain ⟨c', h1, _, _, _, h5, _⟩ := sunion_store server c (key0 :: tail) dstkey hov
    exact ⟨c', h1, h5.1, not_empty_of_members _ _ h5.1⟩
  · obtain ⟨c', h1, _, _, _, _, h5, _⟩ := sdiff_store server c key0 tail dstkey hov
    exact ⟨c', h1, h5, not_empty_of_members _ _ h5⟩

theorem mixedDb_valid (keys : List sds) (h : [104] ∉ keys) : operandsValid mixedDb keys := by
  intro k hk o ho
  unfold mixedDb at ho
  split at ho
  · injection ho with ho
    subst ho
    exact intset_obj_valid _ (by decide) (by decide)
  · split at ho
    · rename_i h1
      subst h1
      exact absurd hk h
    · split at ho
      · injection ho with ho
        subst ho
        exact intset_obj_valid _ (by decide) (by decide)
      · cases ho

theorem commands_leave_no_empty_container_witness :
    (∃ c', hdelCommand exampleServer ⟨mixedDb, []⟩ [104] [[97], [98]] = some c' ∧
      keyHoldsHash c'.db [104]
        ((hashPairs exampleHash).filter (fun p => decide (p.1 ∉ [[97], [98]])))) ∧
    (∃ c', sremCommand exampleServer ⟨mixedDb, []⟩ [100] [[49]] = some c' ∧
      keyHoldsSet c'.db [100]
        ((setMembers ⟨OBJ_SET, OBJ_ENCODING_INTSET, .intset [1, 2, 3]⟩).filter
          (fun v => decide (v ∉ [[49]])))) ∧
    (∃ c', sunionDiffGenericCommand exampleServer ⟨mixedDb, []⟩ [[115], [100]] (some [120])
        SET_OP_DIFF = some c' ∧
      ((dbMembers c'.db [120] = [] → c'.db [120] = none) ∧
        ∀ o, c'.db [120] = some o → setMembers o ≠ [])) :=
  have h := commands_leave_no_empty_container exampleServer exampleDraws ⟨mixedDb, []⟩
    [100] [104] ⟨OBJ_SET, OBJ_ENCODING_INTSET, .intset [1, 2, 3]⟩ exampleHash rfl
    (intset_obj_valid _ (by decide) (by decide)) (by decide) rfl rfl exampleHash_valid
    (by decide)
  ⟨h.1 [[97], [98]], h.2.1 [[49]],
    (h.2.2.2.2.2.1 [115] [[100]] [120] (mixedDb_valid _ (by decide))).2.2⟩

/-! ## The order of the fields of a ziplist encoded hash -/

theorem pairs_replace_not_mem (m : List (sds × sds)) (field value : sds)
    (h : field ∉ m.map (·.1)) :
    m.map (fun p => if p.1 = field then (field, value) else p) = m := by
  induction m with
  | nil => rfl
  | cons p m ih =>
    simp only [List.map_cons, List.mem_cons, not_or] at h
    rw [List.map_cons, ih h.2, if_neg (fun e => h.1 e.symm)]

theorem pairsSet_found (A B : List (sds × sds)) (field old value : sds)
    (hA : field ∉ A.map (·.1)) (hB : field ∉ B.map (·.1)) :
    pairsSet (A ++ (field, old) :: B) field value = A ++ (field, value) :: B := by
  unfold pairsSet
  rw [if_pos (by simp)]
  rw [List.map_append, List.map_cons, pairs_replace_not_mem A field value hA,
    pairs_replace_not_mem B field value hB, if_pos rfl]

/-- The ziplist branch of `hashTypeSet` replaces the value in place or appends
the pair at the tail. -/
theorem hashZl_set_pairs (o : robj) (zl : ziplist) (hp : o.ptr = .ziplist zl) (hv : hashValid o)
    (field value : sds) :
    ∃ u zl', hashTypeSetZiplist zl field value = some (u, zl') ∧
      hashPairs { o with ptr := .ziplist zl' } = pairsSet (hashPairs o) field value := by
  unfold hashValid at hv
  rw [hp] at hv
  obtain ⟨henc, hlen, hval, hnd⟩ := hv
  unfold hashTypeSetZiplist
  rw [hashZlFind_eq]
  have hfields : (hashPairs o).map (·.1) = (zlPairs zl).map (·.1.bytes) := by
    simp [hashPairs, hp, List.map_map, Function.comp_def]
  rcases hashZl_cases zl field hlen hval with ⟨h1, h2⟩ | ⟨pre, fe, ve, post, e1, e2, e3, e4, e5⟩
  · refine ⟨0, ziplistPush (ziplistPush zl field) value, by rw [h1], ?_⟩
    have hzl' : ziplistPush (ziplistPush zl field) value
        = zl ++ [zlentryOf field, zlentryOf value] := by
      simp [ziplistPush]
    rw [hzl']
    unfold pairsSet
    rw [hfields, if_neg h2]
    simp [hashPairs, hp, zlPairs_append zl _ hlen, zlPairs_two, zlentryOf_bytes]
  · have hpost : field ∉ (zlPairs post).map (·.1.bytes) := by
      rw [e1, zlPairs_append pre _ e2] at hnd
      simp only [zlPairs, List.map_append, List.map_cons] at hnd
      have := (List.nodup_append.1 hnd).2.1
      rw [List.nodup_cons] at this
      rw [← e4]; exact this.1
    have hnext : ziplistNext zl pre.length = some (pre.length + 1) := by
      simp only [ziplistNext]
      rw [if_pos (by rw [e1]; simp only [List.length_append, List.length_cons]; omega)]
    have hzl' : ziplistInsert (ziplistDelete zl (pre.length + 1)) (pre.length + 1) value
        = pre ++ fe :: zlentryOf value :: post := by
      simp only [ziplistInsert, ziplistDelete, e1, eraseIdx_append_length_succ,
        take_append_length_succ, drop_append_length_succ]
      simp
    refine ⟨1, pre ++ fe :: zlentryOf value :: post, ?_, ?_⟩
    · rw [e3]
      simp only [hnext, hzl']
    · have hpairs : hashPairs { o with ptr := .ziplist (pre ++ fe :: zlentryOf value :: post) }
          = (zlPairs pre).map (fun p => (p.1.bytes, p.2.bytes)) ++ (field, value) ::
            (zlPairs post).map (fun p => (p.1.bytes, p.2.bytes)) := by
        simp [hashPairs, zlPairs_append pre _ e2, zlPairs, zlentryOf_bytes, e4]
      have hpairs0 : hashPairs o
          = (zlPairs pre).map (fun p => (p.1.bytes, p.2.bytes)) ++ (field, ve.bytes) ::
            (zlPairs post).map (fun p => (p.1.bytes, p.2.bytes)) := by
        simp [hashPairs, hp, e1, zlPairs_append pre _ e2, zlPairs, e4]
      rw [hpairs, hpairs0]
      exact (pairsSet_found _ _ field ve.bytes value
        (by simpa [List.map_map, Function.comp_def] using e5)
        (by simpa [List.map_map, Function.comp_def] using hpost)).symm

/-- `hashTypeSet` on a ziplist encoded hash that stays ziplist encoded. -/
theorem hashTypeSet_order (server : redisServer) (o : robj) (hv : hashValid o)
    (henc : o.encoding = OBJ_ENCODING_ZIPLIST) (field value : sds) (flags u : Nat) (o' : robj)
    (h : hashTypeSet server o field value flags = some (u, o'))
    (henc' : o'.encoding = OBJ_ENCODING_ZIPLIST) :
    hashPairs o' = pairsSet (hashPairs o) field value := by
  have hne : OBJ_ENCODING_HT ≠ OBJ_ENCODING_ZIPLIST := by decide
  obtain ⟨zl, hp, _⟩ := hashValid_ziplist hv henc
  obtain ⟨u0, zl', hz, hpairs⟩ := hashZl_set_pairs o zl hp hv field value
  simp only [hashTypeSet, henc, if_true, hp, hz] at h
  split at h
  · cases h
  · split at h
    · rename_i hconv
      simp only [hashTypeConvert, if_true, hashTypeConvertZiplist, henc, ne_eq,
        not_true_eq_false, if_false, hne, Option.map_eq_some'] at h
      obtain ⟨o2, h2, h3⟩ := h
      injection h3 with _ h3
      subst h3
      split at h2
      · split at h2
        · cases h2
        · injection h2 with h2
          subst h2
          exact absurd henc' hne
      · cases h2
    · injection h with h
      injection h with _ h
      subst h
      exact hpairs

/-- `hashTypeDelete` on a ziplist encoded hash removes the pair and leaves the
others in place. -/
theorem hashTypeDelete_order (server : redisServer) (o : robj) (hv : hashValid o)
    (henc : o.encoding = OBJ_ENCODING_ZIPLIST) (field : sds) (r : Nat) (o' : robj)
    (h : hashTypeDelete server o field = some (r, o')) :
    hashPairs o' = pairsDelete (hashPairs o) field ∧ o'.encoding = OBJ_ENCODING_ZIPLIST := by
  obtain ⟨zl, hp, hlen, hval, hnd⟩ := hashValid_ziplist hv henc
  have hfields : (hashPairs o).map (·.1) = (zlPairs zl).map (·.1.bytes) := by
    simp [hashPairs, hp, List.map_map, Function.comp_def]
  simp only [hashTypeDelete, henc, if_true, hp, hashZlFind_eq] at h
  unfold pairsDelete
  rcases hashZl_cases zl field hlen hval with ⟨h1, h2⟩ | ⟨pre, fe, ve, post, e1, e2, e3, e4, e5⟩
  · rw [h1] at h
    injection h with h
    injection h with _ h
    subst h
    exact ⟨(pairs_filter_eq_self _ _ (by rw [hfields]; exact h2)).symm, henc⟩
  · have hpost : field ∉ (zlPairs post).map (·.1.bytes) := by
      rw [e1, zlPairs_append pre _ e2] at hnd
      simp only [zlPairs, List.map_append, List.map_cons] at hnd
      have := (List.nodup_append.1 hnd).2.1
      rw [List.nodup_cons] at this
      rw [← e4]; exact this.1
    have hzl' : ziplistDelete (ziplistDelete zl pre.length) pre.length = pre ++ post := by
      simp only [ziplistDelete, e1, eraseIdx_append_length]
    rw [e3] at h
    simp only [hzl'] at h
    injection h with h
    injection h with _ h
    subst h
    refine ⟨?_, rfl⟩
    have hpairs0 : hashPairs o
        = (zlPairs pre).map (fun p => (p.1.bytes, p.2.bytes)) ++ (field, ve.bytes) ::
          (zlPairs post).map (fun p => (p.1.bytes, p.2.bytes)) := by
      simp [hashPairs, hp, e1, zlPairs_append pre _ e2, zlPairs, e4]
    rw [hpairs0, List.filter_append, List.filter_cons_of_neg (by simp),
      pairs_filter_eq_self _ _ (by simpa [List.map_map, Function.comp_def] using e5),
      pairs_filter_eq_self _ _ (by simpa [List.map_map, Function.comp_def] using hpost)]
    simp [hashPairs, zlPairs_append pre _ e2]

theorem hashTypeRun_ht (server : redisServer) (calls : List hashCall) :
    ∀ (o o' : robj), hashValid o → o.encoding = OBJ_ENCODING_HT →
      hashTypeRun server o calls = some o' → o'.encoding = OBJ_ENCODING_HT := by
  induction calls with
  | nil =>
    intro o o' _ henc h
    injection h with h
    exact h ▸ henc
  | cons call calls ih =>
    intro o o' hv henc h
    cases call with
    | set field value flags =>
      obtain ⟨o1, h1, h2, _, h4, _⟩ := hashTypeSet_spec server o hv field value flags
      simp only [hashTypeRun, h1] at h
      exact ih o1 o' h2.valid (h4 henc) h
    | delete field =>
      obtain ⟨o1, h1, h2, _, h4⟩ := hashTypeDelete_spec server o hv field
      simp only [hashTypeRun, h1] at h
      exact ih o1 o' h2.valid (h4.trans henc) h

/-- A run that ends ziplist encoded builds its pairs in insertion order. -/
theorem hashTypeRun_order (server : redisServer) (calls : List hashCall) :
    ∀ (o o' : robj), hashValid o → o.encoding = OBJ_ENCODING_ZIPLIST →
      hashTypeRun server o calls = some o' → o'.encoding = OBJ_ENCODING_ZIPLIST →
      hashValid o' ∧ hashPairs o' = hashOrderRun (hashPairs o) calls := by
  have hne : OBJ_ENCODING_HT ≠ OBJ_ENCODING_ZIPLIST := by decide
  induction calls with
  | nil =>
    intro o o' hv _ h _
    injection h with h
    subst h
    exact ⟨hv, rfl⟩
  | cons call calls ih =>
    intro o o' hv henc h henc'
    cases call with
    | set field value flags =>
      obtain ⟨o1, h1, h2, _, _, _⟩ := hashTypeSet_spec server o hv field value flags
      simp only [hashTypeRun, h1] at h
      rcases h2.valid.encoding with he1 | he1
      · obtain ⟨g1, g2⟩ := ih o1 o' h2.valid he1 h henc'
        refine ⟨g1, ?_⟩
        rw [g2, hashTypeSet_order server o hv henc field value flags _ o1 h1 he1]
        rfl
      · exact absurd ((hashTypeRun_ht server calls o1 o' h2.valid he1 h).symm.trans henc') hne
    | delete field =>
      obtain ⟨o1, h1, h2, _, _⟩ := hashTypeDelete_spec server o hv field
      simp only [hashTypeRun, h1] at h
      obtain ⟨d1, d2⟩ := hashTypeDelete_order server o hv henc field _ o1 h1
      obtain ⟨g1, g2⟩ := ih o1 o' h2.valid d2 h henc'
      refine ⟨g1, ?_⟩
      rw [g2, d1]
      rfl

theorem hashTypeVisit_yields (hi : hashTypeIterator) (his : List hashTypeIterator)
    (h : Yields hashTypeNextStep hi his) :
    ∀ fuel, his.length < fuel →
      hashTypeVisit fuel hi = some (his.map (fun h =>
        (hashTypeCurrentObjectNewSds h OBJ_HASH_KEY,
          hashTypeCurrentObjectNewSds h OBJ_HASH_VALUE))) := by
  induction h with
  | done it it' hn =>
    intro fuel hf
    cases fuel with
    | zero => simp at hf
    | succ fuel =>
      unfold hashTypeNextStep at hn
      cases hx : hashTypeNext it with
      | none => rw [hx] at hn; cases hn
      | some p =>
        obtain ⟨r, hi2⟩ := p
        rw [hx] at hn
        simp only at hn
        split at hn
        · rename_i hr
          simp [hashTypeVisit, hx, hr]
        · cases hn
  | step it it' x xs hn _ ih =>
    intro fuel hf
    cases fuel with
    | zero => simp at hf
    | succ fuel =>
      unfold hashTypeNextStep at hn
      cases hx : hashTypeNext it with
      | none => rw [hx] at hn; cases hn
      | some p =>
        obtain ⟨r, hi2⟩ := p
        rw [hx] at hn
        simp only at hn
        split at hn
        · cases hn
        · rename_i hr
          injection hn with hn
          injection hn with hn1 hn2
          injection hn1 with hn1
          subst hn1
          subst hn2
          simp only [List.length_cons] at hf
          simp only [hashTypeVisit, hx, hr, if_false, ih fuel (by omega), Option.map_some',
            List.map_cons]

/-- The iteration with `hashTypeNext` visits the pairs of a valid hash in the
order of `hashPairs`, the order of the entries for a ziplist. -/
theorem hashTypeVisitAll_eq (o : robj) (hv : hashValid o) :
    hashTypeVisitAll o = some ((hashPairs o).map (fun p => (some p.1, some p.2))) := by
  obtain ⟨hi0, his, h1, h2, h3, h4, _⟩ := hashType_iteration 0 o hv ⟨fun _ => none, []⟩ 0
  unfold hashTypeVisitAll
  rw [h1, hashTypeLength_spec o hv]
  simp only
  rw [hashTypeVisit_yields hi0 his h2 _ (by omega), h4]

theorem pairsSet_fields (m : List (sds × sds)) (field value : sds)
    (h : field ∈ m.map (·.1)) : (pairsSet m field value).map (·.1) = m.map (·.1) := by
  unfold pairsSet
  rw [if_pos h, List.map_map]
  apply List.map_congr_left
  intro p _
  simp only [Function.comp]
  split
  · rename_i e
    exact e.symm
  · rfl

/-- C31: for a valid ziplist encoded hash.  hashTypeNext visits the
(field, value) pairs in the order of the ziplist.  A hashTypeSet that leaves
the hash ziplist encoded appends the pair of a new field at the tail and, for
an existing field, replaces the value where it stands, the order of the fields
being unchanged; hashTypeDelete removes the pair and leaves the others in
their order.  Hence after any sequence of calls that ends ziplist encoded,
hashTypeNext visits the fields in the order in which they were inserted.  In
the example "a", "b", "c" are set, "a" is set again, "b" is deleted and set
again: the fields are visited in the order "a", "c", "b". -/
theorem ziplist_hash_insertion_order (server : redisServer) (o : robj) (hv : hashValid o)
    (henc : o.encoding = OBJ_ENCODING_ZIPLIST) :
    hashTypeVisitAll o = some ((hashPairs o).map (fun p => (some p.1, some p.2))) ∧
    (∀ field value flags u o', hashTypeSet server o field value flags = some (u, o') →
      o'.encoding = OBJ_ENCODING_ZIPLIST →
      hashPairs o' = pairsSet (hashPairs o) field value ∧
      (field ∉ (hashPairs o).map (·.1) → hashPairs o' = hashPairs o ++ [(field, value)]) ∧
      (field ∈ (hashPairs o).map (·.1) →
        (hashPairs o').map (·.1) = (hashPairs o).map (·.1) ∧
        hashPairs o' = (hashPairs o).map (fun p => if p.1 = field then (field, value) else p)) ∧
      hashTypeVisitAll o'
        = some ((pairsSet (hashPairs o) field value).map (fun p => (some p.1, some p.2)))) ∧
    (∀ field r o', hashTypeDelete server o field = some (r, o') →
      o'.encoding = OBJ_ENCODING_ZIPLIST ∧
      hashPairs o' = (hashPairs o).filter (fun p => decide (p.1 ≠ field)) ∧
      hashTypeVisitAll o'
        = some (((hashPairs o).filter (fun p => decide (p.1 ≠ field))).map
            (fun p => (some p.1, some p.2)))) ∧
    (∀ calls o', hashTypeRun server o calls = some o' → o'.encoding = OBJ_ENCODING_ZIPLIST →
      hashPairs o' = hashOrderRun (hashPairs o) calls ∧
      hashTypeVisitAll o'
        = some ((hashOrderRun (hashPairs o) calls).map (fun p => (some p.1, some p.2)))) ∧
    (hashTypeRun exampleServer createHashObject orderCalls).bind hashTypeVisitAll
      = some [(some [97], some [57]), (some [99], some [51]), (some [98], some [55])] := by
  refine ⟨hashTypeVisitAll_eq o hv, fun field value flags u o' h henc' => ?_,
    fun field r o' h => ?_, fun calls o' h henc' => ?_, by decide⟩
  · have ho := hashTypeSet_order server o hv henc field value flags u o' h henc'
    obtain ⟨o1, h1, h2, _⟩ := hashTypeSet_spec server o hv field value flags
    rw [h1] at h
    injection h with h
    injection h with _ h
    subst h
    refine ⟨ho, fun hn => ?_, fun hin => ⟨?_, ?_⟩, ?_⟩
    · rw [ho, pairsSet, if_neg hn]
    · rw [ho, pairsSet_fields _ _ _ hin]
    · rw [ho, pairsSet, if_pos hin]
    · rw [hashTypeVisitAll_eq _ h2.valid, ho]
  · obtain ⟨d1, d2⟩ := hashTypeDelete_order server o hv henc field r o' h
    obtain ⟨o1, h1, h2, _⟩ := hashTypeDelete_spec server o hv field
    rw [h1] at h
    injection h with h
    injection h with _ h
    subst h
    refine ⟨d2, d1, ?_⟩
    rw [hashTypeVisitAll_eq _ h2.valid, d1]
    rfl
  · obtain ⟨g1, g2⟩ := hashTypeRun_order server calls o o' hv henc h henc'
    exact ⟨g2, by rw [hashTypeVisitAll_eq _ g1, g2]⟩

theorem ziplist_hash_insertion_order_witness :
    hashTypeVisitAll exampleHash
      = some ((hashPairs exampleHash).map (fun p => (some p.1, some p.2))) ∧
    ∀ calls o', hashTypeRun exampleServer exampleHash calls = some o' →
      o'.encoding = OBJ_ENCODING_ZIPLIST →
      hashPairs o' = hashOrderRun (hashPairs exampleHash) calls ∧
      hashTypeVisitAll o'
        = some ((hashOrderRun (hashPairs exampleHash) calls).map
            (fun p => (some p.1, some p.2))) :=
  ⟨(ziplist_hash_insertion_order exampleServer exampleHash exampleHash_valid rfl).1,
    (ziplist_hash_insertion_order exampleServer exampleHash exampleHash_valid rfl).2.2.2.1⟩

/-! ## `tests/sdstrim.c`: the length kept in the header -/

theorem sds_type5_flags (n : Nat) (h : n < 32) :
    (SDS_TYPE_5 ||| (n <<< SDS_TYPE_BITS) % 2 ^ 64) % 256 = 8 * n ∧
    (8 * n) &&& SDS_TYPE_MASK = SDS_TYPE_5 ∧ SDS_TYPE_5_LEN (8 * n) = n := by
  interval_cases n <;> decide

theorem sdsInitBytes_eq (init : Option (List Nat)) (n : Nat)
    (hinit : ∀ l, init = some l → l.length = n) :
    sdsInitBytes init n = some (init.getD (List.replicate n 0)) := by
  cases init with
  | none => rfl
  | some l =>
    have h := hinit l rfl
    subst h
    simp [sdsInitBytes]

theorem sdsnewlen_type (n : Nat) :
    (if sdsReqType n = SDS_TYPE_5 ∧ n = 0 then SDS_TYPE_8 else sdsReqType n) = sdsTypeFor n := by
  by_cases h0 : n = 0
  · subst h0
    rfl
  · have hne : ¬ (sdsReqType n = SDS_TYPE_5 ∧ n = 0) := fun h => h0 h.2
    rw [if_neg hne]
    unfold sdsReqType sdsTypeFor
    by_cases h1 : n < 32
    · have h5 : 0 < n ∧ n < 32 := ⟨by omega, h1⟩
      simp only [h1, h5, if_true, and_self]
    · simp only [h1, if_false, and_false]

theorem sdsTypeFor_cases (n : Nat) :
    (sdsTypeFor n = SDS_TYPE_5 ∧ 0 < n ∧ n < 32) ∨
    (sdsTypeFor n = SDS_TYPE_8 ∧ (n = 0 ∨ 32 ≤ n) ∧ n < 255) ∨
    (sdsTypeFor n = SDS_TYPE_16 ∧ 255 ≤ n ∧ n < 65535) ∨
    (sdsTypeFor n = SDS_TYPE_32 ∧ 65535 ≤ n ∧ n < 4294967295) ∨
    (sdsTypeFor n = SDS_TYPE_64 ∧ 4294967295 ≤ n) := by
  unfold sdsTypeFor
  by_cases h5 : 0 < n ∧ n < 32
  · exact Or.inl ⟨by rw [if_pos h5], h5⟩
  · rw [if_neg h5]
    by_cases h8 : n < 255
    · exact Or.inr (Or.inl ⟨by rw [if_pos h8], by omega, h8⟩)
    · rw [if_neg h8]
      by_cases h16 : n < 65535
      · exact Or.inr (Or.inr (Or.inl ⟨by rw [if_pos h16], by omega, h16⟩))
      · rw [if_neg h16]
        by_cases h32 : n < 4294967295
        · exact Or.inr (Or.inr (Or.inr (Or.inl ⟨by rw [if_pos h32], by omega, h32⟩)))
        · exact Or.inr (Or.inr (Or.inr (Or.inr ⟨by rw [if_neg h32], by omega⟩)))

/-- `sdsnewlen` returns NULL exactly when `s_malloc` does, whatever the
length. -/
theorem sdsnewlen_null (s_malloc : Nat → Bool) (init : Option (List Nat)) (n : Nat)
    (hm : s_malloc ((sdsHdrSize (sdsTypeFor n) + n + 1) % 2 ^ 64) = false) :
    sdsnewlen s_malloc init n = some none := by
  unfold sdsnewlen
  rw [sdsnewlen_type]
  unfold sdsnewlenWith
  simp only [hm, if_true]

/-- `sdsnewlen` for a length whose block size does not wrap around, when the
allocation succeeds: the flags byte, the header fields and the buffer. -/
theorem sdsnewlen_eq (s_malloc : Nat → Bool) (init : Option (List Nat)) (n : Nat)
    (hinit : ∀ l, init = some l → l.length = n) (hsz : n + 18 < 2 ^ 64)
    (hm : s_malloc (sdsHdrSize (sdsTypeFor n) + n + 1) = true) :
    sdsnewlen s_malloc init n = some (some
      (if sdsTypeFor n = SDS_TYPE_5 then ⟨8 * n, 0, 0, init.getD (List.replicate n 0) ++ [0]⟩
       else ⟨sdsTypeFor n, n, n, init.getD (List.replicate n 0) ++ [0]⟩)) ∧
    n < 2 ^ sdsFieldBits (sdsTypeFor n) := by
  have hc := sdsInitBytes_eq init n hinit
  have hh17 : sdsHdrSize (sdsTypeFor n) ≤ 17 := by
    rcases sdsTypeFor_cases n with h | h | h | h | h <;> rw [h.1] <;> decide
  have hmod : (sdsHdrSize (sdsTypeFor n) + n + 1) % 2 ^ 64
      = sdsHdrSize (sdsTypeFor n) + n + 1 := Nat.mod_eq_of_lt (by omega)
  have hbits : n < 2 ^ sdsFieldBits (sdsTypeFor n) := by
    rcases sdsTypeFor_cases n with h | h | h | h | h <;> rw [h.1]
    · simp only [sdsFieldBits, show ¬ (SDS_TYPE_5 = SDS_TYPE_8) by decide,
        show ¬ (SDS_TYPE_5 = SDS_TYPE_16) by decide,
        show ¬ (SDS_TYPE_5 = SDS_TYPE_32) by decide, if_false]
      omega
    · simp only [sdsFieldBits, if_true]
      omega
    · simp only [sdsFieldBits, show ¬ (SDS_TYPE_16 = SDS_TYPE_8) by decide, if_false, if_true]
      omega
    · simp only [sdsFieldBits, show ¬ (SDS_TYPE_32 = SDS_TYPE_8) by decide,
        show ¬ (SDS_TYPE_32 = SDS_TYPE_16) by decide, if_false, if_true]
      omega
    · simp only [sdsFieldBits, show ¬ (SDS_TYPE_64 = SDS_TYPE_8) by decide,
        show ¬ (SDS_TYPE_64 = SDS_TYPE_16) by decide,
        show ¬ (SDS_TYPE_64 = SDS_TYPE_32) by decide, if_false]
      omega
  refine ⟨?_, hbits⟩
  unfold sdsnewlen
  rw [sdsnewlen_type]
  unfold sdsnewlenWith
  simp only
  rw [hmod, if_neg (by rw [hm]; decide), if_neg (lt_irrefl _), hc]
  simp only
  by_cases h5 : sdsTypeFor n = SDS_TYPE_5
  · rw [if_pos h5, if_pos h5]
    have hlt : n < 32 := by
      rcases sdsTypeFor_cases n with h | h | h | h | h
      · exact h.2.2
      all_goals (rw [h.1] at h5; exact absurd h5 (by decide))
    rw [h5, (sds_type5_flags n hlt).1]
  · rw [if_neg h5, if_neg h5, Nat.mod_eq_of_lt hbits]

theorem sdsTypeFor_iff (n : Nat) :
    (sdsTypeFor n = SDS_TYPE_5 ↔ 0 < n ∧ n < 32) ∧
    (sdsTypeFor n = SDS_TYPE_8 ↔ (n = 0 ∨ 32 ≤ n) ∧ n < 255) ∧
    (sdsTypeFor n = SDS_TYPE_16 ↔ 255 ≤ n ∧ n < 65535) ∧
    (sdsTypeFor n = SDS_TYPE_32 ↔ 65535 ≤ n ∧ n < 4294967295) ∧
    (sdsTypeFor n = SDS_TYPE_64 ↔ 4294967295 ≤ n) := by
  rcases sdsTypeFor_cases n with h | h | h | h | h
  all_goals
    rw [h.1]
    refine ⟨⟨fun e => ?_, fun r => ?_⟩, ⟨fun e => ?_, fun r => ?_⟩, ⟨fun e => ?_, fun r => ?_⟩,
      ⟨fun e => ?_, fun r => ?_⟩, ⟨fun e => ?_, fun r => ?_⟩⟩
    all_goals first
      | rfl
      | exact absurd e (by decide)
      | omega

theorem sdshdr_len_roundtrip (t len alloc : Nat) (buf : List Nat) (m : Nat)
    (ht : t = SDS_TYPE_8 ∨ t = SDS_TYPE_16 ∨ t = SDS_TYPE_32 ∨ t = SDS_TYPE_64)
    (hm : m < 2 ^ sdsFieldBits t) :
    t &&& SDS_TYPE_MASK = t ∧
    (⟨t, len, alloc, buf⟩ : sdshdr).sdslen = len ∧
    ((⟨t, len, alloc, buf⟩ : sdshdr).sdssetlen m).sdslen = m ∧
    ((⟨t, len, alloc, buf⟩ : sdshdr).sdssetlen m).buf = buf := by
  have a1 : (1 &&& 7 : Nat) = 1 := by decide
  have a2 : (2 &&& 7 : Nat) = 2 := by decide
  have a3 : (3 &&& 7 : Nat) = 3 := by decide
  have a4 : (4 &&& 7 : Nat) = 4 := by decide
  rcases ht with rfl | rfl | rfl | rfl
  · have hm' : m % 256 = m := Nat.mod_eq_of_lt hm
    refine ⟨by decide, ?_, ?_, ?_⟩ <;>
      simp [sdshdr.sdslen, sdshdr.sdssetlen, SDS_TYPE_5, SDS_TYPE_8, SDS_TYPE_16, SDS_TYPE_32,
        SDS_TYPE_64, SDS_TYPE_MASK, a1, a2, a3, a4, hm']
  · have hm' : m % 65536 = m := Nat.mod_eq_of_lt hm
    refine ⟨by decide, ?_, ?_, ?_⟩ <;>
      simp [sdshdr.sdslen, sdshdr.sdssetlen, SDS_TYPE_5, SDS_TYPE_8, SDS_TYPE_16, SDS_TYPE_32,
        SDS_TYPE_64, SDS_TYPE_MASK, a1, a2, a3, a4, hm']
  · have hm' : m % 4294967296 = m := Nat.mod_eq_of_lt hm
    refine ⟨by decide, ?_, ?_, ?_⟩ <;>
      simp [sdshdr.sdslen, sdshdr.sdssetlen, SDS_TYPE_5, SDS_TYPE_8, SDS_TYPE_16, SDS_TYPE_32,
        SDS_TYPE_64, SDS_TYPE_MASK, a1, a2, a3, a4, hm']
  · have hm' : m % 18446744073709551616 = m := Nat.mod_eq_of_lt hm
    refine ⟨by decide, ?_, ?_, ?_⟩ <;>
      simp [sdshdr.sdslen, sdshdr.sdssetlen, SDS_TYPE_5, SDS_TYPE_8, SDS_TYPE_16, SDS_TYPE_32,
        SDS_TYPE_64, SDS_TYPE_MASK, a1, a2, a3, a4, hm']

theorem sdshdr_type5_roundtrip (n m : Nat) (buf : List Nat) (hn : n < 32) (hm : m < 32) :
    (⟨8 * n, 0, 0, buf⟩ : sdshdr).sdslen = n ∧
    ((⟨8 * n, 0, 0, buf⟩ : sdshdr).sdssetlen m).sdslen = m ∧
    ((⟨8 * n, 0, 0, buf⟩ : sdshdr).sdssetlen m).buf = buf := by
  obtain ⟨_, a2, a3⟩ := sds_type5_flags n hn
  obtain ⟨b1, b2, b3⟩ := sds_type5_flags m hm
  refine ⟨?_, ?_, ?_⟩
  · simp only [sdshdr.sdslen, a2, if_true, a3]
  · simp only [sdshdr.sdssetlen, a2, if_true, b1, sdshdr.sdslen, b2, b3]
  · simp only [sdshdr.sdssetlen, a2, if_true]

/-- C40, counterexample: `sdsnewlen` of the two bytes "Hi" when `s_malloc`
returns NULL returns NULL, so there is no string whose length could be 2; and
for the length n = 2^64 - 1 with a NULL init the header type is 64, the block
asked for has (17 + n + 1) mod 2^64 = 17 bytes, and the writes of `memset` and
of the final NUL fall outside it: no string of length n is returned. -/
theorem sdsnewlen_without_string :
    sdsnewlen (fun _ => false) (some [72, 105]) 2 = some none ∧
    (¬ ∃ s, sdsnewlen (fun _ => false) (some [72, 105]) 2 = some (some s) ∧ s.sdslen = 2) ∧
    sdsReqType 18446744073709551615 = SDS_TYPE_64 ∧
    (sdsHdrSize SDS_TYPE_64 + 18446744073709551615 + 1) % 2 ^ 64 = 17 ∧
    sdsnewlen (fun _ => true) none 18446744073709551615 = none ∧
    ¬ ∃ s, sdsnewlen (fun _ => true) none 18446744073709551615 = some (some s) ∧
      s.sdslen = 18446744073709551615 := by
  have h1 : sdsnewlen (fun _ => false) (some [72, 105]) 2 = some none := by decide
  have h2 : sdsnewlen (fun _ => true) none 18446744073709551615 = none := by decide
  refine ⟨h1, ?_, by decide, by decide, h2, ?_⟩
  · rintro ⟨s, hs, _⟩
    rw [h1] at hs
    cases hs
  · rintro ⟨s, hs, _⟩
    rw [h2] at hs
    cases hs

/-- C40, amended: for every length n whose block size hdrlen + n + 1 is a
size_t (n + 18 < 2^64), and init either NULL or a buffer of n bytes: when
`s_malloc` returns NULL for the block, sdsnewlen returns NULL; when it returns
a block, sdsnewlen returns a string s with sdslen(s) = n whose buffer holds
the n bytes of init (zero bytes for a NULL init) followed by a NUL.  The
header type is type 5 exactly for 0 < n < 32, the length being packed as
n << 3 in the flags byte, type 8 for the other n < 255, type 16 for the other
n < 65535, type 32 for the other n < 2^32 - 1, else type 64; it is the type
sdsReqType selects, but for n = 0; the length field of the type can represent
n.  After sdssetlen(s, m) with m ≤ n, sdslen(s) = m and the buffer is the
same. -/
theorem sdsnewlen_sdslen_roundtrip (s_malloc : Nat → Bool) (init : Option (List Nat)) (n : Nat)
    (hinit : ∀ l, init = some l → l.length = n) (hsz : n + 18 < 2 ^ 64) :
    (s_malloc (sdsHdrSize (sdsTypeFor n) + n + 1) = false →
      sdsnewlen s_malloc init n = some none) ∧
    (s_malloc (sdsHdrSize (sdsTypeFor n) + n + 1) = true →
      ∃ s, sdsnewlen s_malloc init n = some (some s) ∧ s.sdslen = n ∧
        s.buf = init.getD (List.replicate n 0) ++ [0] ∧
        s.flags &&& SDS_TYPE_MASK = sdsTypeFor n ∧
        sdsTypeFor n = (if n = 0 then SDS_TYPE_8 else sdsReqType n) ∧
        (sdsTypeFor n = SDS_TYPE_5 ↔ 0 < n ∧ n < 32) ∧
        (sdsTypeFor n = SDS_TYPE_8 ↔ (n = 0 ∨ 32 ≤ n) ∧ n < 255) ∧
        (sdsTypeFor n = SDS_TYPE_16 ↔ 255 ≤ n ∧ n < 65535) ∧
        (sdsTypeFor n = SDS_TYPE_32 ↔ 65535 ≤ n ∧ n < 2 ^ 32 - 1) ∧
        (sdsTypeFor n = SDS_TYPE_64 ↔ 2 ^ 32 - 1 ≤ n) ∧
        (sdsTypeFor n = SDS_TYPE_5 → s.flags = n <<< SDS_TYPE_BITS) ∧
        (sdsTypeFor n ≠ SDS_TYPE_5 → s.len = n ∧ n < 2 ^ sdsFieldBits (sdsTypeFor n)) ∧
        ∀ m, m ≤ n → (s.sdssetlen m).sdslen = m ∧ (s.sdssetlen m).buf = s.buf) := by
  have hh17 : sdsHdrSize (sdsTypeFor n) ≤ 17 := by
    rcases sdsTypeFor_cases n with h | h | h | h | h <;> rw [h.1] <;> decide
  have hmod : (sdsHdrSize (sdsTypeFor n) + n + 1) % 2 ^ 64
      = sdsHdrSize (sdsTypeFor n) + n + 1 := Nat.mod_eq_of_lt (by omega)
  refine ⟨fun hm => sdsnewlen_null s_malloc init n (by rw [hmod]; exact hm), fun hm => ?_⟩
  obtain ⟨heq, hbits⟩ := sdsnewlen_eq s_malloc init n hinit hsz hm
  obtain ⟨i5, i8, i16, i32, i64⟩ := sdsTypeFor_iff n
  have htype : sdsTypeFor n = (if n = 0 then SDS_TYPE_8 else sdsReqType n) := by
    rw [← sdsnewlen_type]
    by_cases h0 : n = 0
    · subst h0
      rfl
    · rw [if_neg (fun h => h0 h.2), if_neg h0]
  by_cases h5 : sdsTypeFor n = SDS_TYPE_5
  · rw [if_pos h5] at heq
    obtain ⟨hn0, hn32⟩ := i5.1 h5
    obtain ⟨_, f2, _⟩ := sds_type5_flags n hn32
    refine ⟨_, heq, (sdshdr_type5_roundtrip n n _ hn32 hn32).1, rfl, ?_, htype, i5, i8, i16, i32,
      i64, fun _ => ?_, fun h => absurd h5 h, fun m hm => ?_⟩
    · rw [h5]
      exact f2
    · simp only [SDS_TYPE_BITS, Nat.shiftLeft_eq]
      omega
    · obtain ⟨_, g2, g3⟩ := sdshdr_type5_roundtrip n m
        (init.getD (List.replicate n 0) ++ [0]) hn32 (by omega)
      exact ⟨g2, g3⟩
  · rw [if_neg h5] at heq
    have ht : sdsTypeFor n = SDS_TYPE_8 ∨ sdsTypeFor n = SDS_TYPE_16 ∨
        sdsTypeFor n = SDS_TYPE_32 ∨ sdsTypeFor n = SDS_TYPE_64 := by
      rcases sdsTypeFor_cases n with h | h | h | h | h
      · exact absurd h.1 h5
      · exact Or.inl h.1
      · exact Or.inr (Or.inl h.1)
      · exact Or.inr (Or.inr (Or.inl h.1))
      · exact Or.inr (Or.inr (Or.inr h.1))
    obtain ⟨e1, e2, _, _⟩ := sdshdr_len_roundtrip (sdsTypeFor n) n n
      (init.getD (List.replicate n 0) ++ [0]) n ht hbits
    refine ⟨_, heq, e2, rfl, e1, htype, i5, i8, i16, i32, i64, fun h => absurd h h5,
      fun _ => ⟨rfl, hbits⟩, fun m hm => ?_⟩
    obtain ⟨_, _, g3, g4⟩ := sdshdr_len_roundtrip (sdsTypeFor n) n n
      (init.getD (List.replicate n 0) ++ [0]) m ht (by omega)
    exact ⟨g3, g4⟩

theorem sdsnewlen_sdslen_roundtrip_witness :
    ∃ s, sdsnewlen (fun _ => true) (some [72, 105]) 2 = some (some s) ∧ s.sdslen = 2 ∧
      s.buf = [72, 105] ++ [0] ∧
      ∀ m, m ≤ 2 → (s.sdssetlen m).sdslen = m ∧ (s.sdssetlen m).buf = s.buf := by
  obtain ⟨s, h1, h2, h3, _, _, _, _, _, _, _, _, _, h4⟩ :=
    (sdsnewlen_sdslen_roundtrip (fun _ => true) (some [72, 105]) 2
      (fun l hl => by injection hl with hl; subst hl; rfl) (by decide)).2 rfl
  exact ⟨s, h1, h2, h3, h4⟩

end Redis
